import Mathlib

/-!
# libMaze: maze grid, wall beliefs and floods

A shallow embedding of `maze.h` / `maze.cpp`.  The fixed-size member arrays
(`m_walls`, `mDirection`, `mCost`, 1024 entries each) are functions from the
cell index; `uint8_t` / `uint16_t` stores are explicit reductions modulo
`256` / `65536`.  Member functions become functions on the `Maze` record.
-/

namespace LibMaze

/-! ## Constants (`mazeconstants.h`) -/

/-- Modelled from the spec: `mazeconstants.h` is not among the sources; the
spec fixes the cardinal directions as NORTH=0, EAST=1, SOUTH=2, WEST=3. -/
def NORTH : Nat := 0

/-- Modelled from the spec: see `NORTH`. -/
def EAST : Nat := 1

/-- Modelled from the spec: see `NORTH`. -/
def SOUTH : Nat := 2

/-- Modelled from the spec: see `NORTH`. -/
def WEST : Nat := 3

/-- Modelled from the spec: the reserved "unreachable" cost of
`mazeconstants.h`, the largest `uint16_t`. -/
def MAX_COST : Nat := 65535

/-- Modelled from the spec: the "invalid direction" sentinel of
`mazeconstants.h`; a value outside the four cardinal directions (it indexes
the fifth glyph of `dirChars` in `mazeprinter.cpp`). -/
def INVALID_DIRECTION : Nat := 4

/-- Modelled from the spec: shift of the optimistic nibble of a wall byte
(the low four bits are the wall-present flags). -/
def OPEN_MAZE : Nat := 0

/-- Modelled from the spec: shift of the pessimistic nibble of a wall byte
(`0xf0` is the all-unseen cell: no optimistic wall, every pessimistic wall). -/
def CLOSED_MAZE : Nat := 4

/-- Modelled from the spec: observation bit of the north wall (bit 0). -/
def WALL_NORTH : Nat := 1

/-- Modelled from the spec: observation bit of the east wall (bit 1). -/
def WALL_EAST : Nat := 2

/-- Modelled from the spec: observation bit of the south wall (bit 2). -/
def WALL_SOUTH : Nat := 4

/-- Modelled from the spec: observation bit of the west wall (bit 3). -/
def WALL_WEST : Nat := 8

/-- Modelled from the spec: 8-way heading index of `mazeconstants.h`
(N, NE, E, SE, S, SW, W, NW), matching the `getExitDirection` table. -/
def DIR_N : Nat := 0

/-- Modelled from the spec: see `DIR_N`. -/
def DIR_E : Nat := 2

/-- Modelled from the spec: see `DIR_N`. -/
def DIR_S : Nat := 4

/-- Modelled from the spec: see `DIR_N`. -/
def DIR_W : Nat := 6

/-! ## The maze record -/

/-- The enum `Maze::FloodType`. -/
inductive FloodType where
  | MANHATTAN_FLOOD
  | WEIGHTED_FLOOD
  | RUNLENGTH_FLOOD
  | DIRECTION_FLOOD
deriving DecidableEq, Repr

/-- The data members of `class Maze`. -/
structure Maze where
  m_walls : Nat → Nat
  mWidth : Nat
  mDirection : Nat → Nat
  mCost : Nat → Nat
  goalArea : List Nat
  mPathCostOpen : Nat
  mPathCostClosed : Nat
  mIsSolved : Bool
  mFloodType : FloodType
  mCornerWeight : Nat

/-- Array store `a[i] = v`. -/
def setAt (a : Nat → Nat) (i v : Nat) : Nat → Nat :=
  fun j => if j = i then v else a j

/-- Accessor `Maze::width`. -/
def width (m : Maze) : Nat := m.mWidth

/-- Member `Maze::numCells`: `mWidth * mWidth`, returned as `uint16_t`. -/
def numCells (m : Maze) : Nat := (m.mWidth * m.mWidth) % 65536

/-- Member `Maze::cellID`: `mWidth * x + y`, returned as `uint16_t`. -/
def cellID (m : Maze) (x y : Nat) : Nat := (m.mWidth * x + y) % 65536

/-- Member `Maze::col`. -/
def col (m : Maze) (cell : Nat) : Nat := cell / m.mWidth

/-- Member `Maze::row`. -/
def row (m : Maze) (cell : Nat) : Nat := cell % m.mWidth

/-! ## Goal area -/

/-- Member `Maze::clearGoalArea`. -/
def clearGoalArea (m : Maze) : Maze := { m with goalArea := [] }

/-- Member `Maze::addToGoalArea(int cell)`. -/
def addToGoalArea (m : Maze) (cell : Nat) : Maze :=
  { m with goalArea := m.goalArea ++ [cell] }

/-- Member `Maze::addToGoalArea(int x, int y)`. -/
def addToGoalAreaXY (m : Maze) (x y : Nat) : Maze :=
  { m with goalArea := m.goalArea ++ [cellID m x y] }

/-- Member `Maze::goal`: the front of the goal area, or 0 when it is empty. -/
def goal (m : Maze) : Nat :=
  match m.goalArea with
  | [] => 0
  | g :: _ => g % 65536

/-- Member `Maze::setGoal`. -/
def setGoal (m : Maze) (g : Nat) : Maze := { m with goalArea := [g] }

/-- Member `Maze::goalContains(int cell)`. -/
def goalContains (m : Maze) (cell : Nat) : Bool := decide (cell ∈ m.goalArea)

/-! ## Topology -/

/-- Static member `Maze::behind`. -/
def behind (direction : Nat) : Nat := ((direction + 2) % 4) % 256

/-- Static member `Maze::opposite`. -/
def opposite (direction : Nat) : Nat := behind direction

/-- Member `Maze::cellNorth`. -/
def cellNorth (m : Maze) (cell : Nat) : Nat := (cell + 1) % numCells m

/-- Member `Maze::cellEast`. -/
def cellEast (m : Maze) (cell : Nat) : Nat := (cell + width m) % numCells m

/-- Member `Maze::cellSouth`. -/
def cellSouth (m : Maze) (cell : Nat) : Nat := (cell + numCells m - 1) % numCells m

/-- Member `Maze::cellWest`. -/
def cellWest (m : Maze) (cell : Nat) : Nat := (cell + numCells m - width m) % numCells m

/-- Member `Maze::neighbour`: any direction outside the four cardinal ones
yields `MAX_COST`. -/
def neighbour (m : Maze) (cell direction : Nat) : Nat :=
  match direction with
  | 0 => cellNorth m cell
  | 1 => cellEast m cell
  | 2 => cellSouth m cell
  | 3 => cellWest m cell
  | _ => MAX_COST

/-! ## Wall queries -/

/-- Member `Maze::walls`. -/
def walls (m : Maze) (cell : Nat) : Nat := m.m_walls cell &&& 0x0f

/-- Member `Maze::openWalls`. -/
def openWalls (m : Maze) (cell : Nat) : Nat := (m.m_walls cell >>> OPEN_MAZE) &&& 0x0f

/-- Member `Maze::closedWalls`. -/
def closedWalls (m : Maze) (cell : Nat) : Nat := (m.m_walls cell >>> CLOSED_MAZE) &&& 0x0f

/-- Member `Maze::hasExit`: the bit `direction + mazeType` of the wall byte is clear. -/
def hasExit (m : Maze) (cell direction mazeType : Nat) : Bool :=
  (m.m_walls cell &&& (1 <<< (direction + mazeType))) == 0

/-- Member `Maze::hasOpenExit`. -/
def hasOpenExit (m : Maze) (cell direction : Nat) : Bool :=
  hasExit m cell direction OPEN_MAZE

/-- Member `Maze::hasClosedExit`. -/
def hasClosedExit (m : Maze) (cell direction : Nat) : Bool :=
  hasExit m cell direction CLOSED_MAZE

/-- Member `Maze::isVisited`. -/
def isVisited (m : Maze) (cell : Nat) : Bool :=
  openWalls m cell == closedWalls m cell

/-! ## Wall mutation -/

/-- The store `m_walls[cell] |= (1 << bit)` into a `uint8_t`. -/
def orWall (a : Nat → Nat) (cell bit : Nat) : Nat → Nat :=
  setAt a cell ((a cell ||| (1 <<< bit)) % 256)

/-- The store `m_walls[cell] &= ~(1 << bit)` into a `uint8_t`: the byte keeps
every bit but `bit`. -/
def andNotWall (a : Nat → Nat) (cell bit : Nat) : Nat → Nat :=
  setAt a cell (a cell &&& (0xff ^^^ (1 <<< bit)))

/-- Member `Maze::setWallPresent`. -/
def setWallPresent (m : Maze) (cell direction : Nat) : Maze :=
  let nextCell := neighbour m cell direction
  match direction with
  | 0 => { m with m_walls := orWall (orWall m.m_walls cell NORTH) nextCell SOUTH }
  | 1 => { m with m_walls := orWall (orWall m.m_walls cell EAST) nextCell WEST }
  | 2 => { m with m_walls := orWall (orWall m.m_walls cell SOUTH) nextCell NORTH }
  | 3 => { m with m_walls := orWall (orWall m.m_walls cell WEST) nextCell EAST }
  | _ => m

/-- Member `Maze::setWallAbsent`. -/
def setWallAbsent (m : Maze) (cell direction : Nat) : Maze :=
  let nextCell := neighbour m cell direction
  match direction with
  | 0 => { m with m_walls := andNotWall (andNotWall m.m_walls cell (NORTH + CLOSED_MAZE)) nextCell (SOUTH + CLOSED_MAZE) }
  | 1 => { m with m_walls := andNotWall (andNotWall m.m_walls cell (EAST + CLOSED_MAZE)) nextCell (WEST + CLOSED_MAZE) }
  | 2 => { m with m_walls := andNotWall (andNotWall m.m_walls cell (SOUTH + CLOSED_MAZE)) nextCell (NORTH + CLOSED_MAZE) }
  | 3 => { m with m_walls := andNotWall (andNotWall m.m_walls cell (WEST + CLOSED_MAZE)) nextCell (EAST + CLOSED_MAZE) }
  | _ => m

/-- One branch of `updateMap` / `copyCellFromFileData`:
`if (wallData & mask) setWallPresent(cell, d) else setWallAbsent(cell, d)`. -/
def setWallFromBit (m : Maze) (cell wallData mask direction : Nat) : Maze :=
  if wallData &&& mask ≠ 0 then setWallPresent m cell direction
  else setWallAbsent m cell direction

/-- Member `Maze::updateMap`. -/
def updateMap (m : Maze) (cell wallData : Nat) : Maze :=
  let m1 := setWallFromBit m cell wallData WALL_NORTH NORTH
  let m2 := setWallFromBit m1 cell wallData WALL_EAST EAST
  let m3 := setWallFromBit m2 cell wallData WALL_SOUTH SOUTH
  setWallFromBit m3 cell wallData WALL_WEST WEST

/-- Member `Maze::clearData`. -/
def clearData (m : Maze) : Maze :=
  clearGoalArea
    { m with
      mCost := fun i => if i < 1024 then MAX_COST else m.mCost i
      mDirection := fun i => if i < 1024 then NORTH else m.mDirection i
      m_walls := fun i => if i < 1024 then 0xf0 else m.m_walls i }

/-- Body of the loop of `resetToEmptyMaze` for one `i`; the computed cell
arguments are `uint16_t`. -/
def resetBorderStep (m : Maze) (i : Nat) : Maze :=
  let m1 := setWallPresent m i WEST
  let m2 := setWallPresent m1 ((width m1 * (width m1 - 1) + i) % 65536) EAST
  let m3 := setWallPresent m2 ((i * width m2) % 65536) SOUTH
  setWallPresent m3 ((width m3 * i + width m3 - 1) % 65536) NORTH

/-- Member `Maze::resetToEmptyMaze`. -/
def resetToEmptyMaze (m : Maze) : Maze :=
  let m1 := (List.range (width m)).foldl resetBorderStep (clearData m)
  let m2 := setWallPresent m1 0 EAST
  let m3 := setWallAbsent m2 0 NORTH
  let m4 := addToGoalAreaXY m3 7 7
  if m4.mWidth = 16 then
    addToGoalAreaXY (addToGoalAreaXY (addToGoalAreaXY m4 7 8) 8 7) 8 8
  else m4

/-- Member `Maze::setWidth`. -/
def setWidth (m : Maze) (w : Nat) : Maze := clearData { m with mWidth := w % 65536 }

/-- Member `Maze::copyCellFromFileData`. -/
def copyCellFromFileData (m : Maze) (cell wallData : Nat) : Maze :=
  let m1 := setWallFromBit m cell wallData 0x01 NORTH
  let m2 := setWallFromBit m1 cell wallData 0x02 EAST
  let m3 := setWallFromBit m2 cell wallData 0x04 SOUTH
  let m4 := setWallFromBit m3 cell wallData 0x08 WEST
  if wallData &&& 0x80 ≠ 0 then addToGoalArea m4 cell else m4

/-- Member `Maze::copyMazeFromFileData`.  The buffer is `none` for a null
pointer; a read of `wallData[cell]` past the end of the buffer yields 0. -/
def copyMazeFromFileData (m : Maze) (wallData : Option (List Nat)) (cellCount : Nat) : Maze :=
  let m1 := clearData m
  let m2 := if cellCount = 1024 then setWidth m1 32 else setWidth m1 16
  match wallData with
  | none => m2
  | some data =>
    (List.range (numCells m2)).foldl
      (fun acc cell => copyCellFromFileData acc cell (data.getD cell 0 % 256)) m2

/-- A call of one of the three wall mutators. -/
inductive Mutation where
  | present (cell direction : Nat)
  | absent (cell direction : Nat)
  | update (cell wallData : Nat)

/-- Run one mutator call. -/
def Mutation.apply (m : Maze) : Mutation → Maze
  | .present c d => setWallPresent m c d
  | .absent c d => setWallAbsent m c d
  | .update c w => updateMap m c w

/-- Run a sequence of mutator calls, first to last. -/
def applyAll (m : Maze) (ops : List Mutation) : Maze :=
  ops.foldl Mutation.apply m

/-- The call addresses a cell of an `n`-cell maze in a cardinal direction. -/
def Mutation.InRange (n : Nat) : Mutation → Prop
  | .present c d => c < n ∧ d < 4
  | .absent c d => c < n ∧ d < 4
  | .update c _ => c < n

/-- A default-constructed record of the given width (all arrays zero). -/
def blank (w : Nat) : Maze :=
  { m_walls := fun _ => 0, mWidth := w, mDirection := fun _ => 0, mCost := fun _ => 0,
    goalArea := [], mPathCostOpen := MAX_COST, mPathCostClosed := MAX_COST,
    mIsSolved := false, mFloodType := FloodType.RUNLENGTH_FLOOD, mCornerWeight := 3 }

/-! ## Costs and directions -/

/-- Member `Maze::cost(cell)`. -/
def cost (m : Maze) (cell : Nat) : Nat := m.mCost cell

/-- Member `Maze::direction`. -/
def direction (m : Maze) (cell : Nat) : Nat := m.mDirection cell

/-- Member `Maze::costNorth`. -/
def costNorth (m : Maze) (cell : Nat) : Nat :=
  if !hasOpenExit m cell NORTH then MAX_COST else m.mCost (cellNorth m cell)

/-- Member `Maze::costEast`. -/
def costEast (m : Maze) (cell : Nat) : Nat :=
  if hasOpenExit m cell EAST then m.mCost (cellEast m cell) else MAX_COST

/-- Member `Maze::costSouth`. -/
def costSouth (m : Maze) (cell : Nat) : Nat :=
  if hasOpenExit m cell SOUTH then m.mCost (cellSouth m cell) else MAX_COST

/-- Member `Maze::costWest`. -/
def costWest (m : Maze) (cell : Nat) : Nat :=
  if hasOpenExit m cell WEST then m.mCost (cellWest m cell) else MAX_COST

/-- Member `Maze::cost(cell, direction)`. -/
def costDir (m : Maze) (cell direction : Nat) : Nat :=
  match direction with
  | 0 => costNorth m cell
  | 1 => costEast m cell
  | 2 => costSouth m cell
  | 3 => costWest m cell
  | _ => MAX_COST

/-- One of the four tests of `directionToSmallest`; the state is
`(smallestDirection, smallestCost)`. -/
def smallestStep (m : Maze) (cell : Nat) (s : Nat × Nat) (d : Nat) : Nat × Nat :=
  if costDir m cell d < s.2 then (d, costDir m cell d) else s

/-- Member `Maze::directionToSmallest`. -/
def directionToSmallest (m : Maze) (cell : Nat) : Nat :=
  let s := smallestStep m cell (smallestStep m cell (smallestStep m cell
    (smallestStep m cell (INVALID_DIRECTION, MAX_COST) NORTH) EAST) SOUTH) WEST
  if s.2 = MAX_COST then INVALID_DIRECTION else s.1

/-- Member `Maze::updateDirections`: the loop over `i < numCells()`, read
pointwise (`directionToSmallest` does not read `mDirection`). -/
def updateDirections (m : Maze) : Maze :=
  { m with mDirection := fun i => if i < numCells m then directionToSmallest m i
                                  else m.mDirection i }

/-- Member `Maze::initialiseFloodCosts`. -/
def initialiseFloodCosts (m : Maze) (target : Nat) : Maze :=
  { m with
    mCost := setAt (fun i => if i < numCells m then MAX_COST else m.mCost i) target 0
    mDirection :=
      setAt (fun i => if i < numCells m then INVALID_DIRECTION else m.mDirection i) target NORTH }

/-! ## The queue (`priorityqueue.h`) -/

/-- Modelled from the spec: `priorityqueue.h` is not among the sources.  The
pending items are kept in a list (`push` appends); `front` followed by `pop`
takes out the item at position `i` (modulo the number of pending items),
where `i` is supplied from outside, so that no property of the order in which
the queue hands out its items is assumed.  `none` on an empty queue. -/
def takeAt {ι : Type} (q : List ι) (i : Nat) : Option (ι × List ι) :=
  match q[i % q.length]? with
  | some x => some (x, q.eraseIdx (i % q.length))
  | none => none

/-- The loop `while (queue.size() > 0) { item = queue.front(); queue.pop(); ... }`
shared by the four floods: `visit` is the loop body, `sched t` picks the item
handed out in iteration `t`, the loop state is the pair of the arrays written
by the flood and the pending items.  The first argument bounds the number of
iterations. -/
def runQueue {σ ι : Type} (visit : σ × List ι → ι → σ × List ι) (sched : Nat → Nat) :
    Nat → Nat → σ × List ι → σ × List ι
  | 0, _, st => st
  | fuel + 1, t, st =>
    match takeAt st.2 (sched t) with
    | none => st
    | some (x, rest) => runQueue visit sched fuel (t + 1) (visit (st.1, rest) x)

/-- Iteration bound handed to `runQueue`: every push of a flood lowers the
16-bit cost of one of fewer than `2^16` cells (or gives a direction to a cell
without one), so the loop body runs fewer than `2^32` times. -/
def floodFuel : Nat := 4294967296

/-! ## Manhattan flood -/

/-- Body of the `for (direction ...)` loop of `manhattanFlood` for the popped
`cell`; state: cost array and pending cells. -/
def manhattanRelax (m : Maze) (mazeType cell newCost : Nat)
    (st : (Nat → Nat) × List Nat) (direction : Nat) : (Nat → Nat) × List Nat :=
  if hasExit m cell direction mazeType then
    let nextCell := neighbour m cell direction
    if st.1 nextCell > newCost then (setAt st.1 nextCell newCost, st.2 ++ [nextCell])
    else st
  else st

/-- Body of the `while` loop of `manhattanFlood` after the pop. -/
def manhattanVisit (m : Maze) (mazeType : Nat)
    (st : (Nat → Nat) × List Nat) (cell : Nat) : (Nat → Nat) × List Nat :=
  let newCost := (st.1 cell + 1) % 65536
  [0, 1, 2, 3].foldl (manhattanRelax m mazeType cell newCost) st

/-- The cost array left by the `while` loop of `manhattanFlood`. -/
def manhattanCosts (m : Maze) (target mazeType : Nat) (sched : Nat → Nat) :
    (Nat → Nat) × List Nat :=
  runQueue (manhattanVisit m mazeType) sched floodFuel 0
    ((initialiseFloodCosts m target).mCost, [target])

/-- Member `Maze::manhattanFlood`; returns the new state and `mCost[0]`. -/
def manhattanFlood (m : Maze) (target mazeType : Nat) (sched : Nat → Nat) : Maze × Nat :=
  let m1 := initialiseFloodCosts m target
  let m2 := updateDirections { m1 with mCost := (manhattanCosts m target mazeType sched).1 }
  (m2, m2.mCost 0)

/-! ## Weighted flood -/

/-- Body of the `for (exitDirection ...)` loop of `weightedFlood`; state:
cost array, direction array and pending cells. -/
def weightedRelax (m : Maze) (mazeType here costHere thisDirection : Nat)
    (st : ((Nat → Nat) × (Nat → Nat)) × List Nat) (exitDirection : Nat) :
    ((Nat → Nat) × (Nat → Nat)) × List Nat :=
  if hasExit m here exitDirection mazeType then
    let nextCell := neighbour m here exitDirection
    let newCost :=
      if thisDirection = exitDirection then (costHere + 2) % 65536
      else (costHere + m.mCornerWeight) % 65536
    if st.1.1 nextCell > newCost then
      ((setAt st.1.1 nextCell newCost, setAt st.1.2 nextCell exitDirection), st.2 ++ [nextCell])
    else st
  else st

/-- Body of the `while` loop of `weightedFlood` after the pop. -/
def weightedVisit (m : Maze) (mazeType : Nat)
    (st : ((Nat → Nat) × (Nat → Nat)) × List Nat) (here : Nat) :
    ((Nat → Nat) × (Nat → Nat)) × List Nat :=
  [0, 1, 2, 3].foldl (weightedRelax m mazeType here (st.1.1 here) (st.1.2 here)) st

/-- Member `Maze::weightedFlood`. -/
def weightedFlood (m : Maze) (target mazeType : Nat) (sched : Nat → Nat) : Maze × Nat :=
  let m1 := initialiseFloodCosts m target
  let r := runQueue (weightedVisit m1 mazeType) sched floodFuel 0
    ((m1.mCost, m1.mDirection), [target])
  let m2 := updateDirections { m1 with mCost := r.1.1, mDirection := r.1.2 }
  (m2, m2.mCost 0)

/-! ## Direction flood -/

/-- Body of the `for (exit ...)` loop of `directionFlood`. -/
def directionRelax (m : Maze) (mazeType here nextCost : Nat)
    (st : ((Nat → Nat) × (Nat → Nat)) × List Nat) (exit : Nat) :
    ((Nat → Nat) × (Nat → Nat)) × List Nat :=
  if hasExit m here exit mazeType then
    let next := neighbour m here exit
    if st.1.2 next = INVALID_DIRECTION then
      ((setAt st.1.1 next nextCost, setAt st.1.2 next (behind exit)), st.2 ++ [next])
    else st
  else st

/-- Body of the `while` loop of `directionFlood` after the pop. -/
def directionVisit (m : Maze) (mazeType : Nat)
    (st : ((Nat → Nat) × (Nat → Nat)) × List Nat) (here : Nat) :
    ((Nat → Nat) × (Nat → Nat)) × List Nat :=
  [0, 1, 2, 3].foldl (directionRelax m mazeType here ((st.1.1 here + 1) % 65536)) st

/-- Member `Maze::directionFlood`. -/
def directionFlood (m : Maze) (target mazeType : Nat) (sched : Nat → Nat) : Maze × Nat :=
  let m1 := initialiseFloodCosts m target
  let r := runQueue (directionVisit m1 mazeType) sched floodFuel 0
    ((m1.mCost, m1.mDirection), [target])
  let m2 := { m1 with mCost := r.1.1, mDirection := r.1.2 }
  (m2, m2.mCost 0)

/-! ## Run-length flood -/

/-- The table `orthoCostTable`. -/
def orthoCostTable : List Nat :=
  [0, 98, 75, 63, 55, 50, 46, 43,
   40, 38, 36, 36, 36, 36, 36, 36,
   36, 36, 36, 36, 36, 36, 36, 36,
   36, 36, 36, 36, 36, 36, 36, 36,
   36, 36, 36, 36, 36, 36, 36, 36,
   36, 36, 36, 36, 36, 36, 36, 36,
   36, 36, 36, 36, 36, 36, 36, 36,
   36, 36, 36, 36, 36, 36, 36, 36]

/-- The table `diagCostTable`. -/
def diagCostTable : List Nat :=
  [0, 73, 58, 50, 44, 40, 37, 35,
   33, 31, 31, 31, 31, 31, 31, 31,
   31, 31, 31, 31, 31, 31, 31, 31,
   31, 31, 31, 31, 31, 31, 31, 31,
   31, 31, 31, 31, 31, 31, 31, 31,
   31, 31, 31, 31, 31, 31, 31, 31,
   31, 31, 31, 31, 31, 31, 31, 31,
   31, 31, 31, 31, 31, 31, 31, 31]

/-- The table `getExitDirection[entryWall][exitWall]`. -/
def getExitDirection : List (List Nat) :=
  [[255, 3, 4, 5],
   [7, 255, 5, 6],
   [0, 1, 255, 7],
   [1, 2, 3, 255]]

/-- Modelled from the spec: `floodinfo.h` is not among the sources; the flood
record carries a provisional cost, a cell, a run length, the heading on entry
and the wall of entry, in the order of the constructor calls in `maze.cpp`. -/
structure FloodInfo where
  cost : Nat
  cell : Nat
  runLength : Nat
  entryDir : Nat
  entryWall : Nat
deriving DecidableEq, Repr

/-- The run length indexing the cost tables for one exit of a popped record:
`(newRunLength, exitDir, turnCost)` as computed in the loop body of
`runLengthFlood` (`uint8_t` run length, `uint16_t` turn cost). -/
def runLengthTurn (info : FloodInfo) (exitWall : Nat) : Nat × Nat × Nat :=
  let exitDir := (getExitDirection.getD info.entryWall []).getD exitWall 255
  let turnSize0 := if info.entryDir ≥ exitDir then info.entryDir - exitDir
                   else exitDir - info.entryDir
  let turnSize := if turnSize0 > 4 then (65536 + 8 - turnSize0) % 65536 else turnSize0
  if info.entryDir = exitDir then ((info.runLength + 1) % 256, exitDir, 0)
  else (1, exitDir, (turnSize * 22) % 65536)

/-- Body of the `for (exitWall ...)` loop of `runLengthFlood`; state: cost
array and pending records.  A table read past its 64 entries yields 0. -/
def runLengthRelax (m : Maze) (mazeType : Nat) (info : FloodInfo)
    (st : (Nat → Nat) × List FloodInfo) (exitWall : Nat) : (Nat → Nat) × List FloodInfo :=
  if exitWall = info.entryWall then st
  else if !hasExit m info.cell exitWall mazeType then st
  else
    let nextCell := neighbour m info.cell exitWall
    let t := runLengthTurn info exitWall
    let tableCost := if t.2.1 &&& 1 = 0 then orthoCostTable.getD t.1 0
                     else diagCostTable.getD t.1 0
    let newCost := (tableCost + (t.2.2 + st.1 info.cell)) % 65536
    if newCost < st.1 nextCell then
      (setAt st.1 nextCell newCost,
        st.2 ++ [FloodInfo.mk newCost nextCell t.1 t.2.1 (opposite exitWall)])
    else st

/-- Body of the `while` loop of `runLengthFlood` after the pop. -/
def runLengthVisit (m : Maze) (mazeType : Nat)
    (st : (Nat → Nat) × List FloodInfo) (info : FloodInfo) : (Nat → Nat) × List FloodInfo :=
  [0, 1, 2, 3].foldl (runLengthRelax m mazeType info) st

/-- One of the four blocks of `seedQueue`. -/
def seedStep (m : Maze) (goalCell cost : Nat) (st : (Nat → Nat) × List FloodInfo)
    (d : Nat × Nat × Nat) : (Nat → Nat) × List FloodInfo :=
  if hasOpenExit m goalCell d.1 then
    let nextCell := neighbour m goalCell d.1
    (setAt st.1 nextCell cost, st.2 ++ [FloodInfo.mk cost nextCell 1 d.2.1 d.2.2])
  else st

/-- Member `Maze::seedQueue`: the blocks for NORTH, EAST, SOUTH, WEST with
their headings and entry walls. -/
def seedQueue (m : Maze) (st : (Nat → Nat) × List FloodInfo) (goalCell cost : Nat) :
    (Nat → Nat) × List FloodInfo :=
  [(NORTH, DIR_N, SOUTH), (EAST, DIR_E, WEST), (SOUTH, DIR_S, NORTH), (WEST, DIR_W, EAST)].foldl
    (seedStep m goalCell cost) st

/-- Member `Maze::runLengthFlood`. -/
def runLengthFlood (m : Maze) (target mazeType : Nat) (sched : Nat → Nat) : Maze × Nat :=
  let m1 := initialiseFloodCosts m target
  let seeded := seedQueue m1 (m1.mCost, []) target (orthoCostTable.getD 1 0)
  let r := runQueue (runLengthVisit m1 mazeType) sched floodFuel 0 seeded
  let m2 := updateDirections { m1 with mCost := r.1 }
  (m2, m2.mCost 0)

/-! ## Flood dispatch and the solution test -/

/-- Member `Maze::flood`. -/
def flood (m : Maze) (target mazeType : Nat) (sched : Nat → Nat) : Maze × Nat :=
  match m.mFloodType with
  | .MANHATTAN_FLOOD => manhattanFlood m target mazeType sched
  | .WEIGHTED_FLOOD => weightedFlood m target mazeType sched
  | .RUNLENGTH_FLOOD => runLengthFlood m target mazeType sched
  | .DIRECTION_FLOOD => directionFlood m target mazeType sched

/-- Member `Maze::testForSolution`; `sched1` and `sched2` are the orders in
which the queues of the two floods hand out their items. -/
def testForSolution (m : Maze) (sched1 sched2 : Nat → Nat) : Maze × Bool :=
  let r1 := flood m (goal m) CLOSED_MAZE sched1
  let m1 := { r1.1 with mPathCostClosed := r1.2 }
  let r2 := flood m1 (goal m1) OPEN_MAZE sched2
  let m2 := { r2.1 with mPathCostOpen := r2.2 }
  let m3 := { m2 with mIsSolved := decide (m2.mPathCostClosed = m2.mPathCostOpen) }
  (m3, m3.mIsSolved)

/-- Member `Maze::setFloodType`. -/
def setFloodType (m : Maze) (t : FloodType) : Maze := { m with mFloodType := t }

/-- Member `Maze::setCornerWeight`. -/
def setCornerWeight (m : Maze) (cornerWeight : Nat) : Maze :=
  { m with mCornerWeight := cornerWeight % 65536 }

/-- The first-in first-out order of handing out queue items. -/
def fifo : Nat → Nat := fun _ => 0

/-- Member `Maze::isSolved`. -/
def isSolved (m : Maze) : Bool := m.mIsSolved

/-- Member `Maze::openMazeCost`. -/
def openMazeCost (m : Maze) : Nat := m.mPathCostOpen

/-- Member `Maze::closedMazeCost`. -/
def closedMazeCost (m : Maze) : Nat := m.mPathCostClosed

/-! ## Bit-level view of the wall bytes -/

/-- Bit `k` of the wall byte of cell `j`. -/
def wallBit (a : Nat → Nat) (j k : Nat) : Bool := (a j).testBit k

/-- Bit-level effect of a mutator on the wall array: in the touched cells `T`
the result is a byte that has the bits of `S` set and the bits of `C`
cleared, every other cell is unchanged. -/
def WallEffect (a a' : Nat → Nat) (T : Nat → Bool) (S C : Nat → Nat → Bool) : Prop :=
  ∀ j k, wallBit a' j k =
    if T j then (decide (k < 8) && (wallBit a j k || S j k) && !C j k) else wallBit a j k

/-- Masks of a wall mutator: set bits lie in the optimistic nibble, cleared
bits in the pessimistic nibble, both inside touched cells. -/
def MaskOK (T : Nat → Bool) (S C : Nat → Nat → Bool) : Prop :=
  (∀ j k, S j k = true → T j = true ∧ k < 4) ∧
  (∀ j k, C j k = true → T j = true ∧ 4 ≤ k ∧ k < 8)

/-- The cells written by a wall mutator for `(c, d)`. -/
def touchedBy (m : Maze) (c d : Nat) : Nat → Bool :=
  fun j => j == c || j == neighbour m c d

/-- The two bits (one on each side) of the wall `(c, d)` in the nibble at `off`. -/
def sideMask (m : Maze) (c d off : Nat) : Nat → Nat → Bool :=
  fun j k => (j == c && k == d + off) || (j == neighbour m c d && k == opposite d + off)

/-- The empty bit mask. -/
def noMask : Nat → Nat → Bool := fun _ _ => false

/-- Set mask of one branch of `updateMap`. -/
def fromBitS (m : Maze) (c w mask d : Nat) : Nat → Nat → Bool :=
  if w &&& mask ≠ 0 then sideMask m c d 0 else noMask

/-- Clear mask of one branch of `updateMap`. -/
def fromBitC (m : Maze) (c w mask d : Nat) : Nat → Nat → Bool :=
  if w &&& mask ≠ 0 then noMask else sideMask m c d 4

/-- Cells touched by `updateMap m c _`. -/
def updT (m : Maze) (c : Nat) : Nat → Bool :=
  fun j => ((touchedBy m c 0 j || touchedBy m c 1 j) || touchedBy m c 2 j) || touchedBy m c 3 j

/-- Bits set by `updateMap m c w`. -/
def updS (m : Maze) (c w : Nat) : Nat → Nat → Bool :=
  fun j k => ((fromBitS m c w 1 0 j k || fromBitS m c w 2 1 j k) || fromBitS m c w 4 2 j k)
    || fromBitS m c w 8 3 j k

/-- Bits cleared by `updateMap m c w`. -/
def updC (m : Maze) (c w : Nat) : Nat → Nat → Bool :=
  fun j k => ((fromBitC m c w 1 0 j k || fromBitC m c w 2 1 j k) || fromBitC m c w 4 2 j k)
    || fromBitC m c w 8 3 j k

/-- A bit mask that treats both sides of every wall alike. -/
def MaskSym (m : Maze) (M : Nat → Nat → Bool) : Prop :=
  ∀ j, j < numCells m → ∀ d, d < 4 → ∀ off, (off = 0 ∨ off = 4) →
    M j (d + off) = M (neighbour m j d) (opposite d + off)

/-- Wall symmetry on the bits: both nibbles agree across every wall. -/
def WallSym (m : Maze) : Prop := MaskSym m (wallBit m.m_walls)

/-- Consistent beliefs: every pessimistic exit is also an optimistic exit. -/
def Consistent (m : Maze) : Prop :=
  ∀ c, c < numCells m → ∀ d, d < 4 → hasClosedExit m c d = true → hasOpenExit m c d = true

/-- A sequence of `updateMap(cell, wallData)` calls, first to last. -/
def updateAll (m : Maze) (obs : List (Nat × Nat)) : Maze :=
  obs.foldl (fun acc o => updateMap acc o.1 o.2) m

/-- The four outward-facing walls written by step `i` of the border loop of
`resetToEmptyMaze` (for width `w`) are present in the optimistic nibble. -/
def BorderAt (w : Nat) (a : Nat → Nat) (i : Nat) : Prop :=
  wallBit a i 3 = true ∧ wallBit a ((w * (w - 1) + i) % 65536) 1 = true ∧
  wallBit a ((i * w) % 65536) 2 = true ∧ wallBit a ((w * i + w - 1) % 65536) 0 = true

/-- No optimistic wall bit is cleared on the way from `a` to `a'`. -/
def OpenMono (a a' : Nat → Nat) : Prop :=
  ∀ j k, k < 4 → wallBit a j k = true → wallBit a' j k = true

/-- No pessimistic wall bit is set on the way from `a` to `a'`. -/
def ClosedMono (a a' : Nat → Nat) : Prop :=
  ∀ j k, 4 ≤ k → k < 8 → wallBit a j k = false → wallBit a' j k = false

/-! ## Chains of exits and the invariants of the floods -/

/-- `Chain m I target k c`: there is a chain `target = c0, c1, ..., ck = c` in
which each `c(i+1)` is `neighbour(c(i), d)` for a cardinal direction `d` with
`hasExit(c(i), d, I)`. -/
inductive Chain (m : Maze) (mazeType target : Nat) : Nat → Nat → Prop
  | zero : Chain m mazeType target 0 target
  | step {k c d : Nat} : Chain m mazeType target k c → d < 4 →
      hasExit m c d mazeType = true → Chain m mazeType target (k + 1) (neighbour m c d)

/-- Some chain of exits leads from `target` to `c`. -/
def Reachable (m : Maze) (mazeType target c : Nat) : Prop :=
  ∃ k, Chain m mazeType target k c

/-- Sum of the costs of the cells below `n`. -/
def costSum (n : Nat) (cost : Nat → Nat) : Nat := (Finset.range n).sum cost

/-- Loop invariant of `manhattanFlood` (cost array and pending cells). -/
structure ManhattanInv (m : Maze) (mazeType target : Nat)
    (st : (Nat → Nat) × List Nat) : Prop where
  target0 : st.1 target = 0
  le_max : ∀ c, c < numCells m → st.1 c ≤ MAX_COST
  chain : ∀ c, c < numCells m → st.1 c < MAX_COST → Chain m mazeType target (st.1 c) c
  relaxed : ∀ c, c < numCells m → st.1 c < MAX_COST → c ∉ st.2 →
    ∀ d, d < 4 → hasExit m c d mazeType = true → st.1 (neighbour m c d) ≤ st.1 c + 1
  queued : ∀ c, c ∈ st.2 → c < numCells m ∧ st.1 c < MAX_COST

/-- What one relaxation step of `manhattanFlood` keeps true while the cell `x`
popped from the state `(cost0, rest)` is being visited. -/
structure ManhattanVisitInv (m : Maze) (mazeType target x : Nat) (cost0 : Nat → Nat)
    (rest : List Nat) (st : (Nat → Nat) × List Nat) : Prop where
  target0 : st.1 target = 0
  le_max : ∀ c, c < numCells m → st.1 c ≤ MAX_COST
  chain : ∀ c, c < numCells m → st.1 c < MAX_COST → Chain m mazeType target (st.1 c) c
  le_old : ∀ c, st.1 c ≤ cost0 c
  queued : ∀ c, c ∈ st.2 → c < numCells m ∧ st.1 c < MAX_COST
  grows : ∀ c, c ∈ rest → c ∈ st.2
  same : ∀ c, c ∉ st.2 → st.1 c = cost0 c
  self : st.1 x = cost0 x

/-! ## Concrete maze states used as explicit inputs -/

/-- A 16-wide maze after reset in which cell 0x22 is first reported with all
four walls and then with none. -/
def contradictedMaze : Maze :=
  setFloodType (updateAll (resetToEmptyMaze (blank 16)) [(0x22, 15), (0x22, 0)])
    FloodType.MANHATTAN_FLOOD

/-- A 16-wide maze after reset and three mutually consistent observations. -/
def threeSightingsMaze : Maze :=
  updateAll (resetToEmptyMaze (blank 16)) [(32, 4), (50, 0), (17, 4)]

/-- A 16-wide maze after reset: cells 3, 19, 32, 33, 34 are reported walled
in, cell 0 is reported without an east wall (against the wall put there by
the reset) and cell 16 with east and south walls only; the goal is cell 17. -/
def crossedMaze : Maze :=
  setFloodType (setGoal (updateAll (resetToEmptyMaze (blank 16))
    [(3, 15), (19, 15), (32, 15), (33, 15), (34, 15), (0, 12), (16, 6)]) 17)
    FloodType.MANHATTAN_FLOOD

/-- A 16-wide maze after reset in which cells 3, 19, 32, 33, 34 are reported
walled in; the goal is cell 1. -/
def cornerMaze : Maze :=
  setFloodType (setGoal (applyAll (resetToEmptyMaze (blank 16))
    [Mutation.update 3 15, Mutation.update 19 15, Mutation.update 32 15,
     Mutation.update 33 15, Mutation.update 34 15]) 1)
    FloodType.MANHATTAN_FLOOD

/-! ## Goal recalculation -/

/-- The eight tests of `recalculateGoal` in source order: the cell and the
direction handed to `hasClosedExit`, and the value then given to `newGoal`. -/
def centreEntrances : List (Nat × Nat × Nat) :=
  [(0x77, SOUTH, 0x78), (0x77, WEST, 0x87), (0x78, WEST, 0x88), (0x78, NORTH, 0x77),
   (0x88, NORTH, 0x87), (0x88, EAST, 0x78), (0x87, EAST, 0x77), (0x87, SOUTH, 0x88)]

/-- One of the eight tests of `recalculateGoal`; the state is
`(entranceCount, newGoal)`. -/
def recalcStep (m : Maze) (s : Nat × Nat) (e : Nat × Nat × Nat) : Nat × Nat :=
  if hasClosedExit m e.1 e.2.1 then (s.1 + 1, e.2.2) else s

/-- Member `Maze::recalculateGoal`. -/
def recalculateGoal (m : Maze) : Maze :=
  let s := centreEntrances.foldl (recalcStep m) (0, goal m)
  if s.1 ≠ 0 then setGoal m s.2 else m

/-- Member `Maze::goalAreaSize`. -/
def goalAreaSize (m : Maze) : Nat := m.goalArea.length

/-- The eight outward-facing walls of the 2x2 centre block of a 16-wide maze,
as pairs of a block cell and a direction. -/
def centreBlockWalls : List (Nat × Nat) :=
  [(0x77, SOUTH), (0x77, WEST), (0x78, WEST), (0x78, NORTH),
   (0x88, NORTH), (0x88, EAST), (0x87, EAST), (0x87, SOUTH)]

/-! ## Save and load -/

/-- Member `Maze::save`: the caller's buffer after the call. -/
def save (m : Maze) (data : Nat → Nat) : Nat → Nat :=
  fun i => if i < numCells m then m.m_walls i else data i

/-- Member `Maze::load`. -/
def load (m : Maze) (data : Nat → Nat) : Maze :=
  { m with m_walls := fun i => if i < numCells m then data i else m.m_walls i }

/-! ## Fully explored mazes -/

/-- Every cell of the maze has been seen on all four sides. -/
def FullyVisited (m : Maze) : Prop := ∀ c, c < numCells m → isVisited m c = true

/-- Wall bytes of a fully explored 16-wide maze that has the outer border
only, as `save` writes them: both nibbles of a cell hold its border walls
(north in row 15, east in column 15, south in row 0, west in column 0). -/
def knownBorderWalls : Nat → Nat := fun c =>
  17 * ((if c % 16 = 15 then 1 else 0) + (if c / 16 = 15 then 2 else 0)
    + (if c % 16 = 0 then 4 else 0) + (if c / 16 = 0 then 8 else 0))

/-- The 16-wide maze restored by `load` from `knownBorderWalls`, with goal
cell 0x77. -/
def restoredMaze : Maze := setGoal (load (blank 16) knownBorderWalls) 0x77

/-- A freshly reset 16-wide maze set to the Manhattan flood. -/
def freshManhattanMaze : Maze :=
  setFloodType (resetToEmptyMaze (blank 16)) FloodType.MANHATTAN_FLOOD

/-- A freshly reset 16-wide maze in which the wall between (7,7) and (7,8) has
been opened. -/
def scenarioDMaze : Maze := setWallAbsent (resetToEmptyMaze (blank 16)) 0x77 NORTH

/-- A freshly reset 32-wide maze in which the south wall of cell 0x77 has been
opened. -/
def wideOpenedMaze : Maze := setWallAbsent (resetToEmptyMaze (blank 32)) 0x77 SOUTH

/-- A freshly reset 16-wide maze in which the south wall of cell 0x77, an
outward-facing wall of the centre block, has been opened. -/
def southEntranceMaze : Maze := setWallAbsent (resetToEmptyMaze (blank 16)) 0x77 SOUTH

/-- A 16-wide maze without walls in which cell 1 holds cost 5, cell 16 cost 3
and every other cell `MAX_COST`. -/
def sampleCostMaze : Maze :=
  { blank 16 with mCost := fun i => if i = 1 then 5 else if i = 16 then 3 else MAX_COST }

/-! ## The loops of the floods -/

/-- The number of items still pending when the `while` loop of the flood
selected by `mFloodType` stops, after at most `floodFuel` iterations; it is 0
exactly when the loop ran until `queue.size()` was 0. -/
def floodPending (m : Maze) (target mazeType : Nat) (sched : Nat → Nat) : Nat :=
  let m1 := initialiseFloodCosts m target
  match m.mFloodType with
  | .MANHATTAN_FLOOD => (manhattanCosts m target mazeType sched).2.length
  | .WEIGHTED_FLOOD =>
    (runQueue (weightedVisit m1 mazeType) sched floodFuel 0
      ((m1.mCost, m1.mDirection), [target])).2.length
  | .RUNLENGTH_FLOOD =>
    (runQueue (runLengthVisit m1 mazeType) sched floodFuel 0
      (seedQueue m1 (m1.mCost, []) target (orthoCostTable.getD 1 0))).2.length
  | .DIRECTION_FLOOD =>
    (runQueue (directionVisit m1 mazeType) sched floodFuel 0
      ((m1.mCost, m1.mDirection), [target])).2.length

/-! ## Direction field -/

/-- Symmetric optimistic walls: an optimistic exit is an exit from both of its
sides. -/
def OpenSym (m : Maze) : Prop :=
  ∀ c, c < numCells m → ∀ d, d < 4 →
    hasOpenExit m (neighbour m c d) (opposite d) = hasOpenExit m c d

/-- The cell reached from `c` by `k` steps along the stored directions. -/
def followDirections (m : Maze) : Nat → Nat → Nat
  | 0, c => c
  | k + 1, c => followDirections m k (neighbour m c (direction m c))

/-! ## Run lengths of the run-length flood -/

/-- The border walls of the grid are present under interpretation `mazeType`:
no cell of the top row has an exit to the NORTH, none of the last column to
the EAST, none of the bottom row to the SOUTH, none of the first column to the
WEST. -/
def Bordered (m : Maze) (mazeType : Nat) : Prop :=
  ∀ c, c < numCells m →
    (row m c + 1 = m.mWidth → hasExit m c NORTH mazeType = false) ∧
    (col m c + 1 = m.mWidth → hasExit m c EAST mazeType = false) ∧
    (row m c = 0 → hasExit m c SOUTH mazeType = false) ∧
    (col m c = 0 → hasExit m c WEST mazeType = false)

/-- The records pending after `k` iterations of the `while` loop of
`runLengthFlood(target, mazeType)` (all of them when the loop stops earlier):
every record the loop ever pops is pending at some `k`. -/
def runLengthPending (m : Maze) (target mazeType : Nat) (sched : Nat → Nat) (k : Nat) :
    List FloodInfo :=
  let m1 := initialiseFloodCosts m target
  (runQueue (runLengthVisit m1 mazeType) sched k 0
    (seedQueue m1 (m1.mCost, []) target (orthoCostTable.getD 1 0))).2

/-- The number of steps of heading `dir` (0..7, clockwise from north) that fit
between the border of the grid and `cell`, the last of them arriving at
`cell`. -/
def runRoom (m : Maze) (dir cell : Nat) : Nat :=
  let x := col m cell
  let y := row m cell
  let top := m.mWidth - 1
  match dir with
  | 0 => y
  | 1 => x + y
  | 2 => x
  | 3 => x + (top - y)
  | 4 => top - y
  | 5 => (top - x) + (top - y)
  | 6 => top - x
  | 7 => (top - x) + y
  | _ => 0

/-- What holds of every pending record of the run-length flood: its cell is in
the grid, its entry wall is a cardinal direction and its run fits between the
border and the cell. -/
def RunFits (m : Maze) (info : FloodInfo) : Prop :=
  info.cell < numCells m ∧ info.entryWall < 4 ∧ 1 ≤ info.runLength ∧
    info.runLength ≤ runRoom m info.entryDir info.cell

/-! ## Invariants of the weighted flood -/

/-- Number of cells below `n` whose cost is still `MAX_COST`. -/
def unseenCount (n : Nat) (cost : Nat → Nat) : Nat :=
  costSum n (fun c => if cost c = MAX_COST then 1 else 0)

/-- Loop invariant of `weightedFlood` with corner weight 3 (cost array,
direction array and pending cells). -/
structure WeightedInv (m : Maze) (mazeType target : Nat)
    (st : ((Nat → Nat) × (Nat → Nat)) × List Nat) : Prop where
  target0 : st.1.1 target = 0
  le_max : ∀ c, c < numCells m → st.1.1 c ≤ MAX_COST
  wit : ∀ c, c < numCells m → st.1.1 c < MAX_COST →
    ∃ k, Chain m mazeType target k c ∧ 2 * k ≤ st.1.1 c
  room : ∀ c, c < numCells m → st.1.1 c < MAX_COST →
    st.1.1 c + 3 * unseenCount (numCells m) st.1.1 + 3 ≤ 3 * numCells m
  relaxed : ∀ c, c < numCells m → st.1.1 c < MAX_COST → c ∉ st.2 →
    ∀ d, d < 4 → hasExit m c d mazeType = true → st.1.1 (neighbour m c d) ≤ st.1.1 c + 3
  queued : ∀ c, c ∈ st.2 → c < numCells m ∧ st.1.1 c < MAX_COST

/-- What one relaxation step of `weightedFlood` keeps true while the cell `x`
popped from the state `(cost0, rest)` is being visited. -/
structure WeightedVisitInv (m : Maze) (mazeType target x : Nat) (cost0 : Nat → Nat)
    (rest : List Nat) (st : ((Nat → Nat) × (Nat → Nat)) × List Nat) : Prop where
  target0 : st.1.1 target = 0
  le_max : ∀ c, c < numCells m → st.1.1 c ≤ MAX_COST
  wit : ∀ c, c < numCells m → st.1.1 c < MAX_COST →
    ∃ k, Chain m mazeType target k c ∧ 2 * k ≤ st.1.1 c
  room : ∀ c, c < numCells m → st.1.1 c < MAX_COST →
    st.1.1 c + 3 * unseenCount (numCells m) st.1.1 + 3 ≤ 3 * numCells m
  le_old : ∀ c, st.1.1 c ≤ cost0 c
  queued : ∀ c, c ∈ st.2 → c < numCells m ∧ st.1.1 c < MAX_COST
  grows : ∀ c, c ∈ rest → c ∈ st.2
  same : ∀ c, c ∉ st.2 → st.1.1 c = cost0 c
  self : st.1.1 x = cost0 x

/-! ## Invariants of the direction flood -/

/-- Number of cells below `n` that have no direction yet. -/
def undiscoveredCount (n : Nat) (dir : Nat → Nat) : Nat :=
  costSum n (fun c => if dir c = INVALID_DIRECTION then 1 else 0)

/-- Loop invariant of `directionFlood`, for every order of the queue (cost
array, direction array and pending cells): a cell with a direction holds the
length of a chain from the target, a cell without one holds `MAX_COST`, and
the exits of a cell that is no longer pending lead to cells with a
direction. -/
structure DirectionInv (m : Maze) (mazeType target : Nat)
    (st : ((Nat → Nat) × (Nat → Nat)) × List Nat) : Prop where
  target0 : st.1.1 target = 0
  targetSeen : st.1.2 target ≠ INVALID_DIRECTION
  seen : ∀ c, c < numCells m → st.1.2 c ≠ INVALID_DIRECTION →
    Chain m mazeType target (st.1.1 c) c ∧
      st.1.1 c + 1 + undiscoveredCount (numCells m) st.1.2 ≤ numCells m
  unseen : ∀ c, c < numCells m → st.1.2 c = INVALID_DIRECTION → st.1.1 c = MAX_COST
  queued : ∀ c, c ∈ st.2 → c < numCells m ∧ st.1.2 c ≠ INVALID_DIRECTION
  closed : ∀ c, c < numCells m → st.1.2 c ≠ INVALID_DIRECTION → c ∉ st.2 →
    ∀ d, d < 4 → hasExit m c d mazeType = true →
      st.1.2 (neighbour m c d) ≠ INVALID_DIRECTION

/-- What one step of `directionFlood` keeps true while the popped cell `x` is
being visited, for every order of the queue. -/
structure DirectionVisitInv (m : Maze) (mazeType target x : Nat)
    (st : ((Nat → Nat) × (Nat → Nat)) × List Nat) : Prop where
  target0 : st.1.1 target = 0
  targetSeen : st.1.2 target ≠ INVALID_DIRECTION
  seen : ∀ c, c < numCells m → st.1.2 c ≠ INVALID_DIRECTION →
    Chain m mazeType target (st.1.1 c) c ∧
      st.1.1 c + 1 + undiscoveredCount (numCells m) st.1.2 ≤ numCells m
  unseen : ∀ c, c < numCells m → st.1.2 c = INVALID_DIRECTION → st.1.1 c = MAX_COST
  queued : ∀ c, c ∈ st.2 → c < numCells m ∧ st.1.2 c ≠ INVALID_DIRECTION
  closed : ∀ c, c < numCells m → st.1.2 c ≠ INVALID_DIRECTION → c ∉ st.2 → c ≠ x →
    ∀ d, d < 4 → hasExit m c d mazeType = true →
      st.1.2 (neighbour m c d) ≠ INVALID_DIRECTION
  selfSeen : x < numCells m ∧ st.1.2 x ≠ INVALID_DIRECTION

/-- What the loop of `directionFlood` keeps true in addition when the queue
hands out the cells in the order they were pushed: the pending cells are in
ascending order of cost, no cell costs more than one above a pending cell, and
a cell that is no longer pending is relaxed. -/
structure DirectionFifoInv (m : Maze) (mazeType : Nat)
    (st : ((Nat → Nat) × (Nat → Nat)) × List Nat) : Prop where
  ordered : st.2.Pairwise (fun a b => st.1.1 a ≤ st.1.1 b)
  near : ∀ a, a ∈ st.2 → ∀ c, c < numCells m → st.1.2 c ≠ INVALID_DIRECTION →
    st.1.1 c ≤ st.1.1 a + 1
  relaxed : ∀ c, c < numCells m → st.1.2 c ≠ INVALID_DIRECTION → c ∉ st.2 →
    ∀ d, d < 4 → hasExit m c d mazeType = true →
      st.1.1 (neighbour m c d) ≤ st.1.1 c + 1

/-- The first-in first-out part of the invariant while the cell `x`, popped
with cost `kx`, is being visited. -/
structure DirectionFifoVisitInv (m : Maze) (mazeType x kx : Nat)
    (st : ((Nat → Nat) × (Nat → Nat)) × List Nat) : Prop where
  ordered : st.2.Pairwise (fun a b => st.1.1 a ≤ st.1.1 b)
  nearx : ∀ c, c < numCells m → st.1.2 c ≠ INVALID_DIRECTION → st.1.1 c ≤ kx + 1
  fromx : ∀ a, a ∈ st.2 → kx ≤ st.1.1 a
  relaxed : ∀ c, c < numCells m → st.1.2 c ≠ INVALID_DIRECTION → c ∉ st.2 → c ≠ x →
    ∀ d, d < 4 → hasExit m c d mazeType = true →
      st.1.1 (neighbour m c d) ≤ st.1.1 c + 1

/-! ## The order of the queue described by the specification -/

/-- Modelled from the spec: `priorityqueue.h` is not among the sources; the
specification describes the queue as one that "always pops the lowest pending
cost first (ties broken arbitrarily)".  `popsLowest visit key sched n t st`
says that in the run of `runQueue visit sched n t st` every iteration hands
out an item whose cost `key` (read in the state the loop is in at that moment)
is lowest among the pending items; which of several items of lowest cost is
handed out is left to `sched`. -/
def popsLowest {σ ι : Type} (visit : σ × List ι → ι → σ × List ι) (key : σ → ι → Nat)
    (sched : Nat → Nat) : Nat → Nat → σ × List ι → Bool
  | 0, _, _ => true
  | fuel + 1, t, st =>
    match takeAt st.2 (sched t) with
    | none => true
    | some (x, rest) =>
      st.2.all (fun y => decide (key st.1 x ≤ key st.1 y)) &&
        popsLowest visit key sched fuel (t + 1) (visit (st.1, rest) x)

/-- The final states of all runs of the loop of `runQueue` from `st` in which
every iteration hands out an item of lowest cost `key`: one branch for every
pending item of lowest cost. -/
def lowestRuns {σ ι : Type} (visit : σ × List ι → ι → σ × List ι) (key : σ → ι → Nat) :
    Nat → σ × List ι → List (σ × List ι)
  | 0, st => [st]
  | fuel + 1, st =>
    if st.2.isEmpty then [st]
    else
      (List.range st.2.length).flatMap fun i =>
        match takeAt st.2 i with
        | none => []
        | some (x, rest) =>
          if st.2.all (fun y => decide (key st.1 x ≤ key st.1 y)) then
            lowestRuns visit key fuel (visit (st.1, rest) x)
          else []

/-- Modelled from the spec: the queue of `manhattanFlood(target, mazeType)`
hands out a pending cell of lowest cost in every iteration. -/
def manhattanPopsLowest (m : Maze) (target mazeType : Nat) (sched : Nat → Nat) : Bool :=
  popsLowest (manhattanVisit m mazeType) (fun cost c => cost c) sched floodFuel 0
    ((initialiseFloodCosts m target).mCost, [target])

/-- Modelled from the spec: the queue of `weightedFlood(target, mazeType)`
hands out a pending cell of lowest cost in every iteration. -/
def weightedPopsLowest (m : Maze) (target mazeType : Nat) (sched : Nat → Nat) : Bool :=
  let m1 := initialiseFloodCosts m target
  popsLowest (weightedVisit m1 mazeType) (fun s c => s.1 c) sched floodFuel 0
    ((m1.mCost, m1.mDirection), [target])

/-- Modelled from the spec: the queue of `directionFlood(target, mazeType)`
hands out a pending cell of lowest cost in every iteration. -/
def directionPopsLowest (m : Maze) (target mazeType : Nat) (sched : Nat → Nat) : Bool :=
  let m1 := initialiseFloodCosts m target
  popsLowest (directionVisit m1 mazeType) (fun s c => s.1 c) sched floodFuel 0
    ((m1.mCost, m1.mDirection), [target])

/-- Modelled from the spec: the queue of `runLengthFlood(target, mazeType)`
hands out a pending record of lowest cost (the cost the record was pushed
with) in every iteration. -/
def runLengthPopsLowest (m : Maze) (target mazeType : Nat) (sched : Nat → Nat) : Bool :=
  let m1 := initialiseFloodCosts m target
  popsLowest (runLengthVisit m1 mazeType) (fun _ info => info.cost) sched floodFuel 0
    (seedQueue m1 (m1.mCost, []) target (orthoCostTable.getD 1 0))

/-- Modelled from the spec: the queue of `flood(target, mazeType)` hands out
a pending item of lowest cost in every iteration. -/
def floodPopsLowest (m : Maze) (target mazeType : Nat) (sched : Nat → Nat) : Bool :=
  match m.mFloodType with
  | .MANHATTAN_FLOOD => manhattanPopsLowest m target mazeType sched
  | .WEIGHTED_FLOOD => weightedPopsLowest m target mazeType sched
  | .RUNLENGTH_FLOOD => runLengthPopsLowest m target mazeType sched
  | .DIRECTION_FLOOD => directionPopsLowest m target mazeType sched

/-- Modelled from the spec: the queues of the two floods of
`testForSolution()` hand out a pending item of lowest cost in every
iteration. -/
def testForSolutionPopsLowest (m : Maze) (sched1 sched2 : Nat → Nat) : Bool :=
  let r1 := flood m (goal m) CLOSED_MAZE sched1
  let m1 := { r1.1 with mPathCostClosed := r1.2 }
  floodPopsLowest m (goal m) CLOSED_MAZE sched1 &&
    floodPopsLowest m1 (goal m1) OPEN_MAZE sched2

/-- What the loop of `directionFlood` keeps true in addition when the queue
hands out a pending cell of lowest cost: no cell costs more than one above a
pending cell, and a cell that is no longer pending is relaxed. -/
structure DirectionLowInv (m : Maze) (mazeType : Nat)
    (st : ((Nat → Nat) × (Nat → Nat)) × List Nat) : Prop where
  near : ∀ a, a ∈ st.2 → ∀ c, c < numCells m → st.1.2 c ≠ INVALID_DIRECTION →
    st.1.1 c ≤ st.1.1 a + 1
  relaxed : ∀ c, c < numCells m → st.1.2 c ≠ INVALID_DIRECTION → c ∉ st.2 →
    ∀ d, d < 4 → hasExit m c d mazeType = true →
      st.1.1 (neighbour m c d) ≤ st.1.1 c + 1

/-- The lowest-first part of the invariant while the cell `x`, popped with
cost `kx`, is being visited. -/
structure DirectionLowVisitInv (m : Maze) (mazeType x kx : Nat)
    (st : ((Nat → Nat) × (Nat → Nat)) × List Nat) : Prop where
  nearx : ∀ c, c < numCells m → st.1.2 c ≠ INVALID_DIRECTION → st.1.1 c ≤ kx + 1
  fromx : ∀ a, a ∈ st.2 → kx ≤ st.1.1 a
  relaxed : ∀ c, c < numCells m → st.1.2 c ≠ INVALID_DIRECTION → c ∉ st.2 → c ≠ x →
    ∀ d, d < 4 → hasExit m c d mazeType = true →
      st.1.1 (neighbour m c d) ≤ st.1.1 c + 1

/-- The cost arrays left by all runs of the loop of `weightedFlood(target,
mazeType)` in which the queue hands out a pending cell of lowest cost in every
iteration. -/
def weightedLowestCosts (m : Maze) (target mazeType : Nat) : List (Nat → Nat) :=
  let m1 := initialiseFloodCosts m target
  (lowestRuns (weightedVisit m1 mazeType) (fun s c => s.1 c) floodFuel
    ((m1.mCost, m1.mDirection), [target])).map (fun r => r.1.1)

/-- The cost arrays left by all runs of the loop of `runLengthFlood(target,
mazeType)` in which the queue hands out a pending record of lowest cost in
every iteration. -/
def runLengthLowestCosts (m : Maze) (target mazeType : Nat) : List (Nat → Nat) :=
  let m1 := initialiseFloodCosts m target
  (lowestRuns (runLengthVisit m1 mazeType) (fun _ info => info.cost) floodFuel
    (seedQueue m1 (m1.mCost, []) target (orthoCostTable.getD 1 0))).map (fun r => r.1)

/-! ## Concrete maze states with consistent beliefs -/

/-- A 16-wide maze after reset and five mutually consistent observations
around the top right corner, with the weighted flood selected: cells 236,
238, 239 and 252 are seen, cell 221 is seen walled in; the walls between the
cells 253, 254, 255 and between 237 and 253 are unseen. -/
def weightedDetourMaze : Maze :=
  setFloodType (updateAll (resetToEmptyMaze (blank 16))
    [(236, 14), (238, 10), (239, 9), (252, 15), (221, 15)]) FloodType.WEIGHTED_FLOOD

/-- A 16-wide maze after reset and six mutually consistent observations
around the bottom right corner, with the run-length flood of the constructor:
cells 209, 211, 224 and 227 are seen, cells 194 and 244 are seen walled in. -/
def runLengthDetourMaze : Maze :=
  updateAll (resetToEmptyMaze (blank 16))
    [(209, 12), (211, 9), (224, 14), (227, 7), (194, 15), (244, 15)]

/-- The queue order that hands out, in iteration `t`, the pending item at
position `positions[t]` (counted from the oldest), and the oldest pending item
once the list is used up. -/
def orderOf (positions : List Nat) : Nat → Nat := fun t => positions.getD t 0

/-- A 16-wide maze after reset and twelve mutually consistent observations
in the bottom left corner, with the weighted flood selected and the goal at
cell 51: cells 2, 4, 19, 20, 34, 49 and 51 are seen, cells 37, 53, 64, 66 and
68 are seen walled in; the east wall of cell 1 is one of the unseen walls. -/
def weightedSolvedMaze : Maze :=
  setFloodType (setGoal (updateAll (resetToEmptyMaze (blank 16))
    [(2, 8), (4, 13), (19, 1), (20, 7), (34, 12), (49, 10), (51, 10),
     (37, 15), (64, 15), (66, 15), (53, 15), (68, 15)]) 51) FloodType.WEIGHTED_FLOOD

/-- A 16-wide maze after reset and nine mutually consistent observations in
the bottom left corner, with the run-length flood of the constructor and the
goal at cell 50: cells 3, 16, 17, 48, 49, 50 and 51 are seen, cells 20 and 36
are seen walled in; the north wall of cell 34 is one of the unseen walls. -/
def runLengthSolvedMaze : Maze :=
  setGoal (updateAll (resetToEmptyMaze (blank 16))
    [(3, 15), (16, 12), (17, 3), (48, 6), (49, 10), (50, 10), (51, 3),
     (20, 15), (36, 15)]) 50

/-! ## Bit lemmas -/

theorem and_one_shiftLeft_beq_zero (x k : Nat) :
    ((x &&& (1 <<< k)) == 0) = !x.testBit k := by
  rw [Nat.one_shiftLeft]
  cases h : x.testBit k
  · have : x &&& 2 ^ k = 0 := by
      apply Nat.eq_of_testBit_eq
      intro i
      rw [Nat.testBit_and, Nat.testBit_two_pow, Nat.zero_testBit]
      by_cases hi : k = i
      · subst hi; simp [h]
      · simp [hi]
    simp [this]
  · have : x &&& 2 ^ k ≠ 0 := by
      intro h0
      have := congrArg (fun y => y.testBit k) h0
      simp [Nat.testBit_and, Nat.testBit_two_pow, h] at this
    simp [this]

theorem hasExit_eq (m : Maze) (c d mt : Nat) :
    hasExit m c d mt = !wallBit m.m_walls c (d + mt) := by
  unfold hasExit wallBit
  exact and_one_shiftLeft_beq_zero _ _

theorem hasOpenExit_eq (m : Maze) (c d : Nat) :
    hasOpenExit m c d = !wallBit m.m_walls c d := by
  unfold hasOpenExit; rw [hasExit_eq]; rfl

theorem hasClosedExit_eq (m : Maze) (c d : Nat) :
    hasClosedExit m c d = !wallBit m.m_walls c (d + 4) := by
  unfold hasClosedExit; rw [hasExit_eq]; rfl

theorem testBit_255 (k : Nat) : Nat.testBit 255 k = decide (k < 8) := by
  have : (255 : Nat) = 2 ^ 8 - 1 := by norm_num
  rw [this, Nat.testBit_two_pow_sub_one]

theorem testBit_orByte (x b k : Nat) :
    ((x ||| (1 <<< b)) % 256).testBit k = (decide (k < 8) && (x.testBit k || (k == b))) := by
  have : (256 : Nat) = 2 ^ 8 := by norm_num
  rw [this, Nat.testBit_mod_two_pow, Nat.testBit_or, Nat.one_shiftLeft, Nat.testBit_two_pow]
  by_cases h : b = k
  · subst h; simp
  · have h' : (k == b) = false := by
      rw [beq_eq_false_iff_ne]; exact fun e => h e.symm
    simp [h, h']

theorem testBit_andNotByte (x b k : Nat) (hb : b < 8) :
    (x &&& (0xff ^^^ (1 <<< b))).testBit k
      = (decide (k < 8) && x.testBit k && !(k == b)) := by
  rw [Nat.testBit_and, Nat.testBit_xor, testBit_255, Nat.one_shiftLeft, Nat.testBit_two_pow]
  by_cases h2 : b = k
  · subst h2; simp [hb]
  · have h' : (k == b) = false := by
      rw [beq_eq_false_iff_ne]; exact fun e => h2 e.symm
    by_cases h1 : k < 8 <;> cases x.testBit k <;> simp [h1, h2, h']

theorem wallBit_orWall (a : Nat → Nat) (c b j k : Nat) :
    wallBit (orWall a c b) j k =
      bif j == c then (decide (k < 8) && (wallBit a j k || (k == b))) else wallBit a j k := by
  unfold wallBit orWall setAt
  by_cases h : j = c
  · subst h; simp only [if_true, beq_self_eq_true, cond_true]; exact testBit_orByte _ _ _
  · have h' : (j == c) = false := by rw [beq_eq_false_iff_ne]; exact h
    simp [h, h']

theorem wallBit_andNotWall (a : Nat → Nat) (c b j k : Nat) (hb : b < 8) :
    wallBit (andNotWall a c b) j k =
      bif j == c then (decide (k < 8) && wallBit a j k && !(k == b)) else wallBit a j k := by
  unfold wallBit andNotWall setAt
  by_cases h : j = c
  · subst h; simp only [if_true, beq_self_eq_true, cond_true]; exact testBit_andNotByte _ _ _ hb
  · have h' : (j == c) = false := by rw [beq_eq_false_iff_ne]; exact h
    simp [h, h']

theorem walls_ext {a b : Nat → Nat} (h : ∀ j k, wallBit a j k = wallBit b j k) : a = b := by
  funext j
  exact Nat.eq_of_testBit_eq (h j)

/-! ## Topology lemmas -/

theorem opposite_lt (d : Nat) : opposite d < 4 := by
  unfold opposite behind; omega

theorem opposite_opposite (d : Nat) (hd : d < 4) : opposite (opposite d) = d := by
  unfold opposite behind; omega

theorem numCells_eq (m : Maze) (h : m.mWidth ≤ 255) : numCells m = m.mWidth * m.mWidth := by
  unfold numCells
  apply Nat.mod_eq_of_lt
  have : m.mWidth * m.mWidth ≤ 255 * 255 := Nat.mul_le_mul h h
  omega

theorem width_le_numCells (m : Maze) (h0 : 0 < m.mWidth) (h : m.mWidth ≤ 255) :
    m.mWidth ≤ numCells m := by
  rw [numCells_eq m h]
  exact Nat.le_mul_of_pos_left _ h0

theorem mod_step_back (c a n : Nat) (hc : c < n) (ha : a ≤ n) :
    ((c + a) % n + n - a) % n = c := by
  by_cases h : c + a < n
  · rw [Nat.mod_eq_of_lt h]
    have : c + a + n - a = c + n := by omega
    rw [this, Nat.add_mod_right, Nat.mod_eq_of_lt hc]
  · have h1 : (c + a) % n = c + a - n := by
      rw [Nat.mod_eq_sub_mod (by omega)]
      exact Nat.mod_eq_of_lt (by omega)
    rw [h1]
    have : c + a - n + n - a = c := by omega
    rw [this, Nat.mod_eq_of_lt hc]

theorem mod_step_forth (c a n : Nat) (hc : c < n) (ha : a ≤ n) :
    ((c + n - a) % n + a) % n = c := by
  by_cases h : a ≤ c
  · have h1 : (c + n - a) % n = c - a := by
      have : c + n - a = (c - a) + n := by omega
      rw [this, Nat.add_mod_right]
      exact Nat.mod_eq_of_lt (by omega)
    rw [h1]
    have : c - a + a = c := by omega
    rw [this, Nat.mod_eq_of_lt hc]
  · have h1 : (c + n - a) % n = c + n - a := Nat.mod_eq_of_lt (by omega)
    rw [h1]
    have : c + n - a + a = c + n := by omega
    rw [this, Nat.add_mod_right, Nat.mod_eq_of_lt hc]

/-- The grid is usable: a positive width whose square fits `uint16_t`. -/
theorem neighbour_lt (m : Maze) (c d : Nat) (hn : 0 < numCells m) (hd : d < 4) :
    neighbour m c d < numCells m := by
  interval_cases d <;> simp only [neighbour, cellNorth, cellEast, cellSouth, cellWest] <;>
    exact Nat.mod_lt _ hn

theorem neighbour_neighbour (m : Maze) (c d : Nat) (hw : m.mWidth ≤ 255)
    (hc : c < numCells m) (hd : d < 4) :
    neighbour m (neighbour m c d) (opposite d) = c := by
  have hn : 0 < numCells m := by omega
  have hw0 : 0 < m.mWidth := by
    rcases Nat.eq_zero_or_pos m.mWidth with h | h
    · simp [numCells, h] at hn
    · exact h
  have hle := width_le_numCells m hw0 hw
  interval_cases d <;>
    simp only [neighbour, cellNorth, cellEast, cellSouth, cellWest, opposite, behind, width]
  · exact mod_step_back c 1 _ hc hn
  · exact mod_step_back c _ _ hc hle
  · exact mod_step_forth c 1 _ hc hn
  · exact mod_step_forth c _ _ hc hle

theorem neighbour_inj (m : Maze) (c c' d : Nat) (hw : m.mWidth ≤ 255)
    (hc : c < numCells m) (hc' : c' < numCells m) (hd : d < 4)
    (h : neighbour m c d = neighbour m c' d) : c = c' := by
  have h1 := neighbour_neighbour m c d hw hc hd
  have h2 := neighbour_neighbour m c' d hw hc' hd
  rw [h] at h1
  rw [← h1, h2]

/-! ## Effects of the wall mutators -/

theorem WallEffect.lt8 {a a' : Nat → Nat} {T : Nat → Bool} {S C : Nat → Nat → Bool}
    (h : WallEffect a a' T S C) (hm : MaskOK T S C) (j k : Nat) (hk : k < 8) :
    wallBit a' j k = ((wallBit a j k || S j k) && !C j k) := by
  rw [h j k]
  by_cases hT : T j = true
  · simp [hT, hk]
  · have hS : S j k = false := by
      cases hs : S j k
      · rfl
      · exact absurd (hm.1 j k hs).1 hT
    have hC : C j k = false := by
      cases hc : C j k
      · rfl
      · exact absurd (hm.2 j k hc).1 hT
    simp [hT, hS, hC]

theorem WallEffect.comp {a a' a'' : Nat → Nat} {T T' : Nat → Bool} {S C S' C' : Nat → Nat → Bool}
    (h : WallEffect a a' T S C) (h' : WallEffect a' a'' T' S' C')
    (hm : MaskOK T S C) (hm' : MaskOK T' S' C') :
    WallEffect a a'' (fun j => T j || T' j) (fun j k => S j k || S' j k)
      (fun j k => C j k || C' j k) := by
  intro j k
  rw [h' j k, h j k]
  have hS : S j k = true → T j = true ∧ k < 4 := hm.1 j k
  have hC : C j k = true → T j = true ∧ 4 ≤ k ∧ k < 8 := hm.2 j k
  have hS' : S' j k = true → T' j = true ∧ k < 4 := hm'.1 j k
  have hC' : C' j k = true → T' j = true ∧ 4 ≤ k ∧ k < 8 := hm'.2 j k
  cases hT : T j <;> cases hT' : T' j <;> cases hs : S j k <;> cases hc : C j k <;>
    cases hs' : S' j k <;> cases hc' : C' j k <;>
    simp_all <;> omega

theorem MaskOK.join {T T' : Nat → Bool} {S C S' C' : Nat → Nat → Bool}
    (hm : MaskOK T S C) (hm' : MaskOK T' S' C') :
    MaskOK (fun j => T j || T' j) (fun j k => S j k || S' j k) (fun j k => C j k || C' j k) := by
  constructor
  · intro j k h
    simp only [Bool.or_eq_true] at h ⊢
    rcases h with h | h
    · exact ⟨Or.inl (hm.1 j k h).1, (hm.1 j k h).2⟩
    · exact ⟨Or.inr (hm'.1 j k h).1, (hm'.1 j k h).2⟩
  · intro j k h
    simp only [Bool.or_eq_true] at h ⊢
    rcases h with h | h
    · exact ⟨Or.inl (hm.2 j k h).1, (hm.2 j k h).2⟩
    · exact ⟨Or.inr (hm'.2 j k h).1, (hm'.2 j k h).2⟩

theorem WallEffect.idem {a a' a'' : Nat → Nat} {T : Nat → Bool} {S C : Nat → Nat → Bool}
    (h : WallEffect a a' T S C) (h' : WallEffect a' a'' T S C) (hm : MaskOK T S C) :
    a'' = a' := by
  apply walls_ext
  intro j k
  rw [h' j k]
  have e := h j k
  have hS : S j k = true → T j = true ∧ k < 4 := hm.1 j k
  have hC : C j k = true → T j = true ∧ 4 ≤ k ∧ k < 8 := hm.2 j k
  cases hT : T j <;> cases hs : S j k <;> cases hc : C j k <;> simp_all

theorem neighbour_congr (m m' : Maze) (h : m'.mWidth = m.mWidth) (c d : Nat) :
    neighbour m' c d = neighbour m c d := by
  unfold neighbour cellNorth cellEast cellSouth cellWest numCells width
  rw [h]

theorem setWallPresent_mWidth (m : Maze) (c d : Nat) : (setWallPresent m c d).mWidth = m.mWidth := by
  unfold setWallPresent; split <;> rfl

theorem setWallAbsent_mWidth (m : Maze) (c d : Nat) : (setWallAbsent m c d).mWidth = m.mWidth := by
  unfold setWallAbsent; split <;> rfl

theorem setWallPresent_m_walls (m : Maze) (c d : Nat) (hd : d < 4) :
    (setWallPresent m c d).m_walls
      = orWall (orWall m.m_walls c d) (neighbour m c d) (opposite d) := by
  interval_cases d <;> rfl

theorem setWallAbsent_m_walls (m : Maze) (c d : Nat) (hd : d < 4) :
    (setWallAbsent m c d).m_walls
      = andNotWall (andNotWall m.m_walls c (d + 4)) (neighbour m c d) (opposite d + 4) := by
  interval_cases d <;> rfl

theorem maskOK_present (m : Maze) (c d : Nat) (hd : d < 4) :
    MaskOK (touchedBy m c d) (sideMask m c d 0) noMask := by
  constructor
  · intro j k h
    have := opposite_lt d
    simp only [sideMask, touchedBy, Bool.or_eq_true, Bool.and_eq_true, beq_iff_eq] at h ⊢
    rcases h with ⟨h1, h2⟩ | ⟨h1, h2⟩
    · exact ⟨Or.inl h1, by omega⟩
    · exact ⟨Or.inr h1, by omega⟩
  · intro j k h; simp [noMask] at h

theorem maskOK_absent (m : Maze) (c d : Nat) (hd : d < 4) :
    MaskOK (touchedBy m c d) noMask (sideMask m c d 4) := by
  constructor
  · intro j k h; simp [noMask] at h
  · intro j k h
    have := opposite_lt d
    simp only [sideMask, touchedBy, Bool.or_eq_true, Bool.and_eq_true, beq_iff_eq] at h ⊢
    rcases h with ⟨h1, h2⟩ | ⟨h1, h2⟩
    · exact ⟨Or.inl h1, by omega⟩
    · exact ⟨Or.inr h1, by omega⟩

theorem setWallPresent_effect (m : Maze) (c d : Nat) (hd : d < 4) :
    WallEffect m.m_walls (setWallPresent m c d).m_walls
      (touchedBy m c d) (sideMask m c d 0) noMask := by
  intro j k
  rw [setWallPresent_m_walls m c d hd, wallBit_orWall, wallBit_orWall]
  simp only [touchedBy, sideMask, noMask]
  simp only [Nat.add_zero]
  generalize (j == c) = p1
  generalize (j == neighbour m c d) = p2
  generalize (k == d) = q1
  generalize (k == opposite d) = q2
  generalize decide (k < 8) = r
  generalize wallBit m.m_walls j k = w
  cases p1 <;> cases p2 <;> cases q1 <;> cases q2 <;> cases r <;> cases w <;> rfl

theorem setWallAbsent_effect (m : Maze) (c d : Nat) (hd : d < 4) :
    WallEffect m.m_walls (setWallAbsent m c d).m_walls
      (touchedBy m c d) noMask (sideMask m c d 4) := by
  intro j k
  have ho := opposite_lt d
  rw [setWallAbsent_m_walls m c d hd, wallBit_andNotWall _ _ _ _ _ (by omega),
    wallBit_andNotWall _ _ _ _ _ (by omega)]
  simp only [touchedBy, sideMask, noMask]
  generalize (j == c) = p1
  generalize (j == neighbour m c d) = p2
  generalize (k == d + 4) = q1
  generalize (k == opposite d + 4) = q2
  generalize decide (k < 8) = r
  generalize wallBit m.m_walls j k = w
  cases p1 <;> cases p2 <;> cases q1 <;> cases q2 <;> cases r <;> cases w <;> rfl

theorem setWallFromBit_mWidth (m : Maze) (c w mask d : Nat) :
    (setWallFromBit m c w mask d).mWidth = m.mWidth := by
  unfold setWallFromBit
  split
  · exact setWallPresent_mWidth _ _ _
  · exact setWallAbsent_mWidth _ _ _

theorem maskOK_fromBit (m : Maze) (c w mask d : Nat) (hd : d < 4) :
    MaskOK (touchedBy m c d) (fromBitS m c w mask d) (fromBitC m c w mask d) := by
  unfold fromBitS fromBitC
  split
  · exact maskOK_present m c d hd
  · exact maskOK_absent m c d hd

theorem setWallFromBit_effect (m : Maze) (c w mask d : Nat) (hd : d < 4) :
    WallEffect m.m_walls (setWallFromBit m c w mask d).m_walls
      (touchedBy m c d) (fromBitS m c w mask d) (fromBitC m c w mask d) := by
  unfold fromBitS fromBitC setWallFromBit
  split
  · exact setWallPresent_effect m c d hd
  · exact setWallAbsent_effect m c d hd

theorem touchedBy_congr (m m' : Maze) (h : m'.mWidth = m.mWidth) (c d : Nat) :
    touchedBy m' c d = touchedBy m c d := by
  funext j; simp only [touchedBy, neighbour_congr m m' h]

theorem sideMask_congr (m m' : Maze) (h : m'.mWidth = m.mWidth) (c d off : Nat) :
    sideMask m' c d off = sideMask m c d off := by
  funext j k; simp only [sideMask, neighbour_congr m m' h]

theorem fromBitS_congr (m m' : Maze) (h : m'.mWidth = m.mWidth) (c w mask d : Nat) :
    fromBitS m' c w mask d = fromBitS m c w mask d := by
  unfold fromBitS; rw [sideMask_congr m m' h]

theorem fromBitC_congr (m m' : Maze) (h : m'.mWidth = m.mWidth) (c w mask d : Nat) :
    fromBitC m' c w mask d = fromBitC m c w mask d := by
  unfold fromBitC; rw [sideMask_congr m m' h]

theorem updT_congr (m m' : Maze) (h : m'.mWidth = m.mWidth) (c : Nat) :
    updT m' c = updT m c := by
  funext j; simp only [updT, touchedBy_congr m m' h]

theorem updS_congr (m m' : Maze) (h : m'.mWidth = m.mWidth) (c w : Nat) :
    updS m' c w = updS m c w := by
  funext j k; simp only [updS, fromBitS_congr m m' h]

theorem updC_congr (m m' : Maze) (h : m'.mWidth = m.mWidth) (c w : Nat) :
    updC m' c w = updC m c w := by
  funext j k; simp only [updC, fromBitC_congr m m' h]

theorem updateMap_mWidth (m : Maze) (c w : Nat) : (updateMap m c w).mWidth = m.mWidth := by
  simp only [updateMap, setWallFromBit_mWidth]

theorem maskOK_upd (m : Maze) (c w : Nat) : MaskOK (updT m c) (updS m c w) (updC m c w) :=
  (((maskOK_fromBit m c w 1 0 (by omega)).join (maskOK_fromBit m c w 2 1 (by omega))).join
    (maskOK_fromBit m c w 4 2 (by omega))).join (maskOK_fromBit m c w 8 3 (by omega))

theorem updateMap_effect (m : Maze) (c w : Nat) :
    WallEffect m.m_walls (updateMap m c w).m_walls (updT m c) (updS m c w) (updC m c w) := by
  have e1 := setWallFromBit_effect m c w WALL_NORTH NORTH (by decide)
  have k1 := maskOK_fromBit m c w WALL_NORTH NORTH (by decide)
  set m1 := setWallFromBit m c w WALL_NORTH NORTH with hm1
  have w1 : m1.mWidth = m.mWidth := setWallFromBit_mWidth _ _ _ _ _
  have e2 := setWallFromBit_effect m1 c w WALL_EAST EAST (by decide)
  have k2 := maskOK_fromBit m1 c w WALL_EAST EAST (by decide)
  set m2 := setWallFromBit m1 c w WALL_EAST EAST with hm2
  have w2 : m2.mWidth = m.mWidth := (setWallFromBit_mWidth _ _ _ _ _).trans w1
  have e3 := setWallFromBit_effect m2 c w WALL_SOUTH SOUTH (by decide)
  have k3 := maskOK_fromBit m2 c w WALL_SOUTH SOUTH (by decide)
  set m3 := setWallFromBit m2 c w WALL_SOUTH SOUTH with hm3
  have w3 : m3.mWidth = m.mWidth := (setWallFromBit_mWidth _ _ _ _ _).trans w2
  have e4 := setWallFromBit_effect m3 c w WALL_WEST WEST (by decide)
  have k4 := maskOK_fromBit m3 c w WALL_WEST WEST (by decide)
  rw [touchedBy_congr m m1 w1, fromBitS_congr m m1 w1, fromBitC_congr m m1 w1] at e2 k2
  rw [touchedBy_congr m m2 w2, fromBitS_congr m m2 w2, fromBitC_congr m m2 w2] at e3 k3
  rw [touchedBy_congr m m3 w3, fromBitS_congr m m3 w3, fromBitC_congr m m3 w3] at e4 k4
  have e12 := e1.comp e2 k1 k2
  have e123 := e12.comp e3 (k1.join k2) k3
  exact e123.comp e4 ((k1.join k2).join k3) k4

/-! ## Every mutator call has a well-formed effect -/

/-- A mutator call changes the wall bytes by setting optimistic bits and
clearing pessimistic bits only. -/
theorem Mutation.effect (m : Maze) (op : Mutation) :
    ∃ T S C, MaskOK T S C ∧ WallEffect m.m_walls (op.apply m).m_walls T S C := by
  have triv : WallEffect m.m_walls m.m_walls (fun _ => false) noMask noMask := by
    intro j k; simp
  have trivOK : MaskOK (fun _ => false) noMask noMask := by
    constructor <;> intro j k h <;> simp [noMask] at h
  cases op with
  | present c d =>
    by_cases hd : d < 4
    · exact ⟨_, _, _, maskOK_present m c d hd, setWallPresent_effect m c d hd⟩
    · refine ⟨_, _, _, trivOK, ?_⟩
      have : setWallPresent m c d = m := by
        unfold setWallPresent
        split <;> first | omega | rfl
      simp only [Mutation.apply, this]; exact triv
  | absent c d =>
    by_cases hd : d < 4
    · exact ⟨_, _, _, maskOK_absent m c d hd, setWallAbsent_effect m c d hd⟩
    · refine ⟨_, _, _, trivOK, ?_⟩
      have : setWallAbsent m c d = m := by
        unfold setWallAbsent
        split <;> first | omega | rfl
      simp only [Mutation.apply, this]; exact triv
  | update c w => exact ⟨_, _, _, maskOK_upd m c w, updateMap_effect m c w⟩

theorem Mutation.apply_mWidth (m : Maze) (op : Mutation) : (op.apply m).mWidth = m.mWidth := by
  cases op with
  | present c d => exact setWallPresent_mWidth m c d
  | absent c d => exact setWallAbsent_mWidth m c d
  | update c w => exact updateMap_mWidth m c w

theorem applyAll_mWidth (m : Maze) (ops : List Mutation) : (applyAll m ops).mWidth = m.mWidth := by
  induction ops generalizing m with
  | nil => rfl
  | cons op ops ih =>
    simp only [applyAll, List.foldl_cons] at ih ⊢
    rw [ih, Mutation.apply_mWidth]

theorem numCells_congr (m m' : Maze) (h : m'.mWidth = m.mWidth) : numCells m' = numCells m := by
  unfold numCells; rw [h]

/-! ## Symmetric masks -/

theorem maskSym_side (m : Maze) (c d off : Nat) (hw : m.mWidth ≤ 255)
    (hc : c < numCells m) (hd : d < 4) (hoff : off = 0 ∨ off = 4) :
    MaskSym m (sideMask m c d off) := by
  intro j hj e he off' hoff'
  have hn : 0 < numCells m := by omega
  have hoe : opposite e = (e + 2) % 4 := by unfold opposite behind; omega
  have hod : opposite d = (d + 2) % 4 := by unfold opposite behind; omega
  rw [Bool.eq_iff_iff]
  simp only [sideMask, Bool.or_eq_true, Bool.and_eq_true, beq_iff_eq]
  constructor
  · rintro (⟨h1, h2⟩ | ⟨h1, h2⟩)
    · have e1 : e = d := by omega
      subst e1; subst h1
      exact Or.inr ⟨rfl, by omega⟩
    · have e1 : e = opposite d := by omega
      subst e1; subst h1
      refine Or.inl ⟨neighbour_neighbour m c d hw hc hd, ?_⟩
      rw [opposite_opposite d hd]; omega
  · rintro (⟨h1, h2⟩ | ⟨h1, h2⟩)
    · have e1 : d = opposite e := by omega
      refine Or.inr ⟨?_, by omega⟩
      rw [← h1, e1]
      exact (neighbour_neighbour m j e hw hj he).symm
    · have e1 : e = d := by omega
      subst e1
      exact Or.inl ⟨neighbour_inj m j c e hw hj hc he h1, by omega⟩

theorem maskSym_none (m : Maze) : MaskSym m noMask := by
  intro j _ e _ off _; rfl

theorem MaskSym.both {m : Maze} {M M' : Nat → Nat → Bool} (h : MaskSym m M) (h' : MaskSym m M') :
    MaskSym m (fun j k => M j k || M' j k) := by
  intro j hj e he off hoff
  simp only [h j hj e he off hoff, h' j hj e he off hoff]

theorem maskSym_fromBitS (m : Maze) (c w mask d : Nat) (hw : m.mWidth ≤ 255)
    (hc : c < numCells m) (hd : d < 4) : MaskSym m (fromBitS m c w mask d) := by
  unfold fromBitS
  split
  · exact maskSym_side m c d 0 hw hc hd (Or.inl rfl)
  · exact maskSym_none m

theorem maskSym_fromBitC (m : Maze) (c w mask d : Nat) (hw : m.mWidth ≤ 255)
    (hc : c < numCells m) (hd : d < 4) : MaskSym m (fromBitC m c w mask d) := by
  unfold fromBitC
  split
  · exact maskSym_none m
  · exact maskSym_side m c d 4 hw hc hd (Or.inr rfl)

theorem maskSym_updS (m : Maze) (c w : Nat) (hw : m.mWidth ≤ 255) (hc : c < numCells m) :
    MaskSym m (updS m c w) :=
  (((maskSym_fromBitS m c w 1 0 hw hc (by omega)).both
    (maskSym_fromBitS m c w 2 1 hw hc (by omega))).both
    (maskSym_fromBitS m c w 4 2 hw hc (by omega))).both
    (maskSym_fromBitS m c w 8 3 hw hc (by omega))

theorem maskSym_updC (m : Maze) (c w : Nat) (hw : m.mWidth ≤ 255) (hc : c < numCells m) :
    MaskSym m (updC m c w) :=
  (((maskSym_fromBitC m c w 1 0 hw hc (by omega)).both
    (maskSym_fromBitC m c w 2 1 hw hc (by omega))).both
    (maskSym_fromBitC m c w 4 2 hw hc (by omega))).both
    (maskSym_fromBitC m c w 8 3 hw hc (by omega))

/-! ## Wall symmetry is preserved -/

theorem wallSym_of_effect (m m' : Maze) {T : Nat → Bool} {S C : Nat → Nat → Bool}
    (hw : m'.mWidth = m.mWidth) (h : WallEffect m.m_walls m'.m_walls T S C)
    (hm : MaskOK T S C) (hS : MaskSym m S) (hC : MaskSym m C) (hsym : WallSym m) :
    WallSym m' := by
  intro j hj d hd off hoff
  rw [numCells_congr m m' hw] at hj
  rw [neighbour_congr m m' hw]
  have ho := opposite_lt d
  rw [h.lt8 hm j (d + off) (by omega), h.lt8 hm _ (opposite d + off) (by omega),
    hsym j hj d hd off hoff, hS j hj d hd off hoff, hC j hj d hd off hoff]

theorem wallSym_congr (m m' : Maze) (hw : m'.mWidth = m.mWidth) (ha : m'.m_walls = m.m_walls)
    (hsym : WallSym m) : WallSym m' := by
  intro j hj d hd off hoff
  rw [numCells_congr m m' hw] at hj
  rw [neighbour_congr m m' hw, ha]
  exact hsym j hj d hd off hoff

theorem setWallPresent_wallSym (m : Maze) (c d : Nat) (hw : m.mWidth ≤ 255)
    (hc : c < numCells m) (hd : d < 4) (hsym : WallSym m) : WallSym (setWallPresent m c d) :=
  wallSym_of_effect m _ (setWallPresent_mWidth m c d) (setWallPresent_effect m c d hd)
    (maskOK_present m c d hd) (maskSym_side m c d 0 hw hc hd (Or.inl rfl)) (maskSym_none m) hsym

theorem setWallAbsent_wallSym (m : Maze) (c d : Nat) (hw : m.mWidth ≤ 255)
    (hc : c < numCells m) (hd : d < 4) (hsym : WallSym m) : WallSym (setWallAbsent m c d) :=
  wallSym_of_effect m _ (setWallAbsent_mWidth m c d) (setWallAbsent_effect m c d hd)
    (maskOK_absent m c d hd) (maskSym_none m) (maskSym_side m c d 4 hw hc hd (Or.inr rfl)) hsym

theorem updateMap_wallSym (m : Maze) (c w : Nat) (hw : m.mWidth ≤ 255)
    (hc : c < numCells m) (hsym : WallSym m) : WallSym (updateMap m c w) :=
  wallSym_of_effect m _ (updateMap_mWidth m c w) (updateMap_effect m c w)
    (maskOK_upd m c w) (maskSym_updS m c w hw hc) (maskSym_updC m c w hw hc) hsym

theorem Mutation.apply_wallSym (m : Maze) (op : Mutation) (hw : m.mWidth ≤ 255)
    (hr : op.InRange (numCells m)) (hsym : WallSym m) : WallSym (op.apply m) := by
  cases op with
  | present c d => exact setWallPresent_wallSym m c d hw hr.1 hr.2 hsym
  | absent c d => exact setWallAbsent_wallSym m c d hw hr.1 hr.2 hsym
  | update c w => exact updateMap_wallSym m c w hw hr hsym

theorem applyAll_wallSym (m : Maze) (ops : List Mutation) (hw : m.mWidth ≤ 255)
    (hr : ∀ op ∈ ops, op.InRange (numCells m)) (hsym : WallSym m) :
    WallSym (applyAll m ops) := by
  induction ops generalizing m with
  | nil => exact hsym
  | cons op ops ih =>
    simp only [applyAll, List.foldl_cons]
    have hw' := Mutation.apply_mWidth m op
    apply ih (op.apply m) (by omega)
    · intro o ho
      rw [numCells_congr m _ hw']
      exact hr o (List.mem_cons_of_mem _ ho)
    · exact Mutation.apply_wallSym m op hw (hr op (List.mem_cons_self _ _)) hsym

theorem foldl_preserves {α β : Type} (P : α → Prop) (f : α → β → α) (l : List β) (a : α)
    (h : ∀ x b, b ∈ l → P x → P (f x b)) (ha : P a) : P (l.foldl f a) := by
  induction l generalizing a with
  | nil => exact ha
  | cons b l ih =>
    simp only [List.foldl_cons]
    apply ih
    · intro x b' hb' hx; exact h x b' (List.mem_cons_of_mem _ hb') hx
    · exact h a b (List.mem_cons_self _ _) ha

theorem clearData_mWidth (m : Maze) : (clearData m).mWidth = m.mWidth := rfl

theorem clearData_wallSym (m : Maze) (hw : m.mWidth ≤ 32) : WallSym (clearData m) := by
  intro j hj d hd off hoff
  have hwc : (clearData m).mWidth ≤ 255 := by rw [clearData_mWidth]; omega
  have hn : numCells (clearData m) ≤ 1024 := by
    rw [numCells_eq _ hwc, clearData_mWidth]
    have := Nat.mul_le_mul hw hw
    omega
  have hnb := neighbour_lt (clearData m) j d (by omega) hd
  have h1 : (clearData m).m_walls j = 0xf0 := by
    simp only [clearData, clearGoalArea]; rw [if_pos (by omega)]
  have h2 : (clearData m).m_walls (neighbour (clearData m) j d) = 0xf0 := by
    simp only [clearData, clearGoalArea]
    rw [if_pos]
    have := hnb; simp only [clearData, clearGoalArea] at this hn; omega
  unfold wallBit
  rw [h1, h2]
  rcases hoff with rfl | rfl <;> interval_cases d <;> decide

/-! ## The freshly reset maze -/

theorem addToGoalAreaXY_mWidth (m : Maze) (x y : Nat) : (addToGoalAreaXY m x y).mWidth = m.mWidth := rfl

theorem addToGoalAreaXY_m_walls (m : Maze) (x y : Nat) :
    (addToGoalAreaXY m x y).m_walls = m.m_walls := rfl

theorem resetBorderStep_mWidth (m : Maze) (i : Nat) : (resetBorderStep m i).mWidth = m.mWidth := by
  simp only [resetBorderStep, setWallPresent_mWidth]

theorem numCells_of_width {m : Maze} {w : Nat} (h : m.mWidth = w) (hw : w = 16 ∨ w = 32) :
    numCells m = w * w := by
  unfold numCells
  rw [h]
  rcases hw with rfl | rfl <;> rfl

theorem resetBorderStep_wallSym (m : Maze) (i w : Nat) (hm : m.mWidth = w)
    (hw : w = 16 ∨ w = 32) (hi : i < w) (hsym : WallSym m) :
    WallSym (resetBorderStep m i) := by
  have hn := numCells_of_width hm hw
  have h255 : ∀ m' : Maze, m'.mWidth = w → m'.mWidth ≤ 255 := by
    intro m' h; rcases hw with rfl | rfl <;> omega
  have hnc : ∀ m' : Maze, m'.mWidth = w → numCells m' = w * w :=
    fun m' h => numCells_of_width h hw
  unfold resetBorderStep
  simp only [width, setWallPresent_mWidth, hm]
  have s1 := setWallPresent_wallSym m i WEST (h255 m hm)
    (by rw [hn]; rcases hw with rfl | rfl <;> omega) (by decide) hsym
  have w1 : (setWallPresent m i WEST).mWidth = w := by rw [setWallPresent_mWidth, hm]
  have s2 := setWallPresent_wallSym _ ((w * (w - 1) + i) % 65536) EAST (h255 _ w1)
    (by rw [hnc _ w1]; rcases hw with rfl | rfl <;> omega) (by decide) s1
  have w2 : (setWallPresent (setWallPresent m i WEST) ((w * (w - 1) + i) % 65536) EAST).mWidth
      = w := by rw [setWallPresent_mWidth, w1]
  have s3 := setWallPresent_wallSym _ ((i * w) % 65536) SOUTH (h255 _ w2)
    (by rw [hnc _ w2]; rcases hw with rfl | rfl <;> omega) (by decide) s2
  have w3 : (setWallPresent (setWallPresent (setWallPresent m i WEST)
      ((w * (w - 1) + i) % 65536) EAST) ((i * w) % 65536) SOUTH).mWidth = w := by
    rw [setWallPresent_mWidth, w2]
  exact setWallPresent_wallSym _ ((w * i + w - 1) % 65536) NORTH (h255 _ w3)
    (by rw [hnc _ w3]; rcases hw with rfl | rfl <;> omega) (by decide) s3

theorem resetToEmptyMaze_mWidth (m : Maze) : (resetToEmptyMaze m).mWidth = m.mWidth := by
  have h : ((List.range (width m)).foldl resetBorderStep (clearData m)).mWidth = m.mWidth :=
    foldl_preserves (fun x => x.mWidth = m.mWidth) resetBorderStep _ (clearData m)
      (fun x b _ hx => by show (resetBorderStep x b).mWidth = m.mWidth; rw [resetBorderStep_mWidth]; exact hx) rfl
  unfold resetToEmptyMaze
  simp only []
  split <;>
    simp only [addToGoalAreaXY_mWidth, setWallAbsent_mWidth, setWallPresent_mWidth, h]

theorem resetToEmptyMaze_wallSym (m : Maze) (hw : m.mWidth = 16 ∨ m.mWidth = 32) :
    WallSym (resetToEmptyMaze m) := by
  have key : WallSym ((List.range (width m)).foldl resetBorderStep (clearData m)) ∧
      ((List.range (width m)).foldl resetBorderStep (clearData m)).mWidth = m.mWidth := by
    apply foldl_preserves (fun x => WallSym x ∧ x.mWidth = m.mWidth) resetBorderStep
    · intro x i hi hx
      exact ⟨resetBorderStep_wallSym x i m.mWidth hx.2 hw (by simpa [width] using hi) hx.1,
        by rw [resetBorderStep_mWidth]; exact hx.2⟩
    · exact ⟨clearData_wallSym m (by rcases hw with h | h <;> omega), rfl⟩
  obtain ⟨k1, k2⟩ := key
  have h255 : ∀ m' : Maze, m'.mWidth = m.mWidth → m'.mWidth ≤ 255 := by
    intro m' h; rcases hw with h' | h' <;> omega
  have hpos : ∀ m' : Maze, m'.mWidth = m.mWidth → 0 < numCells m' := by
    intro m' h
    rw [numCells_of_width h hw]
    rcases hw with h' | h' <;> rw [h'] <;> decide
  have s1 := setWallPresent_wallSym _ 0 EAST (h255 _ k2) (hpos _ k2) (by decide) k1
  have w1 := (setWallPresent_mWidth
    ((List.range (width m)).foldl resetBorderStep (clearData m)) 0 EAST).trans k2
  have s2 := setWallAbsent_wallSym _ 0 NORTH (h255 _ w1) (hpos _ w1) (by decide) s1
  unfold resetToEmptyMaze
  simp only []
  split <;> exact wallSym_congr _ _ rfl rfl s2

/-! ## Reading symmetry through the exit queries -/

theorem wallSym_exits (m : Maze) (hsym : WallSym m) (c d : Nat) (hc : c < numCells m)
    (hd : d < 4) :
    hasOpenExit m c d = hasOpenExit m (neighbour m c d) (opposite d) ∧
    hasClosedExit m c d = hasClosedExit m (neighbour m c d) (opposite d) := by
  have h0 := hsym c hc d hd 0 (Or.inl rfl)
  have h4 := hsym c hc d hd 4 (Or.inr rfl)
  simp only [Nat.add_zero] at h0
  simp only [hasOpenExit_eq, hasClosedExit_eq, h0, h4, and_self]

theorem applyAll_reset_wallSym (m0 : Maze) (hw : m0.mWidth = 16 ∨ m0.mWidth = 32)
    (ops : List Mutation) (hops : ∀ op ∈ ops, op.InRange (numCells m0)) :
    WallSym (applyAll (resetToEmptyMaze m0) ops) := by
  have hwr := resetToEmptyMaze_mWidth m0
  apply applyAll_wallSym
  · rcases hw with h | h <;> omega
  · intro op hop
    rw [numCells_congr m0 _ hwr]
    exact hops op hop
  · exact resetToEmptyMaze_wallSym m0 hw

/-! ## Loading from file data -/

theorem copyCellFromFileData_mWidth (m : Maze) (c w : Nat) :
    (copyCellFromFileData m c w).mWidth = m.mWidth := by
  unfold copyCellFromFileData
  simp only []
  split <;> simp only [addToGoalArea, setWallFromBit_mWidth]

theorem copyCellFromFileData_m_walls (m : Maze) (c w : Nat) :
    (copyCellFromFileData m c w).m_walls = (updateMap m c w).m_walls := by
  unfold copyCellFromFileData
  simp only []
  split <;> rfl

theorem copyCellFromFileData_wallSym (m : Maze) (c w : Nat) (hw : m.mWidth ≤ 255)
    (hc : c < numCells m) (hsym : WallSym m) : WallSym (copyCellFromFileData m c w) :=
  wallSym_congr (updateMap m c w) _
    ((copyCellFromFileData_mWidth m c w).trans (updateMap_mWidth m c w).symm)
    (copyCellFromFileData_m_walls m c w) (updateMap_wallSym m c w hw hc hsym)

theorem copyMazeFromFileData_wallSym (m : Maze) (wallData : Option (List Nat)) (cellCount : Nat) :
    WallSym (copyMazeFromFileData m wallData cellCount) := by
  unfold copyMazeFromFileData
  simp only []
  generalize hm2 : (if cellCount = 1024 then setWidth (clearData m) 32
    else setWidth (clearData m) 16) = m2
  have hw2 : m2.mWidth ≤ 32 := by
    rw [← hm2]; split <;> simp [setWidth, clearData, clearGoalArea]
  have hs2 : WallSym m2 := by
    rw [← hm2]; split <;> exact clearData_wallSym _ (by simp)
  cases wallData with
  | none => exact hs2
  | some data =>
    simp only []
    have key := foldl_preserves (fun x => WallSym x ∧ x.mWidth = m2.mWidth)
      (fun acc cell => copyCellFromFileData acc cell (data.getD cell 0 % 256))
      (List.range (numCells m2)) m2
      (by
        intro x c hc hx
        refine ⟨copyCellFromFileData_wallSym x c _ (by omega) ?_ hx.1, ?_⟩
        · rw [numCells_congr m2 x hx.2]; simpa using hc
        · rw [copyCellFromFileData_mWidth]; exact hx.2)
      ⟨hs2, rfl⟩
    exact key.1

theorem copyMazeFromFileData_mWidth (m : Maze) (wallData : Option (List Nat)) (cellCount : Nat) :
    (copyMazeFromFileData m wallData cellCount).mWidth = if cellCount = 1024 then 32 else 16 := by
  unfold copyMazeFromFileData
  simp only []
  generalize hm2 : (if cellCount = 1024 then setWidth (clearData m) 32
    else setWidth (clearData m) 16) = m2
  have hw2 : m2.mWidth = if cellCount = 1024 then 32 else 16 := by
    rw [← hm2]; split <;> simp [setWidth, clearData, clearGoalArea]
  cases wallData with
  | none => exact hw2
  | some data =>
    simp only []
    rw [← hw2]
    exact foldl_preserves (fun x => x.mWidth = m2.mWidth)
      (fun acc cell => copyCellFromFileData acc cell (data.getD cell 0 % 256))
      (List.range (numCells m2)) m2
      (fun x c _ hx => by show (copyCellFromFileData x c _).mWidth = m2.mWidth; rw [copyCellFromFileData_mWidth]; exact hx) rfl

/-! ## Optimistic walls are never removed, pessimistic exits never blocked -/

theorem openMono_of_effect {a a' : Nat → Nat} {T : Nat → Bool} {S C : Nat → Nat → Bool}
    (h : WallEffect a a' T S C) (hm : MaskOK T S C) : OpenMono a a' := by
  intro j k hk hb
  rw [h.lt8 hm j k (by omega), hb]
  have : C j k = false := by
    cases hc : C j k
    · rfl
    · have := (hm.2 j k hc).2.1; omega
  simp [this]

theorem closedMono_of_effect {a a' : Nat → Nat} {T : Nat → Bool} {S C : Nat → Nat → Bool}
    (h : WallEffect a a' T S C) (hm : MaskOK T S C) : ClosedMono a a' := by
  intro j k hk hk8 hb
  rw [h.lt8 hm j k hk8, hb]
  have : S j k = false := by
    cases hs : S j k
    · rfl
    · have := (hm.1 j k hs).2; omega
  simp [this]

theorem OpenMono.same (a : Nat → Nat) : OpenMono a a := fun _ _ _ h => h

theorem OpenMono.andThen {a b c : Nat → Nat} (h1 : OpenMono a b) (h2 : OpenMono b c) :
    OpenMono a c := fun j k hk h => h2 j k hk (h1 j k hk h)

theorem ClosedMono.sameClosed (a : Nat → Nat) : ClosedMono a a := fun _ _ _ _ h => h

theorem ClosedMono.andThenClosed {a b c : Nat → Nat} (h1 : ClosedMono a b) (h2 : ClosedMono b c) :
    ClosedMono a c := fun j k hk hk8 h => h2 j k hk hk8 (h1 j k hk hk8 h)

theorem Mutation.openMono (m : Maze) (op : Mutation) : OpenMono m.m_walls (op.apply m).m_walls := by
  obtain ⟨T, S, C, hm, he⟩ := Mutation.effect m op
  exact openMono_of_effect he hm

theorem Mutation.closedMono (m : Maze) (op : Mutation) :
    ClosedMono m.m_walls (op.apply m).m_walls := by
  obtain ⟨T, S, C, hm, he⟩ := Mutation.effect m op
  exact closedMono_of_effect he hm

theorem setWallPresent_openMono (m : Maze) (c d : Nat) :
    OpenMono m.m_walls (setWallPresent m c d).m_walls :=
  Mutation.openMono m (.present c d)

theorem setWallAbsent_openMono (m : Maze) (c d : Nat) :
    OpenMono m.m_walls (setWallAbsent m c d).m_walls :=
  Mutation.openMono m (.absent c d)

theorem applyAll_openMono (m : Maze) (ops : List Mutation) :
    OpenMono m.m_walls (applyAll m ops).m_walls := by
  induction ops generalizing m with
  | nil => exact OpenMono.same _
  | cons op ops ih =>
    simp only [applyAll, List.foldl_cons]
    exact (Mutation.openMono m op).andThen (ih (op.apply m))

theorem applyAll_closedMono (m : Maze) (ops : List Mutation) :
    ClosedMono m.m_walls (applyAll m ops).m_walls := by
  induction ops generalizing m with
  | nil => exact ClosedMono.sameClosed _
  | cons op ops ih =>
    simp only [applyAll, List.foldl_cons]
    exact (Mutation.closedMono m op).andThenClosed (ih (op.apply m))

theorem setWallPresent_sets (m : Maze) (c d : Nat) (hd : d < 4) :
    wallBit (setWallPresent m c d).m_walls c d = true := by
  rw [(setWallPresent_effect m c d hd).lt8 (maskOK_present m c d hd) c d (by omega)]
  simp [sideMask, noMask]

theorem setWallAbsent_clears (m : Maze) (c d : Nat) (hd : d < 4) :
    wallBit (setWallAbsent m c d).m_walls c (d + 4) = false := by
  rw [(setWallAbsent_effect m c d hd).lt8 (maskOK_absent m c d hd) c (d + 4) (by omega)]
  simp [sideMask, noMask]

/-! ## The border written by `resetToEmptyMaze` -/

theorem resetBorderStep_openMono (m : Maze) (i : Nat) :
    OpenMono m.m_walls (resetBorderStep m i).m_walls := by
  unfold resetBorderStep
  exact (((setWallPresent_openMono _ _ _).andThen (setWallPresent_openMono _ _ _)).andThen
    (setWallPresent_openMono _ _ _)).andThen (setWallPresent_openMono _ _ _)

theorem BorderAt.mono {w : Nat} {a a' : Nat → Nat} {i : Nat} (h : BorderAt w a i)
    (hm : OpenMono a a') : BorderAt w a' i :=
  ⟨hm _ _ (by omega) h.1, hm _ _ (by omega) h.2.1, hm _ _ (by omega) h.2.2.1,
    hm _ _ (by omega) h.2.2.2⟩

theorem resetBorderStep_sets (m : Maze) (i w : Nat) (hm : m.mWidth = w) :
    BorderAt w (resetBorderStep m i).m_walls i := by
  unfold resetBorderStep
  simp only [width, setWallPresent_mWidth, hm]
  refine ⟨?_, ?_, ?_, ?_⟩
  · exact (((setWallPresent_openMono _ _ _).andThen (setWallPresent_openMono _ _ _)).andThen
      (setWallPresent_openMono _ _ _)) _ _ (by omega) (setWallPresent_sets m i 3 (by omega))
  · exact ((setWallPresent_openMono _ _ _).andThen (setWallPresent_openMono _ _ _)) _ _
      (by omega) (setWallPresent_sets _ _ 1 (by omega))
  · exact (setWallPresent_openMono _ _ _) _ _ (by omega) (setWallPresent_sets _ _ 2 (by omega))
  · exact setWallPresent_sets _ _ 0 (by omega)

theorem foldl_border (w : Nat) (l : List Nat) (m : Maze) (hm : m.mWidth = w) :
    (∀ i, BorderAt w m.m_walls i → BorderAt w (l.foldl resetBorderStep m).m_walls i) ∧
    (∀ i ∈ l, BorderAt w (l.foldl resetBorderStep m).m_walls i) := by
  induction l generalizing m with
  | nil => exact ⟨fun _ h => h, fun _ h => by simp at h⟩
  | cons b l ih =>
    have hw' : (resetBorderStep m b).mWidth = w := by rw [resetBorderStep_mWidth, hm]
    obtain ⟨ih1, ih2⟩ := ih (resetBorderStep m b) hw'
    simp only [List.foldl_cons]
    refine ⟨fun i h => ih1 i (h.mono (resetBorderStep_openMono m b)), ?_⟩
    intro i hi
    rcases List.mem_cons.mp hi with rfl | hi
    · exact ih1 _ (resetBorderStep_sets m _ w hm)
    · exact ih2 i hi

theorem resetToEmptyMaze_border (m : Maze) (i : Nat) (hi : i < m.mWidth) :
    BorderAt m.mWidth (resetToEmptyMaze m).m_walls i := by
  have h1 := (foldl_border m.mWidth (List.range (width m)) (clearData m) rfl).2 i
    (by simpa [width] using hi)
  have h2 := (h1.mono (setWallPresent_openMono _ 0 EAST)).mono
    (setWallAbsent_openMono _ 0 NORTH)
  unfold resetToEmptyMaze
  simp only []
  split <;> exact h2

/-! ## `updateMap` changes the wall bytes only -/

theorem setWallPresent_eq (m : Maze) (c d : Nat) :
    setWallPresent m c d = { m with m_walls := (setWallPresent m c d).m_walls } := by
  unfold setWallPresent; split <;> rfl

theorem setWallAbsent_eq (m : Maze) (c d : Nat) :
    setWallAbsent m c d = { m with m_walls := (setWallAbsent m c d).m_walls } := by
  unfold setWallAbsent; split <;> rfl

theorem setWallFromBit_eq (m : Maze) (c w mask d : Nat) :
    setWallFromBit m c w mask d = { m with m_walls := (setWallFromBit m c w mask d).m_walls } := by
  unfold setWallFromBit
  split
  · exact setWallPresent_eq m c d
  · exact setWallAbsent_eq m c d

theorem updateMap_eq (m : Maze) (c w : Nat) :
    updateMap m c w = { m with m_walls := (updateMap m c w).m_walls } := by
  unfold updateMap
  simp only []
  rw [setWallFromBit_eq (setWallFromBit (setWallFromBit (setWallFromBit m c w WALL_NORTH NORTH)
    c w WALL_EAST EAST) c w WALL_SOUTH SOUTH) c w WALL_WEST WEST]
  rw [setWallFromBit_eq (setWallFromBit (setWallFromBit m c w WALL_NORTH NORTH)
    c w WALL_EAST EAST) c w WALL_SOUTH SOUTH]
  rw [setWallFromBit_eq (setWallFromBit m c w WALL_NORTH NORTH) c w WALL_EAST EAST]
  rw [setWallFromBit_eq m c w WALL_NORTH NORTH]

theorem updateMap_twice_walls (m : Maze) (c w : Nat) :
    (updateMap (updateMap m c w) c w).m_walls = (updateMap m c w).m_walls := by
  have e1 := updateMap_effect m c w
  have e2 := updateMap_effect (updateMap m c w) c w
  have hw := updateMap_mWidth m c w
  rw [updT_congr m _ hw, updS_congr m _ hw, updC_congr m _ hw] at e2
  exact e1.idem e2 (maskOK_upd m c w)

/-! ## The queue -/

theorem takeAt_eq_none {ι : Type} (q : List ι) (i : Nat) : takeAt q i = none ↔ q = [] := by
  unfold takeAt
  cases q with
  | nil => simp
  | cons a l =>
    have h : i % (a :: l).length < (a :: l).length := Nat.mod_lt _ (by simp)
    rw [List.getElem?_eq_getElem h]
    simp

theorem takeAt_some {ι : Type} {q : List ι} {i : Nat} {x : ι} {rest : List ι}
    (h : takeAt q i = some (x, rest)) :
    x ∈ q ∧ rest.length + 1 = q.length ∧ (∀ y, y ∈ rest → y ∈ q) ∧
      (∀ y, y ∈ q → y = x ∨ y ∈ rest) := by
  unfold takeAt at h
  cases hq : q[i % q.length]? with
  | none => rw [hq] at h; simp at h
  | some y =>
    rw [hq] at h
    simp only [Option.some.injEq, Prod.mk.injEq] at h
    obtain ⟨rfl, rfl⟩ := h
    have hlt : i % q.length < q.length := by
      rcases List.getElem?_eq_some_iff.mp hq with ⟨hlt, _⟩
      exact hlt
    refine ⟨List.getElem?_mem hq, ?_, ?_, ?_⟩
    · rw [List.length_eraseIdx_of_lt hlt]; omega
    · intro z hz; exact List.mem_of_mem_eraseIdx hz
    · intro z hz
      by_cases hzy : z = y
      · exact Or.inl hzy
      · right
        rw [List.mem_eraseIdx_iff_getElem?]
        obtain ⟨j, hj⟩ := List.getElem?_of_mem hz
        refine ⟨j, ?_, hj⟩
        intro hji
        rw [hji, hq] at hj
        exact hzy (Option.some.inj hj).symm

theorem runQueue_inv {σ ι : Type} (visit : σ × List ι → ι → σ × List ι) (sched : Nat → Nat)
    (P : σ × List ι → Prop)
    (hstep : ∀ s q i x rest, P (s, q) → takeAt q i = some (x, rest) → P (visit (s, rest) x))
    (fuel t : Nat) (st : σ × List ι) (h : P st) : P (runQueue visit sched fuel t st) := by
  induction fuel generalizing t st with
  | zero => exact h
  | succ fuel ih =>
    unfold runQueue
    cases hq : takeAt st.2 (sched t) with
    | none => exact h
    | some p =>
      obtain ⟨x, rest⟩ := p
      exact ih (t + 1) _ (hstep st.1 st.2 (sched t) x rest h hq)

theorem runQueue_done {σ ι : Type} (visit : σ × List ι → ι → σ × List ι) (sched : Nat → Nat)
    (P : σ × List ι → Prop) (μ : σ × List ι → Nat)
    (hstep : ∀ s q i x rest, P (s, q) → takeAt q i = some (x, rest) → P (visit (s, rest) x))
    (hdec : ∀ s q i x rest, P (s, q) → takeAt q i = some (x, rest) →
      μ (visit (s, rest) x) < μ (s, q))
    (fuel t : Nat) (st : σ × List ι) (h : P st) (hμ : μ st ≤ fuel) :
    (runQueue visit sched fuel t st).2 = [] := by
  induction fuel generalizing t st with
  | zero =>
    unfold runQueue
    cases hq : takeAt st.2 0 with
    | none => exact (takeAt_eq_none _ _).mp hq
    | some p =>
      obtain ⟨x, rest⟩ := p
      have h1 : μ (visit (st.1, rest) x) < μ st := hdec st.1 st.2 0 x rest h hq
      omega
  | succ fuel ih =>
    unfold runQueue
    cases hq : takeAt st.2 (sched t) with
    | none => exact (takeAt_eq_none _ _).mp hq
    | some p =>
      obtain ⟨x, rest⟩ := p
      have h1 : μ (visit (st.1, rest) x) < μ st := hdec st.1 st.2 (sched t) x rest h hq
      exact ih (t + 1) _ (hstep st.1 st.2 (sched t) x rest h hq) (by omega)

/-! ## Cost sums -/

theorem costSum_setAt_le (n : Nat) (cost : Nat → Nat) (c v : Nat) (hc : c < n) (hv : v < cost c) :
    costSum n (setAt cost c v) + 1 ≤ costSum n cost := by
  unfold costSum
  have hlt : (Finset.range n).sum (setAt cost c v) < (Finset.range n).sum cost := by
    apply Finset.sum_lt_sum
    · intro i _
      unfold setAt
      split
      · next h => subst h; omega
      · exact le_refl _
    · exact ⟨c, Finset.mem_range.mpr hc, by simp [setAt, hv]⟩
  omega

theorem costSum_le (n : Nat) (cost : Nat → Nat) (b : Nat) (h : ∀ c, c < n → cost c ≤ b) :
    costSum n cost ≤ n * b := by
  unfold costSum
  have := Finset.sum_le_card_nsmul (Finset.range n) cost b
    (fun c hc => h c (Finset.mem_range.mp hc))
  simpa using this

/-! ## Manhattan flood: one relaxation -/

theorem Chain.lt {m : Maze} {mt target k c : Nat} (h : Chain m mt target k c)
    (ht : target < numCells m) : c < numCells m := by
  cases h with
  | zero => exact ht
  | step _ hd _ => exact neighbour_lt m _ _ (by omega) hd

theorem manhattanRelax_visitInv (m : Maze) (mt target x : Nat) (cost0 : Nat → Nat)
    (rest : List Nat) (st : (Nat → Nat) × List Nat) (d : Nat)
    (hn : 0 < numCells m) (hd : d < 4)
    (hx : Chain m mt target (cost0 x) x) (hxm : cost0 x < MAX_COST)
    (h : ManhattanVisitInv m mt target x cost0 rest st) :
    ManhattanVisitInv m mt target x cost0 rest
        (manhattanRelax m mt x ((cost0 x + 1) % 65536) st d) ∧
      (∀ c, (manhattanRelax m mt x ((cost0 x + 1) % 65536) st d).1 c ≤ st.1 c) ∧
      (hasExit m x d mt = true →
        (manhattanRelax m mt x ((cost0 x + 1) % 65536) st d).1 (neighbour m x d)
          ≤ cost0 x + 1) := by
  have hnew : (cost0 x + 1) % 65536 = cost0 x + 1 := by
    apply Nat.mod_eq_of_lt; unfold MAX_COST at hxm; omega
  rw [hnew]
  unfold manhattanRelax
  by_cases he : hasExit m x d mt = true
  · simp only [he, if_true]
    by_cases hgt : st.1 (neighbour m x d) > cost0 x + 1
    · simp only [hgt, if_true]
      have hnb := neighbour_lt m x d hn hd
      have hne_t : neighbour m x d ≠ target := by
        intro e; rw [e, h.target0] at hgt; omega
      have hne_x : neighbour m x d ≠ x := by
        intro e; rw [e, h.self] at hgt; omega
      refine ⟨⟨?_, ?_, ?_, ?_, ?_, ?_, ?_, ?_⟩, ?_, ?_⟩
      · simp only [setAt, if_neg (Ne.symm hne_t)]; exact h.target0
      · intro c hc
        simp only [setAt]
        split
        · unfold MAX_COST at hxm ⊢; omega
        · exact h.le_max c hc
      · intro c hc hlt
        simp only [setAt] at hlt ⊢
        split
        · next e => subst e; exact Chain.step hx hd he
        · next e => rw [if_neg e] at hlt; exact h.chain c hc hlt
      · intro c
        simp only [setAt]
        split
        · next e => subst e; have := h.le_old (neighbour m x d); omega
        · exact h.le_old c
      · intro c hc
        simp only [List.mem_append, List.mem_singleton] at hc
        simp only [setAt]
        split
        · next e =>
          subst e
          have := h.le_max _ hnb
          exact ⟨hnb, by omega⟩
        · next e =>
          rcases hc with hc | hc
          · exact h.queued c hc
          · exact absurd hc e
      · intro c hc
        simp only [List.mem_append]
        exact Or.inl (h.grows c hc)
      · intro c hc
        simp only [List.mem_append, List.mem_singleton, not_or] at hc
        simp only [setAt, if_neg hc.2]
        exact h.same c hc.1
      · simp only [setAt, if_neg (Ne.symm hne_x)]; exact h.self
      · intro c
        simp only [setAt]
        split
        · next e => subst e; omega
        · exact le_refl _
      · intro _; simp [setAt]
    · simp only [hgt, if_false]
      exact ⟨h, fun _ => le_refl _, fun _ => by omega⟩
  · rw [if_neg he]
    exact ⟨h, fun _ => le_refl _, fun hh => absurd hh he⟩

theorem manhattanVisit_inv (m : Maze) (mt target : Nat) (cost : Nat → Nat) (q rest : List Nat)
    (i x : Nat) (hn : 0 < numCells m) (h : ManhattanInv m mt target (cost, q))
    (htake : takeAt q i = some (x, rest)) :
    ManhattanInv m mt target (manhattanVisit m mt (cost, rest) x) := by
  obtain ⟨hxq, _, hsub, hsup⟩ := takeAt_some htake
  obtain ⟨hxn, hxm⟩ := h.queued x hxq
  have hxc := h.chain x hxn hxm
  have v0 : ManhattanVisitInv m mt target x cost rest (cost, rest) :=
    ⟨h.target0, h.le_max, h.chain, fun _ => le_refl _,
      fun c hc => h.queued c (hsub c hc), fun _ hc => hc, fun _ _ => rfl, rfl⟩
  unfold manhattanVisit
  simp only [List.foldl_cons, List.foldl_nil]
  have s0 := manhattanRelax_visitInv m mt target x cost rest (cost, rest) 0 hn (by omega) hxc hxm v0
  obtain ⟨v1, l1, r1⟩ := s0
  have s1 := manhattanRelax_visitInv m mt target x cost rest _ 1 hn (by omega) hxc hxm v1
  obtain ⟨v2, l2, r2⟩ := s1
  have s2 := manhattanRelax_visitInv m mt target x cost rest _ 2 hn (by omega) hxc hxm v2
  obtain ⟨v3, l3, r3⟩ := s2
  have s3 := manhattanRelax_visitInv m mt target x cost rest _ 3 hn (by omega) hxc hxm v3
  obtain ⟨v4, l4, r4⟩ := s3
  refine ⟨v4.target0, v4.le_max, v4.chain, ?_, v4.queued⟩
  intro c hc hlt hnq d hd he
  by_cases hcx : c = x
  · subst hcx
    rw [v4.self]
    have hd' : d = 0 ∨ d = 1 ∨ d = 2 ∨ d = 3 := by omega
    rcases hd' with rfl | rfl | rfl | rfl
    · exact le_trans (l4 _) (le_trans (l3 _) (le_trans (l2 _) (r1 he)))
    · exact le_trans (l4 _) (le_trans (l3 _) (r2 he))
    · exact le_trans (l4 _) (r3 he)
    · exact r4 he
  · have hnr : c ∉ rest := fun hh => hnq (v4.grows c hh)
    have hnq0 : c ∉ q := by
      intro hh
      rcases hsup c hh with e | e
      · exact hcx e
      · exact hnr e
    have hsame := v4.same c hnq
    rw [hsame] at hlt ⊢
    exact le_trans (v4.le_old _) (h.relaxed c hc hlt hnq0 d hd he)

/-! ## Manhattan flood: termination -/

theorem manhattanRelax_measure (m : Maze) (mt x newCost : Nat) (st : (Nat → Nat) × List Nat)
    (d : Nat) (hn : 0 < numCells m) (hd : d < 4) :
    costSum (numCells m) (manhattanRelax m mt x newCost st d).1
        + (manhattanRelax m mt x newCost st d).2.length
      ≤ costSum (numCells m) st.1 + st.2.length := by
  unfold manhattanRelax
  split
  · simp only []
    split
    · next hgt =>
      have := costSum_setAt_le (numCells m) st.1 (neighbour m x d) newCost
        (neighbour_lt m x d hn hd) hgt
      simp only [List.length_append, List.length_singleton]
      omega
    · exact le_refl _
  · exact le_refl _

theorem manhattanVisit_measure (m : Maze) (mt x : Nat) (st : (Nat → Nat) × List Nat)
    (hn : 0 < numCells m) :
    costSum (numCells m) (manhattanVisit m mt st x).1 + (manhattanVisit m mt st x).2.length
      ≤ costSum (numCells m) st.1 + st.2.length := by
  unfold manhattanVisit
  simp only [List.foldl_cons, List.foldl_nil]
  exact le_trans (manhattanRelax_measure m mt x _ _ 3 hn (by omega))
    (le_trans (manhattanRelax_measure m mt x _ _ 2 hn (by omega))
      (le_trans (manhattanRelax_measure m mt x _ _ 1 hn (by omega))
        (manhattanRelax_measure m mt x _ _ 0 hn (by omega))))

theorem manhattanInv_init (m : Maze) (mt target : Nat) (ht : target < numCells m) :
    ManhattanInv m mt target ((initialiseFloodCosts m target).mCost, [target]) := by
  refine ⟨?_, ?_, ?_, ?_, ?_⟩
  · simp [initialiseFloodCosts, setAt]
  · intro c hc
    simp only [initialiseFloodCosts, setAt]
    split_ifs <;> simp [MAX_COST]
  · intro c hc hlt
    simp only [initialiseFloodCosts, setAt] at hlt ⊢
    split
    · next e => subst e; exact Chain.zero
    · next e => rw [if_neg e, if_pos hc] at hlt; omega
  · intro c hc hlt hnq
    simp only [initialiseFloodCosts, setAt] at hlt
    simp only [List.mem_singleton] at hnq
    rw [if_neg hnq, if_pos hc] at hlt; omega
  · intro c hc
    simp only [List.mem_singleton] at hc
    subst hc
    exact ⟨ht, by simp [initialiseFloodCosts, setAt, MAX_COST]⟩

theorem manhattanCosts_inv (m : Maze) (mt target : Nat) (sched : Nat → Nat)
    (ht : target < numCells m) :
    ManhattanInv m mt target (manhattanCosts m target mt sched) := by
  unfold manhattanCosts
  apply runQueue_inv (manhattanVisit m mt) sched (ManhattanInv m mt target)
  · intro s q i x rest h htake
    exact manhattanVisit_inv m mt target s q rest i x (by omega) h htake
  · exact manhattanInv_init m mt target ht

theorem manhattanCosts_done (m : Maze) (mt target : Nat) (sched : Nat → Nat)
    (ht : target < numCells m) :
    (manhattanCosts m target mt sched).2 = [] := by
  have hn : 0 < numCells m := by omega
  unfold manhattanCosts
  apply runQueue_done (manhattanVisit m mt) sched (ManhattanInv m mt target)
    (fun st => costSum (numCells m) st.1 + st.2.length)
  · intro s q i x rest h htake
    exact manhattanVisit_inv m mt target s q rest i x hn h htake
  · intro s q i x rest _ htake
    have h1 := manhattanVisit_measure m mt x (s, rest) hn
    have h2 := (takeAt_some htake).2.1
    simp only [] at h1 ⊢
    omega
  · exact manhattanInv_init m mt target ht
  · have h1 := costSum_le (numCells m) (initialiseFloodCosts m target).mCost MAX_COST
      (manhattanInv_init m mt target ht).le_max
    have h2 : numCells m < 65536 := Nat.mod_lt _ (by omega)
    have h3 : numCells m * MAX_COST ≤ 65535 * 65535 :=
      Nat.mul_le_mul (by omega) (le_refl _)
    simp only [List.length_singleton, floodFuel]
    unfold MAX_COST at h1 h3
    omega

/-! ## Manhattan flood: the final costs are the chain distances -/

/-- What holds of the cost array when the queue of `manhattanFlood` is empty. -/
theorem manhattan_final (m : Maze) (mt target : Nat) (sched : Nat → Nat)
    (ht : target < numCells m) :
    (manhattanCosts m target mt sched).1 target = 0 ∧
    (∀ c, c < numCells m → (manhattanCosts m target mt sched).1 c ≤ MAX_COST) ∧
    (∀ c, c < numCells m → (manhattanCosts m target mt sched).1 c < MAX_COST →
      Chain m mt target ((manhattanCosts m target mt sched).1 c) c) ∧
    (∀ c, c < numCells m → (manhattanCosts m target mt sched).1 c < MAX_COST →
      ∀ d, d < 4 → hasExit m c d mt = true →
        (manhattanCosts m target mt sched).1 (neighbour m c d)
          ≤ (manhattanCosts m target mt sched).1 c + 1) := by
  have hinv := manhattanCosts_inv m mt target sched ht
  have hdone := manhattanCosts_done m mt target sched ht
  refine ⟨hinv.target0, hinv.le_max, hinv.chain, ?_⟩
  intro c hc hlt d hd he
  exact hinv.relaxed c hc hlt (by rw [hdone]; simp) d hd he

theorem chain_gapfree (m : Maze) (mt target : Nat) (F : Nat → Nat)
    (ht : target < numCells m) (h0 : F target = 0)
    (hrel : ∀ c, c < numCells m → F c < MAX_COST → ∀ d, d < 4 → hasExit m c d mt = true →
      F (neighbour m c d) ≤ F c + 1)
    (k c : Nat) (hch : Chain m mt target k c) (hk : k < MAX_COST) :
    F c ≤ k ∧ ∀ u, u ≤ F c → ∃ c', c' < numCells m ∧ F c' = u := by
  induction hch with
  | zero =>
    rw [h0]
    exact ⟨Nat.zero_le _, fun u hu => ⟨target, ht, by omega⟩⟩
  | @step k c d hc hd he ih =>
    obtain ⟨ih1, ih2⟩ := ih (by omega)
    have hcn := hc.lt ht
    have hr := hrel c hcn (by omega) d hd he
    refine ⟨by omega, ?_⟩
    intro u hu
    by_cases hle : u ≤ F c
    · exact ih2 u hle
    · exact ⟨neighbour m c d, neighbour_lt m c d (by omega) hd, by omega⟩

theorem finite_cost_lt_numCells (m : Maze) (mt target : Nat) (F : Nat → Nat)
    (ht : target < numCells m) (h0 : F target = 0)
    (hch : ∀ c, c < numCells m → F c < MAX_COST → Chain m mt target (F c) c)
    (hrel : ∀ c, c < numCells m → F c < MAX_COST → ∀ d, d < 4 → hasExit m c d mt = true →
      F (neighbour m c d) ≤ F c + 1)
    (c : Nat) (hc : c < numCells m) (hlt : F c < MAX_COST) : F c < numCells m := by
  obtain ⟨_, hgap⟩ := chain_gapfree m mt target F ht h0 hrel (F c) c (hch c hc hlt) hlt
  choose! g hg using hgap
  have hcard := Finset.card_le_card_of_injOn (s := Finset.range (F c + 1))
    (t := Finset.range (numCells m)) g
    (by
      intro u hu
      simp only [Finset.coe_range, Set.mem_Iio, Finset.mem_range] at hu ⊢
      exact (hg u (by omega)).1)
    (by
      intro u hu v hv huv
      simp only [Finset.coe_range, Set.mem_Iio] at hu hv
      have e1 := (hg u (by omega)).2
      have e2 := (hg v (by omega)).2
      rw [huv] at e1
      omega)
  simp only [Finset.card_range] at hcard
  omega

theorem chain_cost_le (m : Maze) (mt target : Nat) (F : Nat → Nat)
    (hw : m.mWidth ≤ 255)
    (ht : target < numCells m) (h0 : F target = 0)
    (hch : ∀ c, c < numCells m → F c < MAX_COST → Chain m mt target (F c) c)
    (hrel : ∀ c, c < numCells m → F c < MAX_COST → ∀ d, d < 4 → hasExit m c d mt = true →
      F (neighbour m c d) ≤ F c + 1)
    (k c : Nat) (hk : Chain m mt target k c) : F c ≤ k ∧ F c < MAX_COST := by
  have hn : numCells m ≤ 255 * 255 := by
    rw [numCells_eq m hw]; exact Nat.mul_le_mul hw hw
  induction hk with
  | zero => rw [h0]; exact ⟨Nat.le_refl _, by unfold MAX_COST; omega⟩
  | @step k c d hc hd he ih =>
    obtain ⟨ih1, ih2⟩ := ih
    have hcn := hc.lt ht
    have hr := hrel c hcn ih2 d hd he
    have hb := finite_cost_lt_numCells m mt target F ht h0 hch hrel c hcn ih2
    have hnb := neighbour_lt m c d (by omega) hd
    exact ⟨by omega, by unfold MAX_COST; omega⟩

/-- The costs left by the loop of `manhattanFlood` are the lengths of the
shortest chains of exits, and `MAX_COST` where no chain arrives. -/
theorem manhattanCosts_shortest (m : Maze) (mt target : Nat) (sched : Nat → Nat)
    (hw : m.mWidth ≤ 255) (ht : target < numCells m) (c : Nat) (hc : c < numCells m) :
    (Reachable m mt target c →
      Chain m mt target ((manhattanCosts m target mt sched).1 c) c ∧
      ∀ k, Chain m mt target k c → (manhattanCosts m target mt sched).1 c ≤ k) ∧
    (¬ Reachable m mt target c → (manhattanCosts m target mt sched).1 c = MAX_COST) := by
  obtain ⟨h0, hmax, hch, hrel⟩ := manhattan_final m mt target sched ht
  constructor
  · rintro ⟨k, hk⟩
    have h1 := chain_cost_le m mt target _ hw ht h0 hch hrel k c hk
    exact ⟨hch c hc h1.2, fun k' hk' => (chain_cost_le m mt target _ hw ht h0 hch hrel k' c hk').1⟩
  · intro hnr
    by_contra hne
    have hlt : (manhattanCosts m target mt sched).1 c < MAX_COST :=
      lt_of_le_of_ne (hmax c hc) hne
    exact hnr ⟨_, hch c hc hlt⟩

theorem manhattanFlood_mCost (m : Maze) (target mt : Nat) (sched : Nat → Nat) :
    (manhattanFlood m target mt sched).1.mCost = (manhattanCosts m target mt sched).1 := rfl

theorem manhattanFlood_m_walls (m : Maze) (target mt : Nat) (sched : Nat → Nat) :
    (manhattanFlood m target mt sched).1.m_walls = m.m_walls := rfl

/-! ## A target without exits, and run-length records that cannot move -/

theorem chain_stuck (m : Maze) (mt target : Nat)
    (hblocked : ∀ d, d < 4 → hasExit m target d mt = false)
    (k c : Nat) (h : Chain m mt target k c) : c = target := by
  induction h with
  | zero => rfl
  | @step k c d _ hd he ih =>
    rw [ih, hblocked d hd] at he
    exact absurd he (by decide)

theorem runLengthRelax_blocked (m : Maze) (mt : Nat) (info : FloodInfo)
    (st : (Nat → Nat) × List FloodInfo) (d : Nat)
    (h : hasExit m info.cell d mt = false) : runLengthRelax m mt info st d = st := by
  unfold runLengthRelax
  split
  · rfl
  · simp [h]

theorem runLengthVisit_blocked (m : Maze) (mt : Nat) (info : FloodInfo)
    (st : (Nat → Nat) × List FloodInfo)
    (h : ∀ d, d < 4 → hasExit m info.cell d mt = false) : runLengthVisit m mt st info = st := by
  unfold runLengthVisit
  simp only [List.foldl_cons, List.foldl_nil]
  rw [runLengthRelax_blocked m mt info st 0 (h 0 (by omega)),
    runLengthRelax_blocked m mt info st 1 (h 1 (by omega)),
    runLengthRelax_blocked m mt info st 2 (h 2 (by omega)),
    runLengthRelax_blocked m mt info st 3 (h 3 (by omega))]

/-- When no pending record sits in a cell with an exit, the loop of
`runLengthFlood` leaves the seeded costs as they are, whatever the order. -/
theorem runLength_all_blocked (m : Maze) (mt : Nat) (sched : Nat → Nat) (fuel t : Nat)
    (st : (Nat → Nat) × List FloodInfo)
    (h : ∀ info, info ∈ st.2 → ∀ d, d < 4 → hasExit m info.cell d mt = false) :
    (runQueue (runLengthVisit m mt) sched fuel t st).1 = st.1 := by
  have key := runQueue_inv (runLengthVisit m mt) sched
    (fun s => s.1 = st.1 ∧ ∀ info, info ∈ s.2 → info ∈ st.2)
    (by
      intro s q i x rest hP htake
      obtain ⟨hx, _, hsub, _⟩ := takeAt_some htake
      rw [runLengthVisit_blocked m mt x (s, rest) (h x (hP.2 x hx))]
      exact ⟨hP.1, fun info hi => hP.2 info (hsub info hi)⟩)
    fuel t st ⟨rfl, fun _ hi => hi⟩
  exact key.1

/-! ## The floods write below `numCells` only -/

theorem setAt_frame (a : Nat → Nat) (i v c : Nat) (h : c ≠ i) : setAt a i v c = a c := by
  simp [setAt, h]

theorem foldl4_frame {σ α : Type} (f : σ → Nat → σ) (g : σ → α)
    (h : ∀ s d, d < 4 → g (f s d) = g s) (s : σ) : g ([0, 1, 2, 3].foldl f s) = g s := by
  simp only [List.foldl_cons, List.foldl_nil]
  rw [h _ 3 (by omega), h _ 2 (by omega), h _ 1 (by omega), h _ 0 (by omega)]

theorem manhattanRelax_frame (m : Maze) (mt x nc : Nat) (st : (Nat → Nat) × List Nat) (d : Nat)
    (hn : 0 < numCells m) (hd : d < 4) (c : Nat) (hc : numCells m ≤ c) :
    (manhattanRelax m mt x nc st d).1 c = st.1 c := by
  have hnb := neighbour_lt m x d hn hd
  unfold manhattanRelax
  split
  · simp only []
    split
    · exact setAt_frame _ _ _ _ (by omega)
    · rfl
  · rfl

theorem manhattanVisit_frame (m : Maze) (mt x : Nat) (st : (Nat → Nat) × List Nat)
    (hn : 0 < numCells m) (c : Nat) (hc : numCells m ≤ c) :
    (manhattanVisit m mt st x).1 c = st.1 c := by
  unfold manhattanVisit
  exact foldl4_frame _ (fun s => s.1 c)
    (fun s d hd => manhattanRelax_frame m mt x _ s d hn hd c hc) st

theorem weightedRelax_frame (m : Maze) (mt x ch td : Nat)
    (st : ((Nat → Nat) × (Nat → Nat)) × List Nat) (d : Nat)
    (hn : 0 < numCells m) (hd : d < 4) (c : Nat) (hc : numCells m ≤ c) :
    (weightedRelax m mt x ch td st d).1.1 c = st.1.1 c ∧
    (weightedRelax m mt x ch td st d).1.2 c = st.1.2 c := by
  have hnb := neighbour_lt m x d hn hd
  unfold weightedRelax
  simp only []
  split_ifs <;> first
    | exact ⟨rfl, rfl⟩
    | exact ⟨setAt_frame _ _ _ _ (by omega), setAt_frame _ _ _ _ (by omega)⟩

theorem weightedVisit_frame (m : Maze) (mt x : Nat)
    (st : ((Nat → Nat) × (Nat → Nat)) × List Nat)
    (hn : 0 < numCells m) (c : Nat) (hc : numCells m ≤ c) :
    (weightedVisit m mt st x).1.1 c = st.1.1 c ∧ (weightedVisit m mt st x).1.2 c = st.1.2 c := by
  unfold weightedVisit
  exact ⟨foldl4_frame _ (fun s => s.1.1 c)
      (fun s d hd => (weightedRelax_frame m mt x _ _ s d hn hd c hc).1) st,
    foldl4_frame _ (fun s => s.1.2 c)
      (fun s d hd => (weightedRelax_frame m mt x _ _ s d hn hd c hc).2) st⟩

theorem directionRelax_frame (m : Maze) (mt x nc : Nat)
    (st : ((Nat → Nat) × (Nat → Nat)) × List Nat) (d : Nat)
    (hn : 0 < numCells m) (hd : d < 4) (c : Nat) (hc : numCells m ≤ c) :
    (directionRelax m mt x nc st d).1.1 c = st.1.1 c ∧
    (directionRelax m mt x nc st d).1.2 c = st.1.2 c := by
  have hnb := neighbour_lt m x d hn hd
  unfold directionRelax
  simp only []
  split_ifs <;> first
    | exact ⟨rfl, rfl⟩
    | exact ⟨setAt_frame _ _ _ _ (by omega), setAt_frame _ _ _ _ (by omega)⟩

theorem directionVisit_frame (m : Maze) (mt x : Nat)
    (st : ((Nat → Nat) × (Nat → Nat)) × List Nat)
    (hn : 0 < numCells m) (c : Nat) (hc : numCells m ≤ c) :
    (directionVisit m mt st x).1.1 c = st.1.1 c ∧ (directionVisit m mt st x).1.2 c = st.1.2 c := by
  unfold directionVisit
  exact ⟨foldl4_frame _ (fun s => s.1.1 c)
      (fun s d hd => (directionRelax_frame m mt x _ s d hn hd c hc).1) st,
    foldl4_frame _ (fun s => s.1.2 c)
      (fun s d hd => (directionRelax_frame m mt x _ s d hn hd c hc).2) st⟩

theorem runLengthRelax_frame (m : Maze) (mt : Nat) (info : FloodInfo)
    (st : (Nat → Nat) × List FloodInfo) (d : Nat)
    (hn : 0 < numCells m) (hd : d < 4) (c : Nat) (hc : numCells m ≤ c) :
    (runLengthRelax m mt info st d).1 c = st.1 c := by
  have hnb := neighbour_lt m info.cell d hn hd
  unfold runLengthRelax
  simp only []
  split_ifs <;> first
    | rfl
    | exact setAt_frame _ _ _ _ (by omega)

theorem runLengthVisit_frame (m : Maze) (mt : Nat) (info : FloodInfo)
    (st : (Nat → Nat) × List FloodInfo)
    (hn : 0 < numCells m) (c : Nat) (hc : numCells m ≤ c) :
    (runLengthVisit m mt st info).1 c = st.1 c := by
  unfold runLengthVisit
  exact foldl4_frame _ (fun s => s.1 c)
    (fun s d hd => runLengthRelax_frame m mt info s d hn hd c hc) st

theorem seedStep_frame (m : Maze) (g cst : Nat) (st : (Nat → Nat) × List FloodInfo)
    (d : Nat × Nat × Nat) (hn : 0 < numCells m) (hd : d.1 < 4) (c : Nat)
    (hc : numCells m ≤ c) : (seedStep m g cst st d).1 c = st.1 c := by
  have hnb := neighbour_lt m g d.1 hn hd
  unfold seedStep
  split
  · exact setAt_frame _ _ _ _ (by omega)
  · rfl

theorem seedQueue_frame (m : Maze) (g cst : Nat) (st : (Nat → Nat) × List FloodInfo)
    (hn : 0 < numCells m) (c : Nat) (hc : numCells m ≤ c) :
    (seedQueue m st g cst).1 c = st.1 c := by
  unfold seedQueue
  simp only [List.foldl_cons, List.foldl_nil]
  rw [seedStep_frame m g cst _ (WEST, DIR_W, EAST) hn (by decide) c hc,
    seedStep_frame m g cst _ (SOUTH, DIR_S, NORTH) hn (by decide) c hc,
    seedStep_frame m g cst _ (EAST, DIR_E, WEST) hn (by decide) c hc,
    seedStep_frame m g cst _ (NORTH, DIR_N, SOUTH) hn (by decide) c hc]

theorem initialiseFloodCosts_frame (m : Maze) (t c : Nat) (hc : numCells m ≤ c) (hct : c ≠ t) :
    (initialiseFloodCosts m t).mCost c = m.mCost c ∧
    (initialiseFloodCosts m t).mDirection c = m.mDirection c := by
  simp only [initialiseFloodCosts, setAt, if_neg hct, if_neg (not_lt.mpr hc), and_self]

theorem initialiseFloodCosts_numCells (m : Maze) (t : Nat) :
    numCells (initialiseFloodCosts m t) = numCells m := rfl

/-- No flood writes a cost or a direction at or above `numCells`, the target
apart. -/
theorem flood_frame (m : Maze) (t mt : Nat) (sched : Nat → Nat) (hn : 0 < numCells m)
    (c : Nat) (hc : numCells m ≤ c) (hct : c ≠ t) :
    (flood m t mt sched).1.mCost c = m.mCost c ∧
    (flood m t mt sched).1.mDirection c = m.mDirection c := by
  obtain ⟨i1, i2⟩ := initialiseFloodCosts_frame m t c hc hct
  unfold flood
  split
  · -- Manhattan
    have hl : (manhattanCosts m t mt sched).1 c = (initialiseFloodCosts m t).mCost c :=
      runQueue_inv (manhattanVisit m mt) sched
        (fun st => st.1 c = (initialiseFloodCosts m t).mCost c)
        (fun s q i x rest hP _ => by
          show (manhattanVisit m mt (s, rest) x).1 c = _
          rw [manhattanVisit_frame m mt x _ hn c hc]; exact hP)
        floodFuel 0 _ rfl
    constructor
    · show (manhattanCosts m t mt sched).1 c = m.mCost c
      rw [hl, i1]
    · show (if c < numCells m then _ else (initialiseFloodCosts m t).mDirection c) = _
      rw [if_neg (not_lt.mpr hc), i2]
  · -- Weighted
    have hl := runQueue_inv (weightedVisit (initialiseFloodCosts m t) mt) sched
        (fun st => st.1.1 c = (initialiseFloodCosts m t).mCost c ∧
          st.1.2 c = (initialiseFloodCosts m t).mDirection c)
        (fun s q i x rest hP _ => by
          have := weightedVisit_frame (initialiseFloodCosts m t) mt x (s, rest) hn c hc
          exact ⟨this.1.trans hP.1, this.2.trans hP.2⟩)
        floodFuel 0 (((initialiseFloodCosts m t).mCost, (initialiseFloodCosts m t).mDirection),
          [t]) ⟨rfl, rfl⟩
    constructor
    · exact hl.1.trans i1
    · show (if c < numCells m then _ else _) = _
      rw [if_neg (not_lt.mpr hc)]
      exact hl.2.trans i2
  · -- Run length
    have hs := seedQueue_frame (initialiseFloodCosts m t)
      t (orthoCostTable.getD 1 0) ((initialiseFloodCosts m t).mCost, []) hn c hc
    have hl := runQueue_inv (runLengthVisit (initialiseFloodCosts m t) mt) sched
        (fun st => st.1 c = (initialiseFloodCosts m t).mCost c)
        (fun s q i x rest hP _ => by
          show (runLengthVisit (initialiseFloodCosts m t) mt (s, rest) x).1 c = _
          rw [runLengthVisit_frame (initialiseFloodCosts m t) mt x _ hn c hc]; exact hP)
        floodFuel 0 _ hs
    constructor
    · exact hl.trans i1
    · show (if c < numCells m then _ else (initialiseFloodCosts m t).mDirection c) = _
      rw [if_neg (not_lt.mpr hc), i2]
  · -- Direction
    have hl := runQueue_inv (directionVisit (initialiseFloodCosts m t) mt) sched
        (fun st => st.1.1 c = (initialiseFloodCosts m t).mCost c ∧
          st.1.2 c = (initialiseFloodCosts m t).mDirection c)
        (fun s q i x rest hP _ => by
          have := directionVisit_frame (initialiseFloodCosts m t) mt x (s, rest) hn c hc
          exact ⟨this.1.trans hP.1, this.2.trans hP.2⟩)
        floodFuel 0 (((initialiseFloodCosts m t).mCost, (initialiseFloodCosts m t).mDirection),
          [t]) ⟨rfl, rfl⟩
    exact ⟨hl.1.trans i1, hl.2.trans i2⟩

/-! ## A flood reads neither the old costs nor the old directions -/

theorem flood_shape (m : Maze) (t mt : Nat) (sched : Nat → Nat) :
    (flood m t mt sched).1 =
      { m with mCost := (flood m t mt sched).1.mCost,
               mDirection := (flood m t mt sched).1.mDirection } := by
  unfold flood
  split <;> rfl

theorem flood_ret (m : Maze) (t mt : Nat) (sched : Nat → Nat) :
    (flood m t mt sched).2 = (flood m t mt sched).1.mCost 0 := by
  unfold flood
  split <;> rfl

theorem initialiseFloodCosts_indep (m : Maze) (t : Nat) (c' d' : Nat → Nat) (r : Nat)
    (hc : ∀ j, numCells m ≤ j → j ≠ t → c' j = m.mCost j)
    (hd : ∀ j, numCells m ≤ j → j ≠ t → d' j = m.mDirection j) :
    initialiseFloodCosts { m with mCost := c', mDirection := d', mPathCostClosed := r } t
      = { initialiseFloodCosts m t with mPathCostClosed := r } := by
  have e1 : setAt (fun i => if i < numCells m then MAX_COST else c' i) t 0
      = setAt (fun i => if i < numCells m then MAX_COST else m.mCost i) t 0 := by
    funext j
    simp only [setAt]
    split
    · rfl
    · next hj =>
      split
      · rfl
      · next hlt => exact hc j (not_lt.mp hlt) hj
  have e2 : setAt (fun i => if i < numCells m then INVALID_DIRECTION else d' i) t NORTH
      = setAt (fun i => if i < numCells m then INVALID_DIRECTION else m.mDirection i)
          t NORTH := by
    funext j
    simp only [setAt]
    split
    · rfl
    · next hj =>
      split
      · rfl
      · next hlt => exact hd j (not_lt.mp hlt) hj
  unfold initialiseFloodCosts
  show Maze.mk _ _ _ _ _ _ _ _ _ _ = Maze.mk _ _ _ _ _ _ _ _ _ _
  congr 1

theorem manhattanFlood_ret_indep (m : Maze) (t mt : Nat) (sched : Nat → Nat)
    (c' d' : Nat → Nat) (r : Nat)
    (hc : ∀ j, numCells m ≤ j → j ≠ t → c' j = m.mCost j)
    (hd : ∀ j, numCells m ≤ j → j ≠ t → d' j = m.mDirection j) :
    (manhattanFlood { m with mCost := c', mDirection := d', mPathCostClosed := r } t mt sched).2
      = (manhattanFlood m t mt sched).2 := by
  have e := initialiseFloodCosts_indep m t c' d' r hc hd
  show (runQueue (manhattanVisit _ mt) sched floodFuel 0
      ((initialiseFloodCosts _ t).mCost, [t])).1 0 = _
  rw [e]; rfl

theorem weightedFlood_ret_indep (m : Maze) (t mt : Nat) (sched : Nat → Nat)
    (c' d' : Nat → Nat) (r : Nat)
    (hc : ∀ j, numCells m ≤ j → j ≠ t → c' j = m.mCost j)
    (hd : ∀ j, numCells m ≤ j → j ≠ t → d' j = m.mDirection j) :
    (weightedFlood { m with mCost := c', mDirection := d', mPathCostClosed := r } t mt sched).2
      = (weightedFlood m t mt sched).2 := by
  have e := initialiseFloodCosts_indep m t c' d' r hc hd
  show (runQueue (weightedVisit (initialiseFloodCosts _ t) mt) sched floodFuel 0
      (((initialiseFloodCosts _ t).mCost, (initialiseFloodCosts _ t).mDirection), [t])).1.1 0 = _
  rw [e]; rfl

theorem runLengthFlood_ret_indep (m : Maze) (t mt : Nat) (sched : Nat → Nat)
    (c' d' : Nat → Nat) (r : Nat)
    (hc : ∀ j, numCells m ≤ j → j ≠ t → c' j = m.mCost j)
    (hd : ∀ j, numCells m ≤ j → j ≠ t → d' j = m.mDirection j) :
    (runLengthFlood { m with mCost := c', mDirection := d', mPathCostClosed := r } t mt sched).2
      = (runLengthFlood m t mt sched).2 := by
  have e := initialiseFloodCosts_indep m t c' d' r hc hd
  show (runQueue (runLengthVisit (initialiseFloodCosts _ t) mt) sched floodFuel 0
      (seedQueue (initialiseFloodCosts _ t) ((initialiseFloodCosts _ t).mCost, []) t
        (orthoCostTable.getD 1 0))).1 0 = _
  rw [e]; rfl

theorem directionFlood_ret_indep (m : Maze) (t mt : Nat) (sched : Nat → Nat)
    (c' d' : Nat → Nat) (r : Nat)
    (hc : ∀ j, numCells m ≤ j → j ≠ t → c' j = m.mCost j)
    (hd : ∀ j, numCells m ≤ j → j ≠ t → d' j = m.mDirection j) :
    (directionFlood { m with mCost := c', mDirection := d', mPathCostClosed := r } t mt sched).2
      = (directionFlood m t mt sched).2 := by
  have e := initialiseFloodCosts_indep m t c' d' r hc hd
  show (runQueue (directionVisit (initialiseFloodCosts _ t) mt) sched floodFuel 0
      (((initialiseFloodCosts _ t).mCost, (initialiseFloodCosts _ t).mDirection), [t])).1.1 0 = _
  rw [e]; rfl

/-- The value returned by a flood depends on the walls, the width, the flood
type and the corner weight only: stale costs, stale directions and the
recorded path cost do not matter. -/
theorem flood_ret_indep (m : Maze) (t mt : Nat) (sched : Nat → Nat) (c' d' : Nat → Nat)
    (r : Nat)
    (hc : ∀ j, numCells m ≤ j → j ≠ t → c' j = m.mCost j)
    (hd : ∀ j, numCells m ≤ j → j ≠ t → d' j = m.mDirection j) :
    (flood { m with mCost := c', mDirection := d', mPathCostClosed := r } t mt sched).2
      = (flood m t mt sched).2 := by
  unfold flood
  show (match m.mFloodType with
    | .MANHATTAN_FLOOD => manhattanFlood _ t mt sched
    | .WEIGHTED_FLOOD => weightedFlood _ t mt sched
    | .RUNLENGTH_FLOOD => runLengthFlood _ t mt sched
    | .DIRECTION_FLOOD => directionFlood _ t mt sched).2 = _
  cases m.mFloodType
  · exact manhattanFlood_ret_indep m t mt sched c' d' r hc hd
  · exact weightedFlood_ret_indep m t mt sched c' d' r hc hd
  · exact runLengthFlood_ret_indep m t mt sched c' d' r hc hd
  · exact directionFlood_ret_indep m t mt sched c' d' r hc hd

theorem flood_fields (m : Maze) (t mt : Nat) (sched : Nat → Nat) :
    (flood m t mt sched).1.m_walls = m.m_walls ∧
    (flood m t mt sched).1.mWidth = m.mWidth ∧
    (flood m t mt sched).1.goalArea = m.goalArea ∧
    (flood m t mt sched).1.mPathCostOpen = m.mPathCostOpen ∧
    (flood m t mt sched).1.mPathCostClosed = m.mPathCostClosed ∧
    (flood m t mt sched).1.mIsSolved = m.mIsSolved ∧
    (flood m t mt sched).1.mFloodType = m.mFloodType ∧
    (flood m t mt sched).1.mCornerWeight = m.mCornerWeight := by
  unfold flood
  split <;> exact ⟨rfl, rfl, rfl, rfl, rfl, rfl, rfl, rfl⟩

/-- What `testForSolution` computes, in terms of two floods of the state it
is called in. -/
theorem testForSolution_spec (m : Maze) (s1 s2 : Nat → Nat) (hn : 0 < numCells m) :
    (testForSolution m s1 s2).1.mPathCostClosed = (flood m (goal m) CLOSED_MAZE s1).2 ∧
    (testForSolution m s1 s2).1.mPathCostOpen = (flood m (goal m) OPEN_MAZE s2).2 ∧
    (testForSolution m s1 s2).1.mIsSolved = (testForSolution m s1 s2).2 ∧
    (testForSolution m s1 s2).2
      = decide ((flood m (goal m) CLOSED_MAZE s1).2 = (flood m (goal m) OPEN_MAZE s2).2) ∧
    (testForSolution m s1 s2).1.m_walls = m.m_walls ∧
    (testForSolution m s1 s2).1.mWidth = m.mWidth ∧
    (testForSolution m s1 s2).1.goalArea = m.goalArea ∧
    (testForSolution m s1 s2).1.mFloodType = m.mFloodType ∧
    (testForSolution m s1 s2).1.mCornerWeight = m.mCornerWeight := by
  have hsh := flood_shape m (goal m) CLOSED_MAZE s1
  have hfr := flood_frame m (goal m) CLOSED_MAZE s1 hn
  have f1 := flood_fields m (goal m) CLOSED_MAZE s1
  generalize hm1 : ({ (flood m (goal m) CLOSED_MAZE s1).1 with
      mPathCostClosed := (flood m (goal m) CLOSED_MAZE s1).2 } : Maze) = m1
  have hg : goal m1 = goal m := by
    have : m1.goalArea = m.goalArea := by rw [← hm1]; exact f1.2.2.1
    unfold goal; rw [this]
  have key : (flood m1 (goal m) OPEN_MAZE s2).2 = (flood m (goal m) OPEN_MAZE s2).2 := by
    rw [← hm1, hsh]
    exact flood_ret_indep m (goal m) OPEN_MAZE s2 _ _ _
      (fun j hj hjt => (hfr j hj hjt).1) (fun j hj hjt => (hfr j hj hjt).2)
  have f2 := flood_fields m1 (goal m) OPEN_MAZE s2
  have hT1 : (testForSolution m s1 s2).1 =
      { (flood m1 (goal m) OPEN_MAZE s2).1 with
        mPathCostOpen := (flood m1 (goal m) OPEN_MAZE s2).2,
        mIsSolved := decide ((flood m1 (goal m) OPEN_MAZE s2).1.mPathCostClosed
          = (flood m1 (goal m) OPEN_MAZE s2).2) } := by
    unfold testForSolution
    simp only [hm1, hg]
  have hT2 : (testForSolution m s1 s2).2 =
      decide ((flood m1 (goal m) OPEN_MAZE s2).1.mPathCostClosed
          = (flood m1 (goal m) OPEN_MAZE s2).2) := by
    unfold testForSolution
    simp only [hm1, hg]
  have hpc : (flood m1 (goal m) OPEN_MAZE s2).1.mPathCostClosed
      = (flood m (goal m) CLOSED_MAZE s1).2 := by
    rw [f2.2.2.2.2.1, ← hm1]
  rw [hT1, hT2]
  refine ⟨hpc, key, rfl, ?_, ?_, ?_, ?_, ?_, ?_⟩
  · rw [hpc, key]
  · show (flood m1 (goal m) OPEN_MAZE s2).1.m_walls = _
    rw [f2.1, ← hm1]; exact f1.1
  · show (flood m1 (goal m) OPEN_MAZE s2).1.mWidth = _
    rw [f2.2.1, ← hm1]; exact f1.2.1
  · show (flood m1 (goal m) OPEN_MAZE s2).1.goalArea = _
    rw [f2.2.2.1, ← hm1]; exact f1.2.2.1
  · show (flood m1 (goal m) OPEN_MAZE s2).1.mFloodType = _
    rw [f2.2.2.2.2.2.2.1, ← hm1]; exact f1.2.2.2.2.2.2.1
  · show (flood m1 (goal m) OPEN_MAZE s2).1.mCornerWeight = _
    rw [f2.2.2.2.2.2.2.2, ← hm1]; exact f1.2.2.2.2.2.2.2

/-! ## More exits, lower Manhattan costs -/

theorem chain_mono (m m' : Maze) (mt mt' t : Nat) (hw : m'.mWidth = m.mWidth)
    (ht : t < numCells m)
    (hsub : ∀ c d, c < numCells m → d < 4 → hasExit m c d mt = true →
      hasExit m' c d mt' = true)
    (k c : Nat) (h : Chain m mt t k c) : Chain m' mt' t k c := by
  induction h with
  | zero => exact Chain.zero
  | @step k c d hc hd he ih =>
    rw [← neighbour_congr m m' hw]
    exact Chain.step ih hd (hsub c d (hc.lt ht) hd he)

/-- If every exit of `m` under `mt` is an exit of `m'` under `mt'`, the
Manhattan flood of `m'` assigns no cell a higher cost than that of `m`. -/
theorem manhattanCosts_mono (m m' : Maze) (mt mt' t : Nat) (s s' : Nat → Nat)
    (hw255 : m.mWidth ≤ 255) (hw : m'.mWidth = m.mWidth) (ht : t < numCells m)
    (hsub : ∀ c d, c < numCells m → d < 4 → hasExit m c d mt = true →
      hasExit m' c d mt' = true)
    (c : Nat) (hc : c < numCells m) :
    (manhattanCosts m' t mt' s').1 c ≤ (manhattanCosts m t mt s).1 c := by
  have hn' := numCells_congr m m' hw
  have h1 := manhattanCosts_shortest m mt t s hw255 ht c hc
  have h2 := manhattanCosts_shortest m' mt' t s' (by omega) (by omega) c (by omega)
  by_cases hr : Reachable m mt t c
  · obtain ⟨hch, _⟩ := h1.1 hr
    have hch' := chain_mono m m' mt mt' t hw ht hsub _ c hch
    exact (h2.1 ⟨_, hch'⟩).2 _ hch'
  · rw [h1.2 hr]
    exact (manhattan_final m' mt' t s' (by omega)).2.1 c (by omega)

theorem updateAll_mWidth (m : Maze) (obs : List (Nat × Nat)) :
    (updateAll m obs).mWidth = m.mWidth := by
  induction obs generalizing m with
  | nil => rfl
  | cons o obs ih =>
    simp only [updateAll, List.foldl_cons] at ih ⊢
    rw [ih, updateMap_mWidth]

/-- Under consistent beliefs the pessimistic Manhattan flood costs at least
as much as the optimistic one, in every cell. -/
theorem manhattan_closed_ge_open (m : Maze) (t : Nat) (s1 s2 : Nat → Nat)
    (hw : m.mWidth ≤ 255) (ht : t < numCells m) (hcons : Consistent m)
    (c : Nat) (hc : c < numCells m) :
    (manhattanCosts m t OPEN_MAZE s2).1 c ≤ (manhattanCosts m t CLOSED_MAZE s1).1 c :=
  manhattanCosts_mono m m CLOSED_MAZE OPEN_MAZE t s1 s2 hw rfl ht
    (fun a e ha he h => hcons a ha e he h) c hc

theorem setWallPresent_fields (m : Maze) (c d : Nat) :
    (setWallPresent m c d).goalArea = m.goalArea ∧
    (setWallPresent m c d).mFloodType = m.mFloodType := by
  rw [setWallPresent_eq]; exact ⟨rfl, rfl⟩

theorem flood_manhattan (m : Maze) (t mt : Nat) (s : Nat → Nat)
    (h : m.mFloodType = FloodType.MANHATTAN_FLOOD) :
    (flood m t mt s).2 = (manhattanCosts m t mt s).1 0 := by
  unfold flood; rw [h]; rfl

theorem goal_congr (m m' : Maze) (h : m'.goalArea = m.goalArea) : goal m' = goal m := by
  unfold goal; rw [h]

theorem setFloodType_wallSym (m : Maze) (t : FloodType) (h : WallSym m) :
    WallSym (setFloodType m t) := wallSym_congr m _ rfl rfl h

theorem setGoal_wallSym (m : Maze) (g : Nat) (h : WallSym m) : WallSym (setGoal m g) :=
  wallSym_congr m _ rfl rfl h

/-- Solved stays solved at the start cell: under the Manhattan flood, with
symmetric walls and consistent beliefs, marking a still unseen wall present
after a successful `testForSolution` leaves the optimistic cost of cell 0
as it was. -/
theorem manhattan_solved_stable (m : Maze) (s1 s2 s3 : Nat → Nat) (c d : Nat)
    (hw : m.mWidth ≤ 255) (hft : m.mFloodType = FloodType.MANHATTAN_FLOOD)
    (hsym : WallSym m) (hcons : Consistent m) (hg : goal m < numCells m)
    (hc : c < numCells m) (hd : d < 4)
    (hunseen : hasOpenExit m c d = true ∧ hasClosedExit m c d = false)
    (hsolved : (testForSolution m s1 s2).2 = true) :
    (flood (setWallPresent (testForSolution m s1 s2).1 c d)
        (goal (setWallPresent (testForSolution m s1 s2).1 c d)) OPEN_MAZE s3).2
      = openMazeCost (testForSolution m s1 s2).1 := by
  have hn : 0 < numCells m := by omega
  obtain ⟨_, tO, _, tS, tW, tWd, tG, tF, _⟩ := testForSolution_spec m s1 s2 hn
  generalize hT : (testForSolution m s1 s2).1 = T at tO tW tWd tG tF ⊢
  rw [hsolved] at tS
  have hco : (flood m (goal m) CLOSED_MAZE s1).2 = (flood m (goal m) OPEN_MAZE s2).2 :=
    of_decide_eq_true tS.symm
  rw [flood_manhattan m _ _ _ hft, flood_manhattan m _ _ _ hft] at hco
  -- the state after the wall has been added
  have hM_w : (setWallPresent T c d).mWidth = m.mWidth := by
    rw [setWallPresent_mWidth, tWd]
  have hM_g : goal (setWallPresent T c d) = goal m :=
    goal_congr m _ (by rw [(setWallPresent_fields T c d).1, tG])
  have hM_f : (setWallPresent T c d).mFloodType = FloodType.MANHATTAN_FLOOD := by
    rw [(setWallPresent_fields T c d).2, tF, hft]
  have hbits : ∀ a k, k < 8 → wallBit (setWallPresent T c d).m_walls a k
      = ((wallBit m.m_walls a k || sideMask m c d 0 a k) && !noMask a k) := by
    intro a k hk
    have := (setWallPresent_effect T c d hd).lt8 (maskOK_present T c d hd) a k hk
    rw [tW, sideMask_congr m T tWd] at this
    exact this
  show (flood (setWallPresent T c d) (goal (setWallPresent T c d)) OPEN_MAZE s3).2
      = T.mPathCostOpen
  rw [tO, flood_manhattan m _ _ _ hft, flood_manhattan _ _ _ _ hM_f, hM_g]
  apply le_antisymm
  · -- the new optimistic cost is at most the pessimistic cost of before
    rw [← hco]
    apply manhattanCosts_mono m (setWallPresent T c d) CLOSED_MAZE OPEN_MAZE (goal m) s1 s3 hw
      hM_w hg _ 0 hn
    intro a e ha he hex
    have hopen := hcons a ha e he hex
    rw [hasOpenExit_eq] at hopen
    rw [hasExit_eq, hbits a (e + OPEN_MAZE) (by unfold OPEN_MAZE; omega)]
    have hside : sideMask m c d 0 a (e + OPEN_MAZE) = false := by
      cases hs : sideMask m c d 0 a (e + OPEN_MAZE)
      · rfl
      · exfalso
        simp only [sideMask, OPEN_MAZE, Nat.add_zero, Bool.or_eq_true, Bool.and_eq_true,
          beq_iff_eq] at hs
        have hcl : hasClosedExit m a e = true := hex
        rcases hs with ⟨h1, h2⟩ | ⟨h1, h2⟩
        · rw [h1, h2, hunseen.2] at hcl; exact absurd hcl (by decide)
        · rw [h1, h2, ← (wallSym_exits m hsym c d hc hd).2, hunseen.2] at hcl
          exact absurd hcl (by decide)
    have hb : wallBit m.m_walls a (e + OPEN_MAZE) = false := by
      simpa [OPEN_MAZE] using hopen
    simp [hb, hside, noMask]
  · -- and at least the optimistic cost of before
    apply manhattanCosts_mono (setWallPresent T c d) m OPEN_MAZE OPEN_MAZE (goal m) s3 s2
      (by omega) hM_w.symm (by rw [numCells_congr m _ hM_w]; exact hg) _ 0
      (by rw [numCells_congr m _ hM_w]; exact hn)
    intro a e _ he hex
    rw [hasExit_eq] at hex ⊢
    rw [hbits a (e + OPEN_MAZE) (by unfold OPEN_MAZE; omega)] at hex
    cases hb : wallBit m.m_walls a (e + OPEN_MAZE)
    · rfl
    · rw [hb] at hex; simp [noMask] at hex

/-- C1: starting from `resetToEmptyMaze` on a maze of width 16 or 32, after any
sequence of `setWallPresent`, `setWallAbsent` and `updateMap` calls on cells
below `numCells` (cardinal directions), every wall is seen alike from both
sides, under the optimistic and under the pessimistic interpretation. -/
theorem C1_wall_symmetry (m0 : Maze) (hw : m0.mWidth = 16 ∨ m0.mWidth = 32)
    (ops : List Mutation) (hops : ∀ op ∈ ops, op.InRange (numCells m0))
    (C D : Nat) (hC : C < numCells m0) (hD : D < 4) :
    hasOpenExit (applyAll (resetToEmptyMaze m0) ops) C D
        = hasOpenExit (applyAll (resetToEmptyMaze m0) ops)
            (neighbour (applyAll (resetToEmptyMaze m0) ops) C D) (opposite D) ∧
    hasClosedExit (applyAll (resetToEmptyMaze m0) ops) C D
        = hasClosedExit (applyAll (resetToEmptyMaze m0) ops)
            (neighbour (applyAll (resetToEmptyMaze m0) ops) C D) (opposite D) := by
  apply wallSym_exits _ (applyAll_reset_wallSym m0 hw ops hops) C D _ hD
  rw [numCells_congr m0 _ ((applyAll_mWidth _ ops).trans (resetToEmptyMaze_mWidth m0))]
  exact hC

/-- C1 at a concrete run: a 16-wide maze, three mutator calls around cell 17. -/
theorem C1_wall_symmetry_witness :
    hasOpenExit (applyAll (resetToEmptyMaze (blank 16))
        [Mutation.update 17 5, Mutation.absent 17 0, Mutation.present 18 1]) 17 0
      = hasOpenExit (applyAll (resetToEmptyMaze (blank 16))
        [Mutation.update 17 5, Mutation.absent 17 0, Mutation.present 18 1])
        (neighbour (applyAll (resetToEmptyMaze (blank 16))
          [Mutation.update 17 5, Mutation.absent 17 0, Mutation.present 18 1]) 17 0)
        (opposite 0) ∧
    hasClosedExit (applyAll (resetToEmptyMaze (blank 16))
        [Mutation.update 17 5, Mutation.absent 17 0, Mutation.present 18 1]) 17 0
      = hasClosedExit (applyAll (resetToEmptyMaze (blank 16))
        [Mutation.update 17 5, Mutation.absent 17 0, Mutation.present 18 1])
        (neighbour (applyAll (resetToEmptyMaze (blank 16))
          [Mutation.update 17 5, Mutation.absent 17 0, Mutation.present 18 1]) 17 0)
        (opposite 0) :=
  C1_wall_symmetry (blank 16) (Or.inl rfl)
    [Mutation.update 17 5, Mutation.absent 17 0, Mutation.present 18 1]
    (by
      intro op hop
      simp only [List.mem_cons, List.mem_singleton, List.not_mem_nil, or_false] at hop
      rcases hop with rfl | rfl | rfl <;> simp [Mutation.InRange, numCells, blank])
    17 0 (by decide) (by decide)

/-- C2: after `copyMazeFromFileData(data, cellCount)` every wall is seen alike
from both of its sides under both interpretations, whatever the bytes of
`data` say (for `cellCount` 256 and 1024 as for any other value). -/
theorem C2_load_is_legal (m : Maze) (data : List Nat) (cellCount : Nat) (C D : Nat)
    (hC : C < numCells (copyMazeFromFileData m (some data) cellCount)) (hD : D < 4) :
    hasOpenExit (copyMazeFromFileData m (some data) cellCount) C D
        = hasOpenExit (copyMazeFromFileData m (some data) cellCount)
            (neighbour (copyMazeFromFileData m (some data) cellCount) C D) (opposite D) ∧
    hasClosedExit (copyMazeFromFileData m (some data) cellCount) C D
        = hasClosedExit (copyMazeFromFileData m (some data) cellCount)
            (neighbour (copyMazeFromFileData m (some data) cellCount) C D) (opposite D) :=
  wallSym_exits _ (copyMazeFromFileData_wallSym m (some data) cellCount) C D hC hD

/-- C2 at a concrete load: 256 bytes that all claim a north and an east wall
only, so that the two sides of every wall disagree in the data. -/
theorem C2_load_is_legal_witness :
    hasOpenExit (copyMazeFromFileData (blank 32) (some (List.replicate 256 3)) 256) 17 2
        = hasOpenExit (copyMazeFromFileData (blank 32) (some (List.replicate 256 3)) 256)
            (neighbour (copyMazeFromFileData (blank 32) (some (List.replicate 256 3)) 256) 17 2)
            (opposite 2) ∧
    hasClosedExit (copyMazeFromFileData (blank 32) (some (List.replicate 256 3)) 256) 17 2
        = hasClosedExit (copyMazeFromFileData (blank 32) (some (List.replicate 256 3)) 256)
            (neighbour (copyMazeFromFileData (blank 32) (some (List.replicate 256 3)) 256) 17 2)
            (opposite 2) :=
  C2_load_is_legal (blank 32) (List.replicate 256 3) 256 17 2
    (by rw [numCells, copyMazeFromFileData_mWidth]; decide) (by decide)

/-- C9: `updateMap` is idempotent on the whole maze state. -/
theorem C9_updateMap_idempotent (m : Maze) (c w : Nat) :
    updateMap (updateMap m c w) c w = updateMap m c w := by
  rw [updateMap_eq (updateMap m c w) c w, updateMap_twice_walls]

/-- C10: after `resetToEmptyMaze` on a maze of width 16 or 32 every cell of
the outer ring has its outward wall present in the optimistic nibble, and
this survives every later sequence of mutator calls. -/
theorem C10_grid_border (m0 : Maze) (w : Nat) (hm : m0.mWidth = w) (hw : w = 16 ∨ w = 32)
    (ops : List Mutation) (i : Nat) (hi : i < w) :
    hasOpenExit (applyAll (resetToEmptyMaze m0) ops)
        (cellID (applyAll (resetToEmptyMaze m0) ops) 0 i) WEST = false ∧
    hasOpenExit (applyAll (resetToEmptyMaze m0) ops)
        (cellID (applyAll (resetToEmptyMaze m0) ops) (w - 1) i) EAST = false ∧
    hasOpenExit (applyAll (resetToEmptyMaze m0) ops)
        (cellID (applyAll (resetToEmptyMaze m0) ops) i 0) SOUTH = false ∧
    hasOpenExit (applyAll (resetToEmptyMaze m0) ops)
        (cellID (applyAll (resetToEmptyMaze m0) ops) i (w - 1)) NORTH = false := by
  have hb := (resetToEmptyMaze_border m0 i (by omega)).mono
    (applyAll_openMono (resetToEmptyMaze m0) ops)
  have hwid : (applyAll (resetToEmptyMaze m0) ops).mWidth = w :=
    ((applyAll_mWidth _ ops).trans (resetToEmptyMaze_mWidth m0)).trans hm
  rw [hm] at hb
  obtain ⟨b1, b2, b3, b4⟩ := hb
  simp only [hasOpenExit_eq, cellID, hwid, WEST, EAST, SOUTH, NORTH]
  have e1 : (w * 0 + i) % 65536 = i := by rcases hw with rfl | rfl <;> omega
  have e3 : (w * i + 0) % 65536 = (i * w) % 65536 := by rw [Nat.add_zero, Nat.mul_comm]
  have e4 : (w * i + (w - 1)) % 65536 = (w * i + w - 1) % 65536 := by
    rcases hw with rfl | rfl <;> omega
  rw [e1, e3, e4, b1, b2, b3, b4]
  simp

/-- C10 at a concrete run: a 16-wide maze in which the west wall of cell 0 is
then reported absent twice. -/
theorem C10_grid_border_witness :
    hasOpenExit (applyAll (resetToEmptyMaze (blank 16)) [Mutation.absent 0 3, Mutation.update 0 0])
        (cellID (applyAll (resetToEmptyMaze (blank 16))
          [Mutation.absent 0 3, Mutation.update 0 0]) 0 0) WEST = false ∧
    hasOpenExit (applyAll (resetToEmptyMaze (blank 16)) [Mutation.absent 0 3, Mutation.update 0 0])
        (cellID (applyAll (resetToEmptyMaze (blank 16))
          [Mutation.absent 0 3, Mutation.update 0 0]) (16 - 1) 0) EAST = false ∧
    hasOpenExit (applyAll (resetToEmptyMaze (blank 16)) [Mutation.absent 0 3, Mutation.update 0 0])
        (cellID (applyAll (resetToEmptyMaze (blank 16))
          [Mutation.absent 0 3, Mutation.update 0 0]) 0 0) SOUTH = false ∧
    hasOpenExit (applyAll (resetToEmptyMaze (blank 16)) [Mutation.absent 0 3, Mutation.update 0 0])
        (cellID (applyAll (resetToEmptyMaze (blank 16))
          [Mutation.absent 0 3, Mutation.update 0 0]) 0 (16 - 1)) NORTH = false :=
  C10_grid_border (blank 16) 16 rfl (Or.inl rfl) [Mutation.absent 0 3, Mutation.update 0 0] 0
    (by decide)

/-- C3: whatever order the queue hands out its pending cells in, after
`manhattanFlood(target, I)` the cost of every cell `c` below `numCells` is the
length of a shortest chain of exits (under `I`) from `target` to `c`, and
`MAX_COST` when there is no such chain. -/
theorem C3_manhattanFlood_shortest_chain (m : Maze) (target mazeType : Nat)
    (sched : Nat → Nat) (hw : m.mWidth ≤ 255) (ht : target < numCells m)
    (c : Nat) (hc : c < numCells m) :
    (Reachable m mazeType target c →
      Chain m mazeType target (cost (manhattanFlood m target mazeType sched).1 c) c ∧
      ∀ k, Chain m mazeType target k c →
        cost (manhattanFlood m target mazeType sched).1 c ≤ k) ∧
    (¬ Reachable m mazeType target c →
      cost (manhattanFlood m target mazeType sched).1 c = MAX_COST) :=
  manhattanCosts_shortest m mazeType target sched hw ht c hc

/-- C3 at a concrete flood: the freshly reset 16-wide maze flooded from cell 1
under the pessimistic interpretation, read at cell 0. -/
theorem C3_manhattanFlood_shortest_chain_witness :
    (Reachable (resetToEmptyMaze (blank 16)) CLOSED_MAZE 1 0 →
      Chain (resetToEmptyMaze (blank 16)) CLOSED_MAZE 1
        (cost (manhattanFlood (resetToEmptyMaze (blank 16)) 1 CLOSED_MAZE fifo).1 0) 0 ∧
      ∀ k, Chain (resetToEmptyMaze (blank 16)) CLOSED_MAZE 1 k 0 →
        cost (manhattanFlood (resetToEmptyMaze (blank 16)) 1 CLOSED_MAZE fifo).1 0 ≤ k) ∧
    (¬ Reachable (resetToEmptyMaze (blank 16)) CLOSED_MAZE 1 0 →
      cost (manhattanFlood (resetToEmptyMaze (blank 16)) 1 CLOSED_MAZE fifo).1 0 = MAX_COST) :=
  C3_manhattanFlood_shortest_chain (resetToEmptyMaze (blank 16)) 1 CLOSED_MAZE fifo
    (by decide) (by decide) 0 (by decide)

set_option maxRecDepth 100000 in
/-- C4, the failing input: on the freshly reset 16-wide maze (run-length flood
selected) `flood(0x77, CLOSED_MAZE)` leaves cost 98 in cell 0x78, for every
order of the queue, although no chain of pessimistic exits leaves the target
0x77; the value returned is the cost of cell 0. -/
theorem C4_runLengthFlood_seeds_through_unseen_walls (sched : Nat → Nat) :
    cost (flood (resetToEmptyMaze (blank 16)) 0x77 CLOSED_MAZE sched).1 0x78 = 98 ∧
    ¬ Reachable (resetToEmptyMaze (blank 16)) CLOSED_MAZE 0x77 0x78 ∧
    (flood (resetToEmptyMaze (blank 16)) 0x77 CLOSED_MAZE sched).2
      = cost (flood (resetToEmptyMaze (blank 16)) 0x77 CLOSED_MAZE sched).1 0 := by
  refine ⟨?_, ?_, rfl⟩
  · have hft : (resetToEmptyMaze (blank 16)).mFloodType = FloodType.RUNLENGTH_FLOOD := by
      decide
    have hfl : flood (resetToEmptyMaze (blank 16)) 0x77 CLOSED_MAZE sched
        = runLengthFlood (resetToEmptyMaze (blank 16)) 0x77 CLOSED_MAZE sched := by
      unfold flood; rw [hft]
    rw [hfl]
    show (runQueue (runLengthVisit (initialiseFloodCosts (resetToEmptyMaze (blank 16)) 0x77)
        CLOSED_MAZE) sched floodFuel 0
      (seedQueue (initialiseFloodCosts (resetToEmptyMaze (blank 16)) 0x77)
        ((initialiseFloodCosts (resetToEmptyMaze (blank 16)) 0x77).mCost, []) 0x77
        (orthoCostTable.getD 1 0))).1 0x78 = 98
    rw [runLength_all_blocked]
    · decide
    · have hq : (seedQueue (initialiseFloodCosts (resetToEmptyMaze (blank 16)) 0x77)
          ((initialiseFloodCosts (resetToEmptyMaze (blank 16)) 0x77).mCost, []) 0x77
          (orthoCostTable.getD 1 0)).2
          = [FloodInfo.mk 98 0x78 1 0 2, FloodInfo.mk 98 0x87 1 2 3,
             FloodInfo.mk 98 0x76 1 4 0, FloodInfo.mk 98 0x67 1 6 1] := by
        decide
      intro info hi d hd
      rw [hq] at hi
      simp only [List.mem_cons, List.mem_singleton, List.not_mem_nil, or_false] at hi
      have hd' : d = 0 ∨ d = 1 ∨ d = 2 ∨ d = 3 := by omega
      rcases hi with rfl | rfl | rfl | rfl <;> rcases hd' with rfl | rfl | rfl | rfl <;> decide
  · rintro ⟨k, hk⟩
    have := chain_stuck (resetToEmptyMaze (blank 16)) CLOSED_MAZE 0x77
      (by
        intro d hd
        have hd' : d = 0 ∨ d = 1 ∨ d = 2 ∨ d = 3 := by omega
        rcases hd' with rfl | rfl | rfl | rfl <;> decide)
      k 0x78 hk
    exact absurd this (by decide)

/-- C5: `testForSolution()` returns true exactly when the pessimistic and the
optimistic flood towards `goal()` return the same cost for the start cell;
afterwards `closedMazeCost()` and `openMazeCost()` hold these two results and
`isSolved()` is the value returned. -/
theorem C5_testForSolution (m : Maze) (s1 s2 : Nat → Nat) (hn : 0 < numCells m) :
    ((testForSolution m s1 s2).2 = true ↔
      (flood m (goal m) CLOSED_MAZE s1).2 = (flood m (goal m) OPEN_MAZE s2).2) ∧
    closedMazeCost (testForSolution m s1 s2).1 = (flood m (goal m) CLOSED_MAZE s1).2 ∧
    openMazeCost (testForSolution m s1 s2).1 = (flood m (goal m) OPEN_MAZE s2).2 ∧
    isSolved (testForSolution m s1 s2).1 = (testForSolution m s1 s2).2 := by
  obtain ⟨h1, h2, h3, h4, _⟩ := testForSolution_spec m s1 s2 hn
  refine ⟨?_, h1, h2, h3⟩
  rw [h4]
  exact decide_eq_true_iff

/-- C5 at a concrete state: the freshly reset 16-wide maze. -/
theorem C5_testForSolution_witness :
    ((testForSolution (resetToEmptyMaze (blank 16)) fifo fifo).2 = true ↔
      (flood (resetToEmptyMaze (blank 16)) (goal (resetToEmptyMaze (blank 16)))
          CLOSED_MAZE fifo).2
        = (flood (resetToEmptyMaze (blank 16)) (goal (resetToEmptyMaze (blank 16)))
          OPEN_MAZE fifo).2) ∧
    closedMazeCost (testForSolution (resetToEmptyMaze (blank 16)) fifo fifo).1
      = (flood (resetToEmptyMaze (blank 16)) (goal (resetToEmptyMaze (blank 16)))
          CLOSED_MAZE fifo).2 ∧
    openMazeCost (testForSolution (resetToEmptyMaze (blank 16)) fifo fifo).1
      = (flood (resetToEmptyMaze (blank 16)) (goal (resetToEmptyMaze (blank 16)))
          OPEN_MAZE fifo).2 ∧
    isSolved (testForSolution (resetToEmptyMaze (blank 16)) fifo fifo).1
      = (testForSolution (resetToEmptyMaze (blank 16)) fifo fifo).2 :=
  C5_testForSolution (resetToEmptyMaze (blank 16)) fifo fifo (by decide)

set_option maxRecDepth 1000000 in
set_option maxHeartbeats 4000000 in
/-- The run-length flood is not monotone even on consistent beliefs: in
`threeSightingsMaze` every pessimistic exit is an optimistic exit, yet with
a first-in-first-out queue the flood towards cell 18 gives cell 16 cost 368
under the pessimistic and 408 under the optimistic interpretation. -/
theorem runLengthFlood_not_monotone :
    Consistent threeSightingsMaze ∧
    cost (flood threeSightingsMaze 18 CLOSED_MAZE fifo).1 16 = 368 ∧
    cost (flood threeSightingsMaze 18 OPEN_MAZE fifo).1 16 = 408 :=
  ⟨by unfold Consistent; decide, by decide, by decide⟩

set_option maxRecDepth 100000 in
/-- Contradicting observations break the order of the two Manhattan floods:
after `updateMap(0x22, 15)` and `updateMap(0x22, 0)` on a reset 16-wide maze
the walls of cell 0x22 are present optimistically and absent pessimistically,
and the pessimistic Manhattan flood from 0x22 reaches cell 0x23 at cost 1
while the optimistic one does not reach it. -/
theorem contradicted_beliefs_not_monotone :
    cost (flood contradictedMaze 0x22 CLOSED_MAZE fifo).1 0x23 = 1 ∧
    cost (flood contradictedMaze 0x22 OPEN_MAZE fifo).1 0x23 = 65535 ∧
    ¬ (cost (flood contradictedMaze 0x22 CLOSED_MAZE fifo).1 0x23
        ≥ cost (flood contradictedMaze 0x22 OPEN_MAZE fifo).1 0x23) := by
  decide

set_option maxRecDepth 100000 in
/-- Contradicting observations unsettle a solved maze: in `crossedMaze`
(Manhattan flood, goal 17) `testForSolution()` returns true with both costs 2,
the west wall of cell 17 is still unseen, and once it is marked present
`flood(goal(), OPEN_MAZE)` returns 4. -/
theorem contradicted_beliefs_unsettle_solution :
    (testForSolution crossedMaze fifo fifo).2 = true ∧
    openMazeCost (testForSolution crossedMaze fifo fifo).1 = 2 ∧
    hasOpenExit (testForSolution crossedMaze fifo fifo).1 17 WEST = true ∧
    hasClosedExit (testForSolution crossedMaze fifo fifo).1 17 WEST = false ∧
    (flood (setWallPresent (testForSolution crossedMaze fifo fifo).1 17 WEST)
      (goal (setWallPresent (testForSolution crossedMaze fifo fifo).1 17 WEST))
      OPEN_MAZE fifo).2 = 4 := by
  decide

set_option maxRecDepth 100000 in
/-- C8, the failing inputs: after `updateMap(0x22, 15)` on a reset 16-wide
maze, `updateMap(0x22, 0)` leaves cell 0x22 unvisited; and on the freshly
reset maze `updateMap(0, 0)` leaves cell 0 unvisited. -/
theorem C8_updateMap_leaves_unvisited :
    isVisited (updateMap (updateAll (resetToEmptyMaze (blank 16)) [(0x22, 15)]) 0x22 0) 0x22
      = false ∧
    isVisited (updateMap (resetToEmptyMaze (blank 16)) 0 0) 0 = false := by
  decide

/-! ## The default goal area -/

theorem setWallPresent_goalArea (m : Maze) (c d : Nat) :
    (setWallPresent m c d).goalArea = m.goalArea := by
  unfold setWallPresent
  split <;> rfl

theorem setWallAbsent_goalArea (m : Maze) (c d : Nat) :
    (setWallAbsent m c d).goalArea = m.goalArea := by
  unfold setWallAbsent
  split <;> rfl

theorem resetBorderStep_goalArea (m : Maze) (i : Nat) :
    (resetBorderStep m i).goalArea = m.goalArea := by
  simp only [resetBorderStep, setWallPresent_goalArea]

theorem resetToEmptyMaze_goalArea (m : Maze) :
    (resetToEmptyMaze m).goalArea =
      if m.mWidth = 16 then [cellID m 7 7, cellID m 7 8, cellID m 8 7, cellID m 8 8]
      else [cellID m 7 7] := by
  have h : ((List.range (width m)).foldl resetBorderStep (clearData m)).goalArea = [] ∧
      ((List.range (width m)).foldl resetBorderStep (clearData m)).mWidth = m.mWidth :=
    foldl_preserves (fun x => x.goalArea = [] ∧ x.mWidth = m.mWidth) resetBorderStep _
      (clearData m)
      (fun x b _ hx => by
        show (resetBorderStep x b).goalArea = [] ∧ (resetBorderStep x b).mWidth = m.mWidth
        rw [resetBorderStep_goalArea, resetBorderStep_mWidth]; exact hx) ⟨rfl, rfl⟩
  obtain ⟨h1, h2⟩ := h
  unfold resetToEmptyMaze
  simp only [addToGoalAreaXY, cellID, setWallAbsent_mWidth, setWallPresent_mWidth,
    setWallAbsent_goalArea, setWallPresent_goalArea, h1, h2]
  split <;> simp

/-! ## Goal recalculation -/

/-- The result of `recalculateGoal` is a function of the eight tests. -/
theorem recalculateGoal_eq (m : Maze) :
    recalculateGoal m =
      if hasClosedExit m 0x77 SOUTH || hasClosedExit m 0x77 WEST || hasClosedExit m 0x78 WEST
          || hasClosedExit m 0x78 NORTH || hasClosedExit m 0x88 NORTH || hasClosedExit m 0x88 EAST
          || hasClosedExit m 0x87 EAST || hasClosedExit m 0x87 SOUTH then
        setGoal m
          (if hasClosedExit m 0x87 SOUTH then 0x88 else if hasClosedExit m 0x87 EAST then 0x77
           else if hasClosedExit m 0x88 EAST then 0x78 else if hasClosedExit m 0x88 NORTH then 0x87
           else if hasClosedExit m 0x78 NORTH then 0x77 else if hasClosedExit m 0x78 WEST then 0x88
           else if hasClosedExit m 0x77 WEST then 0x87 else 0x78)
      else m := by
  unfold recalculateGoal centreEntrances
  simp only [List.foldl_cons, List.foldl_nil, recalcStep]
  generalize hasClosedExit m 0x77 SOUTH = b1
  generalize hasClosedExit m 0x77 WEST = b2
  generalize hasClosedExit m 0x78 WEST = b3
  generalize hasClosedExit m 0x78 NORTH = b4
  generalize hasClosedExit m 0x88 NORTH = b5
  generalize hasClosedExit m 0x88 EAST = b6
  generalize hasClosedExit m 0x87 EAST = b7
  generalize hasClosedExit m 0x87 SOUTH = b8
  cases b1 <;> cases b2 <;> cases b3 <;> cases b4 <;> cases b5 <;> cases b6 <;> cases b7 <;>
    cases b8 <;> simp

theorem forall_lt_four (P : Nat → Prop) :
    (∀ d, d < 4 → P d) ↔ P 0 ∧ P 1 ∧ P 2 ∧ P 3 := by
  constructor
  · intro h; exact ⟨h 0 (by omega), h 1 (by omega), h 2 (by omega), h 3 (by omega)⟩
  · rintro ⟨h0, h1, h2, h3⟩ d hd
    interval_cases d <;> assumption

/-! ## Direction to the smallest neighbour -/

theorem costDir_le (m : Maze) (cell d : Nat) (hcost : ∀ i, m.mCost i ≤ MAX_COST) :
    costDir m cell d ≤ MAX_COST := by
  unfold costDir
  split
  · unfold costNorth; split_ifs <;> first | exact le_refl _ | exact hcost _
  · unfold costEast; split_ifs <;> first | exact le_refl _ | exact hcost _
  · unfold costSouth; split_ifs <;> first | exact le_refl _ | exact hcost _
  · unfold costWest; split_ifs <;> first | exact le_refl _ | exact hcost _
  · exact le_refl _

/-- The five outcomes of `directionToSmallest`. -/
theorem directionToSmallest_cases (m : Maze) (cell : Nat) (hcost : ∀ i, m.mCost i ≤ MAX_COST) :
    (directionToSmallest m cell = 4 ∧ costDir m cell 0 = 65535 ∧ costDir m cell 1 = 65535 ∧
        costDir m cell 2 = 65535 ∧ costDir m cell 3 = 65535) ∨
    (directionToSmallest m cell = 0 ∧ costDir m cell 0 < 65535 ∧
        costDir m cell 0 ≤ costDir m cell 1 ∧ costDir m cell 0 ≤ costDir m cell 2 ∧
        costDir m cell 0 ≤ costDir m cell 3) ∨
    (directionToSmallest m cell = 1 ∧ costDir m cell 1 < 65535 ∧
        costDir m cell 1 < costDir m cell 0 ∧ costDir m cell 1 ≤ costDir m cell 2 ∧
        costDir m cell 1 ≤ costDir m cell 3) ∨
    (directionToSmallest m cell = 2 ∧ costDir m cell 2 < 65535 ∧
        costDir m cell 2 < costDir m cell 0 ∧ costDir m cell 2 < costDir m cell 1 ∧
        costDir m cell 2 ≤ costDir m cell 3) ∨
    (directionToSmallest m cell = 3 ∧ costDir m cell 3 < 65535 ∧
        costDir m cell 3 < costDir m cell 0 ∧ costDir m cell 3 < costDir m cell 1 ∧
        costDir m cell 3 < costDir m cell 2) := by
  have h0 := costDir_le m cell 0 hcost
  have h1 := costDir_le m cell 1 hcost
  have h2 := costDir_le m cell 2 hcost
  have h3 := costDir_le m cell 3 hcost
  unfold directionToSmallest smallestStep
  simp only [NORTH, EAST, SOUTH, WEST, INVALID_DIRECTION, MAX_COST] at *
  generalize costDir m cell 0 = a at *
  generalize costDir m cell 1 = b at *
  generalize costDir m cell 2 = c at *
  generalize costDir m cell 3 = d at *
  split_ifs <;> simp_all <;> omega

/-! ## Loading -/

theorem clearData_walls (m : Maze) (i : Nat) (hi : i < 1024) :
    (clearData m).m_walls i = 0xf0 := by
  simp [clearData, clearGoalArea, hi]

theorem clearData_goalArea (m : Maze) : (clearData m).goalArea = [] := rfl

/-- C11 fails as stated for width 32: after `resetToEmptyMaze()` the goal area
of a 32-wide maze is the single cell 231 = cellID(7,7), whose column and row
are both 7, not 15 or 16. -/
theorem C11_counterexample :
    (resetToEmptyMaze (blank 32)).goalArea = [231] ∧
    col (resetToEmptyMaze (blank 32)) 231 = 7 ∧
    row (resetToEmptyMaze (blank 32)) 231 = 7 ∧
    ¬ ((col (resetToEmptyMaze (blank 32)) 231 = 15 ∨ col (resetToEmptyMaze (blank 32)) 231 = 16) ∧
       (row (resetToEmptyMaze (blank 32)) 231 = 15 ∨ row (resetToEmptyMaze (blank 32)) 231 = 16)) := by
  have hw : (resetToEmptyMaze (blank 32)).mWidth = 32 := resetToEmptyMaze_mWidth _
  refine ⟨?_, ?_, ?_, ?_⟩
  · rw [resetToEmptyMaze_goalArea]; rfl
  · simp [col, hw]
  · simp [row, hw]
  · simp [col, row, hw]

/-- C11 as amended: after `resetToEmptyMaze()` the goal area is non-empty and
`goal()` is `cellID(7,7)`; for width 16 the goal area is exactly the block
(7,7), (7,8), (8,7), (8,8), for every other width it is the single cell
`cellID(7,7)`. -/
theorem C11_default_goal_area (m0 : Maze) :
    (resetToEmptyMaze m0).goalArea ≠ [] ∧
    goal (resetToEmptyMaze m0) = cellID (resetToEmptyMaze m0) 7 7 ∧
    (resetToEmptyMaze m0).goalArea =
      if (resetToEmptyMaze m0).mWidth = 16 then
        [cellID (resetToEmptyMaze m0) 7 7, cellID (resetToEmptyMaze m0) 7 8,
         cellID (resetToEmptyMaze m0) 8 7, cellID (resetToEmptyMaze m0) 8 8]
      else [cellID (resetToEmptyMaze m0) 7 7] := by
  have hw : (resetToEmptyMaze m0).mWidth = m0.mWidth := resetToEmptyMaze_mWidth m0
  have hg := resetToEmptyMaze_goalArea m0
  have hid : ∀ x y, cellID (resetToEmptyMaze m0) x y = cellID m0 x y := by
    intro x y; simp only [cellID, hw]
  simp only [hid, hw]
  refine ⟨?_, ?_, hg⟩
  · rw [hg]; split <;> simp
  · unfold goal
    rw [hg]
    by_cases h16 : m0.mWidth = 16
    · simp [h16, cellID]
    · simp [h16, cellID]

/-- C12: on a maze of width 16 or 32, for `x, y` below the width, `neighbour`
of `cellID(x,y)` is `cellID(x,y+1)` to the NORTH when `y+1` is below the
width, `cellID(x+1,y)` to the EAST when `x+1` is below the width,
`cellID(x,y-1)` to the SOUTH when `1 ≤ y` and `cellID(x-1,y)` to the WEST when
`1 ≤ x`; and `cellID(x,y)` is `w*x + y`. -/
theorem C12_neighbour_adjacent (m : Maze) (w x y : Nat) (hm : m.mWidth = w)
    (hw : w = 16 ∨ w = 32) (hx : x < w) (hy : y < w) :
    cellID m x y = w * x + y ∧
    (y + 1 < w → neighbour m (cellID m x y) NORTH = cellID m x (y + 1)) ∧
    (x + 1 < w → neighbour m (cellID m x y) EAST = cellID m (x + 1) y) ∧
    (1 ≤ y → neighbour m (cellID m x y) SOUTH = cellID m x (y - 1)) ∧
    (1 ≤ x → neighbour m (cellID m x y) WEST = cellID m (x - 1) y) := by
  subst hm
  rcases hw with h | h <;>
    simp only [neighbour, NORTH, EAST, SOUTH, WEST, cellNorth, cellEast, cellSouth, cellWest,
      numCells, width, cellID, h, Nat.reduceMul, Nat.reduceMod] at * <;>
    refine ⟨by omega, ?_, ?_, ?_, ?_⟩ <;> intro h1 <;> omega

/-- C12 at a concrete cell: (7,7) on a 16-wide maze. -/
theorem C12_neighbour_adjacent_witness :
    cellID (blank 16) 7 7 = 16 * 7 + 7 ∧
    (7 + 1 < 16 → neighbour (blank 16) (cellID (blank 16) 7 7) NORTH = cellID (blank 16) 7 (7 + 1)) ∧
    (7 + 1 < 16 → neighbour (blank 16) (cellID (blank 16) 7 7) EAST = cellID (blank 16) (7 + 1) 7) ∧
    (1 ≤ 7 → neighbour (blank 16) (cellID (blank 16) 7 7) SOUTH = cellID (blank 16) 7 (7 - 1)) ∧
    (1 ≤ 7 → neighbour (blank 16) (cellID (blank 16) 7 7) WEST = cellID (blank 16) (7 - 1) 7) :=
  C12_neighbour_adjacent (blank 16) 16 7 7 rfl (Or.inl rfl) (by decide) (by decide)

set_option maxRecDepth 100000 in
/-- C15 fails as stated: the wall between (7,7) and (7,8) lies inside the
centre block and is none of the eight walls `recalculateGoal` tests, so
`goal()` stays `cellID(7,7)` = 0x77 and is not `cellID(8,8)` = 0x88. -/
theorem C15_counterexample :
    neighbour scenarioDMaze (cellID scenarioDMaze 7 7) NORTH = cellID scenarioDMaze 7 8 ∧
    hasClosedExit scenarioDMaze (cellID scenarioDMaze 7 7) NORTH = true ∧
    goal (recalculateGoal scenarioDMaze) = 0x77 ∧
    cellID scenarioDMaze 8 8 = 0x88 ∧
    goal (recalculateGoal scenarioDMaze) ≠ cellID scenarioDMaze 8 8 := by
  decide

set_option maxRecDepth 100000 in
/-- C15 as amended: on a freshly reset 16-wide maze in which the only wall
then opened is the one between (7,7) and (7,8), `recalculateGoal()` leaves the
goal area as it was and `goal()` is `cellID(7,7)`; when the wall opened is the
south wall of (8,7) instead, `goal()` becomes `cellID(8,8)`. -/
theorem C15_recalculateGoal_scenario :
    (recalculateGoal scenarioDMaze).goalArea = scenarioDMaze.goalArea ∧
    goal (recalculateGoal scenarioDMaze) = cellID scenarioDMaze 7 7 ∧
    goal (recalculateGoal (setWallAbsent (resetToEmptyMaze (blank 16)) 0x87 SOUTH))
      = cellID (setWallAbsent (resetToEmptyMaze (blank 16)) 0x87 SOUTH) 8 8 := by
  decide

/-- C16: on a 16-wide maze, if none of the eight outward-facing walls of the
centre block has a pessimistic exit, `recalculateGoal()` leaves the goal area
unchanged; if exactly one has, at block cell `c` in direction `d`, the goal
area becomes the single cell `neighbour(c, opposite(d))`. -/
theorem C16_recalculateGoal_entrance (m : Maze) (hw : m.mWidth = 16) :
    ((∀ e ∈ centreBlockWalls, hasClosedExit m e.1 e.2 = false) →
      (recalculateGoal m).goalArea = m.goalArea) ∧
    (∀ e ∈ centreBlockWalls, hasClosedExit m e.1 e.2 = true →
      (∀ f ∈ centreBlockWalls, f ≠ e → hasClosedExit m f.1 f.2 = false) →
      (recalculateGoal m).goalArea = [neighbour m e.1 (opposite e.2)]) := by
  rw [recalculateGoal_eq]
  constructor
  · intro h
    simp only [centreBlockWalls, List.mem_cons, List.mem_singleton, List.not_mem_nil, or_false,
      forall_eq_or_imp, forall_eq] at h
    obtain ⟨h1, h2, h3, h4, h5, h6, h7, h8⟩ := h
    simp [h1, h2, h3, h4, h5, h6, h7, h8]
  · intro e he hex hothers
    simp only [centreBlockWalls, List.mem_cons, List.mem_singleton, List.not_mem_nil, or_false,
      forall_eq_or_imp, forall_eq] at he hothers
    obtain ⟨h1, h2, h3, h4, h5, h6, h7, h8⟩ := hothers
    rcases he with rfl | rfl | rfl | rfl | rfl | rfl | rfl | rfl <;>
      simp [NORTH, EAST, SOUTH, WEST] at h1 h2 h3 h4 h5 h6 h7 h8 hex <;>
      simp [NORTH, EAST, SOUTH, WEST, h1, h2, h3, h4, h5, h6, h7, h8, hex, setGoal, neighbour,
        opposite, behind, cellNorth, cellEast, cellSouth, cellWest, numCells, width, hw]

set_option maxRecDepth 100000 in
/-- C16 at concrete states: `scenarioDMaze` has no entrance and keeps its goal
area; `southEntranceMaze` has its only entrance at cell 0x77 to the SOUTH and
gets the goal area `[neighbour(0x77, NORTH)]`. -/
theorem C16_recalculateGoal_entrance_witness :
    (recalculateGoal scenarioDMaze).goalArea = scenarioDMaze.goalArea ∧
    (recalculateGoal southEntranceMaze).goalArea
      = [neighbour southEntranceMaze 0x77 (opposite SOUTH)] :=
  ⟨(C16_recalculateGoal_entrance scenarioDMaze (by decide)).1 (by decide),
   (C16_recalculateGoal_entrance southEntranceMaze (by decide)).2 (0x77, SOUTH) (by decide)
     (by decide) (by decide)⟩

set_option maxRecDepth 100000 in
/-- C17 fails as stated: on the 32-wide `wideOpenedMaze` the goal area is
`[231]` before and `[0x78]` after `recalculateGoal()`. -/
theorem C17_counterexample :
    wideOpenedMaze.mWidth = 32 ∧
    wideOpenedMaze.goalArea = [231] ∧
    (recalculateGoal wideOpenedMaze).goalArea = [0x78] ∧
    (recalculateGoal wideOpenedMaze).goalArea ≠ wideOpenedMaze.goalArea ∧
    goal (recalculateGoal wideOpenedMaze) ≠ goal wideOpenedMaze := by
  decide

/-- C17 as amended: `recalculateGoal()` never looks at the width.  On every
maze, of width 32 as of any other, it leaves the maze unchanged when none of
the eight walls it tests (at cells 0x77, 0x78, 0x87, 0x88) has a pessimistic
exit, and otherwise makes the goal area a single cell among 0x77, 0x78, 0x87
and 0x88. -/
theorem C17_recalculateGoal_any_width (m : Maze) :
    ((∀ e ∈ centreBlockWalls, hasClosedExit m e.1 e.2 = false) → recalculateGoal m = m) ∧
    ((∃ e ∈ centreBlockWalls, hasClosedExit m e.1 e.2 = true) →
      ∃ g ∈ [0x77, 0x78, 0x87, 0x88], (recalculateGoal m).goalArea = [g]) := by
  rw [recalculateGoal_eq]
  simp only [centreBlockWalls, List.mem_cons, List.mem_singleton, List.not_mem_nil, or_false,
    forall_eq_or_imp, forall_eq, exists_eq_or_imp, exists_eq_left]
  generalize hasClosedExit m 0x77 SOUTH = b1
  generalize hasClosedExit m 0x77 WEST = b2
  generalize hasClosedExit m 0x78 WEST = b3
  generalize hasClosedExit m 0x78 NORTH = b4
  generalize hasClosedExit m 0x88 NORTH = b5
  generalize hasClosedExit m 0x88 EAST = b6
  generalize hasClosedExit m 0x87 EAST = b7
  generalize hasClosedExit m 0x87 SOUTH = b8
  cases b1 <;> cases b2 <;> cases b3 <;> cases b4 <;> cases b5 <;> cases b6 <;> cases b7 <;>
    cases b8 <;> simp [setGoal]

/-- C18: with 16-bit costs, `directionToSmallest(cell)` is the invalid
direction exactly when `cost(cell, d)` is `MAX_COST` in all four directions;
otherwise it is a cardinal direction at which `cost(cell, d)` is least, and
every direction before it in the order NORTH, EAST, SOUTH, WEST has a strictly
larger cost; `updateDirections()` stores this value for every cell below
`numCells()`. -/
theorem C18_directionToSmallest (m : Maze) (cell : Nat) (hcost : ∀ i, m.mCost i ≤ MAX_COST) :
    (directionToSmallest m cell = INVALID_DIRECTION ↔
      ∀ d, d < 4 → costDir m cell d = MAX_COST) ∧
    ((∃ d, d < 4 ∧ costDir m cell d ≠ MAX_COST) →
      directionToSmallest m cell < 4 ∧
      (∀ d, d < 4 → costDir m cell (directionToSmallest m cell) ≤ costDir m cell d) ∧
      (∀ d, d < directionToSmallest m cell →
        costDir m cell (directionToSmallest m cell) < costDir m cell d)) ∧
    (∀ i, i < numCells m → direction (updateDirections m) i = directionToSmallest m i) := by
  refine ⟨?_, ?_, ?_⟩
  · rw [forall_lt_four]
    simp only [INVALID_DIRECTION, MAX_COST]
    rcases directionToSmallest_cases m cell hcost with h | h | h | h | h <;>
      obtain ⟨hr, h1, h2, h3, h4⟩ := h <;> rw [hr] <;> constructor <;> intro hh <;>
      omega
  · rintro ⟨d, hd, hne⟩
    simp only [MAX_COST] at hne
    have hex : ¬ (costDir m cell 0 = 65535 ∧ costDir m cell 1 = 65535 ∧
        costDir m cell 2 = 65535 ∧ costDir m cell 3 = 65535) := by
      rintro ⟨a0, a1, a2, a3⟩
      interval_cases d <;> omega
    rcases directionToSmallest_cases m cell hcost with h | h | h | h | h <;>
      obtain ⟨hr, h1, h2, h3, h4⟩ := h
    · exact absurd ⟨h1, h2, h3, h4⟩ hex
    all_goals
      rw [hr]
      refine ⟨by omega, ?_, ?_⟩
      · rw [forall_lt_four]; refine ⟨?_, ?_, ?_, ?_⟩ <;> omega
      · intro e he; interval_cases e <;> omega
  · intro i hi
    simp [direction, updateDirections, hi]

/-- C18 at a concrete state: cell 0 of `sampleCostMaze`, whose northern
neighbour costs 5 and whose eastern neighbour costs 3. -/
theorem C18_directionToSmallest_witness :
    (directionToSmallest sampleCostMaze 0 = INVALID_DIRECTION ↔
      ∀ d, d < 4 → costDir sampleCostMaze 0 d = MAX_COST) ∧
    ((∃ d, d < 4 ∧ costDir sampleCostMaze 0 d ≠ MAX_COST) →
      directionToSmallest sampleCostMaze 0 < 4 ∧
      (∀ d, d < 4 → costDir sampleCostMaze 0 (directionToSmallest sampleCostMaze 0)
        ≤ costDir sampleCostMaze 0 d) ∧
      (∀ d, d < directionToSmallest sampleCostMaze 0 →
        costDir sampleCostMaze 0 (directionToSmallest sampleCostMaze 0)
          < costDir sampleCostMaze 0 d)) ∧
    (∀ i, i < numCells sampleCostMaze →
      direction (updateDirections sampleCostMaze) i = directionToSmallest sampleCostMaze i) :=
  C18_directionToSmallest sampleCostMaze 0 (fun i => by
    show (if i = 1 then 5 else if i = 16 then 3 else MAX_COST) ≤ MAX_COST
    split_ifs <;> simp [MAX_COST])

/-- C19: `save(buf)` followed by `load(buf)` leaves every wall byte as it was
and changes neither the width nor the goal area; the whole state is the one
before. -/
theorem C19_save_load_round_trip (m : Maze) (data : Nat → Nat) :
    (∀ c, (load m (save m data)).m_walls c = m.m_walls c) ∧
    (load m (save m data)).mWidth = m.mWidth ∧
    (load m (save m data)).goalArea = m.goalArea ∧
    load m (save m data) = m := by
  have h : ∀ c, (load m (save m data)).m_walls c = m.m_walls c := by
    intro c
    simp only [load, save]
    split_ifs <;> rfl
  refine ⟨h, rfl, rfl, ?_⟩
  have hf : (load m (save m data)).m_walls = m.m_walls := funext h
  cases m
  simp only [load] at hf ⊢
  simp only [hf]

set_option maxRecDepth 100000 in
/-- C20 fails as stated: a null buffer with `cellCount` 1024 gives width 32,
and a 256-byte buffer handed over with `cellCount` 100 is copied in all the
same (cell 0 ends with wall byte 0x00, not 0xF0). -/
theorem C20_counterexample :
    (copyMazeFromFileData (blank 16) none 1024).mWidth = 32 ∧
    (copyMazeFromFileData (blank 16) (some (List.replicate 256 0)) 100).mWidth = 16 ∧
    (copyMazeFromFileData (blank 16) (some (List.replicate 256 0)) 100).m_walls 0 = 0 ∧
    (copyMazeFromFileData (blank 16) (some (List.replicate 256 0)) 100).m_walls 0 ≠ 0xf0 := by
  decide

/-- C20 as amended: with a null buffer `copyMazeFromFileData` populates no
cell (every wall byte is 0xF0, the goal area is empty) and the width is 32
when `cellCount` is 1024 and 16 otherwise; with a buffer, a `cellCount` other
than 1024 gives width 16 and the cells are populated from the buffer exactly
as for `cellCount` 256. -/
theorem C20_load_tolerance (m : Maze) (data : List Nat) (cellCount : Nat) :
    (copyMazeFromFileData m none cellCount).mWidth = (if cellCount = 1024 then 32 else 16) ∧
    (copyMazeFromFileData m none cellCount).goalArea = [] ∧
    (∀ i, i < 1024 → (copyMazeFromFileData m none cellCount).m_walls i = 0xf0) ∧
    (copyMazeFromFileData m (some data) cellCount).mWidth
      = (if cellCount = 1024 then 32 else 16) ∧
    copyMazeFromFileData m (some data) cellCount
      = copyMazeFromFileData m (some data) (if cellCount = 1024 then 1024 else 256) := by
  refine ⟨?_, ?_, ?_, ?_, ?_⟩
  · unfold copyMazeFromFileData; simp only []; split_ifs <;> rfl
  · unfold copyMazeFromFileData; simp only []; split_ifs <;> rfl
  · intro i hi
    unfold copyMazeFromFileData; simp only []
    split_ifs <;> exact clearData_walls _ i hi
  · rw [copyMazeFromFileData_mWidth]
  · by_cases h : cellCount = 1024
    · simp [h]
    · simp [copyMazeFromFileData, h]

/-! ## Schedule independence of the Manhattan flood -/

theorem manhattanCosts_sched_indep (m : Maze) (mt t : Nat) (s s' : Nat → Nat)
    (hw : m.mWidth ≤ 255) (ht : t < numCells m) (c : Nat) (hc : c < numCells m) :
    (manhattanCosts m t mt s).1 c = (manhattanCosts m t mt s').1 c :=
  le_antisymm
    (manhattanCosts_mono m m mt mt t s' s hw rfl ht (fun _ _ _ _ h => h) c hc)
    (manhattanCosts_mono m m mt mt t s s' hw rfl ht (fun _ _ _ _ h => h) c hc)

/-! ## Floods of a fully explored maze -/

theorem visited_exits (m : Maze) (c d : Nat) (h : isVisited m c = true) (hd : d < 4) :
    hasExit m c d CLOSED_MAZE = hasExit m c d OPEN_MAZE := by
  unfold isVisited openWalls closedWalls at h
  have h1 := congrArg (fun x => Nat.testBit x d) (beq_iff_eq.mp h)
  have h15 : Nat.testBit 15 d = true := by
    have : (15 : Nat) = 2 ^ 4 - 1 := by norm_num
    rw [this, Nat.testBit_two_pow_sub_one]
    simpa using hd
  simp only [Nat.testBit_and, Nat.testBit_shiftRight, h15, Bool.and_true, OPEN_MAZE,
    CLOSED_MAZE, Nat.zero_add] at h1
  rw [hasExit_eq, hasExit_eq]
  unfold wallBit
  simp only [OPEN_MAZE, CLOSED_MAZE, Nat.add_zero]
  rw [h1, Nat.add_comm]

theorem runQueue_congr {σ ι : Type} (visit visit' : σ × List ι → ι → σ × List ι)
    (sched : Nat → Nat) (P : σ × List ι → Prop)
    (hstep : ∀ s q i x rest, P (s, q) → takeAt q i = some (x, rest) → P (visit (s, rest) x))
    (heq : ∀ s q i x rest, P (s, q) → takeAt q i = some (x, rest) →
      visit (s, rest) x = visit' (s, rest) x)
    (fuel t : Nat) (st : σ × List ι) (h : P st) :
    runQueue visit sched fuel t st = runQueue visit' sched fuel t st := by
  induction fuel generalizing t st with
  | zero => rfl
  | succ fuel ih =>
    unfold runQueue
    cases hq : takeAt st.2 (sched t) with
    | none => rfl
    | some p =>
      obtain ⟨x, rest⟩ := p
      simp only []
      rw [← heq st.1 st.2 (sched t) x rest h hq]
      exact ih (t + 1) _ (hstep st.1 st.2 (sched t) x rest h hq)

theorem foldl4_inv {σ : Type} (f : σ → Nat → σ) (Q : σ → Prop)
    (h : ∀ s d, d < 4 → Q s → Q (f s d)) (s : σ) (hs : Q s) : Q ([0, 1, 2, 3].foldl f s) := by
  simp only [List.foldl_cons, List.foldl_nil]
  exact h _ 3 (by omega) (h _ 2 (by omega) (h _ 1 (by omega) (h _ 0 (by omega) hs)))

theorem manhattanVisit_exits_congr (m : Maze) (mt mt' x : Nat) (st : (Nat → Nat) × List Nat)
    (h : ∀ d, d < 4 → hasExit m x d mt = hasExit m x d mt') :
    manhattanVisit m mt st x = manhattanVisit m mt' st x := by
  simp only [manhattanVisit, List.foldl_cons, List.foldl_nil, manhattanRelax,
    h 0 (by omega), h 1 (by omega), h 2 (by omega), h 3 (by omega)]

theorem weightedVisit_exits_congr (m : Maze) (mt mt' x : Nat)
    (st : ((Nat → Nat) × (Nat → Nat)) × List Nat)
    (h : ∀ d, d < 4 → hasExit m x d mt = hasExit m x d mt') :
    weightedVisit m mt st x = weightedVisit m mt' st x := by
  simp only [weightedVisit, List.foldl_cons, List.foldl_nil, weightedRelax,
    h 0 (by omega), h 1 (by omega), h 2 (by omega), h 3 (by omega)]

theorem directionVisit_exits_congr (m : Maze) (mt mt' x : Nat)
    (st : ((Nat → Nat) × (Nat → Nat)) × List Nat)
    (h : ∀ d, d < 4 → hasExit m x d mt = hasExit m x d mt') :
    directionVisit m mt st x = directionVisit m mt' st x := by
  simp only [directionVisit, List.foldl_cons, List.foldl_nil, directionRelax,
    h 0 (by omega), h 1 (by omega), h 2 (by omega), h 3 (by omega)]

theorem runLengthVisit_exits_congr (m : Maze) (mt mt' : Nat) (info : FloodInfo)
    (st : (Nat → Nat) × List FloodInfo)
    (h : ∀ d, d < 4 → hasExit m info.cell d mt = hasExit m info.cell d mt') :
    runLengthVisit m mt st info = runLengthVisit m mt' st info := by
  simp only [runLengthVisit, List.foldl_cons, List.foldl_nil, runLengthRelax,
    h 0 (by omega), h 1 (by omega), h 2 (by omega), h 3 (by omega)]

theorem manhattanVisit_queue (m : Maze) (mt x : Nat) (st : (Nat → Nat) × List Nat)
    (hn : 0 < numCells m) (hq : ∀ y ∈ st.2, y < numCells m) :
    ∀ y ∈ (manhattanVisit m mt st x).2, y < numCells m := by
  unfold manhattanVisit
  refine foldl4_inv _ (fun s => ∀ y ∈ s.2, y < numCells m) ?_ st hq
  intro s d hd hs
  have hnb := neighbour_lt m x d hn hd
  unfold manhattanRelax
  simp only []
  split_ifs
  · intro y hy
    rcases List.mem_append.mp hy with h | h
    · exact hs y h
    · rw [List.mem_singleton.mp h]; exact hnb
  · exact hs
  · exact hs

theorem weightedVisit_queue (m : Maze) (mt x : Nat)
    (st : ((Nat → Nat) × (Nat → Nat)) × List Nat)
    (hn : 0 < numCells m) (hq : ∀ y ∈ st.2, y < numCells m) :
    ∀ y ∈ (weightedVisit m mt st x).2, y < numCells m := by
  unfold weightedVisit
  refine foldl4_inv _ (fun s => ∀ y ∈ s.2, y < numCells m) ?_ st hq
  intro s d hd hs
  have hnb := neighbour_lt m x d hn hd
  unfold weightedRelax
  simp only []
  split_ifs <;> first
    | exact hs
    | (intro y hy
       rcases List.mem_append.mp hy with h | h
       · exact hs y h
       · rw [List.mem_singleton.mp h]; exact hnb)

theorem directionVisit_queue (m : Maze) (mt x : Nat)
    (st : ((Nat → Nat) × (Nat → Nat)) × List Nat)
    (hn : 0 < numCells m) (hq : ∀ y ∈ st.2, y < numCells m) :
    ∀ y ∈ (directionVisit m mt st x).2, y < numCells m := by
  unfold directionVisit
  refine foldl4_inv _ (fun s => ∀ y ∈ s.2, y < numCells m) ?_ st hq
  intro s d hd hs
  have hnb := neighbour_lt m x d hn hd
  unfold directionRelax
  simp only []
  split_ifs <;> first
    | exact hs
    | (intro y hy
       rcases List.mem_append.mp hy with h | h
       · exact hs y h
       · rw [List.mem_singleton.mp h]; exact hnb)

theorem runLengthVisit_queue (m : Maze) (mt : Nat) (info : FloodInfo)
    (st : (Nat → Nat) × List FloodInfo)
    (hn : 0 < numCells m) (hq : ∀ y ∈ st.2, y.cell < numCells m) :
    ∀ y ∈ (runLengthVisit m mt st info).2, y.cell < numCells m := by
  unfold runLengthVisit
  refine foldl4_inv _ (fun s => ∀ y ∈ s.2, y.cell < numCells m) ?_ st hq
  intro s d hd hs
  have hnb := neighbour_lt m info.cell d hn hd
  unfold runLengthRelax
  simp only []
  split_ifs <;> first
    | exact hs
    | (intro y hy
       rcases List.mem_append.mp hy with h | h
       · exact hs y h
       · rw [List.mem_singleton.mp h]; exact hnb)

theorem seedQueue_queue (m : Maze) (g cst : Nat) (st : (Nat → Nat) × List FloodInfo)
    (hn : 0 < numCells m) (hq : ∀ y ∈ st.2, y.cell < numCells m) :
    ∀ y ∈ (seedQueue m st g cst).2, y.cell < numCells m := by
  unfold seedQueue
  refine foldl_preserves (fun s => ∀ y ∈ s.2, y.cell < numCells m) _ _ st ?_ hq
  intro s d hdm hs
  have hd : d.1 < 4 := by
    simp only [List.mem_cons, List.mem_singleton, List.not_mem_nil, or_false] at hdm
    rcases hdm with rfl | rfl | rfl | rfl <;> decide
  have hnb := neighbour_lt m g d.1 hn hd
  show ∀ y ∈ (seedStep m g cst s d).2, y.cell < numCells m
  unfold seedStep
  simp only []
  split_ifs <;> first
    | exact hs
    | (intro y hy
       rcases List.mem_append.mp hy with h | h
       · exact hs y h
       · rw [List.mem_singleton.mp h]; exact hnb)

theorem manhattanFlood_visited (m : Maze) (t : Nat) (s : Nat → Nat) (hv : FullyVisited m)
    (ht : t < numCells m) :
    manhattanFlood m t CLOSED_MAZE s = manhattanFlood m t OPEN_MAZE s := by
  have hn : 0 < numCells m := by omega
  have e : manhattanCosts m t CLOSED_MAZE s = manhattanCosts m t OPEN_MAZE s := by
    unfold manhattanCosts
    refine runQueue_congr _ _ _ (fun st => ∀ y ∈ st.2, y < numCells m) ?_ ?_ _ _ _ ?_
    · intro c q i x rest hP htake
      exact manhattanVisit_queue m _ x (c, rest) hn
        (fun y hy => hP y ((takeAt_some htake).2.2.1 y hy))
    · intro c q i x rest hP htake
      exact manhattanVisit_exits_congr m _ _ x _
        (fun d hd => visited_exits m x d (hv x (hP x (takeAt_some htake).1)) hd)
    · intro y hy
      rw [List.mem_singleton.mp hy]; exact ht
  unfold manhattanFlood
  rw [e]

theorem weightedFlood_visited (m : Maze) (t : Nat) (s : Nat → Nat) (hv : FullyVisited m)
    (ht : t < numCells m) :
    weightedFlood m t CLOSED_MAZE s = weightedFlood m t OPEN_MAZE s := by
  have hn : 0 < numCells (initialiseFloodCosts m t) := by
    rw [initialiseFloodCosts_numCells]; omega
  have e : runQueue (weightedVisit (initialiseFloodCosts m t) CLOSED_MAZE) s floodFuel 0
        (((initialiseFloodCosts m t).mCost, (initialiseFloodCosts m t).mDirection), [t])
      = runQueue (weightedVisit (initialiseFloodCosts m t) OPEN_MAZE) s floodFuel 0
        (((initialiseFloodCosts m t).mCost, (initialiseFloodCosts m t).mDirection), [t]) := by
    refine runQueue_congr _ _ _
      (fun st => ∀ y ∈ st.2, y < numCells (initialiseFloodCosts m t)) ?_ ?_ _ _ _ ?_
    · intro c q i x rest hP htake
      exact weightedVisit_queue _ _ x (c, rest) hn
        (fun y hy => hP y ((takeAt_some htake).2.2.1 y hy))
    · intro c q i x rest hP htake
      exact weightedVisit_exits_congr _ _ _ x _
        (fun d hd => visited_exits _ x d (hv x (hP x (takeAt_some htake).1)) hd)
    · intro y hy
      rw [List.mem_singleton.mp hy]; exact ht
  unfold weightedFlood
  simp only []
  rw [e]

theorem directionFlood_visited (m : Maze) (t : Nat) (s : Nat → Nat) (hv : FullyVisited m)
    (ht : t < numCells m) :
    directionFlood m t CLOSED_MAZE s = directionFlood m t OPEN_MAZE s := by
  have hn : 0 < numCells (initialiseFloodCosts m t) := by
    rw [initialiseFloodCosts_numCells]; omega
  have e : runQueue (directionVisit (initialiseFloodCosts m t) CLOSED_MAZE) s floodFuel 0
        (((initialiseFloodCosts m t).mCost, (initialiseFloodCosts m t).mDirection), [t])
      = runQueue (directionVisit (initialiseFloodCosts m t) OPEN_MAZE) s floodFuel 0
        (((initialiseFloodCosts m t).mCost, (initialiseFloodCosts m t).mDirection), [t]) := by
    refine runQueue_congr _ _ _
      (fun st => ∀ y ∈ st.2, y < numCells (initialiseFloodCosts m t)) ?_ ?_ _ _ _ ?_
    · intro c q i x rest hP htake
      exact directionVisit_queue _ _ x (c, rest) hn
        (fun y hy => hP y ((takeAt_some htake).2.2.1 y hy))
    · intro c q i x rest hP htake
      exact directionVisit_exits_congr _ _ _ x _
        (fun d hd => visited_exits _ x d (hv x (hP x (takeAt_some htake).1)) hd)
    · intro y hy
      rw [List.mem_singleton.mp hy]; exact ht
  unfold directionFlood
  simp only []
  rw [e]

theorem runLengthFlood_visited (m : Maze) (t : Nat) (s : Nat → Nat) (hv : FullyVisited m)
    (hn0 : 0 < numCells m) :
    runLengthFlood m t CLOSED_MAZE s = runLengthFlood m t OPEN_MAZE s := by
  have hn : 0 < numCells (initialiseFloodCosts m t) := by
    rw [initialiseFloodCosts_numCells]; exact hn0
  have e : runQueue (runLengthVisit (initialiseFloodCosts m t) CLOSED_MAZE) s floodFuel 0
        (seedQueue (initialiseFloodCosts m t) ((initialiseFloodCosts m t).mCost, []) t
          (orthoCostTable.getD 1 0))
      = runQueue (runLengthVisit (initialiseFloodCosts m t) OPEN_MAZE) s floodFuel 0
        (seedQueue (initialiseFloodCosts m t) ((initialiseFloodCosts m t).mCost, []) t
          (orthoCostTable.getD 1 0)) := by
    refine runQueue_congr _ _ _
      (fun st => ∀ y ∈ st.2, y.cell < numCells (initialiseFloodCosts m t)) ?_ ?_ _ _ _ ?_
    · intro c q i x rest hP htake
      exact runLengthVisit_queue _ _ x (c, rest) hn
        (fun y hy => hP y ((takeAt_some htake).2.2.1 y hy))
    · intro c q i x rest hP htake
      exact runLengthVisit_exits_congr _ _ _ x _
        (fun d hd => visited_exits _ x.cell d (hv x.cell (hP x (takeAt_some htake).1)) hd)
    · exact seedQueue_queue _ _ _ _ hn (fun y hy => absurd hy (List.not_mem_nil _))
  unfold runLengthFlood
  simp only []
  rw [e]

/-- In a fully explored maze a flood gives the same state and the same value
under both interpretations, when the queue hands out its items in the same
order. -/
theorem flood_visited (m : Maze) (t : Nat) (s : Nat → Nat) (hv : FullyVisited m)
    (ht : t < numCells m) :
    flood m t CLOSED_MAZE s = flood m t OPEN_MAZE s := by
  unfold flood
  cases m.mFloodType
  · exact manhattanFlood_visited m t s hv ht
  · exact weightedFlood_visited m t s hv ht
  · exact runLengthFlood_visited m t s hv (by omega)
  · exact directionFlood_visited m t s hv ht

theorem fullyVisited_solved (m : Maze) (s : Nat → Nat) (hv : FullyVisited m)
    (hg : goal m < numCells m) :
    (testForSolution m s s).2 = true ∧
    openMazeCost (testForSolution m s s).1 = closedMazeCost (testForSolution m s s).1 := by
  obtain ⟨h1, h2, _, h4, _⟩ := testForSolution_spec m s s (by omega)
  have e := flood_visited m (goal m) s hv hg
  refine ⟨?_, ?_⟩
  · rw [h4, e]; simp
  · unfold openMazeCost closedMazeCost
    rw [h1, h2, e]

/-- With the Manhattan flood the two floods of `testForSolution` may even
hand out their cells in different orders. -/
theorem fullyVisited_solved_manhattan (m : Maze) (s1 s2 : Nat → Nat) (hv : FullyVisited m)
    (hw : m.mWidth ≤ 255) (hft : m.mFloodType = FloodType.MANHATTAN_FLOOD)
    (hg : goal m < numCells m) :
    (testForSolution m s1 s2).2 = true := by
  obtain ⟨_, _, _, h4, _⟩ := testForSolution_spec m s1 s2 (by omega)
  rw [h4, flood_visited m (goal m) s1 hv hg, flood_manhattan _ _ _ _ hft,
    flood_manhattan _ _ _ _ hft,
    manhattanCosts_sched_indep m OPEN_MAZE (goal m) s1 s2 hw hg 0 (by omega)]
  simp

/-! ## The loops of the other three floods end with an empty queue -/

theorem initialiseFloodCosts_le_max (m : Maze) (t c : Nat) (hc : c < numCells m) :
    (initialiseFloodCosts m t).mCost c ≤ MAX_COST := by
  simp only [initialiseFloodCosts, setAt]
  split_ifs <;> simp [MAX_COST]

theorem fuel_bound (n k : Nat) (hn : n < 65536) (hk : k ≤ n * MAX_COST) : k + 4 ≤ floodFuel := by
  have h3 : n * MAX_COST ≤ 65535 * 65535 := Nat.mul_le_mul (by omega) (le_refl _)
  unfold floodFuel
  unfold MAX_COST at hk h3
  omega

theorem push_measure {ι : Type} (n : Nat) (cost : Nat → Nat) (q : List ι) (x : ι) (c v : Nat)
    (hc : c < n) (hv : v < cost c) :
    costSum n (setAt cost c v) + (q ++ [x]).length ≤ costSum n cost + q.length := by
  have := costSum_setAt_le n cost c v hc hv
  simp only [List.length_append, List.length_singleton]
  omega

theorem weightedRelax_measure (m : Maze) (mt x ch td : Nat)
    (st : ((Nat → Nat) × (Nat → Nat)) × List Nat) (d : Nat)
    (hn : 0 < numCells m) (hd : d < 4) :
    costSum (numCells m) (weightedRelax m mt x ch td st d).1.1
        + (weightedRelax m mt x ch td st d).2.length
      ≤ costSum (numCells m) st.1.1 + st.2.length := by
  unfold weightedRelax
  simp only []
  generalize (if td = d then (ch + 2) % 65536 else (ch + m.mCornerWeight) % 65536) = nc
  split_ifs with h1 h2
  · have := costSum_setAt_le (numCells m) st.1.1 (neighbour m x d) nc
      (neighbour_lt m x d hn hd) h2
    simp only [List.length_append, List.length_singleton]
    omega
  · exact le_refl _
  · exact le_refl _

theorem weightedVisit_measure (m : Maze) (mt x : Nat)
    (st : ((Nat → Nat) × (Nat → Nat)) × List Nat) (hn : 0 < numCells m) :
    costSum (numCells m) (weightedVisit m mt st x).1.1 + (weightedVisit m mt st x).2.length
      ≤ costSum (numCells m) st.1.1 + st.2.length := by
  unfold weightedVisit
  simp only [List.foldl_cons, List.foldl_nil]
  exact le_trans (weightedRelax_measure m mt x _ _ _ 3 hn (by omega))
    (le_trans (weightedRelax_measure m mt x _ _ _ 2 hn (by omega))
      (le_trans (weightedRelax_measure m mt x _ _ _ 1 hn (by omega))
        (weightedRelax_measure m mt x _ _ _ 0 hn (by omega))))

/-- The `while` loop of `weightedFlood` ends with an empty queue within the
iteration bound, for every order of the queue. -/
theorem weightedFlood_queue_empties (m : Maze) (t mt : Nat) (s : Nat → Nat)
    (hn : 0 < numCells m) :
    (runQueue (weightedVisit (initialiseFloodCosts m t) mt) s floodFuel 0
      (((initialiseFloodCosts m t).mCost, (initialiseFloodCosts m t).mDirection), [t])).2
      = [] := by
  have hn1 : 0 < numCells (initialiseFloodCosts m t) := hn
  apply runQueue_done _ s (fun _ => True)
    (fun st => costSum (numCells m) st.1.1 + st.2.length)
  · intros; trivial
  · intro c q i x rest _ htake
    have h1 := weightedVisit_measure (initialiseFloodCosts m t) mt x (c, rest) hn1
    have h2 := (takeAt_some htake).2.1
    rw [initialiseFloodCosts_numCells] at h1
    simp only [] at h1 ⊢
    omega
  · trivial
  · have h1 := costSum_le (numCells m) (initialiseFloodCosts m t).mCost MAX_COST
      (fun c hc => initialiseFloodCosts_le_max m t c hc)
    have h2 : numCells m < 65536 := Nat.mod_lt _ (by omega)
    have := fuel_bound _ _ h2 h1
    simp only [List.length_singleton]
    omega

theorem runLengthRelax_measure (m : Maze) (mt : Nat) (info : FloodInfo)
    (st : (Nat → Nat) × List FloodInfo) (d : Nat) (hn : 0 < numCells m) (hd : d < 4) :
    costSum (numCells m) (runLengthRelax m mt info st d).1
        + (runLengthRelax m mt info st d).2.length
      ≤ costSum (numCells m) st.1 + st.2.length := by
  unfold runLengthRelax
  simp only []
  split_ifs with h1 h2 h3 h4 h5
  all_goals first
    | exact le_refl _
    | exact push_measure _ _ _ _ _ _ (neighbour_lt m info.cell d hn hd) (by assumption)

theorem runLengthVisit_measure (m : Maze) (mt : Nat) (info : FloodInfo)
    (st : (Nat → Nat) × List FloodInfo) (hn : 0 < numCells m) :
    costSum (numCells m) (runLengthVisit m mt st info).1 + (runLengthVisit m mt st info).2.length
      ≤ costSum (numCells m) st.1 + st.2.length := by
  unfold runLengthVisit
  simp only [List.foldl_cons, List.foldl_nil]
  exact le_trans (runLengthRelax_measure m mt info _ 3 hn (by omega))
    (le_trans (runLengthRelax_measure m mt info _ 2 hn (by omega))
      (le_trans (runLengthRelax_measure m mt info _ 1 hn (by omega))
        (runLengthRelax_measure m mt info _ 0 hn (by omega))))

theorem seedStep_bound (m : Maze) (g cst k : Nat) (st : (Nat → Nat) × List FloodInfo)
    (d : Nat × Nat × Nat) (hcst : cst ≤ MAX_COST)
    (h : (∀ c, c < numCells m → st.1 c ≤ MAX_COST) ∧ st.2.length ≤ k) :
    (∀ c, c < numCells m → (seedStep m g cst st d).1 c ≤ MAX_COST) ∧
      (seedStep m g cst st d).2.length ≤ k + 1 := by
  unfold seedStep
  simp only []
  split_ifs
  · refine ⟨fun c hc => ?_, ?_⟩
    · simp only [setAt]
      split_ifs
      · exact hcst
      · exact h.1 c hc
    · simp only [List.length_append, List.length_singleton]
      omega
  · exact ⟨h.1, by omega⟩

theorem seedQueue_bound (m : Maze) (g cst : Nat) (cost : Nat → Nat) (hcst : cst ≤ MAX_COST)
    (h : ∀ c, c < numCells m → cost c ≤ MAX_COST) :
    (∀ c, c < numCells m → (seedQueue m (cost, []) g cst).1 c ≤ MAX_COST) ∧
      (seedQueue m (cost, []) g cst).2.length ≤ 4 := by
  unfold seedQueue
  simp only [List.foldl_cons, List.foldl_nil]
  exact seedStep_bound m g cst 3 _ _ hcst (seedStep_bound m g cst 2 _ _ hcst
    (seedStep_bound m g cst 1 _ _ hcst (seedStep_bound m g cst 0 _ _ hcst
      ⟨h, by simp⟩)))

/-- The `while` loop of `runLengthFlood` ends with an empty queue within the
iteration bound, for every order of the queue. -/
theorem runLengthFlood_queue_empties (m : Maze) (t mt : Nat) (s : Nat → Nat)
    (hn : 0 < numCells m) :
    (runQueue (runLengthVisit (initialiseFloodCosts m t) mt) s floodFuel 0
      (seedQueue (initialiseFloodCosts m t) ((initialiseFloodCosts m t).mCost, []) t
        (orthoCostTable.getD 1 0))).2 = [] := by
  have hn1 : 0 < numCells (initialiseFloodCosts m t) := hn
  apply runQueue_done _ s (fun _ => True)
    (fun st => costSum (numCells m) st.1 + st.2.length)
  · intros; trivial
  · intro c q i x rest _ htake
    have h1 := runLengthVisit_measure (initialiseFloodCosts m t) mt x (c, rest) hn1
    have h2 := (takeAt_some htake).2.1
    rw [initialiseFloodCosts_numCells] at h1
    simp only [] at h1 ⊢
    omega
  · trivial
  · obtain ⟨b1, b2⟩ := seedQueue_bound (initialiseFloodCosts m t) t (orthoCostTable.getD 1 0)
      (initialiseFloodCosts m t).mCost (by decide)
      (fun c hc => initialiseFloodCosts_le_max m t c hc)
    rw [initialiseFloodCosts_numCells] at b1
    have h1 := costSum_le (numCells m) _ MAX_COST b1
    have h2 : numCells m < 65536 := Nat.mod_lt _ (by omega)
    have := fuel_bound _ _ h2 h1
    omega

theorem directionRelax_measure (m : Maze) (mt x nc : Nat)
    (st : ((Nat → Nat) × (Nat → Nat)) × List Nat) (d : Nat)
    (hn : 0 < numCells m) (hd : d < 4) :
    costSum (numCells m)
          (fun c => if (directionRelax m mt x nc st d).1.2 c = INVALID_DIRECTION then 1 else 0)
        + (directionRelax m mt x nc st d).2.length
      ≤ costSum (numCells m) (fun c => if st.1.2 c = INVALID_DIRECTION then 1 else 0)
        + st.2.length := by
  unfold directionRelax
  simp only []
  split_ifs with h1 h2
  · have hb : behind d ≠ INVALID_DIRECTION := by
      interval_cases d <;> decide
    have e : (fun c => if setAt st.1.2 (neighbour m x d) (behind d) c = INVALID_DIRECTION
          then 1 else 0)
        = setAt (fun c => if st.1.2 c = INVALID_DIRECTION then 1 else 0) (neighbour m x d) 0 := by
      funext c
      simp only [setAt]
      split_ifs <;> simp_all
    have := costSum_setAt_le (numCells m)
      (fun c => if st.1.2 c = INVALID_DIRECTION then 1 else 0) (neighbour m x d) 0
      (neighbour_lt m x d hn hd) (by simp [h2])
    rw [e]
    simp only [List.length_append, List.length_singleton]
    omega
  · exact le_refl _
  · exact le_refl _

theorem directionVisit_measure (m : Maze) (mt x : Nat)
    (st : ((Nat → Nat) × (Nat → Nat)) × List Nat) (hn : 0 < numCells m) :
    costSum (numCells m)
          (fun c => if (directionVisit m mt st x).1.2 c = INVALID_DIRECTION then 1 else 0)
        + (directionVisit m mt st x).2.length
      ≤ costSum (numCells m) (fun c => if st.1.2 c = INVALID_DIRECTION then 1 else 0)
        + st.2.length := by
  unfold directionVisit
  simp only [List.foldl_cons, List.foldl_nil]
  exact le_trans (directionRelax_measure m mt x _ _ 3 hn (by omega))
    (le_trans (directionRelax_measure m mt x _ _ 2 hn (by omega))
      (le_trans (directionRelax_measure m mt x _ _ 1 hn (by omega))
        (directionRelax_measure m mt x _ _ 0 hn (by omega))))

/-- The `while` loop of `directionFlood` ends with an empty queue within the
iteration bound, for every order of the queue. -/
theorem directionFlood_queue_empties (m : Maze) (t mt : Nat) (s : Nat → Nat)
    (hn : 0 < numCells m) :
    (runQueue (directionVisit (initialiseFloodCosts m t) mt) s floodFuel 0
      (((initialiseFloodCosts m t).mCost, (initialiseFloodCosts m t).mDirection), [t])).2
      = [] := by
  have hn1 : 0 < numCells (initialiseFloodCosts m t) := hn
  apply runQueue_done _ s (fun _ => True)
    (fun st => costSum (numCells m) (fun c => if st.1.2 c = INVALID_DIRECTION then 1 else 0)
      + st.2.length)
  · intros; trivial
  · intro c q i x rest _ htake
    have h1 := directionVisit_measure (initialiseFloodCosts m t) mt x (c, rest) hn1
    have h2 := (takeAt_some htake).2.1
    rw [initialiseFloodCosts_numCells] at h1
    simp only [] at h1 ⊢
    omega
  · trivial
  · have h1 := costSum_le (numCells m)
      (fun c => if (initialiseFloodCosts m t).mDirection c = INVALID_DIRECTION then 1 else 0)
      MAX_COST (fun c _ => by simp only []; split_ifs <;> simp [MAX_COST])
    have h2 : numCells m < 65536 := Nat.mod_lt _ (by omega)
    have := fuel_bound _ _ h2 h1
    simp only [List.length_singleton]
    omega

set_option maxRecDepth 100000 in
/-- C13 (Scenario A): on a freshly reset 16-wide maze with the Manhattan
flood, `flood(cellID(7,7), OPEN_MAZE)` returns 14, whatever the order in which
the queue hands out its cells. -/
theorem C13_scenario_A (sched : Nat → Nat) :
    (flood freshManhattanMaze (cellID freshManhattanMaze 7 7) OPEN_MAZE sched).2 = 14 := by
  have hid : cellID freshManhattanMaze 7 7 = 119 := by decide
  have hw : freshManhattanMaze.mWidth ≤ 255 := by decide
  have ht : 119 < numCells freshManhattanMaze := by decide
  have h0 : 0 < numCells freshManhattanMaze := by decide
  rw [hid, flood_manhattan _ _ _ _ rfl,
    manhattanCosts_sched_indep _ OPEN_MAZE 119 sched fifo hw ht 0 h0]
  decide

/-- C14: in a maze state in which every cell below `numCells()` is visited
and `goal()` is a cell of the maze, `testForSolution()` returns true and
`openMazeCost()` equals `closedMazeCost()`, whatever the flood type; the two
floods run on the same beliefs, so their queues hand out items in the same
order `s`. -/
theorem C14_fully_known_is_solved (m : Maze) (s : Nat → Nat) (hv : FullyVisited m)
    (hg : goal m < numCells m) :
    (testForSolution m s s).2 = true ∧
    openMazeCost (testForSolution m s s).1 = closedMazeCost (testForSolution m s s).1 :=
  fullyVisited_solved m s hv hg

set_option maxRecDepth 100000 in
/-- C14 at a concrete state: the fully explored 16-wide maze restored by
`load` (`restoredMaze`, run-length flood). -/
theorem C14_fully_known_is_solved_witness :
    (testForSolution restoredMaze fifo fifo).2 = true ∧
    openMazeCost (testForSolution restoredMaze fifo fifo).1
      = closedMazeCost (testForSolution restoredMaze fifo fifo).1 :=
  C14_fully_known_is_solved restoredMaze fifo (by unfold FullyVisited; decide) (by decide)

/-! ## Termination of the four floods -/

theorem floodPending_zero (m : Maze) (t mt : Nat) (s : Nat → Nat) (ht : t < numCells m) :
    floodPending m t mt s = 0 := by
  have hn : 0 < numCells m := by omega
  unfold floodPending
  simp only []
  cases m.mFloodType
  · simp only [manhattanCosts_done m mt t s ht, List.length_nil]
  · simp only [weightedFlood_queue_empties m t mt s hn, List.length_nil]
  · simp only [runLengthFlood_queue_empties m t mt s hn, List.length_nil]
  · simp only [directionFlood_queue_empties m t mt s hn, List.length_nil]

/-! ## Beliefs only tighten -/

theorem mutation_tightens (m : Maze) (op : Mutation) (c d : Nat) (hd : d < 4) :
    (hasOpenExit m c d = false → hasOpenExit (op.apply m) c d = false) ∧
    (hasClosedExit m c d = true → hasClosedExit (op.apply m) c d = true) := by
  have ho := Mutation.openMono m op c d hd
  have hc := Mutation.closedMono m op c (d + 4) (by omega) (by omega)
  rw [hasOpenExit_eq, hasOpenExit_eq, hasClosedExit_eq, hasClosedExit_eq]
  constructor
  · intro h
    simp only [Bool.not_eq_false'] at h ⊢
    exact ho h
  · intro h
    simp only [Bool.not_eq_true'] at h ⊢
    exact hc h

/-! ## The goal area after a load -/

theorem setWallFromBit_goalArea (m : Maze) (c w mask d : Nat) :
    (setWallFromBit m c w mask d).goalArea = m.goalArea := by
  unfold setWallFromBit
  split
  · exact setWallPresent_goalArea m c d
  · exact setWallAbsent_goalArea m c d

theorem copyCellFromFileData_goalArea (m : Maze) (c w : Nat) :
    (copyCellFromFileData m c w).goalArea
      = if w &&& 0x80 ≠ 0 then m.goalArea ++ [c] else m.goalArea := by
  unfold copyCellFromFileData
  simp only []
  split <;> simp only [addToGoalArea, setWallFromBit_goalArea]

theorem copyCells_goalArea (f : Nat → Nat) (l : List Nat) (m : Maze) :
    (l.foldl (fun acc cell => copyCellFromFileData acc cell (f cell)) m).goalArea
      = m.goalArea ++ l.filter (fun c => decide (f c &&& 0x80 ≠ 0)) := by
  induction l generalizing m with
  | nil => simp
  | cons a l ih =>
    simp only [List.foldl_cons]
    rw [ih, copyCellFromFileData_goalArea]
    by_cases h : f a &&& 0x80 ≠ 0
    · rw [if_pos h, List.filter_cons_of_pos (by simpa using h), List.append_assoc]
      rfl
    · rw [if_neg h, List.filter_cons_of_neg (by simpa using h)]

theorem copyMazeFromFileData_goalArea (m : Maze) (data : List Nat) (cellCount : Nat) :
    (copyMazeFromFileData m (some data) cellCount).goalArea
      = (List.range (numCells (copyMazeFromFileData m (some data) cellCount))).filter
          (fun c => decide ((data.getD c 0 % 256) &&& 0x80 ≠ 0)) := by
  have hn : numCells (copyMazeFromFileData m (some data) cellCount)
      = numCells (if cellCount = 1024 then setWidth (clearData m) 32
          else setWidth (clearData m) 16) := by
    apply numCells_congr
    rw [copyMazeFromFileData_mWidth]
    split <;> rfl
  have hg : (if cellCount = 1024 then setWidth (clearData m) 32
      else setWidth (clearData m) 16).goalArea = [] := by
    split <;> rfl
  rw [hn]
  unfold copyMazeFromFileData
  simp only []
  rw [copyCells_goalArea (fun c => data.getD c 0 % 256), hg, List.nil_append]

/-- C26: for each of the four flood types, every wall state, every target
below `numCells()` and either interpretation, the `while` loop of the flood
runs until the queue is empty, whatever the order in which the queue hands
out its items: nothing is left pending within the iteration bound. -/
theorem C26_floods_run_to_exhaustion (m : Maze) (target mazeType : Nat) (sched : Nat → Nat)
    (ht : target < numCells m) :
    floodPending m target mazeType sched = 0 :=
  floodPending_zero m target mazeType sched ht

/-- C26 at a concrete state: the run-length flood towards cell 0x77 of a
freshly reset 16-wide maze. -/
theorem C26_floods_run_to_exhaustion_witness :
    floodPending (resetToEmptyMaze (blank 16)) 0x77 CLOSED_MAZE fifo = 0 :=
  C26_floods_run_to_exhaustion (resetToEmptyMaze (blank 16)) 0x77 CLOSED_MAZE fifo
    (by rw [numCells, resetToEmptyMaze_mWidth]; decide)

/-- C27: for every maze state, cell `c` and cardinal direction `d`, no call of
`setWallPresent`, `setWallAbsent` or `updateMap`, on any cell `c1` with any
argument `x`, turns `hasOpenExit(c, d)` from false to true or
`hasClosedExit(c, d)` from true to false. -/
theorem C27_beliefs_only_tighten (m : Maze) (c d c1 x : Nat) (hd : d < 4) :
    (hasOpenExit m c d = false →
      hasOpenExit (setWallPresent m c1 x) c d = false ∧
      hasOpenExit (setWallAbsent m c1 x) c d = false ∧
      hasOpenExit (updateMap m c1 x) c d = false) ∧
    (hasClosedExit m c d = true →
      hasClosedExit (setWallPresent m c1 x) c d = true ∧
      hasClosedExit (setWallAbsent m c1 x) c d = true ∧
      hasClosedExit (updateMap m c1 x) c d = true) :=
  ⟨fun h => ⟨(mutation_tightens m (.present c1 x) c d hd).1 h,
      (mutation_tightens m (.absent c1 x) c d hd).1 h,
      (mutation_tightens m (.update c1 x) c d hd).1 h⟩,
   fun h => ⟨(mutation_tightens m (.present c1 x) c d hd).2 h,
      (mutation_tightens m (.absent c1 x) c d hd).2 h,
      (mutation_tightens m (.update c1 x) c d hd).2 h⟩⟩

/-- C27 at a concrete state: the east wall of cell 0 of a freshly reset
16-wide maze, and calls on cell 0 with argument 1. -/
theorem C27_beliefs_only_tighten_witness :
    (hasOpenExit (resetToEmptyMaze (blank 16)) 0 EAST = false →
      hasOpenExit (setWallPresent (resetToEmptyMaze (blank 16)) 0 1) 0 EAST = false ∧
      hasOpenExit (setWallAbsent (resetToEmptyMaze (blank 16)) 0 1) 0 EAST = false ∧
      hasOpenExit (updateMap (resetToEmptyMaze (blank 16)) 0 1) 0 EAST = false) ∧
    (hasClosedExit (resetToEmptyMaze (blank 16)) 0 EAST = true →
      hasClosedExit (setWallPresent (resetToEmptyMaze (blank 16)) 0 1) 0 EAST = true ∧
      hasClosedExit (setWallAbsent (resetToEmptyMaze (blank 16)) 0 1) 0 EAST = true ∧
      hasClosedExit (updateMap (resetToEmptyMaze (blank 16)) 0 1) 0 EAST = true) :=
  C27_beliefs_only_tighten (resetToEmptyMaze (blank 16)) 0 EAST 0 1 (by decide)

/-- C28: in every wall state in which each pessimistic exit is also an
optimistic exit, for every target and every cell `c` of the maze, the cost of
`c` after `manhattanFlood(target, CLOSED_MAZE)` is at least its cost after
`manhattanFlood(target, OPEN_MAZE)`, whatever the orders of the two queues. -/
theorem C28_manhattanFlood_monotone (m : Maze) (target c : Nat) (s1 s2 : Nat → Nat)
    (hw : m.mWidth ≤ 255) (hcons : Consistent m) (ht : target < numCells m)
    (hc : c < numCells m) :
    cost (manhattanFlood m target CLOSED_MAZE s1).1 c
      ≥ cost (manhattanFlood m target OPEN_MAZE s2).1 c := by
  show (manhattanFlood m target OPEN_MAZE s2).1.mCost c
    ≤ (manhattanFlood m target CLOSED_MAZE s1).1.mCost c
  rw [manhattanFlood_mCost, manhattanFlood_mCost]
  exact manhattan_closed_ge_open m target s1 s2 hw ht hcons c hc

set_option maxRecDepth 100000 in
/-- C28 at a concrete state: `cornerMaze`, flooded towards cell 1 and read at
cell 0. -/
theorem C28_manhattanFlood_monotone_witness :
    cost (manhattanFlood cornerMaze 1 CLOSED_MAZE fifo).1 0
      ≥ cost (manhattanFlood cornerMaze 1 OPEN_MAZE fifo).1 0 :=
  C28_manhattanFlood_monotone cornerMaze 1 0 fifo fifo (by decide)
    (by unfold Consistent; decide) (by decide) (by decide)

/-- C21: after `copyMazeFromFileData(data, cellCount)` the goal area is the
list of the cells below `numCells()` whose data byte has bit 7 set, so
`goalContains(c)` holds exactly for these cells and nothing of the goal area
held before the load is left. -/
theorem C21_goal_marker_on_load (m : Maze) (data : List Nat) (cellCount c : Nat) :
    (copyMazeFromFileData m (some data) cellCount).goalArea
      = (List.range (numCells (copyMazeFromFileData m (some data) cellCount))).filter
          (fun c => decide ((data.getD c 0 % 256) &&& 0x80 ≠ 0)) ∧
    (goalContains (copyMazeFromFileData m (some data) cellCount) c = true ↔
      c < numCells (copyMazeFromFileData m (some data) cellCount) ∧
        (data.getD c 0 % 256) &&& 0x80 ≠ 0) := by
  refine ⟨copyMazeFromFileData_goalArea m data cellCount, ?_⟩
  unfold goalContains
  rw [copyMazeFromFileData_goalArea]
  simp [List.mem_filter]

set_option maxRecDepth 100000 in
/-- C22, the failing input: 256 bytes in which cell 0 reports a north wall
and cell 1 reports no south wall; after the load the optimistic nibble of
cell 0 is 1, the pessimistic nibble is 0, and `isVisited(0)` is false. -/
theorem C22_load_leaves_unvisited :
    numCells (copyMazeFromFileData (blank 16) (some (1 :: List.replicate 255 0)) 256) = 256 ∧
    openWalls (copyMazeFromFileData (blank 16) (some (1 :: List.replicate 255 0)) 256) 0 = 1 ∧
    closedWalls (copyMazeFromFileData (blank 16) (some (1 :: List.replicate 255 0)) 256) 0 = 0 ∧
    isVisited (copyMazeFromFileData (blank 16) (some (1 :: List.replicate 255 0)) 256) 0
      = false := by
  decide

set_option maxRecDepth 100000 in
/-- C23, the failing input: on a freshly reset 16-wide maze the east wall of
cell 0 is present; after `setWallAbsent(0, EAST)` the pessimistic exit is open
but `hasOpenExit(0, EAST)` is still false, on both sides of the wall. -/
theorem C23_setWallAbsent_keeps_optimistic_wall :
    hasOpenExit (resetToEmptyMaze (blank 16)) 0 EAST = false ∧
    hasClosedExit (setWallAbsent (resetToEmptyMaze (blank 16)) 0 EAST) 0 EAST = true ∧
    hasOpenExit (setWallAbsent (resetToEmptyMaze (blank 16)) 0 EAST) 0 EAST = false ∧
    hasOpenExit (setWallAbsent (resetToEmptyMaze (blank 16)) 0 EAST)
      (neighbour (resetToEmptyMaze (blank 16)) 0 EAST) (opposite EAST) = false := by
  decide

/-! ## The direction field after a Manhattan flood -/

theorem costDir_eq (m : Maze) (c d : Nat) (hd : d < 4) :
    costDir m c d = if hasOpenExit m c d then m.mCost (neighbour m c d) else MAX_COST := by
  interval_cases d
  · simp only [costDir, costNorth, neighbour, NORTH]
    by_cases h : hasOpenExit m c 0 = true
    · simp [h]
    · simp [h]
  · simp only [costDir, costEast, neighbour, EAST]
  · simp only [costDir, costSouth, neighbour, SOUTH]
  · simp only [costDir, costWest, neighbour, WEST]

/-- The least of the four neighbour costs, when one of them is finite. -/
theorem directionToSmallest_min (m : Maze) (cell d0 : Nat)
    (hb : ∀ d, d < 4 → costDir m cell d ≤ MAX_COST) (hd0 : d0 < 4)
    (h0 : costDir m cell d0 < MAX_COST) :
    directionToSmallest m cell < 4 ∧
    ∀ d, d < 4 → costDir m cell (directionToSmallest m cell) ≤ costDir m cell d := by
  have b0 := hb 0 (by omega)
  have b1 := hb 1 (by omega)
  have b2 := hb 2 (by omega)
  have b3 := hb 3 (by omega)
  have key : (directionToSmallest m cell = 4 ∧ costDir m cell 0 = 65535 ∧
        costDir m cell 1 = 65535 ∧ costDir m cell 2 = 65535 ∧ costDir m cell 3 = 65535) ∨
      (directionToSmallest m cell = 0 ∧ costDir m cell 0 ≤ costDir m cell 1 ∧
        costDir m cell 0 ≤ costDir m cell 2 ∧ costDir m cell 0 ≤ costDir m cell 3) ∨
      (directionToSmallest m cell = 1 ∧ costDir m cell 1 ≤ costDir m cell 0 ∧
        costDir m cell 1 ≤ costDir m cell 2 ∧ costDir m cell 1 ≤ costDir m cell 3) ∨
      (directionToSmallest m cell = 2 ∧ costDir m cell 2 ≤ costDir m cell 0 ∧
        costDir m cell 2 ≤ costDir m cell 1 ∧ costDir m cell 2 ≤ costDir m cell 3) ∨
      (directionToSmallest m cell = 3 ∧ costDir m cell 3 ≤ costDir m cell 0 ∧
        costDir m cell 3 ≤ costDir m cell 1 ∧ costDir m cell 3 ≤ costDir m cell 2) := by
    unfold directionToSmallest smallestStep
    simp only [NORTH, EAST, SOUTH, WEST, INVALID_DIRECTION, MAX_COST] at *
    generalize costDir m cell 0 = a at *
    generalize costDir m cell 1 = b at *
    generalize costDir m cell 2 = c at *
    generalize costDir m cell 3 = d at *
    split_ifs <;> simp_all <;> omega
  simp only [MAX_COST] at h0
  rcases key with h | h | h | h | h
  · obtain ⟨_, a0, a1, a2, a3⟩ := h
    interval_cases d0 <;> omega
  all_goals
    obtain ⟨hr, a1, a2, a3⟩ := h
    rw [hr]
    refine ⟨by omega, ?_⟩
    rw [forall_lt_four]
    refine ⟨?_, ?_, ?_, ?_⟩ <;> first | exact le_refl _ | assumption

theorem chain_succ_inv {m : Maze} {mt t k c : Nat} (h : Chain m mt t (k + 1) c) :
    ∃ p d, d < 4 ∧ Chain m mt t k p ∧ hasExit m p d mt = true ∧ c = neighbour m p d := by
  cases h with
  | step hp hd he => exact ⟨_, _, hd, hp, he, rfl⟩

theorem chain_zero_inv {m : Maze} {mt t c : Nat} (h : Chain m mt t 0 c) : c = t := by
  cases h with
  | zero => rfl

theorem manhattan_pred_exists (m : Maze) (t : Nat) (s : Nat → Nat) (hw : m.mWidth ≤ 255)
    (ht : t < numCells m) (hsym : OpenSym m) (c k : Nat) (hc : c < numCells m)
    (hk : (manhattanCosts m t OPEN_MAZE s).1 c = k + 1) (hfin : k + 1 < MAX_COST) :
    ∃ d, d < 4 ∧ hasOpenExit m c d = true ∧
      (manhattanCosts m t OPEN_MAZE s).1 (neighbour m c d) = k := by
  obtain ⟨h0, hmax, hch, hrel⟩ := manhattan_final m OPEN_MAZE t s ht
  have hchain := hch c hc (by omega)
  rw [hk] at hchain
  obtain ⟨p, d0, hd0, hp, he, rfl⟩ := chain_succ_inv hchain
  have hpn : p < numCells m := hp.lt ht
  have hpk := (chain_cost_le m OPEN_MAZE t _ hw ht h0 hch hrel k p hp).1
  have hr := hrel p hpn (by omega) d0 hd0 he
  have hpe : (manhattanCosts m t OPEN_MAZE s).1 p = k := by omega
  refine ⟨opposite d0, opposite_lt d0, ?_, ?_⟩
  · rw [hsym p hpn d0 hd0]; exact he
  · rw [neighbour_neighbour m p d0 hw hpn hd0]; exact hpe

theorem manhattan_nb_ge (m : Maze) (t : Nat) (s : Nat → Nat) (hw : m.mWidth ≤ 255)
    (ht : t < numCells m) (hsym : OpenSym m) (c d : Nat) (hc : c < numCells m) (hd : d < 4)
    (he : hasOpenExit m c d = true) :
    (manhattanCosts m t OPEN_MAZE s).1 c
      ≤ (manhattanCosts m t OPEN_MAZE s).1 (neighbour m c d) + 1 := by
  obtain ⟨h0, hmax, hch, hrel⟩ := manhattan_final m OPEN_MAZE t s ht
  have hn : 0 < numCells m := by omega
  have hnb := neighbour_lt m c d hn hd
  have hcm := hmax c hc
  by_cases hfin : (manhattanCosts m t OPEN_MAZE s).1 (neighbour m c d) < MAX_COST
  · have hr := hrel (neighbour m c d) hnb hfin (opposite d) (opposite_lt d)
      (by
        have := hsym c hc d hd
        unfold hasOpenExit at this he
        rw [this]; exact he)
    rw [neighbour_neighbour m c d hw hc hd] at hr
    exact hr
  · have := hmax _ hnb
    omega

/-- After `manhattanFlood(target, OPEN_MAZE)` on symmetric optimistic walls,
the stored direction of a cell with a finite positive cost is an exit to a
neighbour one step nearer. -/
theorem manhattan_direction_descends (m : Maze) (t : Nat) (s : Nat → Nat) (hw : m.mWidth ≤ 255)
    (ht : t < numCells m) (hsym : OpenSym m) (c : Nat) (hc : c < numCells m)
    (hpos : 0 < cost (manhattanFlood m t OPEN_MAZE s).1 c)
    (hfin : cost (manhattanFlood m t OPEN_MAZE s).1 c < MAX_COST) :
    direction (manhattanFlood m t OPEN_MAZE s).1 c < 4 ∧
    hasOpenExit (manhattanFlood m t OPEN_MAZE s).1 c
      (direction (manhattanFlood m t OPEN_MAZE s).1 c) = true ∧
    cost (manhattanFlood m t OPEN_MAZE s).1
      (neighbour (manhattanFlood m t OPEN_MAZE s).1 c
        (direction (manhattanFlood m t OPEN_MAZE s).1 c)) + 1
      = cost (manhattanFlood m t OPEN_MAZE s).1 c := by
  obtain ⟨h0, hmax, hch, hrel⟩ := manhattan_final m OPEN_MAZE t s ht
  have hn : 0 < numCells m := by omega
  have hcost : ∀ x, cost (manhattanFlood m t OPEN_MAZE s).1 x
      = (manhattanCosts m t OPEN_MAZE s).1 x := fun _ => rfl
  rw [hcost] at hpos hfin
  generalize hM0 : ({ initialiseFloodCosts m t with
    mCost := (manhattanCosts m t OPEN_MAZE s).1 } : Maze) = M0
  have hdir : direction (manhattanFlood m t OPEN_MAZE s).1 c = directionToSmallest M0 c := by
    subst hM0
    show (if c < numCells m then _ else _) = _
    rw [if_pos hc]
  have hexit : ∀ x d, hasOpenExit (manhattanFlood m t OPEN_MAZE s).1 x d = hasOpenExit m x d :=
    fun _ _ => rfl
  have hnbr : ∀ x d, neighbour (manhattanFlood m t OPEN_MAZE s).1 x d = neighbour m x d :=
    fun _ _ => rfl
  have hcd : ∀ d, d < 4 → costDir M0 c d
      = if hasOpenExit m c d then (manhattanCosts m t OPEN_MAZE s).1 (neighbour m c d)
        else MAX_COST := by
    intro d hd
    subst hM0
    exact costDir_eq _ c d hd
  have hb : ∀ d, d < 4 → costDir M0 c d ≤ MAX_COST := by
    intro d hd
    rw [hcd d hd]
    split
    · exact hmax _ (neighbour_lt m c d hn hd)
    · exact le_refl _
  obtain ⟨k, hk⟩ : ∃ k, (manhattanCosts m t OPEN_MAZE s).1 c = k + 1 := ⟨_, (Nat.succ_pred_eq_of_pos hpos).symm⟩
  obtain ⟨d0, hd0, he0, hc0⟩ := manhattan_pred_exists m t s hw ht hsym c k hc hk (by omega)
  have hcd0 : costDir M0 c d0 = k := by rw [hcd d0 hd0, if_pos he0, hc0]
  obtain ⟨hr4, hmin⟩ := directionToSmallest_min M0 c d0 hb hd0 (by omega)
  have hle := hmin d0 hd0
  rw [hcd0] at hle
  rw [hcost, hcost, hexit, hnbr, hdir]
  generalize directionToSmallest M0 c = r at hr4 hle ⊢
  rw [hcd r hr4] at hle
  by_cases her : hasOpenExit m c r = true
  · rw [if_pos her] at hle
    have := manhattan_nb_ge m t s hw ht hsym c r hc hr4 her
    exact ⟨hr4, her, by omega⟩
  · rw [if_neg her] at hle
    unfold MAX_COST at hle hfin
    omega

theorem manhattan_follow (m : Maze) (t : Nat) (s : Nat → Nat) (hw : m.mWidth ≤ 255)
    (ht : t < numCells m) (hsym : OpenSym m) (k c : Nat) (hc : c < numCells m)
    (hk : cost (manhattanFlood m t OPEN_MAZE s).1 c = k) (hfin : k < MAX_COST) :
    followDirections (manhattanFlood m t OPEN_MAZE s).1 k c = t := by
  induction k generalizing c with
  | zero =>
    obtain ⟨_, _, hch, _⟩ := manhattan_final m OPEN_MAZE t s ht
    have h := hch c hc (by
      have : (manhattanCosts m t OPEN_MAZE s).1 c = 0 := hk
      rw [this]; exact hfin)
    have h0 : (manhattanCosts m t OPEN_MAZE s).1 c = 0 := hk
    rw [h0] at h
    exact chain_zero_inv h
  | succ k ih =>
    obtain ⟨h4, _, hstep⟩ := manhattan_direction_descends m t s hw ht hsym c hc
      (by omega) (by omega)
    show followDirections _ k (neighbour _ c (direction _ c)) = t
    apply ih
    · exact neighbour_lt m c _ (by omega) h4
    · omega
    · omega

theorem openSym_of_wallSym (m : Maze) (h : WallSym m) : OpenSym m :=
  fun c hc d hd => (wallSym_exits m h c d hc hd).1.symm

/-! ## Coordinates of the neighbours -/

theorem div_mod_of_coords (w x y : Nat) (hy : y < w) :
    (w * x + y) / w = x ∧ (w * x + y) % w = y := by
  have hw : 0 < w := by omega
  constructor
  · rw [Nat.mul_add_div hw, Nat.div_eq_of_lt hy, Nat.add_zero]
  · rw [Nat.mul_add_mod, Nat.mod_eq_of_lt hy]

theorem coords_lt (m : Maze) (c : Nat) (hw : m.mWidth ≤ 255) (hc : c < numCells m) :
    c = m.mWidth * col m c + row m c ∧ col m c < m.mWidth ∧ row m c < m.mWidth := by
  rw [numCells_eq m hw] at hc
  have hw0 : 0 < m.mWidth := by
    rcases Nat.eq_zero_or_pos m.mWidth with h | h
    · rw [h] at hc; omega
    · exact h
  refine ⟨(Nat.div_add_mod c m.mWidth).symm, ?_, Nat.mod_lt _ hw0⟩
  exact Nat.div_lt_of_lt_mul hc

/-- Where a step inside the grid leads. -/
theorem neighbour_coords (m : Maze) (c : Nat) (hw : m.mWidth ≤ 255) (hc : c < numCells m) :
    (row m c + 1 ≠ m.mWidth →
      col m (neighbour m c 0) = col m c ∧ row m (neighbour m c 0) = row m c + 1) ∧
    (col m c + 1 ≠ m.mWidth →
      col m (neighbour m c 1) = col m c + 1 ∧ row m (neighbour m c 1) = row m c) ∧
    (row m c ≠ 0 →
      col m (neighbour m c 2) = col m c ∧ row m (neighbour m c 2) + 1 = row m c) ∧
    (col m c ≠ 0 →
      col m (neighbour m c 3) + 1 = col m c ∧ row m (neighbour m c 3) = row m c) := by
  obtain ⟨hxy, hx, hy⟩ := coords_lt m c hw hc
  have hn := numCells_eq m hw
  generalize col m c = x at hxy hx
  generalize row m c = y at hxy hy
  generalize hwd : m.mWidth = w at *
  have hww : w * x + w ≤ w * w := by
    have : w * (x + 1) ≤ w * w := Nat.mul_le_mul_left w (by omega)
    rw [Nat.mul_add, Nat.mul_one] at this
    exact this
  refine ⟨?_, ?_, ?_, ?_⟩
  · intro h
    have e : neighbour m c 0 = w * x + (y + 1) := by
      simp only [neighbour, cellNorth, hn]
      rw [Nat.mod_eq_of_lt (by omega)]; omega
    rw [e]
    simp only [col, row, hwd]
    exact div_mod_of_coords w x (y + 1) (by omega)
  · intro h
    have h2 : w * (x + 1) + w ≤ w * w := by
      have : w * (x + 1 + 1) ≤ w * w := Nat.mul_le_mul_left w (by omega)
      rw [Nat.mul_add w (x + 1), Nat.mul_one] at this
      exact this
    have e : neighbour m c 1 = w * (x + 1) + y := by
      simp only [neighbour, cellEast, width, hn, hwd]
      rw [Nat.mul_add, Nat.mul_one] at h2 ⊢
      rw [Nat.mod_eq_of_lt (by omega)]; omega
    rw [e]
    simp only [col, row, hwd]
    exact div_mod_of_coords w (x + 1) y hy
  · intro h
    have e : neighbour m c 2 = w * x + (y - 1) := by
      simp only [neighbour, cellSouth, hn]
      have : c + w * w - 1 = (c - 1) + w * w := by omega
      rw [this, Nat.add_mod_right, Nat.mod_eq_of_lt (by omega)]; omega
    rw [e]
    simp only [col, row, hwd]
    have := div_mod_of_coords w x (y - 1) (by omega)
    omega
  · intro h
    have h3 : w * (x - 1) + w = w * x := by
      have : w * (x - 1 + 1) = w * x := by congr 1; omega
      rw [Nat.mul_add, Nat.mul_one] at this
      exact this
    have e : neighbour m c 3 = w * (x - 1) + y := by
      simp only [neighbour, cellWest, width, hn, hwd]
      have : c + w * w - w = (c - w) + w * w := by omega
      rw [this, Nat.add_mod_right, Nat.mod_eq_of_lt (by omega)]; omega
    rw [e]
    simp only [col, row, hwd]
    have := div_mod_of_coords w (x - 1) y hy
    omega

/-! ## Run lengths stay inside the cost tables -/

theorem bordered_move (m : Maze) (mt c xw : Nat) (hb : Bordered m mt) (hc : c < numCells m)
    (he : hasExit m c xw mt = true) :
    (xw = 0 → row m c + 1 ≠ m.mWidth) ∧ (xw = 1 → col m c + 1 ≠ m.mWidth) ∧
    (xw = 2 → row m c ≠ 0) ∧ (xw = 3 → col m c ≠ 0) := by
  obtain ⟨b0, b1, b2, b3⟩ := hb c hc
  simp only [NORTH, EAST, SOUTH, WEST] at b0 b1 b2 b3
  refine ⟨?_, ?_, ?_, ?_⟩ <;> intro hx h <;> subst hx
  · rw [b0 h] at he; exact Bool.noConfusion he
  · rw [b1 h] at he; exact Bool.noConfusion he
  · rw [b2 h] at he; exact Bool.noConfusion he
  · rw [b3 h] at he; exact Bool.noConfusion he

theorem runRoom_step (m : Maze) (c ew xw : Nat) (hw : m.mWidth ≤ 255) (hc : c < numCells m)
    (hew : ew < 4) (hxw : xw < 4) (hne : xw ≠ ew)
    (hmove : (xw = 0 → row m c + 1 ≠ m.mWidth) ∧ (xw = 1 → col m c + 1 ≠ m.mWidth) ∧
      (xw = 2 → row m c ≠ 0) ∧ (xw = 3 → col m c ≠ 0)) :
    (getExitDirection.getD ew []).getD xw 255 < 8 ∧
    runRoom m ((getExitDirection.getD ew []).getD xw 255) (neighbour m c xw)
      = runRoom m ((getExitDirection.getD ew []).getD xw 255) c + 1 := by
  obtain ⟨hxy, hx, hy⟩ := coords_lt m c hw hc
  obtain ⟨n0, n1, n2, n3⟩ := neighbour_coords m c hw hc
  obtain ⟨m0, m1, m2, m3⟩ := hmove
  interval_cases xw
  · obtain ⟨e1, e2⟩ := n0 (m0 rfl)
    interval_cases ew <;> simp [getExitDirection, runRoom, e1, e2] at hne ⊢ <;> omega
  · obtain ⟨e1, e2⟩ := n1 (m1 rfl)
    interval_cases ew <;> simp [getExitDirection, runRoom, e1, e2] at hne ⊢ <;> omega
  · obtain ⟨e1, e2⟩ := n2 (m2 rfl)
    interval_cases ew <;> simp [getExitDirection, runRoom, e1] at hne ⊢ <;> omega
  · obtain ⟨e1, e2⟩ := n3 (m3 rfl)
    interval_cases ew <;> simp [getExitDirection, runRoom, e2] at hne ⊢ <;> omega

theorem runRoom_le (m : Maze) (dir c : Nat) (hw : m.mWidth ≤ 255) (hc : c < numCells m) :
    runRoom m dir c ≤ 2 * (m.mWidth - 1) := by
  obtain ⟨_, hx, hy⟩ := coords_lt m c hw hc
  unfold runRoom
  simp only []
  split <;> omega

theorem mem_push {α : Type} {P : α → Prop} {q : List α} {x : α} (hq : ∀ y ∈ q, P y)
    (hx : P x) : ∀ y ∈ q ++ [x], P y := by
  intro y hy
  rcases List.mem_append.mp hy with h | h
  · exact hq y h
  · rw [List.mem_singleton.mp h]; exact hx

theorem runLengthTurn_fits (m : Maze) (mt : Nat) (info : FloodInfo) (xw : Nat)
    (hw : m.mWidth ≤ 32) (hb : Bordered m mt) (hf : RunFits m info) (hxw : xw < 4)
    (hne : xw ≠ info.entryWall) (he : hasExit m info.cell xw mt = true) :
    1 ≤ (runLengthTurn info xw).1 ∧ (runLengthTurn info xw).1 ≤ 63 ∧
    (runLengthTurn info xw).1
      ≤ runRoom m (runLengthTurn info xw).2.1 (neighbour m info.cell xw) := by
  obtain ⟨hc, hew, h1, hr⟩ := hf
  have hw255 : m.mWidth ≤ 255 := by omega
  obtain ⟨_, hstep⟩ := runRoom_step m info.cell info.entryWall xw hw255 hc hew hxw hne
    (bordered_move m mt info.cell xw hb hc he)
  have hle := runRoom_le m ((getExitDirection.getD info.entryWall []).getD xw 255)
    (neighbour m info.cell xw) hw255 (neighbour_lt m _ _ (by omega) hxw)
  unfold runLengthTurn
  simp only []
  by_cases hd : info.entryDir = (getExitDirection.getD info.entryWall []).getD xw 255
  · rw [if_pos hd]
    simp only []
    rw [← hd] at hstep hle
    rw [← hd]
    have : (info.runLength + 1) % 256 = info.runLength + 1 := Nat.mod_eq_of_lt (by omega)
    rw [this]
    omega
  · rw [if_neg hd]
    simp only []
    omega

theorem runLengthVisit_fits (m : Maze) (mt : Nat) (info : FloodInfo)
    (st : (Nat → Nat) × List FloodInfo) (hw : m.mWidth ≤ 32) (hb : Bordered m mt)
    (hf : RunFits m info) (hq : ∀ y ∈ st.2, RunFits m y) :
    ∀ y ∈ (runLengthVisit m mt st info).2, RunFits m y := by
  unfold runLengthVisit
  refine foldl4_inv _ (fun s => ∀ y ∈ s.2, RunFits m y) ?_ st hq
  intro s d hd hs
  unfold runLengthRelax
  simp only []
  by_cases h1 : d = info.entryWall
  · rw [if_pos h1]; exact hs
  · rw [if_neg h1]
    by_cases h2 : hasExit m info.cell d mt = true
    · have h2' : (!hasExit m info.cell d mt) = false := by rw [h2]; rfl
      rw [h2']
      simp only [Bool.false_eq_true, if_false]
      obtain ⟨f1, f2, f3⟩ := runLengthTurn_fits m mt info d hw hb hf hd h1 h2
      have hnew : ∀ cst, RunFits m (FloodInfo.mk cst (neighbour m info.cell d)
          (runLengthTurn info d).1 (runLengthTurn info d).2.1 (opposite d)) :=
        fun _ => ⟨neighbour_lt m _ _ (by have := hf.1; omega) hd, opposite_lt d, f1, f3⟩
      split_ifs <;> first
        | exact hs
        | exact mem_push hs (hnew _)
    · have h2' : (!hasExit m info.cell d mt) = true := by
        cases h : hasExit m info.cell d mt
        · rfl
        · exact absurd h h2
      rw [h2']
      simp only [if_true]
      exact hs

theorem seedQueue_fits (m : Maze) (g cst : Nat) (cost : Nat → Nat) (hw : m.mWidth ≤ 32)
    (hb : Bordered m OPEN_MAZE) (hg : g < numCells m) :
    ∀ y ∈ (seedQueue m (cost, []) g cst).2, RunFits m y := by
  have hw255 : m.mWidth ≤ 255 := by omega
  obtain ⟨_, hx, hy⟩ := coords_lt m g hw255 hg
  obtain ⟨n0, n1, n2, n3⟩ := neighbour_coords m g hw255 hg
  have hn : 0 < numCells m := by omega
  unfold seedQueue
  refine foldl_preserves (fun s : (Nat → Nat) × List FloodInfo => ∀ y ∈ s.2, RunFits m y)
    _ _ _ ?_ (fun y hy => absurd hy (List.not_mem_nil _))
  intro s d hdm hs
  show ∀ y ∈ (seedStep m g cst s d).2, RunFits m y
  unfold seedStep
  simp only []
  by_cases he : hasOpenExit m g d.1 = true
  · rw [if_pos he]
    intro y hy
    rcases List.mem_append.mp hy with h | h
    · exact hs y h
    · rw [List.mem_singleton.mp h]
      have hmv := bordered_move m OPEN_MAZE g d.1 hb hg he
      simp only [List.mem_cons, List.mem_singleton, List.not_mem_nil, or_false] at hdm
      rcases hdm with rfl | rfl | rfl | rfl
      · obtain ⟨e1, e2⟩ := n0 (hmv.1 rfl)
        refine ⟨neighbour_lt m g NORTH hn (by decide), (by show SOUTH < 4; decide), le_refl _, ?_⟩
        show 1 ≤ runRoom m DIR_N (neighbour m g NORTH)
        simp only [runRoom, DIR_N, NORTH, e2]; omega
      · obtain ⟨e1, e2⟩ := n1 (hmv.2.1 rfl)
        refine ⟨neighbour_lt m g EAST hn (by decide), (by show WEST < 4; decide), le_refl _, ?_⟩
        show 1 ≤ runRoom m DIR_E (neighbour m g EAST)
        simp only [runRoom, DIR_E, EAST, e1]; omega
      · obtain ⟨e1, e2⟩ := n2 (hmv.2.2.1 rfl)
        refine ⟨neighbour_lt m g SOUTH hn (by decide), (by show NORTH < 4; decide), le_refl _, ?_⟩
        show 1 ≤ runRoom m DIR_S (neighbour m g SOUTH)
        simp only [runRoom, DIR_S, SOUTH]; omega
      · obtain ⟨e1, e2⟩ := n3 (hmv.2.2.2 rfl)
        refine ⟨neighbour_lt m g WEST hn (by decide), (by show EAST < 4; decide), le_refl _, ?_⟩
        show 1 ≤ runRoom m DIR_W (neighbour m g WEST)
        simp only [runRoom, DIR_W, WEST]; omega
  · rw [if_neg he]; exact hs

/-- Every record pending at any point of the run-length flood fits. -/
theorem runLengthPending_fits (m : Maze) (target mt : Nat) (sched : Nat → Nat) (k : Nat)
    (hw : m.mWidth ≤ 32) (ht : target < numCells m) (hbo : Bordered m OPEN_MAZE)
    (hbi : Bordered m mt) :
    ∀ y ∈ runLengthPending m target mt sched k, RunFits m y := by
  unfold runLengthPending
  simp only []
  refine runQueue_inv _ sched (fun st => ∀ y ∈ st.2,
    RunFits (initialiseFloodCosts m target) y) ?_ k 0 _ ?_
  · intro c q i x rest hP htake
    obtain ⟨hx, _, hrest, _⟩ := takeAt_some htake
    exact runLengthVisit_fits (initialiseFloodCosts m target) mt x (c, rest) hw hbi
      (hP x hx) (fun y hy => hP y (hrest y hy))
  · exact seedQueue_fits (initialiseFloodCosts m target) target _ _ hw hbo ht

/-- C29: in a wall state with symmetric optimistic walls, after
`manhattanFlood(target, OPEN_MAZE)` every cell `c` of the maze with
`0 < cost(c) < MAX_COST` has a cardinal `direction(c)` with
`hasOpenExit(c, direction(c))` and
`cost(neighbour(c, direction(c))) == cost(c) - 1`, and following the stored
directions from `c` for `cost(c)` steps ends at the target; for every order of
the queue. -/
theorem C29_direction_descends (m : Maze) (target c : Nat) (s : Nat → Nat)
    (hw : m.mWidth ≤ 255) (hsym : OpenSym m) (ht : target < numCells m)
    (hc : c < numCells m)
    (hpos : 0 < cost (manhattanFlood m target OPEN_MAZE s).1 c)
    (hfin : cost (manhattanFlood m target OPEN_MAZE s).1 c < MAX_COST) :
    direction (manhattanFlood m target OPEN_MAZE s).1 c < 4 ∧
    hasOpenExit (manhattanFlood m target OPEN_MAZE s).1 c
      (direction (manhattanFlood m target OPEN_MAZE s).1 c) = true ∧
    cost (manhattanFlood m target OPEN_MAZE s).1
      (neighbour (manhattanFlood m target OPEN_MAZE s).1 c
        (direction (manhattanFlood m target OPEN_MAZE s).1 c))
      = cost (manhattanFlood m target OPEN_MAZE s).1 c - 1 ∧
    followDirections (manhattanFlood m target OPEN_MAZE s).1
      (cost (manhattanFlood m target OPEN_MAZE s).1 c) c = target := by
  obtain ⟨h1, h2, h3⟩ := manhattan_direction_descends m target s hw ht hsym c hc hpos hfin
  exact ⟨h1, h2, by omega, manhattan_follow m target s hw ht hsym _ c hc rfl hfin⟩

set_option maxRecDepth 100000 in
/-- C29 at a concrete state: cell 0 of a freshly reset 16-wide maze flooded
towards cell 17, where it has cost 2. -/
theorem C29_direction_descends_witness :
    direction (manhattanFlood (resetToEmptyMaze (blank 16)) 17 OPEN_MAZE fifo).1 0 < 4 ∧
    hasOpenExit (manhattanFlood (resetToEmptyMaze (blank 16)) 17 OPEN_MAZE fifo).1 0
      (direction (manhattanFlood (resetToEmptyMaze (blank 16)) 17 OPEN_MAZE fifo).1 0) = true ∧
    cost (manhattanFlood (resetToEmptyMaze (blank 16)) 17 OPEN_MAZE fifo).1
      (neighbour (manhattanFlood (resetToEmptyMaze (blank 16)) 17 OPEN_MAZE fifo).1 0
        (direction (manhattanFlood (resetToEmptyMaze (blank 16)) 17 OPEN_MAZE fifo).1 0))
      = cost (manhattanFlood (resetToEmptyMaze (blank 16)) 17 OPEN_MAZE fifo).1 0 - 1 ∧
    followDirections (manhattanFlood (resetToEmptyMaze (blank 16)) 17 OPEN_MAZE fifo).1
      (cost (manhattanFlood (resetToEmptyMaze (blank 16)) 17 OPEN_MAZE fifo).1 0) 0 = 17 :=
  have h : cost (manhattanFlood (resetToEmptyMaze (blank 16)) 17 OPEN_MAZE fifo).1 0 = 2 := by
    decide
  C29_direction_descends (resetToEmptyMaze (blank 16)) 17 0 fifo
    (by rw [resetToEmptyMaze_mWidth]; decide)
    (openSym_of_wallSym _ (resetToEmptyMaze_wallSym (blank 16) (Or.inl rfl)))
    (by rw [numCells, resetToEmptyMaze_mWidth]; decide)
    (by rw [numCells, resetToEmptyMaze_mWidth]; decide)
    (by rw [h]; decide) (by rw [h]; decide)

/-- C30: on a maze of width at most 32 whose border walls are present in the
optimistic nibble and in the interpretation being flooded, for every target in
the grid, every order of the queue and every record pending at any point of
`runLengthFlood`, the run length with which the loop body indexes
`orthoCostTable` or `diagCostTable` for an exit of that record lies in
1..63. -/
theorem C30_run_length_in_bounds (m : Maze) (target mazeType : Nat) (sched : Nat → Nat)
    (k : Nat) (info : FloodInfo) (exitWall : Nat)
    (hw : m.mWidth ≤ 32) (ht : target < numCells m)
    (hbo : Bordered m OPEN_MAZE) (hbi : Bordered m mazeType)
    (hin : info ∈ runLengthPending m target mazeType sched k)
    (hx : exitWall < 4) (hne : exitWall ≠ info.entryWall)
    (he : hasExit m info.cell exitWall mazeType = true) :
    1 ≤ (runLengthTurn info exitWall).1 ∧ (runLengthTurn info exitWall).1 ≤ 63 := by
  have hf := runLengthPending_fits m target mazeType sched k hw ht hbo hbi info hin
  obtain ⟨h1, h2, _⟩ := runLengthTurn_fits m mazeType info exitWall hw hbi hf hx hne he
  exact ⟨h1, h2⟩

set_option maxRecDepth 100000 in
set_option maxHeartbeats 2000000 in
/-- C30 at a concrete state: the first seed of the flood of a freshly reset
16-wide maze towards cell 0x77, relaxed to the NORTH. -/
theorem C30_run_length_in_bounds_witness :
    1 ≤ (runLengthTurn (FloodInfo.mk 98 0x78 1 DIR_N SOUTH) NORTH).1 ∧
    (runLengthTurn (FloodInfo.mk 98 0x78 1 DIR_N SOUTH) NORTH).1 ≤ 63 :=
  C30_run_length_in_bounds (resetToEmptyMaze (blank 16)) 0x77 OPEN_MAZE fifo 0
    (FloodInfo.mk 98 0x78 1 DIR_N SOUTH) NORTH
    (by rw [resetToEmptyMaze_mWidth]; decide)
    (by rw [numCells, resetToEmptyMaze_mWidth]; decide)
    (by unfold Bordered; decide) (by unfold Bordered; decide)
    (by decide) (by decide) (by decide) (by decide)

/-! ## Weighted flood: counting the unseen cells -/

theorem costSum_congr (n : Nat) (f g : Nat → Nat) (h : ∀ c, c < n → f c = g c) :
    costSum n f = costSum n g := by
  unfold costSum
  exact Finset.sum_congr rfl (fun c hc => h c (Finset.mem_range.mp hc))

theorem unseenCount_setAt (n : Nat) (cost : Nat → Nat) (c v : Nat) (hc : c < n)
    (hv : v < MAX_COST) :
    unseenCount n (setAt cost c v) ≤ unseenCount n cost ∧
    (cost c = MAX_COST → unseenCount n (setAt cost c v) + 1 ≤ unseenCount n cost) := by
  have e : (fun j => if setAt cost c v j = MAX_COST then 1 else 0)
      = setAt (fun j => if cost j = MAX_COST then 1 else 0) c 0 := by
    funext j
    simp only [setAt]
    split_ifs <;> first | rfl | omega
  unfold unseenCount
  rw [e]
  by_cases hm : cost c = MAX_COST
  · have := costSum_setAt_le n (fun j => if cost j = MAX_COST then 1 else 0) c 0 hc
      (by simp [hm])
    exact ⟨by omega, fun _ => this⟩
  · have e2 : setAt (fun j => if cost j = MAX_COST then 1 else 0) c 0
        = (fun j => if cost j = MAX_COST then 1 else 0) := by
      funext j
      simp only [setAt]
      by_cases hj : j = c
      · subst hj; simp [hm]
      · simp [hj]
    rw [e2]
    exact ⟨le_refl _, fun h => absurd h hm⟩

theorem unseenCount_init (m : Maze) (t : Nat) (ht : t < numCells m) :
    unseenCount (numCells m) (initialiseFloodCosts m t).mCost + 1 ≤ numCells m := by
  have e : unseenCount (numCells m) (initialiseFloodCosts m t).mCost
      = costSum (numCells m) (setAt (fun _ => 1) t 0) := by
    unfold unseenCount
    apply costSum_congr
    intro c hc
    simp only [initialiseFloodCosts, setAt]
    split_ifs <;> simp_all [MAX_COST]
  have h1 := costSum_setAt_le (numCells m) (fun _ => 1) t 0 ht Nat.one_pos
  have h2 : costSum (numCells m) (fun _ => 1) = numCells m := by
    unfold costSum; simp
  rw [e]; omega

/-! ## Weighted flood: one relaxation -/

theorem weightedRelax_visitInv (m : Maze) (mt target x : Nat) (cost0 : Nat → Nat)
    (rest : List Nat) (st : ((Nat → Nat) × (Nat → Nat)) × List Nat) (d td : Nat)
    (hn : 0 < numCells m) (hcap : numCells m ≤ 1024) (hcw : m.mCornerWeight = 3) (hd : d < 4)
    (hxn : x < numCells m) (hxm : cost0 x < MAX_COST)
    (hxw : ∃ k, Chain m mt target k x ∧ 2 * k ≤ cost0 x)
    (h : WeightedVisitInv m mt target x cost0 rest st) :
    WeightedVisitInv m mt target x cost0 rest (weightedRelax m mt x (cost0 x) td st d) ∧
      (∀ c, (weightedRelax m mt x (cost0 x) td st d).1.1 c ≤ st.1.1 c) ∧
      (hasExit m x d mt = true →
        (weightedRelax m mt x (cost0 x) td st d).1.1 (neighbour m x d) ≤ cost0 x + 3) := by
  have hroom := h.room x hxn (by rw [h.self]; exact hxm)
  rw [h.self] at hroom
  obtain ⟨w, hw2, hw3, hnew⟩ : ∃ w, 2 ≤ w ∧ w ≤ 3 ∧
      (if td = d then (cost0 x + 2) % 65536 else (cost0 x + m.mCornerWeight) % 65536)
        = cost0 x + w := by
    by_cases e : td = d
    · exact ⟨2, by omega, by omega, by rw [if_pos e]; exact Nat.mod_eq_of_lt (by omega)⟩
    · exact ⟨3, by omega, by omega, by
        rw [if_neg e, hcw]; exact Nat.mod_eq_of_lt (by omega)⟩
  unfold weightedRelax
  simp only []
  rw [hnew]
  by_cases he : hasExit m x d mt = true
  · simp only [he, if_true]
    by_cases hgt : st.1.1 (neighbour m x d) > cost0 x + w
    · simp only [hgt, if_true]
      have hnb := neighbour_lt m x d hn hd
      have hne_t : neighbour m x d ≠ target := by
        intro e; rw [e, h.target0] at hgt; omega
      have hne_x : neighbour m x d ≠ x := by
        intro e; rw [e, h.self] at hgt; omega
      have hfin : cost0 x + w < MAX_COST := by unfold MAX_COST; omega
      obtain ⟨hu1, hu2⟩ := unseenCount_setAt (numCells m) st.1.1 (neighbour m x d)
        (cost0 x + w) hnb hfin
      refine ⟨⟨?_, ?_, ?_, ?_, ?_, ?_, ?_, ?_, ?_⟩, ?_, ?_⟩
      · simp only [setAt, if_neg (Ne.symm hne_t)]; exact h.target0
      · intro c hc
        simp only [setAt]
        split
        · omega
        · exact h.le_max c hc
      · intro c hc hlt
        simp only [setAt] at hlt ⊢
        split
        · next e =>
          subst e
          obtain ⟨k, hk, hk2⟩ := hxw
          exact ⟨k + 1, Chain.step hk hd he, by omega⟩
        · next e => rw [if_neg e] at hlt; exact h.wit c hc hlt
      · intro c hc hlt
        simp only [setAt] at hlt ⊢
        split
        · next e =>
          subst e
          by_cases hmx : st.1.1 (neighbour m x d) = MAX_COST
          · have := hu2 hmx
            omega
          · have h1 := h.le_max _ hnb
            have := h.room _ hnb (by omega)
            omega
        · next e =>
          rw [if_neg e] at hlt
          have := h.room c hc hlt
          omega
      · intro c
        simp only [setAt]
        split
        · next e => subst e; have := h.le_old (neighbour m x d); omega
        · exact h.le_old c
      · intro c hc
        simp only [List.mem_append, List.mem_singleton] at hc
        simp only [setAt]
        split
        · next e => subst e; exact ⟨hnb, hfin⟩
        · next e =>
          rcases hc with hc | hc
          · exact h.queued c hc
          · exact absurd hc e
      · intro c hc
        simp only [List.mem_append]
        exact Or.inl (h.grows c hc)
      · intro c hc
        simp only [List.mem_append, List.mem_singleton, not_or] at hc
        simp only [setAt, if_neg hc.2]
        exact h.same c hc.1
      · simp only [setAt, if_neg (Ne.symm hne_x)]; exact h.self
      · intro c
        simp only [setAt]
        split
        · next e => subst e; omega
        · exact le_refl _
      · intro _; simp only [setAt, if_true]; omega
    · simp only [hgt, if_false]
      exact ⟨h, fun _ => le_refl _, fun _ => by omega⟩
  · rw [if_neg he]
    exact ⟨h, fun _ => le_refl _, fun hh => absurd hh he⟩

theorem weightedVisit_inv (m : Maze) (mt target : Nat) (cost dir : Nat → Nat)
    (q rest : List Nat) (i x : Nat) (hn : 0 < numCells m) (hcap : numCells m ≤ 1024)
    (hcw : m.mCornerWeight = 3) (h : WeightedInv m mt target ((cost, dir), q))
    (htake : takeAt q i = some (x, rest)) :
    WeightedInv m mt target (weightedVisit m mt ((cost, dir), rest) x) := by
  obtain ⟨hxq, _, hsub, hsup⟩ := takeAt_some htake
  obtain ⟨hxn, hxm⟩ := h.queued x hxq
  have hxw := h.wit x hxn hxm
  have v0 : WeightedVisitInv m mt target x cost rest ((cost, dir), rest) :=
    ⟨h.target0, h.le_max, h.wit, h.room, fun _ => le_refl _,
      fun c hc => h.queued c (hsub c hc), fun _ hc => hc, fun _ _ => rfl, rfl⟩
  unfold weightedVisit
  simp only [List.foldl_cons, List.foldl_nil]
  have s0 := weightedRelax_visitInv m mt target x cost rest ((cost, dir), rest) 0 (dir x)
    hn hcap hcw (by omega) hxn hxm hxw v0
  obtain ⟨v1, l1, r1⟩ := s0
  have s1 := weightedRelax_visitInv m mt target x cost rest _ 1 (dir x)
    hn hcap hcw (by omega) hxn hxm hxw v1
  obtain ⟨v2, l2, r2⟩ := s1
  have s2 := weightedRelax_visitInv m mt target x cost rest _ 2 (dir x)
    hn hcap hcw (by omega) hxn hxm hxw v2
  obtain ⟨v3, l3, r3⟩ := s2
  have s3 := weightedRelax_visitInv m mt target x cost rest _ 3 (dir x)
    hn hcap hcw (by omega) hxn hxm hxw v3
  obtain ⟨v4, l4, r4⟩ := s3
  refine ⟨v4.target0, v4.le_max, v4.wit, v4.room, ?_, v4.queued⟩
  intro c hc hlt hnq d hd he
  by_cases hcx : c = x
  · subst hcx
    rw [v4.self]
    have hd' : d = 0 ∨ d = 1 ∨ d = 2 ∨ d = 3 := by omega
    rcases hd' with rfl | rfl | rfl | rfl
    · exact le_trans (l4 _) (le_trans (l3 _) (le_trans (l2 _) (r1 he)))
    · exact le_trans (l4 _) (le_trans (l3 _) (r2 he))
    · exact le_trans (l4 _) (r3 he)
    · exact r4 he
  · have hnr : c ∉ rest := fun hh => hnq (v4.grows c hh)
    have hnq0 : c ∉ q := by
      intro hh
      rcases hsup c hh with e | e
      · exact hcx e
      · exact hnr e
    have hsame := v4.same c hnq
    rw [hsame] at hlt ⊢
    exact le_trans (v4.le_old _) (h.relaxed c hc hlt hnq0 d hd he)

/-! ## Weighted flood: the final costs -/

theorem weightedInv_init (m : Maze) (mt t : Nat) (ht : t < numCells m) :
    WeightedInv m mt t
      (((initialiseFloodCosts m t).mCost, (initialiseFloodCosts m t).mDirection), [t]) := by
  have hu := unseenCount_init m t ht
  have hval : ∀ c, c < numCells m → c ≠ t → (initialiseFloodCosts m t).mCost c = MAX_COST := by
    intro c hc hct
    simp only [initialiseFloodCosts, setAt]
    rw [if_neg hct, if_pos hc]
  have h0 : (initialiseFloodCosts m t).mCost t = 0 := by
    simp [initialiseFloodCosts, setAt]
  refine ⟨h0, ?_, ?_, ?_, ?_, ?_⟩
  · intro c hc
    by_cases e : c = t
    · subst e; show (initialiseFloodCosts m c).mCost c ≤ MAX_COST; rw [h0]; exact Nat.zero_le _
    · show (initialiseFloodCosts m t).mCost c ≤ MAX_COST; rw [hval c hc e]
  · intro c hc hlt
    by_cases e : c = t
    · subst e; exact ⟨0, Chain.zero, Nat.zero_le _⟩
    · have := hval c hc e
      have hlt' : (initialiseFloodCosts m t).mCost c < MAX_COST := hlt
      omega
  · intro c hc hlt
    by_cases e : c = t
    · subst e
      show (initialiseFloodCosts m c).mCost c
        + 3 * unseenCount (numCells m) (initialiseFloodCosts m c).mCost + 3 ≤ 3 * numCells m
      rw [h0]; omega
    · have := hval c hc e
      have hlt' : (initialiseFloodCosts m t).mCost c < MAX_COST := hlt
      omega
  · intro c hc hlt hnq
    simp only [List.mem_singleton] at hnq
    have := hval c hc hnq
    have hlt' : (initialiseFloodCosts m t).mCost c < MAX_COST := hlt
    omega
  · intro c hc
    simp only [List.mem_singleton] at hc
    subst hc
    refine ⟨ht, ?_⟩
    show (initialiseFloodCosts m c).mCost c < MAX_COST
    rw [h0]; decide

/-- The cost array left by the loop of `weightedFlood`. -/
theorem weightedFlood_mCost (m : Maze) (t mt : Nat) (s : Nat → Nat) :
    (weightedFlood m t mt s).1.mCost
      = (runQueue (weightedVisit (initialiseFloodCosts m t) mt) s floodFuel 0
          (((initialiseFloodCosts m t).mCost, (initialiseFloodCosts m t).mDirection), [t])).1.1 :=
  rfl

theorem weighted_final (m : Maze) (mt t : Nat) (s : Nat → Nat) (hw : m.mWidth ≤ 32)
    (hcw : m.mCornerWeight = 3) (ht : t < numCells m) :
    (∀ c, c < numCells m → (weightedFlood m t mt s).1.mCost c ≤ MAX_COST) ∧
    (∀ c, c < numCells m → (weightedFlood m t mt s).1.mCost c < MAX_COST →
      ∃ k, Chain m mt t k c ∧ 2 * k ≤ (weightedFlood m t mt s).1.mCost c) ∧
    (∀ k c, Chain m mt t k c → (weightedFlood m t mt s).1.mCost c ≤ 3 * k ∧
      (weightedFlood m t mt s).1.mCost c < MAX_COST) := by
  have hn : 0 < numCells m := by omega
  have hcap : numCells m ≤ 1024 := by
    rw [numCells_eq m (by omega)]
    exact Nat.mul_le_mul hw hw
  rw [weightedFlood_mCost]
  have hdone := weightedFlood_queue_empties m t mt s hn
  have hinv : WeightedInv (initialiseFloodCosts m t) mt t
      (runQueue (weightedVisit (initialiseFloodCosts m t) mt) s floodFuel 0
        (((initialiseFloodCosts m t).mCost, (initialiseFloodCosts m t).mDirection), [t])) := by
    apply runQueue_inv _ s (WeightedInv (initialiseFloodCosts m t) mt t)
    · intro c q i x rest h htake
      exact weightedVisit_inv (initialiseFloodCosts m t) mt t c.1 c.2 q rest i x hn hcap hcw
        h htake
    · obtain ⟨a1, a2, a3, a4, a5, a6⟩ := weightedInv_init m mt t ht
      refine ⟨a1, a2, ?_, a4, a5, a6⟩
      intro c hc hlt
      obtain ⟨k, hk, hk2⟩ := a3 c hc hlt
      exact ⟨k, chain_mono m (initialiseFloodCosts m t) mt mt t rfl ht
        (fun _ _ _ _ h => h) k c hk, hk2⟩
  generalize (runQueue (weightedVisit (initialiseFloodCosts m t) mt) s floodFuel 0
      (((initialiseFloodCosts m t).mCost, (initialiseFloodCosts m t).mDirection), [t])) = fin
    at hdone hinv ⊢
  have hback : ∀ k c, Chain (initialiseFloodCosts m t) mt t k c → Chain m mt t k c :=
    fun k c hk => chain_mono (initialiseFloodCosts m t) m mt mt t rfl ht
      (fun _ _ _ _ h => h) k c hk
  refine ⟨hinv.le_max, ?_, ?_⟩
  · intro c hc hlt
    obtain ⟨k, hk, hk2⟩ := hinv.wit c hc hlt
    exact ⟨k, hback k c hk, hk2⟩
  · intro k c hk
    induction hk with
    | zero => rw [hinv.target0]; exact ⟨Nat.zero_le _, by decide⟩
    | step hp hd he ih =>
      rename_i k p d
      obtain ⟨ih1, ih2⟩ := ih
      have hpn : p < numCells m := hp.lt ht
      have hr := hinv.relaxed p hpn ih2 (by rw [hdone]; exact List.not_mem_nil _) d hd he
      have hroom := hinv.room p hpn ih2
      have hn' : numCells (initialiseFloodCosts m t) = numCells m := rfl
      rw [hn'] at hroom
      have hnb : neighbour (initialiseFloodCosts m t) p d = neighbour m p d := rfl
      rw [hnb] at hr
      refine ⟨by omega, ?_⟩
      unfold MAX_COST
      omega

/-! ## Direction flood: one step, for every order of the queue -/

theorem behind_ne_invalid (d : Nat) : behind d ≠ INVALID_DIRECTION := by
  unfold behind INVALID_DIRECTION; omega

theorem undiscoveredCount_setAt (n : Nat) (dir : Nat → Nat) (c v : Nat) (hc : c < n)
    (hv : v ≠ INVALID_DIRECTION) (hdir : dir c = INVALID_DIRECTION) :
    undiscoveredCount n (setAt dir c v) + 1 ≤ undiscoveredCount n dir := by
  have e : (fun j => if setAt dir c v j = INVALID_DIRECTION then 1 else 0)
      = setAt (fun j => if dir j = INVALID_DIRECTION then 1 else 0) c 0 := by
    funext j
    simp only [setAt]
    by_cases hj : j = c
    · subst hj; simp [hv]
    · simp [hj]
  unfold undiscoveredCount
  rw [e]
  exact costSum_setAt_le n _ c 0 hc (by simp [hdir])

theorem directionRelax_base (m : Maze) (mt t x kx : Nat)
    (st : ((Nat → Nat) × (Nat → Nat)) × List Nat) (d : Nat)
    (hn : 0 < numCells m) (hd : d < 4) (hkx : st.1.1 x = kx)
    (h : DirectionVisitInv m mt t x st) :
    DirectionVisitInv m mt t x (directionRelax m mt x ((kx + 1) % 65536) st d) ∧
    (directionRelax m mt x ((kx + 1) % 65536) st d).1.1 x = kx ∧
    (∀ c, st.1.2 c ≠ INVALID_DIRECTION →
      (directionRelax m mt x ((kx + 1) % 65536) st d).1.2 c ≠ INVALID_DIRECTION ∧
      (directionRelax m mt x ((kx + 1) % 65536) st d).1.1 c = st.1.1 c) ∧
    (hasExit m x d mt = true →
      (directionRelax m mt x ((kx + 1) % 65536) st d).1.2 (neighbour m x d)
        ≠ INVALID_DIRECTION) ∧
    (∀ c, c ∈ st.2 → c ∈ (directionRelax m mt x ((kx + 1) % 65536) st d).2) := by
  have hnb := neighbour_lt m x d hn hd
  obtain ⟨hxn, hxs⟩ := h.selfSeen
  obtain ⟨hxc, hxr⟩ := h.seen x hxn hxs
  rw [hkx] at hxc hxr
  have hn2 : numCells m < 65536 := Nat.mod_lt _ (by omega)
  have hmod : (kx + 1) % 65536 = kx + 1 := Nat.mod_eq_of_lt (by omega)
  rw [hmod]
  unfold directionRelax
  by_cases he : hasExit m x d mt = true
  · simp only [he, if_true]
    by_cases hinv : st.1.2 (neighbour m x d) = INVALID_DIRECTION
    · simp only [hinv, if_true]
      have hu := undiscoveredCount_setAt (numCells m) st.1.2 (neighbour m x d) (behind d) hnb
        (behind_ne_invalid d) hinv
      have hne : ∀ c, st.1.2 c ≠ INVALID_DIRECTION → c ≠ neighbour m x d := by
        intro c hc e; rw [e] at hc; exact hc hinv
      refine ⟨⟨?_, ?_, ?_, ?_, ?_, ?_, ?_⟩, ?_, ?_, ?_, ?_⟩
      · simp only [setAt, if_neg (hne t h.targetSeen)]; exact h.target0
      · simp only [setAt, if_neg (hne t h.targetSeen)]; exact h.targetSeen
      · intro c hc hs
        simp only [setAt] at hs ⊢
        by_cases e : c = neighbour m x d
        · subst e
          simp only [if_true]
          exact ⟨Chain.step hxc hd he, by omega⟩
        · rw [if_neg e] at hs ⊢
          obtain ⟨a1, a2⟩ := h.seen c hc hs
          exact ⟨a1, by omega⟩
      · intro c hc hs
        simp only [setAt] at hs ⊢
        by_cases e : c = neighbour m x d
        · subst e
          rw [if_pos rfl] at hs
          exact absurd hs (behind_ne_invalid d)
        · rw [if_neg e] at hs ⊢
          exact h.unseen c hc hs
      · intro c hc
        simp only [setAt]
        rcases List.mem_append.mp hc with hq | hq
        · obtain ⟨a1, a2⟩ := h.queued c hq
          rw [if_neg (hne c a2)]
          exact ⟨a1, a2⟩
        · rw [List.mem_singleton.mp hq, if_pos rfl]
          exact ⟨hnb, behind_ne_invalid d⟩
      · intro c hc hs hnq hcx d1 hd1 he1
        simp only [List.mem_append, List.mem_singleton, not_or] at hnq
        simp only [setAt] at hs ⊢
        rw [if_neg hnq.2] at hs
        have := h.closed c hc hs hnq.1 hcx d1 hd1 he1
        split
        · exact behind_ne_invalid d
        · exact this
      · refine ⟨hxn, ?_⟩
        simp only [setAt, if_neg (hne x hxs)]
        exact hxs
      · simp only [setAt, if_neg (hne x hxs)]; exact hkx
      · intro c hc
        simp only [setAt, if_neg (hne c hc)]
        exact ⟨hc, trivial⟩
      · intro _
        simp only [setAt, if_true]
        exact behind_ne_invalid d
      · intro c hc
        exact List.mem_append.mpr (Or.inl hc)
    · rw [if_neg hinv]
      exact ⟨h, hkx, fun c hc => ⟨hc, rfl⟩, fun _ => hinv, fun c hc => hc⟩
  · rw [if_neg he]
    exact ⟨h, hkx, fun c hc => ⟨hc, rfl⟩, fun hh => absurd hh he, fun c hc => hc⟩

theorem directionVisit_inv (m : Maze) (mt t : Nat) (cost dir : Nat → Nat) (q rest : List Nat)
    (i x : Nat) (hn : 0 < numCells m) (h : DirectionInv m mt t ((cost, dir), q))
    (htake : takeAt q i = some (x, rest)) :
    DirectionInv m mt t (directionVisit m mt ((cost, dir), rest) x) := by
  obtain ⟨hxq, _, hsub, hsup⟩ := takeAt_some htake
  obtain ⟨hxn, hxs⟩ := h.queued x hxq
  have v0 : DirectionVisitInv m mt t x ((cost, dir), rest) :=
    ⟨h.target0, h.targetSeen, h.seen, h.unseen, fun c hc => h.queued c (hsub c hc),
      fun c hc hs hnq hcx => h.closed c hc hs (fun hh => by
        rcases hsup c hh with e | e
        · exact hcx e
        · exact hnq e), ⟨hxn, hxs⟩⟩
  unfold directionVisit
  simp only [List.foldl_cons, List.foldl_nil]
  obtain ⟨v1, k1, m1, e1, g1⟩ := directionRelax_base m mt t x (cost x) ((cost, dir), rest) 0
    hn (by omega) rfl v0
  obtain ⟨v2, k2, m2, e2, g2⟩ := directionRelax_base m mt t x (cost x) _ 1 hn (by omega) k1 v1
  obtain ⟨v3, k3, m3, e3, g3⟩ := directionRelax_base m mt t x (cost x) _ 2 hn (by omega) k2 v2
  obtain ⟨v4, k4, m4, e4, g4⟩ := directionRelax_base m mt t x (cost x) _ 3 hn (by omega) k3 v3
  refine ⟨v4.target0, v4.targetSeen, v4.seen, v4.unseen, v4.queued, ?_⟩
  intro c hc hs hnq d hd he
  by_cases hcx : c = x
  · subst hcx
    have hd' : d = 0 ∨ d = 1 ∨ d = 2 ∨ d = 3 := by omega
    rcases hd' with rfl | rfl | rfl | rfl
    · exact (m4 _ (m3 _ (m2 _ (e1 he)).1).1).1
    · exact (m4 _ (m3 _ (e2 he)).1).1
    · exact (m4 _ (e3 he)).1
    · exact e4 he
  · exact v4.closed c hc hs hnq hcx d hd he

theorem undiscoveredCount_init (m : Maze) (t : Nat) (ht : t < numCells m) :
    undiscoveredCount (numCells m) (initialiseFloodCosts m t).mDirection + 1 ≤ numCells m := by
  have e : undiscoveredCount (numCells m) (initialiseFloodCosts m t).mDirection
      = costSum (numCells m) (setAt (fun _ => 1) t 0) := by
    unfold undiscoveredCount
    apply costSum_congr
    intro c hc
    simp only [initialiseFloodCosts, setAt]
    split_ifs <;> simp_all [INVALID_DIRECTION, NORTH]
  have h1 := costSum_setAt_le (numCells m) (fun _ => 1) t 0 ht Nat.one_pos
  have h2 : costSum (numCells m) (fun _ => 1) = numCells m := by
    unfold costSum; simp
  rw [e]; omega

theorem directionInv_init (m : Maze) (mt t : Nat) (ht : t < numCells m) :
    DirectionInv m mt t
      (((initialiseFloodCosts m t).mCost, (initialiseFloodCosts m t).mDirection), [t]) := by
  have hu := undiscoveredCount_init m t ht
  have hc0 : (initialiseFloodCosts m t).mCost t = 0 := by simp [initialiseFloodCosts, setAt]
  have hd0 : (initialiseFloodCosts m t).mDirection t = NORTH := by
    simp [initialiseFloodCosts, setAt]
  have hval : ∀ c, c < numCells m → c ≠ t →
      (initialiseFloodCosts m t).mCost c = MAX_COST ∧
      (initialiseFloodCosts m t).mDirection c = INVALID_DIRECTION := by
    intro c hc hct
    simp only [initialiseFloodCosts, setAt]
    rw [if_neg hct, if_pos hc, if_neg hct, if_pos hc]
    exact ⟨rfl, rfl⟩
  have hseen_t : ∀ c, c < numCells m →
      (initialiseFloodCosts m t).mDirection c ≠ INVALID_DIRECTION → c = t := by
    intro c hc hs
    by_contra e
    exact hs (hval c hc e).2
  refine ⟨hc0, ?_, ?_, ?_, ?_, ?_⟩
  · show (initialiseFloodCosts m t).mDirection t ≠ INVALID_DIRECTION
    rw [hd0]; decide
  · intro c hc hs
    have e := hseen_t c hc hs
    subst e
    show Chain m mt c ((initialiseFloodCosts m c).mCost c) c ∧
      (initialiseFloodCosts m c).mCost c + 1
        + undiscoveredCount (numCells m) (initialiseFloodCosts m c).mDirection ≤ numCells m
    rw [hc0]
    exact ⟨Chain.zero, by omega⟩
  · intro c hc hs
    by_cases e : c = t
    · subst e
      have : (initialiseFloodCosts m c).mDirection c = INVALID_DIRECTION := hs
      rw [hd0] at this
      exact absurd this (by decide)
    · exact (hval c hc e).1
  · intro c hc
    rw [List.mem_singleton.mp hc]
    refine ⟨ht, ?_⟩
    show (initialiseFloodCosts m t).mDirection t ≠ INVALID_DIRECTION
    rw [hd0]; decide
  · intro c hc hs hnq
    exact absurd (List.mem_singleton.mpr (hseen_t c hc hs)) hnq

/-- The cost array left by the loop of `directionFlood`. -/
theorem directionFlood_mCost (m : Maze) (t mt : Nat) (s : Nat → Nat) :
    (directionFlood m t mt s).1.mCost
      = (runQueue (directionVisit (initialiseFloodCosts m t) mt) s floodFuel 0
          (((initialiseFloodCosts m t).mCost, (initialiseFloodCosts m t).mDirection), [t])).1.1 :=
  rfl

theorem directionInv_lift (m : Maze) (mt t : Nat) (ht : t < numCells m)
    (st : ((Nat → Nat) × (Nat → Nat)) × List Nat) (h : DirectionInv m mt t st) :
    DirectionInv (initialiseFloodCosts m t) mt t st :=
  ⟨h.target0, h.targetSeen,
    fun c hc hs => ⟨chain_mono m (initialiseFloodCosts m t) mt mt t rfl ht
      (fun _ _ _ _ hh => hh) _ c (h.seen c hc hs).1, (h.seen c hc hs).2⟩,
    h.unseen, h.queued, h.closed⟩

theorem directionFlood_inv (m : Maze) (mt t : Nat) (s : Nat → Nat) (ht : t < numCells m) :
    DirectionInv (initialiseFloodCosts m t) mt t
      (runQueue (directionVisit (initialiseFloodCosts m t) mt) s floodFuel 0
        (((initialiseFloodCosts m t).mCost, (initialiseFloodCosts m t).mDirection), [t])) := by
  apply runQueue_inv _ s (DirectionInv (initialiseFloodCosts m t) mt t)
  · intro c q i x rest h htake
    exact directionVisit_inv (initialiseFloodCosts m t) mt t c.1 c.2 q rest i x (by
      show 0 < numCells m; omega) h htake
  · exact directionInv_lift m mt t ht _ (directionInv_init m mt t ht)

/-- After `directionFlood`, for every order of the queue: a finite cost is the
length of a chain from the target, and the cost is `MAX_COST` exactly for the
cells no chain reaches. -/
theorem direction_final (m : Maze) (mt t : Nat) (s : Nat → Nat) (ht : t < numCells m)
    (c : Nat) (hc : c < numCells m) :
    ((directionFlood m t mt s).1.mCost c < MAX_COST →
      Chain m mt t ((directionFlood m t mt s).1.mCost c) c) ∧
    (directionFlood m t mt s).1.mCost c ≤ MAX_COST ∧
    ((directionFlood m t mt s).1.mCost c = MAX_COST ↔ ¬ Reachable m mt t c) := by
  have hn : 0 < numCells m := by omega
  have hn2 : numCells m < 65536 := Nat.mod_lt _ (by omega)
  rw [directionFlood_mCost]
  have hdone := directionFlood_queue_empties m t mt s hn
  have hinv := directionFlood_inv m mt t s ht
  generalize (runQueue (directionVisit (initialiseFloodCosts m t) mt) s floodFuel 0
      (((initialiseFloodCosts m t).mCost, (initialiseFloodCosts m t).mDirection), [t])) = fin
    at hdone hinv ⊢
  have hback : ∀ k c, Chain (initialiseFloodCosts m t) mt t k c → Chain m mt t k c :=
    fun k c hk => chain_mono (initialiseFloodCosts m t) m mt mt t rfl ht
      (fun _ _ _ _ h => h) k c hk
  have hnum : numCells (initialiseFloodCosts m t) = numCells m := rfl
  have hseen_fin : ∀ c, c < numCells m → fin.1.2 c ≠ INVALID_DIRECTION →
      Chain m mt t (fin.1.1 c) c ∧ fin.1.1 c < MAX_COST := by
    intro c hc hs
    obtain ⟨a1, a2⟩ := hinv.seen c hc hs
    rw [hnum] at a2
    exact ⟨hback _ _ a1, by unfold MAX_COST; omega⟩
  have hreach : ∀ k c, Chain m mt t k c → fin.1.2 c ≠ INVALID_DIRECTION := by
    intro k c hk
    induction hk with
    | zero => exact hinv.targetSeen
    | step hp hd he ih =>
      exact hinv.closed _ (hp.lt ht) ih (by rw [hdone]; exact List.not_mem_nil _) _ hd he
  by_cases hs : fin.1.2 c = INVALID_DIRECTION
  · have hm := hinv.unseen c hc hs
    refine ⟨fun h => by omega, by omega, ?_⟩
    constructor
    · rintro _ ⟨k, hk⟩
      exact hreach k c hk hs
    · intro _; exact hm
  · obtain ⟨a1, a2⟩ := hseen_fin c hc hs
    refine ⟨fun _ => a1, by omega, ?_⟩
    constructor
    · intro h; omega
    · intro h; exact absurd ⟨_, a1⟩ h

/-! ## Direction flood with a first-in first-out queue -/

theorem directionRelax_fifo (m : Maze) (mt t x kx : Nat)
    (st : ((Nat → Nat) × (Nat → Nat)) × List Nat) (d : Nat)
    (hn : 0 < numCells m) (hd : d < 4) (hkx : st.1.1 x = kx)
    (h : DirectionVisitInv m mt t x st) (hf : DirectionFifoVisitInv m mt x kx st) :
    DirectionFifoVisitInv m mt x kx (directionRelax m mt x ((kx + 1) % 65536) st d) := by
  have hnb := neighbour_lt m x d hn hd
  obtain ⟨hxn, hxs⟩ := h.selfSeen
  obtain ⟨hxc, hxr⟩ := h.seen x hxn hxs
  rw [hkx] at hxc hxr
  have hn2 : numCells m < 65536 := Nat.mod_lt _ (by omega)
  have hmod : (kx + 1) % 65536 = kx + 1 := Nat.mod_eq_of_lt (by omega)
  rw [hmod]
  unfold directionRelax
  by_cases he : hasExit m x d mt = true
  · simp only [he, if_true]
    by_cases hinv : st.1.2 (neighbour m x d) = INVALID_DIRECTION
    · simp only [hinv, if_true]
      have hne : ∀ c, st.1.2 c ≠ INVALID_DIRECTION → c ≠ neighbour m x d := by
        intro c hc e; rw [e] at hc; exact hc hinv
      have hsame : ∀ c, st.1.2 c ≠ INVALID_DIRECTION →
          setAt st.1.1 (neighbour m x d) (kx + 1) c = st.1.1 c := by
        intro c hc
        simp only [setAt, if_neg (hne c hc)]
      have hnew : setAt st.1.1 (neighbour m x d) (kx + 1) (neighbour m x d) = kx + 1 := by
        simp only [setAt, if_true]
      refine ⟨?_, ?_, ?_, ?_⟩
      · show (st.2 ++ [neighbour m x d]).Pairwise
          (fun a b => setAt st.1.1 (neighbour m x d) (kx + 1) a
            ≤ setAt st.1.1 (neighbour m x d) (kx + 1) b)
        rw [List.pairwise_append]
        refine ⟨?_, List.pairwise_singleton _ _, ?_⟩
        · refine List.Pairwise.imp_of_mem ?_ hf.ordered
          intro a b ha hb hab
          rw [hsame a (h.queued a ha).2, hsame b (h.queued b hb).2]
          exact hab
        · intro a ha b hb
          rw [List.mem_singleton.mp hb, hnew, hsame a (h.queued a ha).2]
          exact hf.nearx a (h.queued a ha).1 (h.queued a ha).2
      · intro c hc hs
        show setAt st.1.1 (neighbour m x d) (kx + 1) c ≤ kx + 1
        by_cases e : c = neighbour m x d
        · rw [e, hnew]
        · have hs' : st.1.2 c ≠ INVALID_DIRECTION := by
            have : setAt st.1.2 (neighbour m x d) (behind d) c ≠ INVALID_DIRECTION := hs
            simpa only [setAt, if_neg e] using this
          rw [hsame c hs']
          exact hf.nearx c hc hs'
      · intro a ha
        show kx ≤ setAt st.1.1 (neighbour m x d) (kx + 1) a
        rcases List.mem_append.mp ha with hq | hq
        · rw [hsame a (h.queued a hq).2]; exact hf.fromx a hq
        · rw [List.mem_singleton.mp hq, hnew]; omega
      · intro c hc hs hnq hcx d1 hd1 he1
        have hnq' : c ∉ st.2 ∧ c ≠ neighbour m x d := by
          simpa only [List.mem_append, List.mem_singleton, not_or] using hnq
        have hs' : st.1.2 c ≠ INVALID_DIRECTION := by
          have : setAt st.1.2 (neighbour m x d) (behind d) c ≠ INVALID_DIRECTION := hs
          simpa only [setAt, if_neg hnq'.2] using this
        have hcl := h.closed c hc hs' hnq'.1 hcx d1 hd1 he1
        show setAt st.1.1 (neighbour m x d) (kx + 1) (neighbour m c d1)
          ≤ setAt st.1.1 (neighbour m x d) (kx + 1) c + 1
        rw [hsame c hs', hsame _ hcl]
        exact hf.relaxed c hc hs' hnq'.1 hcx d1 hd1 he1
    · rw [if_neg hinv]; exact hf
  · rw [if_neg he]; exact hf

theorem takeAt_zero {ι : Type} {q : List ι} {x : ι} {rest : List ι}
    (h : takeAt q 0 = some (x, rest)) : q = x :: rest := by
  cases q with
  | nil => simp [takeAt] at h
  | cons a l =>
    simp [takeAt] at h
    rw [h.1, h.2]

theorem directionVisit_fifo (m : Maze) (mt t : Nat) (cost dir : Nat → Nat) (rest : List Nat)
    (x : Nat) (hn : 0 < numCells m) (h : DirectionInv m mt t ((cost, dir), x :: rest))
    (hf : DirectionFifoInv m mt ((cost, dir), x :: rest)) :
    DirectionFifoInv m mt (directionVisit m mt ((cost, dir), rest) x) := by
  obtain ⟨hxn, hxs⟩ := h.queued x (List.mem_cons_self _ _)
  have hord := List.pairwise_cons.mp hf.ordered
  have v0 : DirectionVisitInv m mt t x ((cost, dir), rest) :=
    ⟨h.target0, h.targetSeen, h.seen, h.unseen,
      fun c hc => h.queued c (List.mem_cons_of_mem _ hc),
      fun c hc hs hnq hcx => h.closed c hc hs (fun hh => by
        rcases List.mem_cons.mp hh with e | e
        · exact hcx e
        · exact hnq e), ⟨hxn, hxs⟩⟩
  have f0 : DirectionFifoVisitInv m mt x (cost x) ((cost, dir), rest) :=
    ⟨hord.2, fun c hc hs => hf.near x (List.mem_cons_self _ _) c hc hs,
      fun a ha => hord.1 a ha,
      fun c hc hs hnq hcx => hf.relaxed c hc hs (fun hh => by
        rcases List.mem_cons.mp hh with e | e
        · exact hcx e
        · exact hnq e)⟩
  unfold directionVisit
  simp only [List.foldl_cons, List.foldl_nil]
  obtain ⟨v1, k1, m1, e1, g1⟩ := directionRelax_base m mt t x (cost x) ((cost, dir), rest) 0
    hn (by omega) rfl v0
  have f1 := directionRelax_fifo m mt t x (cost x) ((cost, dir), rest) 0 hn (by omega) rfl v0 f0
  obtain ⟨v2, k2, m2, e2, g2⟩ := directionRelax_base m mt t x (cost x) _ 1 hn (by omega) k1 v1
  have f2 := directionRelax_fifo m mt t x (cost x) _ 1 hn (by omega) k1 v1 f1
  obtain ⟨v3, k3, m3, e3, g3⟩ := directionRelax_base m mt t x (cost x) _ 2 hn (by omega) k2 v2
  have f3 := directionRelax_fifo m mt t x (cost x) _ 2 hn (by omega) k2 v2 f2
  obtain ⟨v4, k4, m4, e4, g4⟩ := directionRelax_base m mt t x (cost x) _ 3 hn (by omega) k3 v3
  have f4 := directionRelax_fifo m mt t x (cost x) _ 3 hn (by omega) k3 v3 f3
  refine ⟨f4.ordered, ?_, ?_⟩
  · intro a ha c hc hs
    have := f4.nearx c hc hs
    have := f4.fromx a ha
    omega
  · intro c hc hs hnq d hd he
    by_cases hcx : c = x
    · subst hcx
      rw [k4]
      have hd' : d = 0 ∨ d = 1 ∨ d = 2 ∨ d = 3 := by omega
      rcases hd' with rfl | rfl | rfl | rfl
      · exact f4.nearx _ (neighbour_lt m c 0 hn hd) (m4 _ (m3 _ (m2 _ (e1 he)).1).1).1
      · exact f4.nearx _ (neighbour_lt m c 1 hn hd) (m4 _ (m3 _ (e2 he)).1).1
      · exact f4.nearx _ (neighbour_lt m c 2 hn hd) (m4 _ (e3 he)).1
      · exact f4.nearx _ (neighbour_lt m c 3 hn hd) (e4 he)
    · exact f4.relaxed c hc hs hnq hcx d hd he

theorem runQueue_inv_sched {σ ι : Type} (visit : σ × List ι → ι → σ × List ι)
    (sched : Nat → Nat) (P : σ × List ι → Prop)
    (hstep : ∀ s q t x rest, P (s, q) → takeAt q (sched t) = some (x, rest) →
      P (visit (s, rest) x))
    (fuel t : Nat) (st : σ × List ι) (h : P st) : P (runQueue visit sched fuel t st) := by
  induction fuel generalizing t st with
  | zero => exact h
  | succ fuel ih =>
    unfold runQueue
    cases hq : takeAt st.2 (sched t) with
    | none => exact h
    | some p =>
      obtain ⟨x, rest⟩ := p
      exact ih (t + 1) _ (hstep st.1 st.2 t x rest h hq)

theorem directionFlood_fifo_inv (m : Maze) (mt t : Nat) (ht : t < numCells m) :
    DirectionFifoInv (initialiseFloodCosts m t) mt
      (runQueue (directionVisit (initialiseFloodCosts m t) mt) fifo floodFuel 0
        (((initialiseFloodCosts m t).mCost, (initialiseFloodCosts m t).mDirection), [t])) := by
  have hn : 0 < numCells (initialiseFloodCosts m t) := by
    show 0 < numCells m; omega
  have key := runQueue_inv_sched (directionVisit (initialiseFloodCosts m t) mt) fifo
    (fun st => DirectionInv (initialiseFloodCosts m t) mt t st ∧
      DirectionFifoInv (initialiseFloodCosts m t) mt st) ?_ floodFuel 0
    (((initialiseFloodCosts m t).mCost, (initialiseFloodCosts m t).mDirection), [t]) ?_
  · exact key.2
  · intro c q k x rest hP htake
    have hq : q = x :: rest := takeAt_zero htake
    subst hq
    exact ⟨directionVisit_inv _ mt t c.1 c.2 _ rest (fifo k) x hn hP.1 htake,
      directionVisit_fifo _ mt t c.1 c.2 rest x hn hP.1 hP.2⟩
  · have hi := directionInv_lift m mt t ht _ (directionInv_init m mt t ht)
    refine ⟨hi, ?_, ?_, ?_⟩
    · exact List.pairwise_singleton _ _
    · intro a ha c hc hs
      by_cases e : c = t
      · subst e
        have h0 : (initialiseFloodCosts m c).mCost c = 0 := hi.target0
        show (initialiseFloodCosts m c).mCost c ≤ _
        rw [h0]; exact Nat.zero_le _
      · exfalso
        apply hs
        have hc1 : c < numCells m := hc
        show (initialiseFloodCosts m t).mDirection c = INVALID_DIRECTION
        simp only [initialiseFloodCosts, setAt]
        rw [if_neg e, if_pos hc1]
    · intro c hc hs hnq
      exfalso
      apply hs
      have e : c ≠ t := fun e => hnq (List.mem_singleton.mpr e)
      have hc1 : c < numCells m := hc
      show (initialiseFloodCosts m t).mDirection c = INVALID_DIRECTION
      simp only [initialiseFloodCosts, setAt]
      rw [if_neg e, if_pos hc1]

/-- With a first-in first-out queue the costs left by `directionFlood` are
those left by `manhattanFlood`. -/
theorem direction_fifo_eq_manhattan (m : Maze) (mt t : Nat) (s1 : Nat → Nat)
    (hw : m.mWidth ≤ 255) (ht : t < numCells m) (c : Nat) (hc : c < numCells m) :
    (directionFlood m t mt fifo).1.mCost c = (manhattanFlood m t mt s1).1.mCost c := by
  have hn : 0 < numCells m := by omega
  obtain ⟨hfin, hle, hmax⟩ := direction_final m mt t fifo ht c hc
  obtain ⟨hreach, hunreach⟩ := manhattanCosts_shortest m mt t s1 hw ht c hc
  rw [manhattanFlood_mCost]
  by_cases hr : Reachable m mt t c
  · obtain ⟨hch, hmin⟩ := hreach hr
    have hdfin : (directionFlood m t mt fifo).1.mCost c < MAX_COST := by
      have : (directionFlood m t mt fifo).1.mCost c ≠ MAX_COST := fun e => hmax.mp e hr
      omega
    have h1 := hmin _ (hfin hdfin)
    have hdone := directionFlood_queue_empties m t mt fifo hn
    have hinv := directionFlood_inv m mt t fifo ht
    have hfifo := directionFlood_fifo_inv m mt t ht
    rw [directionFlood_mCost] at hdfin h1 ⊢
    generalize (runQueue (directionVisit (initialiseFloodCosts m t) mt) fifo floodFuel 0
        (((initialiseFloodCosts m t).mCost, (initialiseFloodCosts m t).mDirection), [t])) = fin
      at hdone hinv hfifo hdfin h1 ⊢
    have hseen : ∀ x, x < numCells m → fin.1.1 x < MAX_COST →
        fin.1.2 x ≠ INVALID_DIRECTION := by
      intro x hx hlt e
      have := hinv.unseen x hx e
      omega
    have h2 := (chain_cost_le (initialiseFloodCosts m t) mt t fin.1.1 hw ht hinv.target0
      (fun x hx hlt => (hinv.seen x hx (hseen x hx hlt)).1)
      (fun x hx hlt d hd he => hfifo.relaxed x hx (hseen x hx hlt)
        (by rw [hdone]; exact List.not_mem_nil _) d hd he)
      _ c (chain_mono m (initialiseFloodCosts m t) mt mt t rfl ht
        (fun _ _ _ _ h => h) _ c hch)).1
    omega
  · rw [hunreach hr]
    exact hmax.mpr hr

/-- For every order of the queue the costs left by `directionFlood` are at
least those left by `manhattanFlood`, and `MAX_COST` for the same cells. -/
theorem direction_ge_manhattan (m : Maze) (mt t : Nat) (s s1 : Nat → Nat)
    (hw : m.mWidth ≤ 255) (ht : t < numCells m) (c : Nat) (hc : c < numCells m) :
    (manhattanFlood m t mt s1).1.mCost c ≤ (directionFlood m t mt s).1.mCost c ∧
    ((directionFlood m t mt s).1.mCost c = MAX_COST ↔
      (manhattanFlood m t mt s1).1.mCost c = MAX_COST) := by
  obtain ⟨hfin, hle, hmax⟩ := direction_final m mt t s ht c hc
  obtain ⟨hreach, hunreach⟩ := manhattanCosts_shortest m mt t s1 hw ht c hc
  obtain ⟨h0, hmx, hch, hrel⟩ := manhattan_final m mt t s1 ht
  rw [manhattanFlood_mCost]
  by_cases hr : Reachable m mt t c
  · obtain ⟨_, hmin⟩ := hreach hr
    obtain ⟨k, hk⟩ := hr
    have hD := (chain_cost_le m mt t _ hw ht h0 hch hrel k c hk).2
    have hdfin : (directionFlood m t mt s).1.mCost c < MAX_COST := by
      have : (directionFlood m t mt s).1.mCost c ≠ MAX_COST := fun e => hmax.mp e ⟨k, hk⟩
      omega
    have h1 := hmin _ (hfin hdfin)
    exact ⟨h1, ⟨fun e => by omega, fun e => by omega⟩⟩
  · rw [hunreach hr]
    exact ⟨le_of_eq (hmax.mpr hr).symm, ⟨fun _ => rfl, fun _ => hmax.mpr hr⟩⟩

/-- C25: with corner weight 3, on a maze of width at most 32, after
`weightedFlood(target, I)` every cell `c` reachable from the target under `I`
has a cost between twice and three times its shortest hop distance (the cost
the Manhattan flood gives it), and every unreachable cell has cost
`MAX_COST`; for every order of the queues. -/
theorem C25_weightedFlood_bounds (m : Maze) (target mazeType c : Nat) (s s1 : Nat → Nat)
    (hw : m.mWidth ≤ 32) (hcw : m.mCornerWeight = 3) (ht : target < numCells m)
    (hc : c < numCells m) :
    (Reachable m mazeType target c →
      2 * cost (manhattanFlood m target mazeType s1).1 c
          ≤ cost (weightedFlood m target mazeType s).1 c ∧
        cost (weightedFlood m target mazeType s).1 c
          ≤ 3 * cost (manhattanFlood m target mazeType s1).1 c) ∧
    (¬ Reachable m mazeType target c →
      cost (weightedFlood m target mazeType s).1 c = MAX_COST) := by
  obtain ⟨hmax, hwit, hup⟩ := weighted_final m mazeType target s hw hcw ht
  obtain ⟨hs1, _⟩ := manhattanCosts_shortest m mazeType target s1 (by omega) ht c hc
  constructor
  · intro hr
    obtain ⟨hch, hmin⟩ := hs1 hr
    obtain ⟨h3, hfin⟩ := hup _ c hch
    obtain ⟨k, hk, hk2⟩ := hwit c hc hfin
    have := hmin k hk
    show 2 * (manhattanCosts m target mazeType s1).1 c ≤ (weightedFlood m target mazeType s).1.mCost c
      ∧ (weightedFlood m target mazeType s).1.mCost c ≤ 3 * (manhattanCosts m target mazeType s1).1 c
    exact ⟨by omega, h3⟩
  · intro hnr
    show (weightedFlood m target mazeType s).1.mCost c = MAX_COST
    by_contra hne
    have hlt : (weightedFlood m target mazeType s).1.mCost c < MAX_COST := by
      have := hmax c hc; omega
    obtain ⟨k, hk, _⟩ := hwit c hc hlt
    exact hnr ⟨k, hk⟩

/-- C25 at a concrete state: a freshly reset 16-wide maze flooded towards
cell 17 and read at cell 0. -/
theorem C25_weightedFlood_bounds_witness :
    (Reachable (resetToEmptyMaze (blank 16)) OPEN_MAZE 17 0 →
      2 * cost (manhattanFlood (resetToEmptyMaze (blank 16)) 17 OPEN_MAZE fifo).1 0
          ≤ cost (weightedFlood (resetToEmptyMaze (blank 16)) 17 OPEN_MAZE fifo).1 0 ∧
        cost (weightedFlood (resetToEmptyMaze (blank 16)) 17 OPEN_MAZE fifo).1 0
          ≤ 3 * cost (manhattanFlood (resetToEmptyMaze (blank 16)) 17 OPEN_MAZE fifo).1 0) ∧
    (¬ Reachable (resetToEmptyMaze (blank 16)) OPEN_MAZE 17 0 →
      cost (weightedFlood (resetToEmptyMaze (blank 16)) 17 OPEN_MAZE fifo).1 0 = MAX_COST) :=
  C25_weightedFlood_bounds (resetToEmptyMaze (blank 16)) 17 OPEN_MAZE 0 fifo fifo
    (by rw [resetToEmptyMaze_mWidth]; decide) (by decide)
    (by rw [numCells, resetToEmptyMaze_mWidth]; decide)
    (by rw [numCells, resetToEmptyMaze_mWidth]; decide)

/-- The four wall writes of `copyCellFromFileData` are those of `updateMap`: the file loader's
literal masks `0x01`, `0x02`, `0x04`, `0x08` are the observation masks, and what remains is the
goal marker of bit 7. Holds for every byte. -/
theorem copyCellFromFileData_eq_updateMap (m : Maze) (c w : Nat) :
    copyCellFromFileData m c w
      = if w &&& 0x80 ≠ 0 then addToGoalArea (updateMap m c w) c else updateMap m c w := rfl

/-- For every byte, `updateMap` and `copyCellFromFileData` leave the same wall bytes, cost
table, direction table and width: they can differ in the goal area only. -/
theorem copyCellFromFileData_walls (m : Maze) (c w : Nat) :
    (copyCellFromFileData m c w).m_walls = (updateMap m c w).m_walls
      ∧ (copyCellFromFileData m c w).mCost = (updateMap m c w).mCost
      ∧ (copyCellFromFileData m c w).mDirection = (updateMap m c w).mDirection
      ∧ (copyCellFromFileData m c w).mWidth = (updateMap m c w).mWidth := by
  rw [copyCellFromFileData_eq_updateMap]
  split_ifs <;> exact ⟨rfl, rfl, rfl, rfl⟩

/-- With bit 7 set the two mutators do differ: the file loader appends the cell to the goal
area, the exploration mutator does not. -/
theorem copyCellFromFileData_goal_marker (m : Maze) (c w : Nat) (h7 : w &&& 0x80 ≠ 0) :
    (copyCellFromFileData m c w).goalArea = (updateMap m c w).goalArea ++ [c] := by
  rw [copyCellFromFileData_eq_updateMap, if_pos h7]
  rfl

/-- C31: for every maze state, every cell `c` (below `numCells()` or not) and every byte `w`
with bit 7 clear, `updateMap(c, w)` and `copyCellFromFileData(c, w)` produce the same maze
state, the observation masks `WALL_NORTH`, `WALL_EAST`, `WALL_SOUTH`, `WALL_WEST` being bits
0..3. -/
theorem C31_updateMap_is_copyCell (m : Maze) (c w : Nat) (h7 : w &&& 0x80 = 0) :
    updateMap m c w = copyCellFromFileData m c w := by
  rw [copyCellFromFileData_eq_updateMap, if_neg (by simpa using h7)]

/-- C31 at a concrete state: on the reset 16-wide maze, cell `0x22` and the byte 5 (walls to
the north and south) give the same state through either mutator. -/
theorem C31_updateMap_is_copyCell_witness :
    5 &&& 0x80 = 0
      ∧ 0x22 < numCells (resetToEmptyMaze (blank 16))
      ∧ updateMap (resetToEmptyMaze (blank 16)) 0x22 5
          = copyCellFromFileData (resetToEmptyMaze (blank 16)) 0x22 5 :=
  ⟨by decide, by rw [numCells, resetToEmptyMaze_mWidth]; decide,
    C31_updateMap_is_copyCell (resetToEmptyMaze (blank 16)) 0x22 5 (by decide)⟩

/-! ## Runs that hand out a lowest-cost item first -/

/-- An invariant of the loop that is kept by every step handing out an item
of lowest cost holds after a run in which every step does so. -/
theorem runQueue_inv_low {σ ι : Type} (visit : σ × List ι → ι → σ × List ι)
    (key : σ → ι → Nat) (sched : Nat → Nat) (P : σ × List ι → Prop)
    (hstep : ∀ s q t x rest, P (s, q) → takeAt q (sched t) = some (x, rest) →
      (∀ y, y ∈ q → key s x ≤ key s y) → P (visit (s, rest) x))
    (fuel t : Nat) (st : σ × List ι) (hlow : popsLowest visit key sched fuel t st = true)
    (h : P st) : P (runQueue visit sched fuel t st) := by
  induction fuel generalizing t st with
  | zero => exact h
  | succ fuel ih =>
    unfold runQueue
    unfold popsLowest at hlow
    cases hq : takeAt st.2 (sched t) with
    | none => exact h
    | some p =>
      obtain ⟨x, rest⟩ := p
      rw [hq] at hlow
      simp only [Bool.and_eq_true, List.all_eq_true, decide_eq_true_eq] at hlow
      exact ih (t + 1) _ hlow.2 (hstep st.1 st.2 t x rest h hq hlow.1)

/-- A run whose steps all hand out an item of lowest cost, by an invariant of
the loop. -/
theorem popsLowest_of_inv {σ ι : Type} (visit : σ × List ι → ι → σ × List ι)
    (key : σ → ι → Nat) (sched : Nat → Nat) (P : σ × List ι → Prop)
    (hstep : ∀ s q t x rest, P (s, q) → takeAt q (sched t) = some (x, rest) →
      P (visit (s, rest) x))
    (hmin : ∀ s q t x rest, P (s, q) → takeAt q (sched t) = some (x, rest) →
      ∀ y, y ∈ q → key s x ≤ key s y)
    (fuel t : Nat) (st : σ × List ι) (h : P st) :
    popsLowest visit key sched fuel t st = true := by
  induction fuel generalizing t st with
  | zero => rfl
  | succ fuel ih =>
    unfold popsLowest
    cases hq : takeAt st.2 (sched t) with
    | none => rfl
    | some p =>
      obtain ⟨x, rest⟩ := p
      simp only [Bool.and_eq_true, List.all_eq_true, decide_eq_true_eq]
      exact ⟨hmin st.1 st.2 t x rest h hq, ih (t + 1) _ (hstep st.1 st.2 t x rest h hq)⟩

theorem takeAt_mod {ι : Type} (q : List ι) (i : Nat) : takeAt q (i % q.length) = takeAt q i := by
  unfold takeAt
  rw [Nat.mod_mod]

/-- The final state of a run that hands out an item of lowest cost in every
iteration is among `lowestRuns`. -/
theorem runQueue_mem_lowestRuns {σ ι : Type} (visit : σ × List ι → ι → σ × List ι)
    (key : σ → ι → Nat) (sched : Nat → Nat) (fuel t : Nat) (st : σ × List ι)
    (hlow : popsLowest visit key sched fuel t st = true) :
    runQueue visit sched fuel t st ∈ lowestRuns visit key fuel st := by
  induction fuel generalizing t st with
  | zero => exact List.mem_singleton.mpr rfl
  | succ fuel ih =>
    unfold runQueue lowestRuns
    unfold popsLowest at hlow
    cases hq : takeAt st.2 (sched t) with
    | none =>
      have he : st.2 = [] := (takeAt_eq_none st.2 (sched t)).mp hq
      simp [he]
    | some p =>
      obtain ⟨x, rest⟩ := p
      rw [hq] at hlow
      simp only [Bool.and_eq_true] at hlow
      have hne : st.2 ≠ [] := fun e => by
        rw [(takeAt_eq_none st.2 (sched t)).mpr e] at hq; exact absurd hq (by simp)
      have hpos : 0 < st.2.length := List.length_pos.mpr hne
      have hemp : st.2.isEmpty = false := by
        cases hst : st.2 with
        | nil => exact absurd hst hne
        | cons a l => rfl
      rw [hemp]
      simp only [Bool.false_eq_true, if_false]
      rw [List.mem_flatMap]
      refine ⟨sched t % st.2.length, List.mem_range.mpr (Nat.mod_lt _ hpos), ?_⟩
      rw [takeAt_mod, hq]
      simp only [hlow.1, if_true]
      exact ih (t + 1) _ hlow.2

/-! ## Direction flood with a queue that hands out a lowest-cost cell -/

theorem directionRelax_low (m : Maze) (mt t x kx : Nat)
    (st : ((Nat → Nat) × (Nat → Nat)) × List Nat) (d : Nat)
    (hn : 0 < numCells m) (hd : d < 4) (hkx : st.1.1 x = kx)
    (h : DirectionVisitInv m mt t x st) (hf : DirectionLowVisitInv m mt x kx st) :
    DirectionLowVisitInv m mt x kx (directionRelax m mt x ((kx + 1) % 65536) st d) := by
  have hnb := neighbour_lt m x d hn hd
  obtain ⟨hxn, hxs⟩ := h.selfSeen
  obtain ⟨hxc, hxr⟩ := h.seen x hxn hxs
  rw [hkx] at hxc hxr
  have hn2 : numCells m < 65536 := Nat.mod_lt _ (by omega)
  have hmod : (kx + 1) % 65536 = kx + 1 := Nat.mod_eq_of_lt (by omega)
  rw [hmod]
  unfold directionRelax
  by_cases he : hasExit m x d mt = true
  · simp only [he, if_true]
    by_cases hinv : st.1.2 (neighbour m x d) = INVALID_DIRECTION
    · simp only [hinv, if_true]
      have hne : ∀ c, st.1.2 c ≠ INVALID_DIRECTION → c ≠ neighbour m x d := by
        intro c hc e; rw [e] at hc; exact hc hinv
      have hsame : ∀ c, st.1.2 c ≠ INVALID_DIRECTION →
          setAt st.1.1 (neighbour m x d) (kx + 1) c = st.1.1 c := by
        intro c hc
        simp only [setAt, if_neg (hne c hc)]
      have hnew : setAt st.1.1 (neighbour m x d) (kx + 1) (neighbour m x d) = kx + 1 := by
        simp only [setAt, if_true]
      refine ⟨?_, ?_, ?_⟩
      · intro c hc hs
        show setAt st.1.1 (neighbour m x d) (kx + 1) c ≤ kx + 1
        by_cases e : c = neighbour m x d
        · rw [e, hnew]
        · have hs' : st.1.2 c ≠ INVALID_DIRECTION := by
            have : setAt st.1.2 (neighbour m x d) (behind d) c ≠ INVALID_DIRECTION := hs
            simpa only [setAt, if_neg e] using this
          rw [hsame c hs']
          exact hf.nearx c hc hs'
      · intro a ha
        show kx ≤ setAt st.1.1 (neighbour m x d) (kx + 1) a
        rcases List.mem_append.mp ha with hq | hq
        · rw [hsame a (h.queued a hq).2]; exact hf.fromx a hq
        · rw [List.mem_singleton.mp hq, hnew]; omega
      · intro c hc hs hnq hcx d1 hd1 he1
        have hnq' : c ∉ st.2 ∧ c ≠ neighbour m x d := by
          simpa only [List.mem_append, List.mem_singleton, not_or] using hnq
        have hs' : st.1.2 c ≠ INVALID_DIRECTION := by
          have : setAt st.1.2 (neighbour m x d) (behind d) c ≠ INVALID_DIRECTION := hs
          simpa only [setAt, if_neg hnq'.2] using this
        have hcl := h.closed c hc hs' hnq'.1 hcx d1 hd1 he1
        show setAt st.1.1 (neighbour m x d) (kx + 1) (neighbour m c d1)
          ≤ setAt st.1.1 (neighbour m x d) (kx + 1) c + 1
        rw [hsame c hs', hsame _ hcl]
        exact hf.relaxed c hc hs' hnq'.1 hcx d1 hd1 he1
    · rw [if_neg hinv]; exact hf
  · rw [if_neg he]; exact hf

theorem directionVisit_low (m : Maze) (mt t : Nat) (cost dir : Nat → Nat) (q rest : List Nat)
    (i x : Nat) (hn : 0 < numCells m) (h : DirectionInv m mt t ((cost, dir), q))
    (hf : DirectionLowInv m mt ((cost, dir), q))
    (htake : takeAt q i = some (x, rest)) (hmin : ∀ y, y ∈ q → cost x ≤ cost y) :
    DirectionLowInv m mt (directionVisit m mt ((cost, dir), rest) x) := by
  obtain ⟨hxq, _, hsub, hsup⟩ := takeAt_some htake
  obtain ⟨hxn, hxs⟩ := h.queued x hxq
  have v0 : DirectionVisitInv m mt t x ((cost, dir), rest) :=
    ⟨h.target0, h.targetSeen, h.seen, h.unseen, fun c hc => h.queued c (hsub c hc),
      fun c hc hs hnq hcx => h.closed c hc hs (fun hh => by
        rcases hsup c hh with e | e
        · exact hcx e
        · exact hnq e), ⟨hxn, hxs⟩⟩
  have f0 : DirectionLowVisitInv m mt x (cost x) ((cost, dir), rest) :=
    ⟨fun c hc hs => hf.near x hxq c hc hs,
      fun a ha => hmin a (hsub a ha),
      fun c hc hs hnq hcx => hf.relaxed c hc hs (fun hh => by
        rcases hsup c hh with e | e
        · exact hcx e
        · exact hnq e)⟩
  unfold directionVisit
  simp only [List.foldl_cons, List.foldl_nil]
  obtain ⟨v1, k1, m1, e1, g1⟩ := directionRelax_base m mt t x (cost x) ((cost, dir), rest) 0
    hn (by omega) rfl v0
  have f1 := directionRelax_low m mt t x (cost x) ((cost, dir), rest) 0 hn (by omega) rfl v0 f0
  obtain ⟨v2, k2, m2, e2, g2⟩ := directionRelax_base m mt t x (cost x) _ 1 hn (by omega) k1 v1
  have f2 := directionRelax_low m mt t x (cost x) _ 1 hn (by omega) k1 v1 f1
  obtain ⟨v3, k3, m3, e3, g3⟩ := directionRelax_base m mt t x (cost x) _ 2 hn (by omega) k2 v2
  have f3 := directionRelax_low m mt t x (cost x) _ 2 hn (by omega) k2 v2 f2
  obtain ⟨v4, k4, m4, e4, g4⟩ := directionRelax_base m mt t x (cost x) _ 3 hn (by omega) k3 v3
  have f4 := directionRelax_low m mt t x (cost x) _ 3 hn (by omega) k3 v3 f3
  refine ⟨?_, ?_⟩
  · intro a ha c hc hs
    have := f4.nearx c hc hs
    have := f4.fromx a ha
    omega
  · intro c hc hs hnq d hd he
    by_cases hcx : c = x
    · subst hcx
      rw [k4]
      have hd' : d = 0 ∨ d = 1 ∨ d = 2 ∨ d = 3 := by omega
      rcases hd' with rfl | rfl | rfl | rfl
      · exact f4.nearx _ (neighbour_lt m c 0 hn hd) (m4 _ (m3 _ (m2 _ (e1 he)).1).1).1
      · exact f4.nearx _ (neighbour_lt m c 1 hn hd) (m4 _ (m3 _ (e2 he)).1).1
      · exact f4.nearx _ (neighbour_lt m c 2 hn hd) (m4 _ (e3 he)).1
      · exact f4.nearx _ (neighbour_lt m c 3 hn hd) (e4 he)
    · exact f4.relaxed c hc hs hnq hcx d hd he

theorem directionLowInv_init (m : Maze) (mt t : Nat) (ht : t < numCells m) :
    DirectionLowInv (initialiseFloodCosts m t) mt
      (((initialiseFloodCosts m t).mCost, (initialiseFloodCosts m t).mDirection), [t]) := by
  have hi := directionInv_lift m mt t ht _ (directionInv_init m mt t ht)
  refine ⟨?_, ?_⟩
  · intro a ha c hc hs
    by_cases e : c = t
    · subst e
      have h0 : (initialiseFloodCosts m c).mCost c = 0 := hi.target0
      show (initialiseFloodCosts m c).mCost c ≤ _
      rw [h0]; exact Nat.zero_le _
    · exfalso
      apply hs
      have hc1 : c < numCells m := hc
      show (initialiseFloodCosts m t).mDirection c = INVALID_DIRECTION
      simp only [initialiseFloodCosts, setAt]
      rw [if_neg e, if_pos hc1]
  · intro c hc hs hnq
    exfalso
    apply hs
    have e : c ≠ t := fun e => hnq (List.mem_singleton.mpr e)
    have hc1 : c < numCells m := hc
    show (initialiseFloodCosts m t).mDirection c = INVALID_DIRECTION
    simp only [initialiseFloodCosts, setAt]
    rw [if_neg e, if_pos hc1]

theorem directionFlood_low_inv (m : Maze) (mt t : Nat) (s : Nat → Nat) (ht : t < numCells m)
    (hlow : directionPopsLowest m t mt s = true) :
    DirectionLowInv (initialiseFloodCosts m t) mt
      (runQueue (directionVisit (initialiseFloodCosts m t) mt) s floodFuel 0
        (((initialiseFloodCosts m t).mCost, (initialiseFloodCosts m t).mDirection), [t])) := by
  have hn : 0 < numCells (initialiseFloodCosts m t) := by
    show 0 < numCells m; omega
  have key := runQueue_inv_low (directionVisit (initialiseFloodCosts m t) mt)
    (fun s c => s.1 c) s
    (fun st => DirectionInv (initialiseFloodCosts m t) mt t st ∧
      DirectionLowInv (initialiseFloodCosts m t) mt st) ?_ floodFuel 0
    (((initialiseFloodCosts m t).mCost, (initialiseFloodCosts m t).mDirection), [t]) hlow ?_
  · exact key.2
  · intro c q k x rest hP htake hmin
    exact ⟨directionVisit_inv _ mt t c.1 c.2 q rest (s k) x hn hP.1 htake,
      directionVisit_low _ mt t c.1 c.2 q rest (s k) x hn hP.1 hP.2 htake hmin⟩
  · exact ⟨directionInv_lift m mt t ht _ (directionInv_init m mt t ht),
      directionLowInv_init m mt t ht⟩

/-- With a queue that hands out a pending cell of lowest cost in every
iteration, the costs left by `directionFlood` are those left by
`manhattanFlood`. -/
theorem direction_low_eq_manhattan (m : Maze) (mt t : Nat) (s s1 : Nat → Nat)
    (hw : m.mWidth ≤ 255) (ht : t < numCells m)
    (hlow : directionPopsLowest m t mt s = true) (c : Nat) (hc : c < numCells m) :
    (directionFlood m t mt s).1.mCost c = (manhattanFlood m t mt s1).1.mCost c := by
  have hn : 0 < numCells m := by omega
  obtain ⟨hfin, hle, hmax⟩ := direction_final m mt t s ht c hc
  obtain ⟨hreach, hunreach⟩ := manhattanCosts_shortest m mt t s1 hw ht c hc
  rw [manhattanFlood_mCost]
  by_cases hr : Reachable m mt t c
  · obtain ⟨hch, hmin⟩ := hreach hr
    have hdfin : (directionFlood m t mt s).1.mCost c < MAX_COST := by
      have : (directionFlood m t mt s).1.mCost c ≠ MAX_COST := fun e => hmax.mp e hr
      omega
    have h1 := hmin _ (hfin hdfin)
    have hdone := directionFlood_queue_empties m t mt s hn
    have hinv := directionFlood_inv m mt t s ht
    have hlo := directionFlood_low_inv m mt t s ht hlow
    rw [directionFlood_mCost] at hdfin h1 ⊢
    generalize (runQueue (directionVisit (initialiseFloodCosts m t) mt) s floodFuel 0
        (((initialiseFloodCosts m t).mCost, (initialiseFloodCosts m t).mDirection), [t])) = fin
      at hdone hinv hlo hdfin h1 ⊢
    have hseen : ∀ x, x < numCells m → fin.1.1 x < MAX_COST →
        fin.1.2 x ≠ INVALID_DIRECTION := by
      intro x hx hlt e
      have := hinv.unseen x hx e
      omega
    have h2 := (chain_cost_le (initialiseFloodCosts m t) mt t fin.1.1 hw ht hinv.target0
      (fun x hx hlt => (hinv.seen x hx (hseen x hx hlt)).1)
      (fun x hx hlt d hd he => hlo.relaxed x hx (hseen x hx hlt)
        (by rw [hdone]; exact List.not_mem_nil _) d hd he)
      _ c (chain_mono m (initialiseFloodCosts m t) mt mt t rfl ht
        (fun _ _ _ _ h => h) _ c hch)).1
    omega
  · rw [hunreach hr]
    exact hmax.mpr hr

/-- The first-in first-out order is one of the orders that hand out a pending
cell of lowest cost in every iteration of `directionFlood`. -/
theorem fifo_directionPopsLowest (m : Maze) (mt t : Nat) (ht : t < numCells m) :
    directionPopsLowest m t mt fifo = true := by
  have hn : 0 < numCells (initialiseFloodCosts m t) := by
    show 0 < numCells m; omega
  show popsLowest (directionVisit (initialiseFloodCosts m t) mt) (fun s c => s.1 c) fifo
    floodFuel 0 (((initialiseFloodCosts m t).mCost, (initialiseFloodCosts m t).mDirection), [t])
    = true
  refine popsLowest_of_inv (directionVisit (initialiseFloodCosts m t) mt) (fun s c => s.1 c) fifo
    (fun st => DirectionInv (initialiseFloodCosts m t) mt t st ∧
      DirectionFifoInv (initialiseFloodCosts m t) mt st) ?_ ?_ floodFuel 0 _ ?_
  · intro c q k x rest hP htake
    have hq : q = x :: rest := takeAt_zero htake
    subst hq
    exact ⟨directionVisit_inv _ mt t c.1 c.2 _ rest (fifo k) x hn hP.1 htake,
      directionVisit_fifo _ mt t c.1 c.2 rest x hn hP.1 hP.2⟩
  · intro c q k x rest hP htake y hy
    have hq : q = x :: rest := takeAt_zero htake
    subst hq
    have hord := List.pairwise_cons.mp hP.2.ordered
    rcases List.mem_cons.mp hy with e | e
    · rw [e]
    · exact hord.1 y e
  · have hi := directionInv_lift m mt t ht _ (directionInv_init m mt t ht)
    have hl := directionLowInv_init m mt t ht
    exact ⟨hi, List.pairwise_singleton _ _, hl.near, hl.relaxed⟩

/-! ## What a flood depends on -/

theorem initialiseFloodCosts_congr (m m' : Maze) (t : Nat)
    (hwd : m'.mWidth = m.mWidth)
    (hc : ∀ j, numCells m ≤ j → j ≠ t → m'.mCost j = m.mCost j)
    (hd : ∀ j, numCells m ≤ j → j ≠ t → m'.mDirection j = m.mDirection j) :
    (initialiseFloodCosts m' t).mCost = (initialiseFloodCosts m t).mCost ∧
    (initialiseFloodCosts m' t).mDirection = (initialiseFloodCosts m t).mDirection := by
  have hn : numCells m' = numCells m := by unfold numCells; rw [hwd]
  constructor
  · funext j
    show setAt (fun i => if i < numCells m' then MAX_COST else m'.mCost i) t 0 j
      = setAt (fun i => if i < numCells m then MAX_COST else m.mCost i) t 0 j
    simp only [setAt, hn]
    split
    · rfl
    · next hj =>
      split
      · rfl
      · next hlt => exact hc j (not_lt.mp hlt) hj
  · funext j
    show setAt (fun i => if i < numCells m' then INVALID_DIRECTION else m'.mDirection i) t NORTH j
      = setAt (fun i => if i < numCells m then INVALID_DIRECTION else m.mDirection i) t NORTH j
    simp only [setAt, hn]
    split
    · rfl
    · next hj =>
      split
      · rfl
      · next hlt => exact hd j (not_lt.mp hlt) hj

theorem weightedVisit_congr (m m' : Maze) (mt : Nat) (hw : m'.m_walls = m.m_walls)
    (hwd : m'.mWidth = m.mWidth) (hcw : m'.mCornerWeight = m.mCornerWeight) :
    weightedVisit m' mt = weightedVisit m mt := by
  cases m; cases m'
  simp only at hw hwd hcw
  subst hw hwd hcw
  rfl

theorem manhattanVisit_congr (m m' : Maze) (mt : Nat) (hw : m'.m_walls = m.m_walls)
    (hwd : m'.mWidth = m.mWidth) : manhattanVisit m' mt = manhattanVisit m mt := by
  cases m; cases m'
  simp only at hw hwd
  subst hw hwd
  rfl

theorem directionVisit_congr (m m' : Maze) (mt : Nat) (hw : m'.m_walls = m.m_walls)
    (hwd : m'.mWidth = m.mWidth) : directionVisit m' mt = directionVisit m mt := by
  cases m; cases m'
  simp only at hw hwd
  subst hw hwd
  rfl

theorem runLengthVisit_congr (m m' : Maze) (mt : Nat) (hw : m'.m_walls = m.m_walls)
    (hwd : m'.mWidth = m.mWidth) : runLengthVisit m' mt = runLengthVisit m mt := by
  cases m; cases m'
  simp only at hw hwd
  subst hw hwd
  rfl

theorem seedQueue_congr (m m' : Maze) (hw : m'.m_walls = m.m_walls)
    (hwd : m'.mWidth = m.mWidth) : seedQueue m' = seedQueue m := by
  cases m; cases m'
  simp only at hw hwd
  subst hw hwd
  rfl

/-- The value returned by a flood, and whether its queue hands out a
lowest-cost item first, depend on the walls, the width, the flood type and the
corner weight only. -/
theorem flood_congr (m m' : Maze) (t mt : Nat) (s : Nat → Nat)
    (hw : m'.m_walls = m.m_walls) (hwd : m'.mWidth = m.mWidth)
    (hft : m'.mFloodType = m.mFloodType) (hcw : m'.mCornerWeight = m.mCornerWeight)
    (hc : ∀ j, numCells m ≤ j → j ≠ t → m'.mCost j = m.mCost j)
    (hd : ∀ j, numCells m ≤ j → j ≠ t → m'.mDirection j = m.mDirection j) :
    (flood m' t mt s).2 = (flood m t mt s).2 ∧
    floodPopsLowest m' t mt s = floodPopsLowest m t mt s := by
  obtain ⟨e1, e2⟩ := initialiseFloodCosts_congr m m' t hwd hc hd
  have v1 := manhattanVisit_congr m m' mt hw hwd
  have v2 := weightedVisit_congr (initialiseFloodCosts m t) (initialiseFloodCosts m' t) mt hw hwd hcw
  have v3 := runLengthVisit_congr (initialiseFloodCosts m t) (initialiseFloodCosts m' t) mt hw hwd
  have v4 := directionVisit_congr (initialiseFloodCosts m t) (initialiseFloodCosts m' t) mt hw hwd
  have v5 := seedQueue_congr (initialiseFloodCosts m t) (initialiseFloodCosts m' t) hw hwd
  unfold flood floodPopsLowest
  rw [hft]
  cases m.mFloodType
  · show (runQueue (manhattanVisit m' mt) s floodFuel 0
        ((initialiseFloodCosts m' t).mCost, [t])).1 0
        = (runQueue (manhattanVisit m mt) s floodFuel 0
        ((initialiseFloodCosts m t).mCost, [t])).1 0 ∧
      popsLowest (manhattanVisit m' mt) (fun cost c => cost c) s floodFuel 0
        ((initialiseFloodCosts m' t).mCost, [t])
        = popsLowest (manhattanVisit m mt) (fun cost c => cost c) s floodFuel 0
        ((initialiseFloodCosts m t).mCost, [t])
    rw [v1, e1]; exact ⟨rfl, rfl⟩
  · show (runQueue (weightedVisit (initialiseFloodCosts m' t) mt) s floodFuel 0
        (((initialiseFloodCosts m' t).mCost, (initialiseFloodCosts m' t).mDirection), [t])).1.1 0
        = (runQueue (weightedVisit (initialiseFloodCosts m t) mt) s floodFuel 0
        (((initialiseFloodCosts m t).mCost, (initialiseFloodCosts m t).mDirection), [t])).1.1 0 ∧
      popsLowest (weightedVisit (initialiseFloodCosts m' t) mt) (fun s c => s.1 c) s floodFuel 0
        (((initialiseFloodCosts m' t).mCost, (initialiseFloodCosts m' t).mDirection), [t])
        = popsLowest (weightedVisit (initialiseFloodCosts m t) mt) (fun s c => s.1 c) s floodFuel 0
        (((initialiseFloodCosts m t).mCost, (initialiseFloodCosts m t).mDirection), [t])
    rw [v2, e1, e2]; exact ⟨rfl, rfl⟩
  · show (runQueue (runLengthVisit (initialiseFloodCosts m' t) mt) s floodFuel 0
        (seedQueue (initialiseFloodCosts m' t) ((initialiseFloodCosts m' t).mCost, []) t
          (orthoCostTable.getD 1 0))).1 0
        = (runQueue (runLengthVisit (initialiseFloodCosts m t) mt) s floodFuel 0
        (seedQueue (initialiseFloodCosts m t) ((initialiseFloodCosts m t).mCost, []) t
          (orthoCostTable.getD 1 0))).1 0 ∧
      popsLowest (runLengthVisit (initialiseFloodCosts m' t) mt) (fun _ info => info.cost) s
        floodFuel 0
        (seedQueue (initialiseFloodCosts m' t) ((initialiseFloodCosts m' t).mCost, []) t
          (orthoCostTable.getD 1 0))
        = popsLowest (runLengthVisit (initialiseFloodCosts m t) mt) (fun _ info => info.cost) s
        floodFuel 0
        (seedQueue (initialiseFloodCosts m t) ((initialiseFloodCosts m t).mCost, []) t
          (orthoCostTable.getD 1 0))
    rw [v3, v5, e1]; exact ⟨rfl, rfl⟩
  · show (runQueue (directionVisit (initialiseFloodCosts m' t) mt) s floodFuel 0
        (((initialiseFloodCosts m' t).mCost, (initialiseFloodCosts m' t).mDirection), [t])).1.1 0
        = (runQueue (directionVisit (initialiseFloodCosts m t) mt) s floodFuel 0
        (((initialiseFloodCosts m t).mCost, (initialiseFloodCosts m t).mDirection), [t])).1.1 0 ∧
      popsLowest (directionVisit (initialiseFloodCosts m' t) mt) (fun s c => s.1 c) s floodFuel 0
        (((initialiseFloodCosts m' t).mCost, (initialiseFloodCosts m' t).mDirection), [t])
        = popsLowest (directionVisit (initialiseFloodCosts m t) mt) (fun s c => s.1 c) s floodFuel 0
        (((initialiseFloodCosts m t).mCost, (initialiseFloodCosts m t).mDirection), [t])
    rw [v4, e1, e2]; exact ⟨rfl, rfl⟩

theorem setWallPresent_congr (m m' : Maze) (c d : Nat) (hw : m'.m_walls = m.m_walls)
    (hwd : m'.mWidth = m.mWidth) :
    (setWallPresent m' c d).m_walls = (setWallPresent m c d).m_walls := by
  cases m; cases m'
  simp only at hw hwd
  subst hw hwd
  unfold setWallPresent
  split <;> rfl

theorem testForSolution_frame (m : Maze) (s1 s2 : Nat → Nat) (hn : 0 < numCells m)
    (j : Nat) (hj : numCells m ≤ j) (hjg : j ≠ goal m) :
    (testForSolution m s1 s2).1.mCost j = m.mCost j ∧
    (testForSolution m s1 s2).1.mDirection j = m.mDirection j := by
  have hfr := flood_frame m (goal m) CLOSED_MAZE s1 hn j hj hjg
  have f1 := flood_fields m (goal m) CLOSED_MAZE s1
  generalize hm1 : ({ (flood m (goal m) CLOSED_MAZE s1).1 with
      mPathCostClosed := (flood m (goal m) CLOSED_MAZE s1).2 } : Maze) = m1
  have hg : goal m1 = goal m := by
    have : m1.goalArea = m.goalArea := by rw [← hm1]; exact f1.2.2.1
    unfold goal; rw [this]
  have hw1 : m1.mWidth = m.mWidth := by rw [← hm1]; exact f1.2.1
  have hn1 : numCells m1 = numCells m := numCells_congr m m1 hw1
  have hfr2 := flood_frame m1 (goal m) OPEN_MAZE s2 (by rw [hn1]; exact hn) j
    (by rw [hn1]; exact hj) hjg
  have hT1 : (testForSolution m s1 s2).1 =
      { (flood m1 (goal m) OPEN_MAZE s2).1 with
        mPathCostOpen := (flood m1 (goal m) OPEN_MAZE s2).2,
        mIsSolved := decide ((flood m1 (goal m) OPEN_MAZE s2).1.mPathCostClosed
          = (flood m1 (goal m) OPEN_MAZE s2).2) } := by
    unfold testForSolution
    simp only [hm1, hg]
  rw [hT1]
  show (flood m1 (goal m) OPEN_MAZE s2).1.mCost j = m.mCost j ∧
    (flood m1 (goal m) OPEN_MAZE s2).1.mDirection j = m.mDirection j
  rw [hfr2.1, hfr2.2, ← hm1]
  exact hfr

/-- The two floods of `testForSolution` hand out a lowest-cost item first
exactly when the two floods of the state it is called in do. -/
theorem testForSolutionPopsLowest_spec (m : Maze) (s1 s2 : Nat → Nat) (hn : 0 < numCells m) :
    testForSolutionPopsLowest m s1 s2
      = (floodPopsLowest m (goal m) CLOSED_MAZE s1 && floodPopsLowest m (goal m) OPEN_MAZE s2) := by
  have hsh := flood_shape m (goal m) CLOSED_MAZE s1
  have hfr := flood_frame m (goal m) CLOSED_MAZE s1 hn
  have f1 := flood_fields m (goal m) CLOSED_MAZE s1
  generalize hm1 : ({ (flood m (goal m) CLOSED_MAZE s1).1 with
      mPathCostClosed := (flood m (goal m) CLOSED_MAZE s1).2 } : Maze) = m1
  have hg : goal m1 = goal m := by
    have : m1.goalArea = m.goalArea := by rw [← hm1]; exact f1.2.2.1
    unfold goal; rw [this]
  have key := (flood_congr m m1 (goal m) OPEN_MAZE s2
    (by rw [← hm1]; exact f1.1) (by rw [← hm1]; exact f1.2.1)
    (by rw [← hm1]; exact f1.2.2.2.2.2.2.1) (by rw [← hm1]; exact f1.2.2.2.2.2.2.2)
    (fun j hj hjt => by rw [← hm1]; exact (hfr j hj hjt).1)
    (fun j hj hjt => by rw [← hm1]; exact (hfr j hj hjt).2)).2
  have hT : testForSolutionPopsLowest m s1 s2
      = (floodPopsLowest m (goal m) CLOSED_MAZE s1 &&
          floodPopsLowest m1 (goal m) OPEN_MAZE s2) := by
    unfold testForSolutionPopsLowest
    simp only [hm1, hg]
  rw [hT, key]

/-- The flood that follows `testForSolution` and `setWallPresent`, in terms
of the state `testForSolution` was called in. -/
theorem flood_after_test (m : Maze) (s1 s2 s3 : Nat → Nat) (c d mt : Nat)
    (hn : 0 < numCells m) :
    goal (setWallPresent (testForSolution m s1 s2).1 c d) = goal m ∧
    (flood (setWallPresent (testForSolution m s1 s2).1 c d) (goal m) mt s3).2
      = (flood (setWallPresent m c d) (goal m) mt s3).2 ∧
    floodPopsLowest (setWallPresent (testForSolution m s1 s2).1 c d) (goal m) mt s3
      = floodPopsLowest (setWallPresent m c d) (goal m) mt s3 := by
  obtain ⟨_, _, _, _, tW, tWd, tG, tF, tC⟩ := testForSolution_spec m s1 s2 hn
  have hfr := testForSolution_frame m s1 s2 hn
  generalize (testForSolution m s1 s2).1 = T at tW tWd tG tF tC hfr
  have hg : goal (setWallPresent T c d) = goal m :=
    goal_congr m _ (by rw [(setWallPresent_fields T c d).1, tG])
  have hnum : numCells (setWallPresent m c d) = numCells m :=
    numCells_congr m _ (setWallPresent_mWidth m c d)
  have e1 : (setWallPresent T c d).mCost = T.mCost := by rw [setWallPresent_eq]
  have e2 : (setWallPresent T c d).mDirection = T.mDirection := by rw [setWallPresent_eq]
  have e3 : (setWallPresent m c d).mCost = m.mCost := by rw [setWallPresent_eq]
  have e4 : (setWallPresent m c d).mDirection = m.mDirection := by rw [setWallPresent_eq]
  have e5 : (setWallPresent T c d).mCornerWeight = T.mCornerWeight := by rw [setWallPresent_eq]
  have e6 : (setWallPresent m c d).mCornerWeight = m.mCornerWeight := by rw [setWallPresent_eq]
  have key := flood_congr (setWallPresent m c d) (setWallPresent T c d) (goal m) mt s3
    (setWallPresent_congr m T c d tW tWd)
    (by rw [setWallPresent_mWidth, setWallPresent_mWidth, tWd])
    (by rw [(setWallPresent_fields T c d).2, (setWallPresent_fields m c d).2, tF])
    (by rw [e5, e6, tC])
    (fun j hj hjt => by rw [e1, e3]; exact (hfr j (by rw [← hnum]; exact hj) hjt).1)
    (fun j hj hjt => by rw [e2, e4]; exact (hfr j (by rw [← hnum]; exact hj) hjt).2)
  exact ⟨hg, key.1, key.2⟩

/-! ## Direction flood: monotone and stable once solved -/

/-- With consistent beliefs and queues that hand out a lowest-cost cell first,
the pessimistic direction flood costs at least the optimistic one. -/
theorem direction_closed_ge_open (m : Maze) (t : Nat) (s1 s2 : Nat → Nat)
    (hw : m.mWidth ≤ 255) (ht : t < numCells m) (hcons : Consistent m)
    (h1 : directionPopsLowest m t CLOSED_MAZE s1 = true)
    (h2 : directionPopsLowest m t OPEN_MAZE s2 = true)
    (c : Nat) (hc : c < numCells m) :
    (directionFlood m t OPEN_MAZE s2).1.mCost c
      ≤ (directionFlood m t CLOSED_MAZE s1).1.mCost c := by
  rw [direction_low_eq_manhattan m OPEN_MAZE t s2 s2 hw ht h2 c hc,
    direction_low_eq_manhattan m CLOSED_MAZE t s1 s1 hw ht h1 c hc,
    manhattanFlood_mCost, manhattanFlood_mCost]
  exact manhattan_closed_ge_open m t s1 s2 hw ht hcons c hc

theorem flood_direction (m : Maze) (t mt : Nat) (s : Nat → Nat)
    (h : m.mFloodType = FloodType.DIRECTION_FLOOD) :
    (flood m t mt s).2 = (directionFlood m t mt s).1.mCost 0 ∧
    floodPopsLowest m t mt s = directionPopsLowest m t mt s := by
  unfold flood floodPopsLowest; rw [h]; exact ⟨rfl, rfl⟩

/-- Under the direction flood with a queue that hands out a lowest-cost cell
first, `flood` returns what it returns under the Manhattan flood. -/
theorem flood_direction_eq_manhattan (m : Maze) (t mt : Nat) (s : Nat → Nat)
    (hw : m.mWidth ≤ 255) (ht : t < numCells m)
    (h : m.mFloodType = FloodType.DIRECTION_FLOOD)
    (hlow : floodPopsLowest m t mt s = true) :
    (flood m t mt s).2 = (flood (setFloodType m FloodType.MANHATTAN_FLOOD) t mt s).2 := by
  have hn : 0 < numCells m := by omega
  obtain ⟨e1, e2⟩ := flood_direction m t mt s h
  rw [e2] at hlow
  rw [e1, direction_low_eq_manhattan m mt t s s hw ht hlow 0 hn,
    flood_manhattan (setFloodType m FloodType.MANHATTAN_FLOOD) t mt s rfl]
  rfl

/-- Solved stays solved at the start cell under the direction flood, when the
queues hand out a lowest-cost cell first. -/
theorem direction_solved_stable (m : Maze) (s1 s2 s3 : Nat → Nat) (c d : Nat)
    (hw : m.mWidth ≤ 255) (hft : m.mFloodType = FloodType.DIRECTION_FLOOD)
    (hsym : WallSym m) (hcons : Consistent m) (hg : goal m < numCells m)
    (hc : c < numCells m) (hd : d < 4)
    (hunseen : hasOpenExit m c d = true ∧ hasClosedExit m c d = false)
    (hlow : testForSolutionPopsLowest m s1 s2 = true)
    (hlow3 : floodPopsLowest (setWallPresent (testForSolution m s1 s2).1 c d)
      (goal (setWallPresent (testForSolution m s1 s2).1 c d)) OPEN_MAZE s3 = true)
    (hsolved : (testForSolution m s1 s2).2 = true) :
    (flood (setWallPresent (testForSolution m s1 s2).1 c d)
        (goal (setWallPresent (testForSolution m s1 s2).1 c d)) OPEN_MAZE s3).2
      = openMazeCost (testForSolution m s1 s2).1 := by
  have hn : 0 < numCells m := by omega
  have hmn : ∀ m0 : Maze, setFloodType m0 FloodType.MANHATTAN_FLOOD
      = { m0 with mFloodType := FloodType.MANHATTAN_FLOOD } := fun _ => rfl
  obtain ⟨_, tO, _, tS, _⟩ := testForSolution_spec m s1 s2 hn
  obtain ⟨_, tO', _, tS', _⟩ :=
    testForSolution_spec (setFloodType m FloodType.MANHATTAN_FLOOD) s1 s2 hn
  rw [testForSolutionPopsLowest_spec m s1 s2 hn, Bool.and_eq_true] at hlow
  obtain ⟨hg3, hf3, hp3⟩ := flood_after_test m s1 s2 s3 c d OPEN_MAZE hn
  obtain ⟨hg3', hf3', _⟩ :=
    flood_after_test (setFloodType m FloodType.MANHATTAN_FLOOD) s1 s2 s3 c d OPEN_MAZE hn
  rw [hg3] at hlow3 ⊢
  rw [hp3] at hlow3
  have hgm : goal (setFloodType m FloodType.MANHATTAN_FLOOD) = goal m := rfl
  rw [hgm] at tO' tS' hf3' hg3'
  have c1 := flood_direction_eq_manhattan m (goal m) CLOSED_MAZE s1 hw hg hft hlow.1
  have c2 := flood_direction_eq_manhattan m (goal m) OPEN_MAZE s2 hw hg hft hlow.2
  have hw3 : (setWallPresent m c d).mWidth ≤ 255 := by rw [setWallPresent_mWidth]; exact hw
  have hg3n : goal m < numCells (setWallPresent m c d) := by
    rw [numCells_congr m _ (setWallPresent_mWidth m c d)]; exact hg
  have c3 := flood_direction_eq_manhattan (setWallPresent m c d) (goal m) OPEN_MAZE s3 hw3 hg3n
    (by rw [(setWallPresent_fields m c d).2, hft]) hlow3
  have hsw : setFloodType (setWallPresent m c d) FloodType.MANHATTAN_FLOOD
      = setWallPresent (setFloodType m FloodType.MANHATTAN_FLOOD) c d := by
    unfold setWallPresent setFloodType
    split <;> rfl
  have hsolved' : (testForSolution (setFloodType m FloodType.MANHATTAN_FLOOD) s1 s2).2 = true := by
    rw [tS', ← c1, ← c2, ← tS]; exact hsolved
  have key := manhattan_solved_stable (setFloodType m FloodType.MANHATTAN_FLOOD) s1 s2 s3 c d
    hw rfl (setFloodType_wallSym m _ hsym) hcons hg hc hd hunseen hsolved'
  rw [hg3', hf3'] at key
  show _ = (testForSolution m s1 s2).1.mPathCostOpen
  rw [hf3, c3, hsw, key, tO, c2]
  show (testForSolution (setFloodType m FloodType.MANHATTAN_FLOOD) s1 s2).1.mPathCostOpen = _
  rw [tO']

/-! ## Weighted and run-length floods under every lowest-first order -/

theorem flood_weighted (m : Maze) (t mt : Nat) (s : Nat → Nat)
    (h : m.mFloodType = FloodType.WEIGHTED_FLOOD) :
    (flood m t mt s).1.mCost = (weightedFlood m t mt s).1.mCost ∧
    floodPopsLowest m t mt s = weightedPopsLowest m t mt s := by
  unfold flood floodPopsLowest; rw [h]; exact ⟨rfl, rfl⟩

theorem flood_runLength (m : Maze) (t mt : Nat) (s : Nat → Nat)
    (h : m.mFloodType = FloodType.RUNLENGTH_FLOOD) :
    (flood m t mt s).1.mCost = (runLengthFlood m t mt s).1.mCost ∧
    floodPopsLowest m t mt s = runLengthPopsLowest m t mt s := by
  unfold flood floodPopsLowest; rw [h]; exact ⟨rfl, rfl⟩

/-- The cost array left by `weightedFlood` is among `weightedLowestCosts`
when its queue hands out a lowest-cost cell in every iteration. -/
theorem weightedFlood_mem_lowestCosts (m : Maze) (t mt : Nat) (s : Nat → Nat)
    (hlow : weightedPopsLowest m t mt s = true) :
    (weightedFlood m t mt s).1.mCost ∈ weightedLowestCosts m t mt := by
  rw [weightedFlood_mCost]
  unfold weightedLowestCosts
  exact List.mem_map.mpr ⟨_, runQueue_mem_lowestRuns _ _ s floodFuel 0 _ hlow, rfl⟩

/-- The cost array left by `runLengthFlood` is among `runLengthLowestCosts`
when its queue hands out a lowest-cost record in every iteration. -/
theorem runLengthFlood_mem_lowestCosts (m : Maze) (t mt : Nat) (s : Nat → Nat)
    (hlow : runLengthPopsLowest m t mt s = true) :
    (runLengthFlood m t mt s).1.mCost ∈ runLengthLowestCosts m t mt := by
  unfold runLengthLowestCosts
  exact List.mem_map.mpr ⟨_, runQueue_mem_lowestRuns _ _ s floodFuel 0 _ hlow, rfl⟩

/-- A cost that every lowest-first run of the weighted flood leaves in cell
`c` is the cost `flood` leaves there, whatever the ties. -/
theorem flood_weighted_value (m : Maze) (t mt c v : Nat) (s : Nat → Nat)
    (hft : m.mFloodType = FloodType.WEIGHTED_FLOOD)
    (hall : ∀ f ∈ weightedLowestCosts m t mt, f c = v)
    (hlow : floodPopsLowest m t mt s = true) :
    cost (flood m t mt s).1 c = v := by
  obtain ⟨e1, e2⟩ := flood_weighted m t mt s hft
  rw [e2] at hlow
  show (flood m t mt s).1.mCost c = v
  rw [e1]
  exact hall _ (weightedFlood_mem_lowestCosts m t mt s hlow)

/-- A cost that every lowest-first run of the run-length flood leaves in cell
`c` is the cost `flood` leaves there, whatever the ties. -/
theorem flood_runLength_value (m : Maze) (t mt c v : Nat) (s : Nat → Nat)
    (hft : m.mFloodType = FloodType.RUNLENGTH_FLOOD)
    (hall : ∀ f ∈ runLengthLowestCosts m t mt, f c = v)
    (hlow : floodPopsLowest m t mt s = true) :
    cost (flood m t mt s).1 c = v := by
  obtain ⟨e1, e2⟩ := flood_runLength m t mt s hft
  rw [e2] at hlow
  show (flood m t mt s).1.mCost c = v
  rw [e1]
  exact hall _ (runLengthFlood_mem_lowestCosts m t mt s hlow)

/-- A maze state in which `testForSolution` returns true and the flood after
marking one wall present returns another cost than before, for all queues
that hand out a lowest-cost item first: from the values the three floods
return in the state `testForSolution` is called in. -/
theorem solved_then_changed (m : Maze) (c d v v' : Nat) (s1 s2 s3 : Nat → Nat)
    (hn : 0 < numCells m)
    (hclosed : floodPopsLowest m (goal m) CLOSED_MAZE s1 = true →
      cost (flood m (goal m) CLOSED_MAZE s1).1 0 = v)
    (hopen : floodPopsLowest m (goal m) OPEN_MAZE s2 = true →
      cost (flood m (goal m) OPEN_MAZE s2).1 0 = v)
    (hafter : floodPopsLowest (setWallPresent m c d) (goal m) OPEN_MAZE s3 = true →
      cost (flood (setWallPresent m c d) (goal m) OPEN_MAZE s3).1 0 = v')
    (hlow : testForSolutionPopsLowest m s1 s2 = true)
    (hlow3 : floodPopsLowest (setWallPresent (testForSolution m s1 s2).1 c d)
      (goal (setWallPresent (testForSolution m s1 s2).1 c d)) OPEN_MAZE s3 = true) :
    (testForSolution m s1 s2).2 = true ∧
    openMazeCost (testForSolution m s1 s2).1 = v ∧
    (flood (setWallPresent (testForSolution m s1 s2).1 c d)
      (goal (setWallPresent (testForSolution m s1 s2).1 c d)) OPEN_MAZE s3).2 = v' := by
  obtain ⟨_, tO, _, tS, _⟩ := testForSolution_spec m s1 s2 hn
  rw [testForSolutionPopsLowest_spec m s1 s2 hn, Bool.and_eq_true] at hlow
  obtain ⟨hg3, hf3, hp3⟩ := flood_after_test m s1 s2 s3 c d OPEN_MAZE hn
  rw [hg3] at hlow3 ⊢
  rw [hp3] at hlow3
  have h1 := hclosed hlow.1
  have h2 := hopen hlow.2
  have h3 := hafter hlow3
  unfold cost at h1 h2 h3
  rw [← flood_ret] at h1 h2 h3
  refine ⟨?_, ?_, ?_⟩
  · rw [tS, h1, h2]; exact decide_eq_true rfl
  · show (testForSolution m s1 s2).1.mPathCostOpen = v
    rw [tO, h2]
  · rw [hf3, h3]

theorem cornerMaze_wallSym : WallSym cornerMaze :=
  setFloodType_wallSym _ _ (setGoal_wallSym _ _
    (applyAll_reset_wallSym (blank 16) (Or.inl rfl)
      [Mutation.update 3 15, Mutation.update 19 15, Mutation.update 32 15,
       Mutation.update 33 15, Mutation.update 34 15]
      (by
        intro op hop
        simp only [List.mem_cons, List.mem_singleton, List.not_mem_nil, or_false] at hop
        rcases hop with rfl | rfl | rfl | rfl | rfl <;>
          simp [Mutation.InRange, numCells, blank])))

/-- C24: with the queue the specification describes (every iteration hands
out a pending cell of lowest cost, whichever way ties are broken), for every
wall state, every target and cell of the maze and either interpretation, the
cost `directionFlood` leaves in the cell equals the cost `manhattanFlood`
leaves there: the length of a shortest chain of exits from the target, and
`MAX_COST` when there is none. -/
theorem C24_directionFlood_hop_count (m : Maze) (target mazeType c : Nat) (s s1 : Nat → Nat)
    (hw : m.mWidth ≤ 255) (ht : target < numCells m) (hc : c < numCells m)
    (hlow : directionPopsLowest m target mazeType s = true) :
    cost (directionFlood m target mazeType s).1 c
      = cost (manhattanFlood m target mazeType s1).1 c ∧
    (Reachable m mazeType target c →
      Chain m mazeType target (cost (directionFlood m target mazeType s).1 c) c ∧
      ∀ k, Chain m mazeType target k c → cost (directionFlood m target mazeType s).1 c ≤ k) ∧
    (¬ Reachable m mazeType target c →
      cost (directionFlood m target mazeType s).1 c = MAX_COST) := by
  have e : cost (directionFlood m target mazeType s).1 c
      = cost (manhattanFlood m target mazeType s1).1 c :=
    direction_low_eq_manhattan m mazeType target s s1 hw ht hlow c hc
  rw [e]
  exact ⟨rfl, manhattanCosts_shortest m mazeType target s1 hw ht c hc⟩

/-- C24 at a concrete state: the freshly reset 16-wide maze flooded towards
cell 17 with a first-in first-out queue, which hands out a cell of lowest
cost in every iteration, read at cell 19. -/
theorem C24_directionFlood_hop_count_witness :
    directionPopsLowest (resetToEmptyMaze (blank 16)) 17 OPEN_MAZE fifo = true ∧
    (cost (directionFlood (resetToEmptyMaze (blank 16)) 17 OPEN_MAZE fifo).1 19
      = cost (manhattanFlood (resetToEmptyMaze (blank 16)) 17 OPEN_MAZE fifo).1 19 ∧
    (Reachable (resetToEmptyMaze (blank 16)) OPEN_MAZE 17 19 →
      Chain (resetToEmptyMaze (blank 16)) OPEN_MAZE 17
        (cost (directionFlood (resetToEmptyMaze (blank 16)) 17 OPEN_MAZE fifo).1 19) 19 ∧
      ∀ k, Chain (resetToEmptyMaze (blank 16)) OPEN_MAZE 17 k 19 →
        cost (directionFlood (resetToEmptyMaze (blank 16)) 17 OPEN_MAZE fifo).1 19 ≤ k) ∧
    (¬ Reachable (resetToEmptyMaze (blank 16)) OPEN_MAZE 17 19 →
      cost (directionFlood (resetToEmptyMaze (blank 16)) 17 OPEN_MAZE fifo).1 19 = MAX_COST)) :=
  have hn : 17 < numCells (resetToEmptyMaze (blank 16)) := by
    rw [numCells, resetToEmptyMaze_mWidth]; decide
  ⟨fifo_directionPopsLowest (resetToEmptyMaze (blank 16)) OPEN_MAZE 17 hn,
    C24_directionFlood_hop_count (resetToEmptyMaze (blank 16)) 17 OPEN_MAZE 19 fifo fifo
      (by rw [resetToEmptyMaze_mWidth]; decide) hn
      (by rw [numCells, resetToEmptyMaze_mWidth]; decide)
      (fifo_directionPopsLowest (resetToEmptyMaze (blank 16)) OPEN_MAZE 17 hn)⟩

set_option maxRecDepth 1000000 in
set_option maxHeartbeats 4000000 in
/-- C6 fails as stated, on consistent beliefs and with the queue the
specification describes.  Weighted flood: in `weightedDetourMaze` (five
`updateMap` calls after the reset, every pessimistic exit also an optimistic
one) the flood towards cell 255 leaves cost 10 in cell 236 under
`CLOSED_MAZE` and cost 11 under `OPEN_MAZE`, for every queue that hands out a
lowest-cost cell first, whichever way it breaks ties; the first-in first-out
queue is one of them.  Run-length flood: in `runLengthDetourMaze` (six
`updateMap` calls, target cell 227 fully seen) the flood towards cell 227
leaves cost 466 in cell 224 under `CLOSED_MAZE` and 488 under `OPEN_MAZE`,
for every queue that hands out a lowest-cost record first, and also with a
first-in first-out queue. -/
theorem C6_counterexample :
    (Consistent weightedDetourMaze ∧
      (∀ s1 s2 : Nat → Nat,
        floodPopsLowest weightedDetourMaze 255 CLOSED_MAZE s1 = true →
        floodPopsLowest weightedDetourMaze 255 OPEN_MAZE s2 = true →
        cost (flood weightedDetourMaze 255 CLOSED_MAZE s1).1 236 = 10 ∧
        cost (flood weightedDetourMaze 255 OPEN_MAZE s2).1 236 = 11) ∧
      floodPopsLowest weightedDetourMaze 255 CLOSED_MAZE fifo = true ∧
      floodPopsLowest weightedDetourMaze 255 OPEN_MAZE fifo = true ∧
      ¬ (cost (flood weightedDetourMaze 255 CLOSED_MAZE fifo).1 236
          ≥ cost (flood weightedDetourMaze 255 OPEN_MAZE fifo).1 236)) ∧
    (Consistent runLengthDetourMaze ∧ isVisited runLengthDetourMaze 227 = true ∧
      (∀ s1 s2 : Nat → Nat,
        floodPopsLowest runLengthDetourMaze 227 CLOSED_MAZE s1 = true →
        floodPopsLowest runLengthDetourMaze 227 OPEN_MAZE s2 = true →
        cost (flood runLengthDetourMaze 227 CLOSED_MAZE s1).1 224 = 466 ∧
        cost (flood runLengthDetourMaze 227 OPEN_MAZE s2).1 224 = 488) ∧
      floodPopsLowest runLengthDetourMaze 227 CLOSED_MAZE fifo = true ∧
      floodPopsLowest runLengthDetourMaze 227 OPEN_MAZE
        (orderOf [0, 0, 0, 0, 1, 1, 0, 1]) = true ∧
      cost (flood runLengthDetourMaze 227 CLOSED_MAZE fifo).1 224 = 466 ∧
      cost (flood runLengthDetourMaze 227 OPEN_MAZE fifo).1 224 = 488) :=
  have w1 : ∀ f ∈ weightedLowestCosts weightedDetourMaze 255 CLOSED_MAZE, f 236 = 10 := by
    decide
  have w2 : ∀ f ∈ weightedLowestCosts weightedDetourMaze 255 OPEN_MAZE, f 236 = 11 := by
    decide
  have r1 : ∀ f ∈ runLengthLowestCosts runLengthDetourMaze 227 CLOSED_MAZE, f 224 = 466 := by
    decide
  have r2 : ∀ f ∈ runLengthLowestCosts runLengthDetourMaze 227 OPEN_MAZE, f 224 = 488 := by
    decide
  have wc : floodPopsLowest weightedDetourMaze 255 CLOSED_MAZE fifo = true := by decide
  have wo : floodPopsLowest weightedDetourMaze 255 OPEN_MAZE fifo = true := by decide
  have hw : ∀ s1 s2 : Nat → Nat,
      floodPopsLowest weightedDetourMaze 255 CLOSED_MAZE s1 = true →
      floodPopsLowest weightedDetourMaze 255 OPEN_MAZE s2 = true →
      cost (flood weightedDetourMaze 255 CLOSED_MAZE s1).1 236 = 10 ∧
      cost (flood weightedDetourMaze 255 OPEN_MAZE s2).1 236 = 11 :=
    fun s1 s2 h1 h2 =>
      ⟨flood_weighted_value weightedDetourMaze 255 CLOSED_MAZE 236 10 s1 rfl w1 h1,
        flood_weighted_value weightedDetourMaze 255 OPEN_MAZE 236 11 s2 rfl w2 h2⟩
  ⟨⟨by unfold Consistent; decide, hw, wc, wo, by
      rw [(hw fifo fifo wc wo).1, (hw fifo fifo wc wo).2]; decide⟩,
    ⟨by unfold Consistent; decide, by decide,
      fun s1 s2 h1 h2 =>
        ⟨flood_runLength_value runLengthDetourMaze 227 CLOSED_MAZE 224 466 s1 rfl r1 h1,
          flood_runLength_value runLengthDetourMaze 227 OPEN_MAZE 224 488 s2 rfl r2 h2⟩,
      by decide, by decide, by decide, by decide⟩⟩

/-- C6 as amended: in every state reached from `resetToEmptyMaze()` (width 16
or 32) by `updateMap` calls in which every pessimistic exit is also an
optimistic exit, for every target and every cell of the maze, the cost left
by `flood(target, CLOSED_MAZE)` is at least the cost left by
`flood(target, OPEN_MAZE)`: under the Manhattan flood for every order of the
queues, and under the direction flood for queues that hand out a lowest-cost
cell first (the first-in first-out queue is one, `fifo_directionPopsLowest`). -/
theorem C6_flood_monotone (m0 : Maze) (hw : m0.mWidth = 16 ∨ m0.mWidth = 32)
    (obs : List (Nat × Nat))
    (hcons : Consistent (updateAll (resetToEmptyMaze m0) obs))
    (target c : Nat) (ht : target < numCells m0) (hc : c < numCells m0)
    (s1 s2 : Nat → Nat) :
    cost (manhattanFlood (updateAll (resetToEmptyMaze m0) obs) target CLOSED_MAZE s1).1 c
      ≥ cost (manhattanFlood (updateAll (resetToEmptyMaze m0) obs) target OPEN_MAZE s2).1 c ∧
    (directionPopsLowest (updateAll (resetToEmptyMaze m0) obs) target CLOSED_MAZE s1 = true →
      directionPopsLowest (updateAll (resetToEmptyMaze m0) obs) target OPEN_MAZE s2 = true →
      cost (directionFlood (updateAll (resetToEmptyMaze m0) obs) target CLOSED_MAZE s1).1 c
        ≥ cost (directionFlood (updateAll (resetToEmptyMaze m0) obs) target OPEN_MAZE s2).1 c) := by
  have hwid : (updateAll (resetToEmptyMaze m0) obs).mWidth = m0.mWidth :=
    (updateAll_mWidth _ obs).trans (resetToEmptyMaze_mWidth m0)
  have hn := numCells_congr m0 _ hwid
  have hw' : (updateAll (resetToEmptyMaze m0) obs).mWidth ≤ 255 := by
    rcases hw with h | h <;> omega
  exact ⟨manhattan_closed_ge_open _ target s1 s2 hw' (by omega) hcons c (by omega),
    fun h1 h2 => direction_closed_ge_open _ target s1 s2 hw' (by omega) hcons h1 h2 c
      (by omega)⟩

set_option maxRecDepth 100000 in
/-- C6 as amended, at a concrete state: two consistent observations on a
16-wide maze, flooded from cell 1 with first-in first-out queues and read at
cell 0. -/
theorem C6_flood_monotone_witness :
    cost (manhattanFlood (updateAll (resetToEmptyMaze (blank 16)) [(3, 15), (19, 15)])
        1 CLOSED_MAZE fifo).1 0
      ≥ cost (manhattanFlood (updateAll (resetToEmptyMaze (blank 16)) [(3, 15), (19, 15)])
        1 OPEN_MAZE fifo).1 0 ∧
    cost (directionFlood (updateAll (resetToEmptyMaze (blank 16)) [(3, 15), (19, 15)])
        1 CLOSED_MAZE fifo).1 0
      ≥ cost (directionFlood (updateAll (resetToEmptyMaze (blank 16)) [(3, 15), (19, 15)])
        1 OPEN_MAZE fifo).1 0 :=
  have hn : 1 < numCells (updateAll (resetToEmptyMaze (blank 16)) [(3, 15), (19, 15)]) := by
    decide
  (C6_flood_monotone (blank 16) (Or.inl rfl) [(3, 15), (19, 15)]
    (by unfold Consistent; decide) 1 0 (by decide) (by decide) fifo fifo).imp id
    (fun h => h (fifo_directionPopsLowest _ CLOSED_MAZE 1 hn)
      (fifo_directionPopsLowest _ OPEN_MAZE 1 hn))

set_option maxRecDepth 1000000 in
set_option maxHeartbeats 4000000 in
/-- C7 fails as stated, on consistent beliefs and with the queue the
specification describes.  Weighted flood: in `weightedSolvedMaze` (goal 51)
`testForSolution()` returns true with both costs 21, the east wall of cell 1
is still unseen, and once it is marked present `flood(goal(), OPEN_MAZE)`
returns 20.  Run-length flood: in `runLengthSolvedMaze` (goal 50, fully seen)
`testForSolution()` returns true with both costs 658, the north wall of cell
34 is still unseen, and once it is marked present `flood(goal(), OPEN_MAZE)`
returns 636.  Both hold for all queues that hand out a lowest-cost item
first, whichever way they break ties (such orders are exhibited), and also
with first-in first-out queues. -/
theorem C7_counterexample :
    (Consistent weightedSolvedMaze ∧
      hasOpenExit weightedSolvedMaze 1 EAST = true ∧
      hasClosedExit weightedSolvedMaze 1 EAST = false ∧
      (∀ s1 s2 s3 : Nat → Nat,
        testForSolutionPopsLowest weightedSolvedMaze s1 s2 = true →
        floodPopsLowest (setWallPresent (testForSolution weightedSolvedMaze s1 s2).1 1 EAST)
          (goal (setWallPresent (testForSolution weightedSolvedMaze s1 s2).1 1 EAST))
          OPEN_MAZE s3 = true →
        (testForSolution weightedSolvedMaze s1 s2).2 = true ∧
        openMazeCost (testForSolution weightedSolvedMaze s1 s2).1 = 21 ∧
        (flood (setWallPresent (testForSolution weightedSolvedMaze s1 s2).1 1 EAST)
          (goal (setWallPresent (testForSolution weightedSolvedMaze s1 s2).1 1 EAST))
          OPEN_MAZE s3).2 = 20) ∧
      testForSolutionPopsLowest weightedSolvedMaze
        (orderOf [0, 0, 0, 0, 0, 0, 0, 0, 1])
        (orderOf [0, 0, 0, 0, 0, 0, 1, 0, 0, 0, 1, 0, 1]) = true ∧
      floodPopsLowest
        (setWallPresent (testForSolution weightedSolvedMaze
          (orderOf [0, 0, 0, 0, 0, 0, 0, 0, 1])
          (orderOf [0, 0, 0, 0, 0, 0, 1, 0, 0, 0, 1, 0, 1])).1 1 EAST)
        (goal (setWallPresent (testForSolution weightedSolvedMaze
          (orderOf [0, 0, 0, 0, 0, 0, 0, 0, 1])
          (orderOf [0, 0, 0, 0, 0, 0, 1, 0, 0, 0, 1, 0, 1])).1 1 EAST))
        OPEN_MAZE (orderOf [0, 0, 0, 0, 0, 0, 1, 0, 0, 0, 1, 0, 1]) = true ∧
      (testForSolution weightedSolvedMaze fifo fifo).2 = true ∧
      openMazeCost (testForSolution weightedSolvedMaze fifo fifo).1 = 21 ∧
      (flood (setWallPresent (testForSolution weightedSolvedMaze fifo fifo).1 1 EAST)
        (goal (setWallPresent (testForSolution weightedSolvedMaze fifo fifo).1 1 EAST))
        OPEN_MAZE fifo).2 = 20) ∧
    (Consistent runLengthSolvedMaze ∧ isVisited runLengthSolvedMaze 50 = true ∧
      hasOpenExit runLengthSolvedMaze 34 NORTH = true ∧
      hasClosedExit runLengthSolvedMaze 34 NORTH = false ∧
      (∀ s1 s2 s3 : Nat → Nat,
        testForSolutionPopsLowest runLengthSolvedMaze s1 s2 = true →
        floodPopsLowest (setWallPresent (testForSolution runLengthSolvedMaze s1 s2).1 34 NORTH)
          (goal (setWallPresent (testForSolution runLengthSolvedMaze s1 s2).1 34 NORTH))
          OPEN_MAZE s3 = true →
        (testForSolution runLengthSolvedMaze s1 s2).2 = true ∧
        openMazeCost (testForSolution runLengthSolvedMaze s1 s2).1 = 658 ∧
        (flood (setWallPresent (testForSolution runLengthSolvedMaze s1 s2).1 34 NORTH)
          (goal (setWallPresent (testForSolution runLengthSolvedMaze s1 s2).1 34 NORTH))
          OPEN_MAZE s3).2 = 636) ∧
      testForSolutionPopsLowest runLengthSolvedMaze
        (orderOf [0, 0, 1]) (orderOf [0, 0, 1, 0, 0, 0, 0, 2, 0, 0, 1]) = true ∧
      floodPopsLowest
        (setWallPresent (testForSolution runLengthSolvedMaze
          (orderOf [0, 0, 1]) (orderOf [0, 0, 1, 0, 0, 0, 0, 2, 0, 0, 1])).1 34 NORTH)
        (goal (setWallPresent (testForSolution runLengthSolvedMaze
          (orderOf [0, 0, 1]) (orderOf [0, 0, 1, 0, 0, 0, 0, 2, 0, 0, 1])).1 34 NORTH))
        OPEN_MAZE (orderOf [0, 0, 1, 0, 0, 0, 0, 0, 0, 2, 1]) = true ∧
      (testForSolution runLengthSolvedMaze fifo fifo).2 = true ∧
      openMazeCost (testForSolution runLengthSolvedMaze fifo fifo).1 = 658 ∧
      (flood (setWallPresent (testForSolution runLengthSolvedMaze fifo fifo).1 34 NORTH)
        (goal (setWallPresent (testForSolution runLengthSolvedMaze fifo fifo).1 34 NORTH))
        OPEN_MAZE fifo).2 = 636) :=
  have w1 : ∀ f ∈ weightedLowestCosts weightedSolvedMaze (goal weightedSolvedMaze) CLOSED_MAZE,
      f 0 = 21 := by decide
  have w2 : ∀ f ∈ weightedLowestCosts weightedSolvedMaze (goal weightedSolvedMaze) OPEN_MAZE,
      f 0 = 21 := by decide
  have w3 : ∀ f ∈ weightedLowestCosts (setWallPresent weightedSolvedMaze 1 EAST)
      (goal weightedSolvedMaze) OPEN_MAZE, f 0 = 20 := by decide
  have r1 : ∀ f ∈ runLengthLowestCosts runLengthSolvedMaze (goal runLengthSolvedMaze)
      CLOSED_MAZE, f 0 = 658 := by decide
  have r2 : ∀ f ∈ runLengthLowestCosts runLengthSolvedMaze (goal runLengthSolvedMaze)
      OPEN_MAZE, f 0 = 658 := by decide
  have r3 : ∀ f ∈ runLengthLowestCosts (setWallPresent runLengthSolvedMaze 34 NORTH)
      (goal runLengthSolvedMaze) OPEN_MAZE, f 0 = 636 := by decide
  ⟨⟨by unfold Consistent; decide, by decide, by decide,
      fun s1 s2 s3 hlow hlow3 =>
        solved_then_changed weightedSolvedMaze 1 EAST 21 20 s1 s2 s3 (by decide)
          (flood_weighted_value weightedSolvedMaze _ CLOSED_MAZE 0 21 s1 rfl w1)
          (flood_weighted_value weightedSolvedMaze _ OPEN_MAZE 0 21 s2 rfl w2)
          (flood_weighted_value (setWallPresent weightedSolvedMaze 1 EAST) _ OPEN_MAZE 0 20 s3
            rfl w3)
          hlow hlow3,
      by decide, by decide, by decide, by decide, by decide⟩,
    ⟨by unfold Consistent; decide, by decide, by decide, by decide,
      fun s1 s2 s3 hlow hlow3 =>
        solved_then_changed runLengthSolvedMaze 34 NORTH 658 636 s1 s2 s3 (by decide)
          (flood_runLength_value runLengthSolvedMaze _ CLOSED_MAZE 0 658 s1 rfl r1)
          (flood_runLength_value runLengthSolvedMaze _ OPEN_MAZE 0 658 s2 rfl r2)
          (flood_runLength_value (setWallPresent runLengthSolvedMaze 34 NORTH) _ OPEN_MAZE 0
            636 s3 rfl r3)
          hlow hlow3,
      by decide, by decide, by decide, by decide, by decide⟩⟩

/-- C7 as amended: in a state with symmetric walls (such as one reached from
`resetToEmptyMaze()` by in-range mutators) in which every pessimistic exit is
also an optimistic exit and `goal()` is a cell of the maze, if
`testForSolution()` returns true and a still unseen wall is then marked
present, `flood(goal(), OPEN_MAZE)` returns the same cost for the start cell
as before: under the Manhattan flood for every order of the queues, and under
the direction flood for queues that hand out a lowest-cost cell first. -/
theorem C7_solved_stable (m : Maze) (s1 s2 s3 : Nat → Nat) (c d : Nat)
    (hw : m.mWidth ≤ 255) (hsym : WallSym m) (hcons : Consistent m) (hg : goal m < numCells m)
    (hc : c < numCells m) (hd : d < 4)
    (hunseen : hasOpenExit m c d = true ∧ hasClosedExit m c d = false)
    (hsolved : (testForSolution m s1 s2).2 = true) :
    (m.mFloodType = FloodType.MANHATTAN_FLOOD →
      (flood (setWallPresent (testForSolution m s1 s2).1 c d)
          (goal (setWallPresent (testForSolution m s1 s2).1 c d)) OPEN_MAZE s3).2
        = openMazeCost (testForSolution m s1 s2).1) ∧
    (m.mFloodType = FloodType.DIRECTION_FLOOD →
      testForSolutionPopsLowest m s1 s2 = true →
      floodPopsLowest (setWallPresent (testForSolution m s1 s2).1 c d)
        (goal (setWallPresent (testForSolution m s1 s2).1 c d)) OPEN_MAZE s3 = true →
      (flood (setWallPresent (testForSolution m s1 s2).1 c d)
          (goal (setWallPresent (testForSolution m s1 s2).1 c d)) OPEN_MAZE s3).2
        = openMazeCost (testForSolution m s1 s2).1) :=
  ⟨fun hft => manhattan_solved_stable m s1 s2 s3 c d hw hft hsym hcons hg hc hd hunseen hsolved,
    fun hft hlow hlow3 =>
      direction_solved_stable m s1 s2 s3 c d hw hft hsym hcons hg hc hd hunseen hlow hlow3
        hsolved⟩

set_option maxRecDepth 100000 in
/-- C7 as amended, at concrete states: `cornerMaze` (Manhattan flood) and the
same walls with the direction flood selected are solved with cost 1, the
unseen north wall of cell 1 is marked present, and the queues are first-in
first-out, which for these floods hands out a lowest-cost cell first. -/
theorem C7_solved_stable_witness :
    (flood (setWallPresent (testForSolution cornerMaze fifo fifo).1 1 NORTH)
        (goal (setWallPresent (testForSolution cornerMaze fifo fifo).1 1 NORTH))
        OPEN_MAZE fifo).2
      = openMazeCost (testForSolution cornerMaze fifo fifo).1 ∧
    (flood (setWallPresent (testForSolution
          (setFloodType cornerMaze FloodType.DIRECTION_FLOOD) fifo fifo).1 1 NORTH)
        (goal (setWallPresent (testForSolution
          (setFloodType cornerMaze FloodType.DIRECTION_FLOOD) fifo fifo).1 1 NORTH))
        OPEN_MAZE fifo).2
      = openMazeCost (testForSolution
          (setFloodType cornerMaze FloodType.DIRECTION_FLOOD) fifo fifo).1 :=
  ⟨(C7_solved_stable cornerMaze fifo fifo fifo 1 NORTH (by decide) cornerMaze_wallSym
      (by unfold Consistent; decide) (by decide) (by decide) (by decide)
      (by decide) (by decide)).1 rfl,
    (C7_solved_stable (setFloodType cornerMaze FloodType.DIRECTION_FLOOD) fifo fifo fifo 1 NORTH
      (by decide) (setFloodType_wallSym _ _ cornerMaze_wallSym)
      (by unfold Consistent; decide) (by decide) (by decide) (by decide)
      (by decide) (by decide)).2 rfl (by decide) (by decide)⟩

end LibMaze
